import Mathlib

/-! A shell command-line parser: scanner and recursive-descent grammar.

Shallow embedding of `Parser.c` / `Parser.h`.

Conventions of the embedding.

* A C string is the list of its characters before the terminating NUL; reading
  `*stream` at the end of the list gives the NUL character (`cur`).
* A NULL-terminated singly linked list (`cmds.next`, `prog_args.next`) is a
  `List`; the NULL list is `[]`.  An optional string (`char*` that may be NULL)
  is an `Option`.
* `arg_pos` and `var_pos` always equal the number of characters written to the
  token buffer and to the variable buffer, so they are the lengths of the
  lists `arg` and `var`.
* `malloc`, `realloc` and `strdup` are assumed to succeed.
* `longjmp` to the single `setjmp` in `parser_parse` is the `raise` outcome of
  `Result`, propagated by every caller.
* Loops and recursions of the C code run on a fuel counter that is computed
  from the length of the remaining input; `Result.fuel` is the outcome of a
  run that exhausts it.
-/

namespace Shell

/-! ## Parser status -/

/-- Value of `MAX_LINE_LENGTH`. -/
def MAX_LINE_LENGTH : Nat := 2048

/-- The enumeration `parser_errors` of `Parser.h`. -/
inductive parser_errors where
  | PARSER_OK
  | PARSER_OVERFLOW
  | PARSER_MALLOC
  | PARSER_INVALID_STATE
  | PARSER_BAD_SUBSTITUTION
  | PARSER_MISSING_COMMAND
  | PARSER_UNEXPECTED_EOF
  | PARSER_ILLEGAL_COMBINATION
  | PARSER_ILLEGAL_REDIRECTION
  | PARSER_MISSING_ARGUMENT
  | PARSER_ILLEGAL_ARGUMENT
  | PARSER_MISSING_FILE
  deriving DecidableEq, Repr

open parser_errors

/-- Integer value of an enumerator of `parser_errors`. -/
def parser_errors.toNat : parser_errors → Nat
  | PARSER_OK => 0
  | PARSER_OVERFLOW => 1
  | PARSER_MALLOC => 2
  | PARSER_INVALID_STATE => 3
  | PARSER_BAD_SUBSTITUTION => 4
  | PARSER_MISSING_COMMAND => 5
  | PARSER_UNEXPECTED_EOF => 6
  | PARSER_ILLEGAL_COMBINATION => 7
  | PARSER_ILLEGAL_REDIRECTION => 8
  | PARSER_MISSING_ARGUMENT => 9
  | PARSER_ILLEGAL_ARGUMENT => 10
  | PARSER_MISSING_FILE => 11

/-- The table `messages`. -/
def messages : parser_errors → String
  | PARSER_OK => "Ok."
  | PARSER_OVERFLOW => "Overflow of internal buffer."
  | PARSER_MALLOC => "Insufficient memory."
  | PARSER_INVALID_STATE => "Invalid parser state."
  | PARSER_BAD_SUBSTITUTION => "Bad variable substitution."
  | PARSER_MISSING_COMMAND => "Missing command."
  | PARSER_UNEXPECTED_EOF => "Unexpected end of input stream."
  | PARSER_ILLEGAL_COMBINATION => "Illegal combination of internal and external commands."
  | PARSER_ILLEGAL_REDIRECTION => "Illegal input/output redirection in pipe."
  | PARSER_MISSING_ARGUMENT => "Missing argument for builtin command."
  | PARSER_ILLEGAL_ARGUMENT => "Illegal argument for builtin command."
  | PARSER_MISSING_FILE => "Missing file for input or output redirection."

/-- Outcome of a function that may leave through `raise_error`: a value, the
status record written by `raise_error` before the long jump, or exhausted
fuel. -/
inductive Result (α : Type) where
  | ok (a : α)
  | raise (code : parser_errors) (error_line error_column : Nat)
  | fuel
  deriving DecidableEq, Repr

/-- Function `raise_error`: the code is stored, the position only for codes
from `PARSER_INVALID_STATE` on; otherwise `error_line` and `error_column` keep
the value 0 given to them by `parser_parse`. -/
def raise_error {α : Type} (code : parser_errors) (line col : Nat) : Result α :=
  if code.toNat ≥ PARSER_INVALID_STATE.toNat then .raise code line col
  else .raise code 0 0

/-! ## Scanner -/

/-- The enumeration `token_kind`. -/
inductive token_kind where
  | UNKNOWN
  | END
  | AMP
  | IN
  | OUT
  | STROKE
  | SEP
  | IDE
  | REM
  deriving DecidableEq, Repr

open token_kind

/-- The struct `token`. -/
structure token where
  kind : token_kind
  arg : List Char
  deriving DecidableEq, Repr

/-- The scanner part of the internal global state: `stream`, `line`, `col`
and `lookahead`. -/
structure Scanner where
  stream : List Char
  line : Nat
  col : Nat
  lookahead : token
  deriving DecidableEq, Repr

/-- The NUL character. -/
def NUL : Char := '\x00'

/-- Value of `*stream`. -/
def cur (stream : List Char) : Char := stream.headD NUL

/-- Test `strchr(s, c) != NULL`; the terminating NUL of `s` is found too. -/
def strchr (s : List Char) (c : Char) : Bool := c == NUL || s.contains c

/-- The string `" \t&><|\n;#\'\\${}"` that ends a variable name. -/
def VAR_STOP : List Char :=
  [' ', '\t', '&', '>', '<', '|', '\n', ';', '#', '\'', '\\', '$', '{', '}']

/-- The string `" \t&><|\n;#"` that ends an identifier. -/
def IDE_STOP : List Char := [' ', '\t', '&', '>', '<', '|', '\n', ';', '#']

/-- The string `"\'\\$"` of characters that re-enter a sub-mode. -/
def IDE_MODE : List Char := ['\'', '\\', '$']

/-- The state of one run of `read`: the cursor, the kind of the token under
construction, the two buffers and the six mode flags. -/
structure Reader where
  stream : List Char
  line : Nat
  col : Nat
  kind : token_kind
  arg : List Char
  var : List Char
  quote : Bool
  backspace : Bool
  comment : Bool
  ide : Bool
  variable_ : Bool
  bracket : Bool
  deriving DecidableEq, Repr

/-- What one pass through the body of the `for` loop of `read` does: go on
with the next character (`continue` or the end of the body), `return`, or
`raise_error`. -/
inductive Step where
  | cont (r : Reader)
  | ret (r : Reader)
  | raise (code : parser_errors) (r : Reader)
  deriving DecidableEq, Repr

/-- The `switch (*stream)` at the end of the loop body of `read`. -/
def dispatch (r : Reader) : Step :=
  let c := cur r.stream
  if c = NUL then .ret { r with kind := END }
  else if c = ' ' ∨ c = '\t' then .cont r
  else if c = '&' then
    .ret { r with kind := AMP, stream := r.stream.tail, col := r.col + 1 }
  else if c = '>' then
    .ret { r with kind := OUT, stream := r.stream.tail, col := r.col + 1 }
  else if c = '<' then
    .ret { r with kind := IN, stream := r.stream.tail, col := r.col + 1 }
  else if c = '|' then
    .ret { r with kind := STROKE, stream := r.stream.tail, col := r.col + 1 }
  else if c = '\n' then
    .ret { r with line := r.line + 1, col := 0, kind := SEP, stream := r.stream.tail }
  else if c = ';' then
    .ret { r with kind := SEP, stream := r.stream.tail, col := r.col + 1 }
  else if c = '#' then .cont { r with comment := true, kind := REM }
  else if c = '\'' then .cont { r with quote := true, kind := IDE, ide := true }
  else if c = '\\' then .cont { r with backspace := true, kind := IDE, ide := true }
  else if c = '$' then
    if cur r.stream.tail = '{' then
      .cont { r with variable_ := true, kind := IDE, ide := true, bracket := true,
                     stream := r.stream.tail, col := r.col + 1 }
    else .cont { r with variable_ := true, kind := IDE, ide := true }
  else .cont { r with kind := IDE, ide := true, arg := r.arg ++ [c] }

/-- The block `if (ide) { ... }` of `read`, falling through to the switch. -/
def gobble_ide (r : Reader) : Step :=
  let c := cur r.stream
  if r.ide then
    if c = NUL ∨ strchr IDE_STOP c then .ret r
    else if ¬ strchr IDE_MODE c then .cont { r with arg := r.arg ++ [c] }
    else dispatch r
  else dispatch r

/-- The substitution loop `for (;*value!='\0';value++,arg++,arg_pos++)`:
`none` when it raises `PARSER_OVERFLOW`. -/
def splice : List Char → List Char → Option (List Char)
  | arg, [] => some arg
  | arg, v :: value =>
    if arg.length ≥ MAX_LINE_LENGTH - 1 then none else splice (arg ++ [v]) value

/-- End of a variable name in `read`: the flags and the variable buffer are
reset, the name is looked up and its value is spliced into the token buffer;
then control falls into the identifier block. -/
def substitute (getenv : List Char → Option (List Char)) (r : Reader) : Step :=
  let r1 := { r with bracket := false, variable_ := false, var := [] }
  match getenv r.var with
  | none => gobble_ide r1
  | some value =>
    match splice r1.arg value with
    | none => .raise PARSER_OVERFLOW r1
    | some arg => gobble_ide { r1 with arg := arg }

/-- The block `if (variable) { ... }` of `read`. -/
def gobble_variable (getenv : List Char → Option (List Char)) (r : Reader) : Step :=
  let c := cur r.stream
  if c ≠ NUL ∧ ¬ strchr VAR_STOP c then .cont { r with var := r.var ++ [c] }
  else if r.bracket then
    if c ≠ '}' then .raise PARSER_BAD_SUBSTITUTION r
    else substitute getenv { r with stream := r.stream.tail, col := r.col + 1 }
  else substitute getenv r

/-- One pass through the body of the `for` loop of `read`. -/
def step (getenv : List Char → Option (List Char)) (r : Reader) : Step :=
  let c := cur r.stream
  if r.arg.length ≥ MAX_LINE_LENGTH - 1 ∨ r.var.length ≥ MAX_LINE_LENGTH - 1 then
    .raise PARSER_OVERFLOW r
  else if r.comment then
    if c = '\n' ∨ c = NUL then .ret r
    else .cont { r with arg := r.arg ++ [c] }
  else if r.quote then
    if c = NUL then .raise PARSER_UNEXPECTED_EOF r
    else if c = '\'' then .cont { r with quote := false }
    else if c = '\n' then .cont { r with arg := r.arg ++ [c], col := 0, line := r.line + 1 }
    else .cont { r with arg := r.arg ++ [c] }
  else if r.backspace then
    if c = NUL then .raise PARSER_UNEXPECTED_EOF r
    else if c = '\n' then
      .cont { r with arg := r.arg ++ [c], backspace := false, col := 0, line := r.line + 1 }
    else .cont { r with arg := r.arg ++ [c], backspace := false }
  else if r.variable_ then gobble_variable getenv r
  else gobble_ide r

/-- The `for (; ; stream++, col++)` loop of `read`. -/
def read_loop (getenv : List Char → Option (List Char)) : Nat → Reader → Result Scanner
  | 0, _ => .fuel
  | n + 1, r =>
    match step getenv r with
    | .ret r1 => .ok ⟨r1.stream, r1.line, r1.col, ⟨r1.kind, r1.arg⟩⟩
    | .raise code r1 => raise_error code r1.line r1.col
    | .cont r1 => read_loop getenv n { r1 with stream := r1.stream.tail, col := r1.col + 1 }

/-- The initialisation of `read`. -/
def read_init (s : Scanner) : Reader :=
  { stream := s.stream, line := s.line, col := s.col, kind := UNKNOWN, arg := [], var := [],
    quote := false, backspace := false, comment := false, ide := false,
    variable_ := false, bracket := false }

/-- Function `read`: the next token of the input stream. -/
def read (getenv : List Char → Option (List Char)) (s : Scanner) : Result Scanner :=
  read_loop getenv (s.stream.length + 1) (read_init s)

/-- The `do ... while (lookahead.kind==REM)` loop of `scan`. -/
def scan_loop (getenv : List Char → Option (List Char)) : Nat → Scanner → Result Scanner
  | 0, _ => .fuel
  | n + 1, s =>
    match read getenv s with
    | .ok s1 => if s1.lookahead.kind = REM then scan_loop getenv n s1 else .ok s1
    | .raise code l c => .raise code l c
    | .fuel => .fuel

/-- Function `scan`: the next token that is not a comment. -/
def scan (getenv : List Char → Option (List Char)) (s : Scanner) : Result Scanner :=
  scan_loop getenv (s.stream.length + 1) s

/-! ## Command model -/

/-- The struct `cd_args`. -/
structure cd_args where
  path : Option (List Char)
  deriving DecidableEq, Repr

/-- The struct `env_args`. -/
structure env_args where
  name : List Char
  value : Option (List Char)
  deriving DecidableEq, Repr

/-- The enumeration `job_kind`. -/
inductive job_kind where
  | INFO
  | BG
  | FG
  deriving DecidableEq, Repr

/-- The struct `job_args` (its member `foo` is never written or read). -/
structure job_args where
  kind : job_kind
  id : Int
  deriving DecidableEq, Repr

/-- The struct `prog_args` without its link `next`: one stage. `argc` is the
length of `argv`. -/
structure prog_args where
  input : Option (List Char)
  output : Option (List Char)
  background : Bool
  argv : List (List Char)
  deriving DecidableEq, Repr

/-- The enumeration `cmd_kind`. -/
inductive cmd_kind where
  | EXIT
  | CD
  | ENV
  | JOB
  | PROG
  | PIPE
  deriving DecidableEq, Repr

/-- The struct `cmds` without its link `next`: the tag `kind` selects the
member of the union. For `PROG` and `PIPE` the member `prog` is given with the
chain of its `next` links, first stage first. -/
inductive cmds where
  | EXIT
  | CD (cd : cd_args)
  | ENV (env : env_args)
  | JOB (job : job_args)
  | PROG (prog : List prog_args)
  | PIPE (prog : List prog_args)
  deriving DecidableEq, Repr

/-- The member `kind` of a command. -/
def cmds.kind : cmds → cmd_kind
  | .EXIT => .EXIT
  | .CD _ => .CD
  | .ENV _ => .ENV
  | .JOB _ => .JOB
  | .PROG _ => .PROG
  | .PIPE _ => .PIPE

/-- The chain of stages of a command; empty for a builtin. -/
def cmds.stages : cmds → List prog_args
  | .PROG p => p
  | .PIPE p => p
  | _ => []

/-- Function `argv_new`: a stage with no redirection and no argument. -/
def argv_new : prog_args :=
  { input := none, output := none, background := false, argv := [] }

/-- Function `argv_add`. -/
def argv_add (prog : prog_args) (arg : List Char) : prog_args :=
  { prog with argv := prog.argv ++ [arg] }

/-- Function `prog_new`. -/
def prog_new : prog_args := argv_new

/-! ## Parser -/

/-- Function `get_ide`. -/
def get_ide (s : Scanner) : Result (List Char) :=
  if ¬ (s.lookahead.kind = IDE) then raise_error PARSER_INVALID_STATE s.line s.col
  else .ok s.lookahead.arg

/-- Function `parse_redirection`. -/
def parse_redirection (getenv : List Char → Option (List Char)) (s : Scanner)
    (prog : prog_args) : Result (Scanner × prog_args) :=
  if s.lookahead.kind = IN then
    match scan getenv s with
    | .ok s1 =>
      if s1.lookahead.kind ≠ IDE then raise_error PARSER_MISSING_FILE s1.line s1.col
      else
        match get_ide s1 with
        | .ok ide => .ok (s1, { prog with input := some ide })
        | .raise code l c => .raise code l c
        | .fuel => .fuel
    | .raise code l c => .raise code l c
    | .fuel => .fuel
  else
    match scan getenv s with
    | .ok s1 =>
      if s1.lookahead.kind ≠ IDE then raise_error PARSER_MISSING_FILE s1.line s1.col
      else
        match get_ide s1 with
        | .ok ide => .ok (s1, { prog with output := some ide })
        | .raise code l c => .raise code l c
        | .fuel => .fuel
    | .raise code l c => .raise code l c
    | .fuel => .fuel

/-- The recursion of `parse_prog` (its parameter `cmd` is not used). -/
def parse_prog_loop (getenv : List Char → Option (List Char)) :
    Nat → Scanner → prog_args → Result (Scanner × prog_args)
  | 0, _, _ => .fuel
  | n + 1, s, prog =>
    match s.lookahead.kind with
    | AMP => .ok (s, { prog with background := true })
    | SEP => .ok (s, prog)
    | END => .ok (s, prog)
    | STROKE => .ok (s, prog)
    | OUT =>
      match parse_redirection getenv s prog with
      | .ok (s1, prog1) =>
        match scan getenv s1 with
        | .ok s2 => parse_prog_loop getenv n s2 prog1
        | .raise code l c => .raise code l c
        | .fuel => .fuel
      | .raise code l c => .raise code l c
      | .fuel => .fuel
    | IN =>
      match parse_redirection getenv s prog with
      | .ok (s1, prog1) =>
        match scan getenv s1 with
        | .ok s2 => parse_prog_loop getenv n s2 prog1
        | .raise code l c => .raise code l c
        | .fuel => .fuel
      | .raise code l c => .raise code l c
      | .fuel => .fuel
    | IDE =>
      match get_ide s with
      | .ok ide =>
        match scan getenv s with
        | .ok s2 => parse_prog_loop getenv n s2 (argv_add prog ide)
        | .raise code l c => .raise code l c
        | .fuel => .fuel
      | .raise code l c => .raise code l c
      | .fuel => .fuel
    | _ => raise_error PARSER_INVALID_STATE s.line s.col

/-- Function `parse_prog`. -/
def parse_prog (getenv : List Char → Option (List Char)) (s : Scanner) (prog : prog_args) :
    Result (Scanner × prog_args) :=
  parse_prog_loop getenv (s.stream.length + 2) s prog

/-- Test `isspace(c)` of the C library in the C locale. -/
def isspace (c : Char) : Bool :=
  c = ' ' ∨ c = '\t' ∨ c = '\n' ∨ c = Char.ofNat 11 ∨ c = Char.ofNat 12 ∨ c = '\r'

/-- Value of a character as a digit in the given base, if it is one. -/
def digit_value (base : Nat) (c : Char) : Option Nat :=
  let v : Nat :=
    if '0' ≤ c ∧ c ≤ '9' then c.toNat - '0'.toNat
    else if 'a' ≤ c ∧ c ≤ 'f' then c.toNat - 'a'.toNat + 10
    else if 'A' ≤ c ∧ c ≤ 'F' then c.toNat - 'A'.toNat + 10
    else base
  if v < base then some v else none

/-- The longest run of digits of the given base at the front of a string,
accumulated onto `acc`; the count of digits read comes with the value. -/
def read_digits (base : Nat) : List Char → Nat → Nat → Nat × Nat
  | [], acc, k => (acc, k)
  | c :: cs, acc, k =>
    match digit_value base c with
    | some v => read_digits base cs (acc * base + v) (k + 1)
    | none => (acc, k)

/-- The unsigned part of a `%i` conversion: hexadecimal after `0x` or `0X`,
octal after `0`, decimal otherwise; `none` when there is no digit. A prefix
`0x` without a hexadecimal digit after it converts the `0`. -/
def read_magnitude : List Char → Option Nat
  | '0' :: 'x' :: cs => some (read_digits 16 cs 0 0).1
  | '0' :: 'X' :: cs => some (read_digits 16 cs 0 0).1
  | '0' :: cs => some (read_digits 8 cs 0 0).1
  | cs => if (read_digits 10 cs 0 0).2 = 0 then none else some (read_digits 10 cs 0 0).1

/-- Storing a converted number in an `int`: the value is clamped to the range
of `long` (64 bits) and then reduced to 32 bits, two's complement. -/
def to_int (v : Int) : Int :=
  let l : Int := if v > 2 ^ 63 - 1 then 2 ^ 63 - 1 else if v < -(2 ^ 63) then -(2 ^ 63) else v
  let w : Int := l % 2 ^ 32
  if w ≥ 2 ^ 31 then w - 2 ^ 32 else w

/-- Model of the C library call `sscanf(number, "%i", &value)`: leading white
space, an optional sign and a number as read by `read_magnitude`; the result
is the stored value when the call returns 1 and `none` otherwise. -/
def sscanf_i (number : List Char) : Option Int :=
  match number.dropWhile isspace with
  | '-' :: cs => (read_magnitude cs).map (fun m => to_int (-(m : Int)))
  | '+' :: cs => (read_magnitude cs).map (fun m => to_int (m : Int))
  | cs => (read_magnitude cs).map (fun m => to_int (m : Int))

/-- Function `get_int`. -/
def get_int (s : Scanner) (number : List Char) : Result Int :=
  match sscanf_i number with
  | none => raise_error PARSER_ILLEGAL_ARGUMENT s.line s.col
  | some value =>
    if value < 0 then raise_error PARSER_ILLEGAL_ARGUMENT s.line s.col else .ok value

/-- What `parse_cmd` leaves behind: a command turned into a builtin (the tag
`kind` and the matching member of the union are written, the arguments are
freed), or an external stage with the tag unchanged. -/
inductive parsed where
  | builtin (cmd : cmds)
  | external (prog : prog_args)
  deriving DecidableEq, Repr

/-- The part of `parse_cmd` after `parse_prog`: `s` is the scanner state,
`kind` is `cmd->kind` and `prog` is the stage just parsed. -/
def classify (s : Scanner) (kind : cmd_kind) (prog : prog_args) : Result parsed :=
  match prog.argv with
  | [] => raise_error PARSER_MISSING_COMMAND s.line s.col
  | argv0 :: args =>
    if argv0 = ['e', 'x', 'i', 't'] then
      if kind ≠ .PROG then raise_error PARSER_ILLEGAL_COMBINATION s.line s.col
      else .ok (.builtin .EXIT)
    else if argv0 = ['c', 'd'] then
      if kind = .PIPE then raise_error PARSER_ILLEGAL_COMBINATION s.line s.col
      else .ok (.builtin (.CD ⟨args.head?⟩))
    else if argv0 = ['u', 'n', 's', 'e', 't', 'e', 'n', 'v'] then
      if kind = .PIPE then raise_error PARSER_ILLEGAL_COMBINATION s.line s.col
      else
        match args with
        | [] => raise_error PARSER_MISSING_ARGUMENT s.line s.col
        | name :: _ => .ok (.builtin (.ENV ⟨name, none⟩))
    else if argv0 = ['s', 'e', 't', 'e', 'n', 'v'] then
      if kind = .PIPE then raise_error PARSER_ILLEGAL_COMBINATION s.line s.col
      else
        match args with
        | name :: value :: _ => .ok (.builtin (.ENV ⟨name, some value⟩))
        | _ => raise_error PARSER_MISSING_ARGUMENT s.line s.col
    else if argv0 = ['j', 'o', 'b', 's'] then
      if kind = .PIPE then raise_error PARSER_ILLEGAL_COMBINATION s.line s.col
      else
        match args with
        | [] => .ok (.builtin (.JOB ⟨.INFO, -1⟩))
        | number :: _ =>
          match get_int s number with
          | .ok id => .ok (.builtin (.JOB ⟨.INFO, id⟩))
          | .raise code l c => .raise code l c
          | .fuel => .fuel
    else if argv0 = ['b', 'g'] then
      if kind = .PIPE then raise_error PARSER_ILLEGAL_COMBINATION s.line s.col
      else
        match args with
        | [] => .ok (.builtin (.JOB ⟨.BG, -1⟩))
        | number :: _ =>
          match get_int s number with
          | .ok id => .ok (.builtin (.JOB ⟨.BG, id⟩))
          | .raise code l c => .raise code l c
          | .fuel => .fuel
    else if argv0 = ['f', 'g'] then
      if kind = .PIPE then raise_error PARSER_ILLEGAL_COMBINATION s.line s.col
      else
        match args with
        | [] => .ok (.builtin (.JOB ⟨.FG, -1⟩))
        | number :: _ =>
          match get_int s number with
          | .ok id => .ok (.builtin (.JOB ⟨.FG, id⟩))
          | .raise code l c => .raise code l c
          | .fuel => .fuel
    else if kind = .PIPE ∧ prog.input ≠ none then
      raise_error PARSER_ILLEGAL_REDIRECTION s.line s.col
    else .ok (.external prog)

/-- Function `parse_cmd`: `kind` is `cmd->kind` on entry. -/
def parse_cmd (getenv : List Char → Option (List Char)) (s : Scanner) (kind : cmd_kind)
    (prog : prog_args) : Result (Scanner × parsed) :=
  match parse_prog getenv s prog with
  | .ok (s1, prog1) =>
    match classify s1 kind prog1 with
    | .ok r => .ok (s1, r)
    | .raise code l c => .raise code l c
    | .fuel => .fuel
  | .raise code l c => .raise code l c
  | .fuel => .fuel

/-- The command made of the tag `kind` and a chain of stages. -/
def cmds.external (kind : cmd_kind) (stages : List prog_args) : cmds :=
  if kind = .PIPE then .PIPE stages else .PROG stages

/-- The recursion of `parse_pipe`: `kind` is `cmd->kind` on entry and `prog`
the stage to fill; the result is the command as it stands when the call
returns, its chain of stages starting at `prog`. After a builtin `cmd->kind`
is `EXIT`, `CD`, `ENV` or `JOB`, so the test
`!(cmd->kind==PROG || cmd->kind==PIPE)` holds there. -/
def parse_pipe_loop (getenv : List Char → Option (List Char)) :
    Nat → Scanner → cmd_kind → prog_args → Result (Scanner × cmds)
  | 0, _, _, _ => .fuel
  | n + 1, s, kind, prog =>
    match parse_cmd getenv s kind prog with
    | .ok (s1, .builtin cmd) =>
      if s1.lookahead.kind ≠ STROKE then .ok (s1, cmd)
      else raise_error PARSER_ILLEGAL_COMBINATION s1.line s1.col
    | .ok (s1, .external prog1) =>
      if s1.lookahead.kind ≠ STROKE then .ok (s1, cmds.external kind [prog1])
      else if ¬ (kind = .PROG ∨ kind = .PIPE) then
        raise_error PARSER_ILLEGAL_COMBINATION s1.line s1.col
      else if prog1.output ≠ none then raise_error PARSER_ILLEGAL_REDIRECTION s1.line s1.col
      else
        match scan getenv s1 with
        | .ok s2 =>
          match parse_pipe_loop getenv n s2 .PIPE prog_new with
          | .ok (s3, cmd) => .ok (s3, .PIPE (prog1 :: cmd.stages))
          | .raise code l c => .raise code l c
          | .fuel => .fuel
        | .raise code l c => .raise code l c
        | .fuel => .fuel
    | .raise code l c => .raise code l c
    | .fuel => .fuel

/-- Function `parse_pipe`. -/
def parse_pipe (getenv : List Char → Option (List Char)) (s : Scanner) (kind : cmd_kind)
    (prog : prog_args) : Result (Scanner × cmds) :=
  parse_pipe_loop getenv (s.stream.length + 2) s kind prog

/-- The recursion of `parse_input`: the list of the commands linked behind
`cmd`. -/
def parse_input_loop (getenv : List Char → Option (List Char)) :
    Nat → Scanner → Result (List cmds)
  | 0, _ => .fuel
  | n + 1, s =>
    match scan getenv s with
    | .ok s1 =>
      if s1.lookahead.kind = END then .ok []
      else
        match parse_pipe getenv s1 .PROG argv_new with
        | .ok (s2, elem) =>
          match parse_input_loop getenv n s2 with
          | .ok rest => .ok (elem :: rest)
          | .raise code l c => .raise code l c
          | .fuel => .fuel
        | .raise code l c => .raise code l c
        | .fuel => .fuel
    | .raise code l c => .raise code l c
    | .fuel => .fuel

/-- Function `parse_input`. -/
def parse_input (getenv : List Char → Option (List Char)) (s : Scanner) : Result (List cmds) :=
  parse_input_loop getenv (s.stream.length + 2) s

/-- What a call of `parser_parse` leaves to its caller: the returned list
(`[]` for NULL) and the status variables `parser_status`, `parser_message`,
`error_line` and `error_column`. -/
structure Outcome where
  list : List cmds
  parser_status : parser_errors
  parser_message : String
  error_line : Nat
  error_column : Nat
  deriving DecidableEq, Repr

/-- Function `parser_parse`; `none` when the fuel of a loop is exhausted. -/
def parser_parse (getenv : List Char → Option (List Char)) (input : List Char) :
    Option Outcome :=
  match parse_input getenv ⟨input, 0, 0, ⟨UNKNOWN, []⟩⟩ with
  | .ok root => some ⟨root, PARSER_OK, messages PARSER_OK, 0, 0⟩
  | .raise code l c => some ⟨[], code, messages code, l, c⟩
  | .fuel => none

/-! ## Shapes of input text -/

/-- A character that an identifier takes as it is: not NUL, not one that
ends an identifier and not one that enters a sub-mode. -/
def plain_char (c : Char) : Prop := c ≠ NUL ∧ c ∉ IDE_STOP ∧ c ∉ IDE_MODE

/-- A character of a variable name. -/
def name_char (c : Char) : Prop := c ≠ NUL ∧ c ∉ VAR_STOP

/-- A space or a tab. -/
def blank_char (c : Char) : Prop := c = ' ' ∨ c = '\t'

/-- The text after an identifier ends it: end of input or a character of
`IDE_STOP`. -/
def ends_word (rest : List Char) : Prop := cur rest = NUL ∨ cur rest ∈ IDE_STOP

/-- State of `read` before a token has started (`b = false`) or inside an
identifier (`b = true`), no sub-mode being active. -/
def st_word (b : Bool) (stream : List Char) (line col : Nat) (arg : List Char) : Reader :=
  { stream := stream, line := line, col := col, kind := if b then IDE else UNKNOWN,
    arg := arg, var := [], quote := false, backspace := false, comment := false,
    ide := b, variable_ := false, bracket := false }

/-- State of `read` inside a quotation. -/
def st_quote (stream : List Char) (line col : Nat) (arg : List Char) : Reader :=
  { stream := stream, line := line, col := col, kind := IDE,
    arg := arg, var := [], quote := true, backspace := false, comment := false,
    ide := true, variable_ := false, bracket := false }

/-- State of `read` after a backslash. -/
def st_esc (stream : List Char) (line col : Nat) (arg : List Char) : Reader :=
  { stream := stream, line := line, col := col, kind := IDE,
    arg := arg, var := [], quote := false, backspace := true, comment := false,
    ide := true, variable_ := false, bracket := false }

/-- State of `read` inside a variable name. -/
def st_var (br : Bool) (stream : List Char) (line col : Nat) (arg var : List Char) : Reader :=
  { stream := stream, line := line, col := col, kind := IDE,
    arg := arg, var := var, quote := false, backspace := false, comment := false,
    ide := true, variable_ := true, bracket := br }

/-- The line number after `read` has copied the character `c` in a quotation
or after a backslash. -/
def next_line (c : Char) (line : Nat) : Nat := if c = '\n' then line + 1 else line

/-- The column number after `read` has copied the character `c` in a
quotation or after a backslash, the loop increment included. -/
def next_col (c : Char) (col : Nat) : Nat := if c = '\n' then 1 else col + 1

/-- The value `getenv` gives for a name, the empty string when it gives
NULL. -/
def value_of (getenv : List Char → Option (List Char)) (name : List Char) : List Char :=
  (getenv name).getD []

/-- A segment of a word: a run of plain characters, a quotation `'...'`, an
escaped character, a substitution `$name` or a substitution `${name}`. -/
inductive Seg where
  | plain (cs : List Char)
  | quoted (cs : List Char)
  | esc (c : Char)
  | var (name : List Char)
  | bvar (name : List Char)
  deriving DecidableEq, Repr

/-- The input text of a segment. -/
def Seg.render : Seg → List Char
  | .plain cs => cs
  | .quoted cs => '\'' :: (cs ++ ['\''])
  | .esc c => ['\\', c]
  | .var name => '$' :: name
  | .bvar name => '$' :: '{' :: (name ++ ['}'])

/-- The text a segment stands for. -/
def Seg.expand (getenv : List Char → Option (List Char)) : Seg → List Char
  | .plain cs => cs
  | .quoted cs => cs
  | .esc c => [c]
  | .var name => value_of getenv name
  | .bvar name => value_of getenv name

/-- The input text of a word: its segments one after the other. -/
def render_word : List Seg → List Char
  | [] => []
  | s :: w => s.render ++ render_word w

/-- The text a word stands for: the expansions of its segments one after the
other. -/
def expand_word (getenv : List Char → Option (List Char)) : List Seg → List Char
  | [] => []
  | s :: w => s.expand getenv ++ expand_word getenv w

/-- A segment is well formed: a plain run is not empty and made of plain
characters, a quotation holds no quote and no NUL, an escaped character is
not NUL, a variable name is made of name characters and has at most 2046
of them. -/
def Seg.ok : Seg → Prop
  | .plain cs => cs ≠ [] ∧ ∀ c ∈ cs, plain_char c
  | .quoted cs => ∀ c ∈ cs, c ≠ NUL ∧ c ≠ '\''
  | .esc c => c ≠ NUL
  | .var name => (∀ c ∈ name, name_char c) ∧ name.length ≤ 2046
  | .bvar name => (∀ c ∈ name, name_char c) ∧ name.length ≤ 2046

/-- What may follow a substitution `$name` in a word: nothing, or a segment
that is not a plain run (which would lengthen the name). -/
def after_var : List Seg → Prop
  | .plain _ :: _ => False
  | _ => True

/-- A word is well formed: each segment is, and no plain run comes right
after a substitution `$name`. -/
def word_ok : List Seg → Prop
  | [] => True
  | .var name :: w => Seg.ok (.var name) ∧ after_var w ∧ word_ok w
  | s :: w => s.ok ∧ word_ok w

/-- The token kind of a character that is a token by itself. -/
def punct (c : Char) : token_kind :=
  if c = '&' then AMP
  else if c = '>' then OUT
  else if c = '<' then IN
  else if c = '|' then STROKE
  else SEP

/-- A run of spaces and tabs, possibly empty. -/
def blanks (g : List Char) : Prop := ∀ c ∈ g, blank_char c

/-- An item of a stage with the blanks written before it: an argument word
`gap word`, an input redirection `gap < fgap word` or an output redirection
`gap > fgap word`. -/
inductive Item where
  | arg (gap : List Char) (w : List Seg)
  | inp (gap fgap : List Char) (w : List Seg)
  | out (gap fgap : List Char) (w : List Seg)
  deriving DecidableEq, Repr

/-- The word of an item. -/
def Item.word : Item → List Seg
  | .arg _ w => w
  | .inp _ _ w => w
  | .out _ _ w => w

/-- The input text of an item. -/
def Item.render : Item → List Char
  | .arg g w => g ++ render_word w
  | .inp g f w => g ++ '<' :: (f ++ render_word w)
  | .out g f w => g ++ '>' :: (f ++ render_word w)

/-- The gaps of an item are blanks. -/
def Item.gaps_ok : Item → Prop
  | .arg g _ => blanks g
  | .inp g f _ => blanks g ∧ blanks f
  | .out g f _ => blanks g ∧ blanks f

/-- An item is well formed: its gaps are blanks, its word is not empty, is
well formed and stands for at most 2046 characters. -/
def Item.ok (getenv : List Char → Option (List Char)) (i : Item) : Prop :=
  i.gaps_ok ∧ i.word ≠ [] ∧ word_ok i.word ∧ (expand_word getenv i.word).length ≤ 2046

/-- The item is set apart from a word written before it: an argument word
has at least one blank before it (a redirection starts with `<` or `>`
anyway). -/
def Item.sep : Item → Prop
  | .arg g _ => g ≠ []
  | _ => True

/-- What `parse_prog` does to the stage for one item. -/
def Item.apply (getenv : List Char → Option (List Char)) (prog : prog_args) : Item → prog_args
  | .arg _ w => argv_add prog (expand_word getenv w)
  | .inp _ _ w => { prog with input := some (expand_word getenv w) }
  | .out _ _ w => { prog with output := some (expand_word getenv w) }

/-- The input text of a stage: its items one after the other. -/
def render_stage : List Item → List Char
  | [] => []
  | i :: is => i.render ++ render_stage is

/-- A stage is well formed: it has an item, its items are well formed and
every item after the first is set apart from the word before it. -/
def stage_ok (getenv : List Char → Option (List Char)) (st : List Item) : Prop :=
  st ≠ [] ∧ (∀ j ∈ st, j.ok getenv) ∧ ∀ j ∈ st.tail, j.sep

/-- What `parse_prog` does to the stage for a list of items. -/
def apply_items (getenv : List Char → Option (List Char)) (prog : prog_args) :
    List Item → prog_args
  | [] => prog
  | i :: is => apply_items getenv (i.apply getenv prog) is

/-- What `parse_prog` does to the stage at the token that ends it. -/
def finish (T : token_kind) (prog : prog_args) : prog_args :=
  if T = AMP then { prog with background := true } else prog

/-- The text `tail` after a stage ends the last word of the stage and scans
to the token `T` that ends a stage, leaving `tail1`. -/
def stage_end (getenv : List Char → Option (List Char)) (tail : List Char) (T : token_kind)
    (tail1 : List Char) : Prop :=
  ends_word tail ∧ (T = AMP ∨ T = SEP ∨ T = END ∨ T = STROKE) ∧
    ∀ l k tok, ∃ l1 k1, scan getenv ⟨tail, l, k, tok⟩ = .ok ⟨tail1, l1, k1, ⟨T, []⟩⟩

/-- A call of `scan` followed by the recursion of `parse_prog`, as in the
tail of `parse_prog`. -/
def scan_prog (getenv : List Char → Option (List Char)) (n : Nat) (s : Scanner)
    (prog : prog_args) : Result (Scanner × prog_args) :=
  match scan getenv s with
  | .ok s2 => parse_prog_loop getenv n s2 prog
  | .raise code l c => .raise code l c
  | .fuel => .fuel

/-- The input text of the stages after the first one of a pipeline: before
each stage its gap and the pipe symbol. -/
def render_stages : List (List Char × List Item) → List Char
  | [] => []
  | r :: sts => r.1 ++ '|' :: (render_stage r.2 ++ render_stages sts)

/-- The input text of a pipeline: the first stage and the stages after it. -/
def render_pipe (st : List Item) (sts : List (List Char × List Item)) : List Char :=
  render_stage st ++ render_stages sts

/-- The input text after the last stage of the last command: an ampersand
after its gap, if there is one, and the trailing blanks. -/
def render_end (amp : Option (List Char)) (trail : List Char) : List Char :=
  match amp with
  | none => trail
  | some g => g ++ '&' :: trail

/-- The token that ends the last stage: `AMP` when there is an ampersand,
`END` otherwise. -/
def end_token (amp : Option (List Char)) : token_kind :=
  match amp with
  | none => END
  | some _ => AMP

/-- The stages as `parse_prog` fills them, the last one ended by the token
`T`. -/
def stage_progs (getenv : List Char → Option (List Char)) (T : token_kind) :
    List (List Item) → List prog_args
  | [] => []
  | [st] => [finish T (apply_items getenv argv_new st)]
  | st :: sts => apply_items getenv argv_new st :: stage_progs getenv T sts

/-- The result of `classify` without the error position. -/
def classify_code (kind : cmd_kind) (prog : prog_args) : Except parser_errors parsed :=
  match classify ⟨[], 0, 0, ⟨UNKNOWN, []⟩⟩ kind prog with
  | .ok r => .ok r
  | .raise code _ _ => .error code
  | .fuel => .error PARSER_OK

/-- The result of `parse_pipe` on a chain of filled stages, without the
error position: the decisions `parse_cmd` and `parse_pipe` take once
`parse_prog` has filled each stage. -/
def pipe_verdict (kind : cmd_kind) : List prog_args → Except parser_errors cmds
  | [] => .error PARSER_MISSING_COMMAND
  | p :: ps =>
    match classify_code kind p with
    | .error code => .error code
    | .ok (.builtin cmd) => if ps = [] then .ok cmd else .error PARSER_ILLEGAL_COMBINATION
    | .ok (.external p1) =>
      if ps = [] then .ok (cmds.external kind [p1])
      else if ¬ (kind = .PROG ∨ kind = .PIPE) then .error PARSER_ILLEGAL_COMBINATION
      else if p1.output ≠ none then .error PARSER_ILLEGAL_REDIRECTION
      else
        match pipe_verdict .PIPE ps with
        | .ok cmd => .ok (.PIPE (p1 :: cmd.stages))
        | .error code => .error code

/-- The same outcome with the error position replaced. -/
def Result.move {α : Type} (line col : Nat) : Result α → Result α
  | .raise code _ _ => .raise code line col
  | r => r

/-- The names `parse_cmd` compares `argv[0]` with: `exit`, `cd`, `unsetenv`,
`setenv`, `jobs`, `bg` and `fg`. -/
def builtin_names : List (List Char) :=
  [['e', 'x', 'i', 't'], ['c', 'd'], ['u', 'n', 's', 'e', 't', 'e', 'n', 'v'],
   ['s', 'e', 't', 'e', 'n', 'v'], ['j', 'o', 'b', 's'], ['b', 'g'], ['f', 'g']]

/-- The status record of a successful call with the returned list. -/
def success (list : List cmds) : Outcome :=
  ⟨list, PARSER_OK, "Ok.", 0, 0⟩

/-- An external command with the given arguments, no redirection, in the
foreground unless `background` is set. -/
def simple (background : Bool) (argv : List (List Char)) : prog_args :=
  ⟨none, none, background, argv⟩

/-- An environment in which no variable is set. -/
def no_env : List Char → Option (List Char) := fun _ => none

instance : DecidablePred plain_char := fun c => by unfold plain_char; infer_instance

instance : DecidablePred name_char := fun c => by unfold name_char; infer_instance

instance : DecidablePred blank_char := fun c => by unfold blank_char; infer_instance

instance : DecidablePred blanks := fun g => by unfold blanks; infer_instance

/-- The environment set up by the test driver `main`: `a=var1`, `b=var2`,
`c=var3`. -/
def test_env : List Char → Option (List Char) := fun name =>
  if name = ['a'] then some ['v', 'a', 'r', '1']
  else if name = ['b'] then some ['v', 'a', 'r', '2']
  else if name = ['c'] then some ['v', 'a', 'r', '3']
  else none

/-- A word of 2047 letters `x`, one more than the buffers of `read` take. -/
def long_word : List Char := List.replicate 2047 'x'

/-- A plain word: not empty and made of plain characters. -/
def plain_word (w : List Char) : Prop := w ≠ [] ∧ ∀ c ∈ w, plain_char c

instance : DecidablePred plain_word := fun w => by unfold plain_word; infer_instance

/-- Strings joined with a separator between them. -/
def join_with (sep : List Char) : List (List Char) → List Char
  | [] => []
  | [x] => x
  | x :: xs => x ++ sep ++ join_with sep xs

/-- The text of a pipeline of stages of plain words: the words of a stage
with one space between them, the stages with ` | ` between them, and ` &`
at the end when `amp` is set. -/
def plain_text (stages : List (List (List Char))) (amp : Bool) : List Char :=
  join_with [' ', '|', ' '] (stages.map (join_with [' '])) ++ (if amp then [' ', '&'] else [])

/-- The chain of stages expected for stages of plain words: stage `i` has
the words of the `i`-th stage as arguments and no redirection; the background
flag is `amp` on the last stage and false on the others. -/
def plain_progs (amp : Bool) : List (List (List Char)) → List prog_args
  | [] => []
  | [ws] => [simple amp ws]
  | ws :: stages => simple false ws :: plain_progs amp stages

/-- A stage whose first argument exists and is not the name of a builtin. -/
def is_external (p : prog_args) : Prop := ∃ a args, p.argv = a :: args ∧ a ∉ builtin_names

/-- The redirections `parse_cmd` and `parse_pipe` refuse in a chain of
stages: an input redirection on a stage parsed with `cmd->kind == PIPE`, or
an output redirection on a stage that another stage follows. -/
def redir_bad (kind : cmd_kind) : List prog_args → Prop
  | [] => False
  | [p] => kind = .PIPE ∧ p.input ≠ none
  | p :: ps => (kind = .PIPE ∧ p.input ≠ none) ∨ p.output ≠ none ∨ redir_bad .PIPE ps

/-- A stage whose first argument exists and is the name of a builtin. -/
def is_builtin (p : prog_args) : Prop := ∃ a args, p.argv = a :: args ∧ a ∈ builtin_names

/-- A part of a stage written with plain words and the blanks before them:
an argument `gap word`, an input redirection `gap < fgap file` or an output
redirection `gap > fgap file`. -/
inductive Part where
  | word (gap : List Char) (w : List Char)
  | input (gap fgap : List Char) (file : List Char)
  | output (gap fgap : List Char) (file : List Char)
  deriving DecidableEq, Repr

/-- The plain word of a part. -/
def Part.text : Part → List Char
  | .word _ w => w
  | .input _ _ file => file
  | .output _ _ file => file

/-- The part as an item of a stage. -/
def Part.item : Part → Item
  | .word g w => .arg g [.plain w]
  | .input g f file => .inp g f [.plain file]
  | .output g f file => .out g f [.plain file]

/-- The part is an input redirection. -/
def Part.is_input : Part → Bool
  | .input _ _ _ => true
  | _ => false

/-- The part is an output redirection. -/
def Part.is_output : Part → Bool
  | .output _ _ _ => true
  | _ => false

/-- The gaps of a part are blanks. -/
def Part.gaps_ok : Part → Prop
  | .word g _ => blanks g
  | .input g f _ => blanks g ∧ blanks f
  | .output g f _ => blanks g ∧ blanks f

/-- The part is set apart from a word written before it: an argument word
has at least one blank before it. -/
def Part.sep : Part → Prop
  | .word g _ => g ≠ []
  | _ => True

instance : DecidablePred Part.gaps_ok := fun p => by
  cases p <;> unfold Part.gaps_ok <;> infer_instance

instance : DecidablePred Part.sep := fun p => by
  cases p <;> unfold Part.sep <;> infer_instance

/-- The items of a stage given by its parts. -/
def stage_items (st : List Part) : List Item := st.map Part.item

/-- The parts of a stage of plain words written with one space between
them, the first word after the gap `g`. -/
def plain_parts (g : List Char) : List (List Char) → List Part
  | [] => []
  | w :: ws => Part.word g w :: plain_parts [' '] ws

/-- The argument words of a stage, in order. -/
def stage_words : List Part → List (List Char)
  | [] => []
  | .word _ w :: st => w :: stage_words st
  | _ :: st => stage_words st

/-- The stage has an input redirection. -/
def has_input (st : List Part) : Prop := ∃ p ∈ st, p.is_input = true

/-- The stage has an output redirection. -/
def has_output (st : List Part) : Prop := ∃ p ∈ st, p.is_output = true

instance : DecidablePred has_input := fun st => by unfold has_input; infer_instance

instance : DecidablePred has_output := fun st => by unfold has_output; infer_instance

/-- A stage written with plain words: every gap is made of blanks, every
word and file name is a plain word of at most 2046 characters, and every
argument word after the first part has at least one blank before it. -/
def parts_ok (st : List Part) : Prop :=
  (∀ p ∈ st, p.gaps_ok ∧ plain_word p.text ∧ p.text.length ≤ 2046) ∧ ∀ p ∈ st.tail, p.sep

instance : DecidablePred parts_ok := fun st => by unfold parts_ok; infer_instance

/-- The input text of a pipeline written with plain words: the first stage,
then each further stage after its gap and the pipe symbol, then the trailing
blanks. -/
def pipe_text (st : List Part) (rest : List (List Char × List Part)) (trail : List Char) :
    List Char :=
  render_pipe (stage_items st) (rest.map (fun r => (r.1, stage_items r.2))) ++ trail


/-! ## Shapes of input text: words, failing tails and sequences of commands -/

/-- The name of the builtin of a kind of job command: `jobs`, `bg`, `fg`. -/
def job_name : job_kind → List Char
  | .INFO => ['j', 'o', 'b', 's']
  | .BG => ['b', 'g']
  | .FG => ['f', 'g']

/-- The words are well formed: none is empty, each is a well-formed word and
stands for at most 2046 characters. -/
def words_ok (getenv : List Char → Option (List Char)) (ws : List (List Seg)) : Prop :=
  ∀ w ∈ ws, w ≠ [] ∧ word_ok w ∧ (expand_word getenv w).length ≤ 2046

/-- The input text of a command name followed by words, one space before
each word. -/
def words_text (name : List Char) (ws : List (List Seg)) : List Char :=
  join_with [' '] (name :: ws.map render_word)

/-- The items of a command name followed by words, one space before each
word. -/
def word_items (name : List Char) (ws : List (List Seg)) : List Item :=
  Item.arg [] [Seg.plain name] :: ws.map (Item.arg [' '])

/-- The text `tail`, met inside a stage, makes `parse_prog` raise `code`:
at every position and whatever the stage holds so far, the scan of the next
token followed by the recursion of `parse_prog` raises it. -/
def stage_fails (getenv : List Char → Option (List Char)) (tail : List Char)
    (code : parser_errors) : Prop :=
  ∀ l k tok m prog, ∃ el ec,
    scan_prog getenv (m + 1) ⟨tail, l, k, tok⟩ prog = .raise code el ec

/-- A simple command of a sequence with its terminator: the blanks `lead`,
the words with one space between them, the blanks `gap` and the terminator
`term`. -/
structure Simple where
  lead : List Char
  words : List (List Char)
  gap : List Char
  term : Char
  deriving DecidableEq, Repr

/-- The input text of a simple command with its terminator. -/
def Simple.text (c : Simple) : List Char :=
  c.lead ++ join_with [' '] c.words ++ (c.gap ++ [c.term])

/-- A simple external command: it has a word, the first word is not the name
of a builtin, every word is a plain word of at most 2046 characters, the
gaps are blanks and the terminator is `;`, a newline or `&`. -/
def Simple.ok (c : Simple) : Prop :=
  c.words ≠ [] ∧ (∀ a ∈ c.words.head?, a ∉ builtin_names) ∧
    (∀ w ∈ c.words, plain_word w ∧ w.length ≤ 2046) ∧ blanks c.lead ∧ blanks c.gap ∧
    c.term ∈ [';', '\n', '&']

instance : DecidablePred Simple.ok := fun c => by unfold Simple.ok; infer_instance

/-- The command expected for a simple command: a `PROG` command with one
stage that has the words as arguments, in the background if and only if the
terminator is `&`. -/
def Simple.cmd (c : Simple) : cmds :=
  .PROG [simple (decide (c.term = '&')) c.words]

/-- The input text of a sequence of simple commands with their terminators. -/
def seq_text : List Simple → List Char
  | [] => []
  | c :: cs => c.text ++ seq_text cs

/-- A call of `scan` followed by the recursion of `parse_pipe` on a new
stage, as in the tail of `parse_pipe`. -/
def scan_pipe (getenv : List Char → Option (List Char)) (n : Nat) (s : Scanner)
    (kind : cmd_kind) : Result (Scanner × cmds) :=
  match scan getenv s with
  | .ok s2 => parse_pipe_loop getenv n s2 kind prog_new
  | .raise code l c => .raise code l c
  | .fuel => .fuel

/-- The text `X`, met where a stage starts, makes `parse_pipe` raise `code`:
at every position the scan of the next token followed by `parse_pipe` on a
new stage raises it. -/
def pipe_fails (getenv : List Char → Option (List Char)) (X : List Char)
    (code : parser_errors) : Prop :=
  ∀ l k tok m kind, ∃ el ec,
    scan_pipe getenv (m + 1) ⟨X, l, k, tok⟩ kind = .raise code el ec

/-- The text `X`, met where a command starts, makes `parse_input` raise
`code`. -/
def input_fails (getenv : List Char → Option (List Char)) (X : List Char)
    (code : parser_errors) : Prop :=
  ∀ l k tok m, ∃ el ec, parse_input_loop getenv (m + 1) ⟨X, l, k, tok⟩ = .raise code el ec

/-- A complete command of an input: a pipeline, the blanks `gap` and the
terminator `term`. -/
structure Entry where
  st : List Item
  sts : List (List Char × List Item)
  gap : List Char
  term : Char

/-- The input text of a complete command. -/
def Entry.text (e : Entry) : List Char :=
  render_pipe e.st e.sts ++ (e.gap ++ [e.term])

/-- The result of `parse_pipe` on a complete command, without the error
position. -/
def Entry.verdict (getenv : List Char → Option (List Char)) (e : Entry) :
    Except parser_errors cmds :=
  pipe_verdict .PROG (stage_progs getenv (punct e.term) (e.st :: e.sts.map Prod.snd))

/-- A complete command that parses: its stages are well formed, its
terminator is `;`, a newline or `&`, and `parse_pipe` accepts it. -/
def Entry.ok (getenv : List Char → Option (List Char)) (e : Entry) : Prop :=
  stage_ok getenv e.st ∧ (∀ r ∈ e.sts, blanks r.1 ∧ stage_ok getenv r.2) ∧ blanks e.gap ∧
    e.term ∈ [';', '\n', '&'] ∧ ∃ cmd, e.verdict getenv = .ok cmd

/-- The input text of a list of complete commands. -/
def entries_text : List Entry → List Char
  | [] => []
  | e :: es => e.text ++ entries_text es

/-- The input text of the stages of a pipeline that a pipe symbol follows:
after each stage its gap and the pipe symbol. -/
def render_chain : List (List Item × List Char) → List Char
  | [] => []
  | r :: chain => render_stage r.1 ++ (r.2 ++ '|' :: render_chain chain)

/-- The stages that a pipe symbol follows are accepted by `parse_cmd` and
`parse_pipe`: each is an external command without output redirection, and a
stage parsed with `cmd->kind == PIPE` has no input redirection. -/
def chain_ok (kind : cmd_kind) : List prog_args → Prop
  | [] => True
  | p :: ps =>
    classify_code kind p = .ok (.external p) ∧ (kind = .PROG ∨ kind = .PIPE) ∧
      p.output = none ∧ chain_ok .PIPE ps

/-- The beginning of an input up to the start of a stage: complete commands
and then the stages of a pipeline, each followed by a pipe symbol. -/
structure Context where
  entries : List Entry
  chain : List (List Item × List Char)

/-- The input text of the beginning of an input. -/
def Context.text (c : Context) : List Char :=
  entries_text c.entries ++ render_chain c.chain

/-- The beginning of an input raises no error: its complete commands parse,
and the stages before the pipe symbols are well formed and accepted. -/
def Context.ok (getenv : List Char → Option (List Char)) (c : Context) : Prop :=
  (∀ e ∈ c.entries, e.ok getenv) ∧ (∀ r ∈ c.chain, stage_ok getenv r.1 ∧ blanks r.2) ∧
    chain_ok .PROG (c.chain.map (fun r => apply_items getenv argv_new r.1))

/-- The items of a stage are well formed and every item after the first is
set apart from the word before it (the stage may be empty). -/
def items_ok (getenv : List Char → Option (List Char)) (st : List Item) : Prop :=
  (∀ j ∈ st, j.ok getenv) ∧ ∀ j ∈ st.tail, j.sep

/-- The item is a redirection. -/
def Item.is_redir : Item → Bool
  | .arg _ _ => false
  | _ => true

/-- A simple command with its terminator as a complete command. -/
def Simple.entry (c : Simple) : Entry :=
  ⟨stage_items (plain_parts c.lead c.words), [], c.gap, c.term⟩

/-- A simple command as a stage of a pipeline that a pipe symbol follows
(its terminator is not written). -/
def Simple.stage (c : Simple) : List Item × List Char :=
  (stage_items (plain_parts c.lead c.words), c.gap)

/-- The beginning of an input written with simple commands: the complete
commands `cs`, then the stages `chain`, each followed by a pipe symbol. -/
def simple_context (cs chain : List Simple) : Context :=
  ⟨cs.map Simple.entry, chain.map Simple.stage⟩
/-- The last segment of the word is a substitution `$name`. -/
def var_last (w : List Seg) : Bool :=
  match w.getLast? with
  | some (.var _) => true
  | _ => false

/-- The text `X` may follow the word `w` without changing how `w` is read:
after a last segment `$name` it starts with a character that ends a variable
name, other than an opening brace, or it is empty. -/
def follows (w : List Seg) (X : List Char) : Prop :=
  var_last w = true → (cur X = NUL ∨ cur X ∈ VAR_STOP) ∧ cur X ≠ '{'

/-- The text `F`, met by `read` at the start of or inside an identifier that
holds at most `a` characters so far, makes `read` raise `code`. -/
def word_fails (getenv : List Char → Option (List Char)) (a : Nat) (F : List Char)
    (code : parser_errors) : Prop :=
  ∀ (b : Bool) (acc : List Char) (l k n : Nat), acc.length ≤ a →
    ∃ el ec, read_loop getenv (n + 1 + F.length) (st_word b F l k acc) = .raise code el ec

/-- What stands before the last word of a stage: the blanks `gap` before an
argument word, or a redirection operator `op` between the blanks `gap` and
`fgap`. -/
inductive Lead where
  | arg (gap : List Char)
  | redir (gap : List Char) (op : Char) (fgap : List Char)
  deriving DecidableEq, Repr

/-- The input text of what stands before the last word of a stage. -/
def Lead.text : Lead → List Char
  | .arg g => g
  | .redir g op f => g ++ op :: f

/-- The gaps are blanks and the operator is `<` or `>`. -/
def Lead.ok : Lead → Prop
  | .arg g => blanks g
  | .redir g op f => blanks g ∧ op ∈ ['<', '>'] ∧ blanks f

/-- The word after it is set apart from a word written before: an argument
word has at least one blank before it. -/
def Lead.sep : Lead → Prop
  | .arg g => g ≠ []
  | .redir _ _ _ => True

instance : DecidablePred Lead.ok := fun d => by
  cases d <;> unfold Lead.ok <;> infer_instance

instance : DecidablePred Lead.sep := fun d => by
  cases d <;> unfold Lead.sep <;> infer_instance

/-- The lexical modes of an input text, read from left to right: ordinary
text, inside a quotation, after a backslash, after a `$`, inside a variable
name, inside the braces of `${name}`, inside a comment, and after a `${name`
that a character other than `}` ended. -/
inductive lex_mode where
  | plain
  | quote
  | escape
  | dollar
  | name
  | brace
  | comment
  | broken
  deriving DecidableEq, Repr

/-- The mode after a character read as ordinary text. -/
def lex_plain (c : Char) : lex_mode :=
  if c = '#' then .comment
  else if c = '\'' then .quote
  else if c = '\\' then .escape
  else if c = '$' then .dollar
  else .plain

/-- The mode after one character. -/
def lex_step (m : lex_mode) (c : Char) : lex_mode :=
  match m with
  | .plain => lex_plain c
  | .quote => if c = '\'' then .plain else .quote
  | .escape => .plain
  | .dollar => if c = '{' then .brace else if strchr VAR_STOP c then lex_plain c else .name
  | .name => if strchr VAR_STOP c then lex_plain c else .name
  | .brace => if strchr VAR_STOP c then (if c = '}' then .plain else .broken) else .brace
  | .comment => if c = '\n' then .plain else .comment
  | .broken => .broken

/-- The mode at the end of a text that starts in mode `m`; the text ends at
its first NUL. -/
def lex (m : lex_mode) : List Char → lex_mode
  | [] => m
  | c :: rest => if c = NUL then m else lex (lex_step m c) rest

/-- How a text ends: `closed`, `unclosed` inside a quotation or after a
backslash, or `unbraced` when a `${name` has no closing brace. -/
inductive lex_verdict where
  | closed
  | unclosed
  | unbraced
  deriving DecidableEq, Repr

/-- How a text ends that ends in the given mode. -/
def lex_mode.verdict : lex_mode → lex_verdict
  | .quote => .unclosed
  | .escape => .unclosed
  | .brace => .unbraced
  | .broken => .unbraced
  | _ => .closed

/-- How an input text ends. -/
def lex_end (input : List Char) : lex_verdict := (lex .plain input).verdict

/-- The lexical mode that the flags of `read` stand for. -/
def Reader.mode (r : Reader) : lex_mode :=
  if r.comment then .comment
  else if r.quote then .quote
  else if r.backspace then .escape
  else if r.variable_ then (if r.bracket then .brace else .name)
  else .plain

/-- The flags of `read` as they are at the top of the loop: at most one of
`comment`, `quote`, `backspace` and `variable` is set, `bracket` is set only
with `variable`, and the token kind is not yet `END`. -/
def Reader.flags_ok (r : Reader) : Prop :=
  r.kind ≠ END ∧ (r.variable_ = false → r.bracket = false) ∧
    (r.comment = true → r.quote = false ∧ r.backspace = false ∧ r.variable_ = false) ∧
    (r.quote = true → r.backspace = false ∧ r.variable_ = false) ∧
    (r.backspace = true → r.variable_ = false)

/-- One pass of the loop of `read` agrees with the lexical modes: `v` is how
the text ends from the reader's mode on. An error is never `PARSER_OK`. -/
def Step.lex_ok (v : lex_verdict) : Step → Prop
  | .cont r1 => r1.flags_ok ∧ (lex r1.mode r1.stream.tail).verdict = v
  | .ret r1 => (lex .plain r1.stream).verdict = v ∧ (r1.kind = END → v = .closed)
  | .raise code _ =>
    code ≠ PARSER_OK ∧ (code = PARSER_UNEXPECTED_EOF → v = .unclosed) ∧
      (code = PARSER_BAD_SUBSTITUTION → v = .unbraced)

/-- A result of the scanner or the parser agrees with the lexical modes:
`v` is how the text ends from the start of the call on, `rest` gives the text
left over and `at_end` tells that the token `END` has been read. -/
def Result.lex_ok {α : Type} (v : lex_verdict) (rest : α → List Char) (at_end : α → Prop) :
    Result α → Prop
  | .ok a => (lex .plain (rest a)).verdict = v ∧ (at_end a → v = .closed)
  | .raise code _ _ =>
    code ≠ PARSER_OK ∧ (code = PARSER_UNEXPECTED_EOF → v = .unclosed) ∧
      (code = PARSER_BAD_SUBSTITUTION → v = .unbraced)
  | .fuel => True
/-- State of `read` inside a comment. -/
def st_comment (stream : List Char) (line col : Nat) (arg : List Char) : Reader :=
  { stream := stream, line := line, col := col, kind := REM,
    arg := arg, var := [], quote := false, backspace := false, comment := true,
    ide := false, variable_ := false, bracket := false }

/-- A character of a comment: not a newline and not NUL. -/
def comment_char (c : Char) : Prop := c ≠ '\n' ∧ c ≠ NUL

instance : DecidablePred comment_char := fun c => by unfold comment_char; infer_instance

/-- What `scan` skips before a token: spaces and tabs, and then possibly a
comment, `#` with the characters after it. -/
structure Gap where
  blank : List Char
  comment : Option (List Char)
  deriving DecidableEq, Repr

/-- The input text of a gap. -/
def Gap.text (g : Gap) : List Char :=
  match g.comment with
  | none => g.blank
  | some cm => g.blank ++ '#' :: cm

/-- The gap is made of blanks and of a comment of at most 2046 characters,
none of them a newline or NUL. -/
def Gap.ok (g : Gap) : Prop :=
  blanks g.blank ∧ ∀ cm ∈ g.comment, (∀ c ∈ cm, comment_char c) ∧ cm.length ≤ 2046

instance : DecidablePred Gap.ok := fun g => by unfold Gap.ok; infer_instance

/-- The text `R` starts with a token that is not an identifier: `scan`
returns one at every position. -/
def no_word (getenv : List Char → Option (List Char)) (R : List Char) : Prop :=
  ∀ l k tok, ∃ s1, scan getenv ⟨R, l, k, tok⟩ = .ok s1 ∧ s1.lookahead.kind ≠ IDE

/-- The last segment of the word is a substitution, `$name` or `${name}`. -/
def subst_last (w : List Seg) : Bool :=
  match w.getLast? with
  | some (.var _) => true
  | some (.bvar _) => true
  | _ => false

/-- The word does not fit the token buffer: the text it stands for reaches
2048 characters, or it reaches 2047 characters and the word does not end
with a substitution. -/
def word_overflows (getenv : List Char → Option (List Char)) (w : List Seg) : Prop :=
  2048 ≤ (expand_word getenv w).length ∨
    (2047 ≤ (expand_word getenv w).length ∧ subst_last w = false)

/-- The pass of the loop of `read` goes on with at least `a` characters in
the token buffer. -/
def Step.cont_full (a : Nat) : Step → Prop
  | .cont r1 => a ≤ r1.arg.length
  | _ => False

/-- An environment in which every variable has the value `long_word`, of
2047 characters. -/
def long_env : List Char → Option (List Char) := fun _ => some long_word
/-- The flags of `read` agree with the kind of the token under construction:
in a comment the kind is `REM`, in an identifier it is `IDE`. -/
def Reader.kind_ok (r : Reader) : Prop :=
  (r.comment = true → r.kind = REM) ∧ (r.comment = false → r.ide = true → r.kind = IDE)

/-- What one pass of the loop of `read` keeps: the flags agree with the kind,
a returned token has a kind other than `UNKNOWN`, the token `END` is returned
with the cursor on NUL, and an error is not `PARSER_INVALID_STATE`. -/
def Step.sound : Step → Prop
  | .cont r1 => r1.kind_ok
  | .ret r1 => r1.kind ≠ UNKNOWN ∧ (r1.kind = END → cur r1.stream = NUL)
  | .raise code _ => code ≠ PARSER_INVALID_STATE

/-- An error as `raise_error` leaves it when the code is not
`PARSER_INVALID_STATE`: the position of `PARSER_OVERFLOW` is 0:0. -/
def raised_ok (code : parser_errors) (l k : Nat) : Prop :=
  code ≠ PARSER_INVALID_STATE ∧ (code = PARSER_OVERFLOW → l = 0 ∧ k = 0)

/-- A result whose value satisfies `p` and whose error satisfies `raised_ok`. -/
def Result.sound {α : Type} (p : α → Prop) : Result α → Prop
  | .ok a => p a
  | .raise code l k => raised_ok code l k
  | .fuel => True

/-- The lookahead token is one that the grammar handles: its kind is neither
`UNKNOWN` nor `REM`. -/
def Scanner.token_ok (s : Scanner) : Prop :=
  s.lookahead.kind ≠ UNKNOWN ∧ s.lookahead.kind ≠ REM

/-- The token `END` has been read at the end of the text only: the cursor is
on NUL. -/
def Scanner.at_end (s : Scanner) : Prop := s.lookahead.kind = END → cur s.stream = NUL

/-- The text `b` is what is left of the text `a` once the cursor has moved
over characters none of which is NUL. -/
def reaches (a b : List Char) : Prop := ∃ pre, a = pre ++ b ∧ NUL ∉ pre

/-- One pass of the loop of `read` leaves the cursor inside the text that
starts at `stream`: the cursor has moved over characters other than NUL, and
when the loop goes on the cursor is not on NUL, so that `stream++` does not
leave the text. -/
def Step.within (stream : List Char) : Step → Prop
  | .cont r1 => reaches stream r1.stream ∧ cur r1.stream ≠ NUL
  | .ret r1 => reaches stream r1.stream
  | .raise _ _ => True

/-- The number of tokens other than `END` that `scan` reads from the state
`s` on, up to the token `END` or to the first error; `n` bounds the number of
calls of `scan`. -/
def count_tokens (getenv : List Char → Option (List Char)) : Nat → Scanner → Nat
  | 0, _ => 0
  | n + 1, s =>
    match scan getenv s with
    | .ok s1 => if s1.lookahead.kind = END then 0 else count_tokens getenv n s1 + 1
    | _ => 0

/-- The number of tokens left in the text of the state `s`. -/
def tokens_left (getenv : List Char → Option (List Char)) (s : Scanner) : Nat :=
  count_tokens getenv (s.stream.length + 1) s

/-- A block of memory that a parsed list owns: the struct `cmds` of command
`i`, the struct `prog_args` of stage `j` of command `i` (for `j ≥ 1`; stage 0
is a member of the command), the vector `argv` of a stage, argument `k` of a
stage, the strings `input` and `output` of a stage, and the strings `path`,
`name` and `value` of a builtin. -/
inductive Block where
  | node (i : Nat)
  | stage (i j : Nat)
  | argv (i j : Nat)
  | arg (i j k : Nat)
  | input (i j : Nat)
  | output (i j : Nat)
  | path (i : Nat)
  | name (i : Nat)
  | value (i : Nat)
  deriving DecidableEq, Repr

/-- The call `free(p)` for the pointer to block `b`: nothing is released
when the pointer is NULL. -/
def free_ptr (b : Block) : Option (List Char) → List Block
  | none => []
  | some _ => [b]

/-- Function `argv_free` on stage `j` of command `i`: the blocks it releases,
in order. -/
def argv_free (i j : Nat) (prog : prog_args) : List Block :=
  (List.range prog.argv.length).map (Block.arg i j) ++ [Block.argv i j]

/-- Function `prog_free` on the chain of stages that starts at stage `j` of
command `i`: the blocks it releases, in order. -/
def prog_free (i : Nat) : Nat → List prog_args → List Block
  | _, [] => []
  | j, prog :: next =>
    prog_free i (j + 1) next ++ argv_free i j prog ++ free_ptr (.input i j) prog.input ++
      free_ptr (.output i j) prog.output ++ [.stage i j]

/-- Function `parser_free` on the list whose first command has index `i`
(`[]` is NULL): the blocks it releases, in order. -/
def parser_free : Nat → List cmds → List Block
  | _, [] => []
  | i, cmd :: next =>
    parser_free (i + 1) next ++
      (match cmd with
        | .EXIT => []
        | .JOB _ => []
        | .CD cd => free_ptr (.path i) cd.path
        | .ENV env => [.name i] ++ free_ptr (.value i) env.value
        | .PROG [] => []
        | .PROG (prog :: rest) =>
          if rest ≠ [] then
            prog_free i 1 rest ++ argv_free i 0 prog ++ free_ptr (.input i 0) prog.input ++
              free_ptr (.output i 0) prog.output
          else []
        | .PIPE [] => []
        | .PIPE (prog :: rest) =>
          if rest ≠ [] then
            prog_free i 1 rest ++ argv_free i 0 prog ++ free_ptr (.input i 0) prog.input ++
              free_ptr (.output i 0) prog.output
          else []) ++
      [.node i]

/-- The blocks that stage `j` of command `i` owns: its arguments, its vector
`argv`, its input path and its output path. -/
def stage_blocks (i j : Nat) (prog : prog_args) : List Block :=
  (List.range prog.argv.length).map (Block.arg i j) ++ [Block.argv i j] ++
    free_ptr (.input i j) prog.input ++ free_ptr (.output i j) prog.output

/-- The blocks that the stages of command `i` own, from stage `j` on; each
stage after the first is a block itself. -/
def chain_blocks (i : Nat) : Nat → List prog_args → List Block
  | _, [] => []
  | j, prog :: next =>
    stage_blocks i j prog ++ (if j = 0 then [] else [.stage i j]) ++ chain_blocks i (j + 1) next

/-- The blocks that a parsed list owns, the first command having index `i`:
every node and every string that belongs to a command. -/
def owned_blocks : Nat → List cmds → List Block
  | _, [] => []
  | i, cmd :: next =>
    Block.node i ::
      (match cmd with
        | .EXIT => []
        | .JOB _ => []
        | .CD cd => free_ptr (.path i) cd.path
        | .ENV env => [.name i] ++ free_ptr (.value i) env.value
        | .PROG stages => chain_blocks i 0 stages
        | .PIPE stages => chain_blocks i 0 stages) ++
      owned_blocks (i + 1) next

/-- The later of two settings of a redirection: `a` if it is set, else `b`. -/
def later (a b : Option (List Char)) : Option (List Char) :=
  match a with
  | some x => some x
  | none => b

/-- The arguments of a stage: the texts of its argument words, in order. -/
def stage_args (getenv : List Char → Option (List Char)) : List Item → List (List Char)
  | [] => []
  | .arg _ w :: is => expand_word getenv w :: stage_args getenv is
  | .inp _ _ _ :: is => stage_args getenv is
  | .out _ _ _ :: is => stage_args getenv is

/-- The input path of a stage: the file of its last input redirection. -/
def stage_input (getenv : List Char → Option (List Char)) : List Item → Option (List Char)
  | [] => none
  | .arg _ _ :: is => stage_input getenv is
  | .inp _ _ w :: is => later (stage_input getenv is) (some (expand_word getenv w))
  | .out _ _ _ :: is => stage_input getenv is

/-- The output path of a stage: the file of its last output redirection. -/
def stage_output (getenv : List Char → Option (List Char)) : List Item → Option (List Char)
  | [] => none
  | .arg _ _ :: is => stage_output getenv is
  | .inp _ _ _ :: is => stage_output getenv is
  | .out _ _ w :: is => later (stage_output getenv is) (some (expand_word getenv w))

/-- Two stages are placements of the same words and redirections: the same
arguments in the same order, the same input path and the same output path. -/
def same_stage (getenv : List Char → Option (List Char)) (a b : List Item) : Prop :=
  stage_args getenv a = stage_args getenv b ∧ stage_input getenv a = stage_input getenv b ∧
    stage_output getenv a = stage_output getenv b

/-- The text `X` holds no command: it ends a word written before it, and at
every position `scan` reads the token `END` from it and leaves nothing. -/
def quiet (getenv : List Char → Option (List Char)) (X : List Char) : Prop :=
  ends_word X ∧
    ∀ l k tok, ∃ l1 k1, scan getenv ⟨X, l, k, tok⟩ = .ok ⟨[], l1, k1, ⟨END, []⟩⟩

/-- The integer that a text denotes, read as by the conversion `%i` but
without any limit of range: leading white space, an optional sign and a
number as read by `read_magnitude`; `none` when the text has no digit
there. -/
def denoted_int (number : List Char) : Option Int :=
  match number.dropWhile isspace with
  | '-' :: cs => (read_magnitude cs).map (fun m => -(m : Int))
  | '+' :: cs => (read_magnitude cs).map (fun m => (m : Int))
  | cs => (read_magnitude cs).map (fun m => (m : Int))

/-- A complete command of an input with its end: a pipeline, a gap (blanks
and possibly a comment) and the terminator `term`. A comment runs up to a
newline, so a gap with a comment is followed by the terminator newline. -/
structure Line where
  st : List Item
  sts : List (List Char × List Item)
  gap : Gap
  term : Char

/-- The input text of a complete command with its end. -/
def Line.text (e : Line) : List Char :=
  render_pipe e.st e.sts ++ (e.gap.text ++ [e.term])

/-- The result of `parse_pipe` on a complete command, without the error
position. -/
def Line.verdict (getenv : List Char → Option (List Char)) (e : Line) :
    Except parser_errors cmds :=
  pipe_verdict .PROG (stage_progs getenv (punct e.term) (e.st :: e.sts.map Prod.snd))

/-- A complete command that parses: its stages are well formed, its gap is
made of blanks and possibly a comment of at most 2046 characters, its
terminator is `;`, a newline or `&`, a newline after a comment, and
`parse_pipe` accepts it. -/
def Line.ok (getenv : List Char → Option (List Char)) (e : Line) : Prop :=
  stage_ok getenv e.st ∧ (∀ r ∈ e.sts, blanks r.1 ∧ stage_ok getenv r.2) ∧ e.gap.ok ∧
    e.term ∈ [';', '\n', '&'] ∧ (e.gap.comment ≠ none → e.term = '\n') ∧
    ∃ cmd, e.verdict getenv = .ok cmd

/-- The input text of a list of complete commands. -/
def lines_text : List Line → List Char
  | [] => []
  | e :: es => e.text ++ lines_text es

/-- The commands that a list of complete commands parses to, in order. -/
def line_cmds (getenv : List Char → Option (List Char)) : List Line → List cmds
  | [] => []
  | e :: es =>
    match e.verdict getenv with
    | .ok cmd => cmd :: line_cmds getenv es
    | .error _ => line_cmds getenv es

/-- The comment that a text ends in once the blanks `g`, the character `#`
and the text `c` are written after the gap `fin`: `c`, or the comment of
`fin` lengthened by `g`, `#` and `c`. -/
def joined (fin : Gap) (g c : List Char) : List Char :=
  match fin.comment with
  | none => c
  | some t => t ++ (g ++ '#' :: c)

/-- The stages of a pipeline that a pipe symbol follows, each with the gap
before that pipe symbol, and the last stage. -/
def to_chain (st : List Item) :
    List (List Char × List Item) → List (List Item × List Char) × List Item
  | [] => ([], st)
  | r :: sts => ((st, r.1) :: (to_chain r.2 sts).1, (to_chain r.2 sts).2)

/-- A text of 1024 letters `x`. -/
def half_word : List Char := List.replicate 1024 'x'

/-- A text of 2046 letters `x`, the longest comment that fits the token
buffer. -/
def long_comment : List Char := List.replicate 2046 'x'


/-! ## The scanner, one character at a time -/

theorem splice_eq (value arg : List Char) (h : arg.length + value.length ≤ 2047) :
    splice arg value = some (arg ++ value) := by
  induction value generalizing arg with
  | nil => simp [splice]
  | cons v value ih =>
    have h1 : ¬ (2047 ≤ arg.length) := by simp at h; omega
    have h2 : (arg ++ [v]).length + value.length ≤ 2047 := by simp at h ⊢; omega
    simp [splice, MAX_LINE_LENGTH, h1, ih (arg ++ [v]) h2]

theorem read_loop_blank (getenv : List Char → Option (List Char)) (n : Nat) (c : Char)
    (rest : List Char) (l k : Nat) (hc : blank_char c) :
    read_loop getenv (n + 1) (st_word false (c :: rest) l k []) =
      read_loop getenv n (st_word false rest l (k + 1) []) := by
  rcases hc with rfl | rfl <;>
    simp [read_loop, step, st_word, gobble_ide, dispatch, cur, MAX_LINE_LENGTH, NUL]

theorem read_loop_plain (getenv : List Char → Option (List Char)) (n : Nat) (b : Bool) (c : Char)
    (rest : List Char) (l k : Nat) (arg : List Char) (hc : plain_char c)
    (ha : arg.length < 2047) :
    read_loop getenv (n + 1) (st_word b (c :: rest) l k arg) =
      read_loop getenv n (st_word true rest l (k + 1) (arg ++ [c])) := by
  obtain ⟨h0, h1, h2⟩ := hc
  simp [IDE_STOP, IDE_MODE] at h1 h2
  cases b <;>
    simp [read_loop, step, st_word, gobble_ide, dispatch, cur, MAX_LINE_LENGTH, strchr,
      IDE_STOP, IDE_MODE, h0, h1, h2, ha, Nat.not_le.mpr ha]

theorem read_loop_quote_open (getenv : List Char → Option (List Char)) (n : Nat) (b : Bool)
    (rest : List Char) (l k : Nat) (arg : List Char) (ha : arg.length < 2047) :
    read_loop getenv (n + 1) (st_word b ('\'' :: rest) l k arg) =
      read_loop getenv n (st_quote rest l (k + 1) arg) := by
  cases b <;>
    simp [read_loop, step, st_word, st_quote, gobble_ide, dispatch, cur, MAX_LINE_LENGTH,
      strchr, IDE_STOP, IDE_MODE, NUL, Nat.not_le.mpr ha]

theorem read_loop_quote_char (getenv : List Char → Option (List Char)) (n : Nat) (c : Char)
    (rest : List Char) (l k : Nat) (arg : List Char) (h0 : c ≠ NUL) (h1 : c ≠ '\'')
    (ha : arg.length < 2047) :
    read_loop getenv (n + 1) (st_quote (c :: rest) l k arg) =
      read_loop getenv n (st_quote rest (next_line c l) (next_col c k) (arg ++ [c])) := by
  by_cases h2 : c = '\n'
  · subst h2
    simp [read_loop, step, st_quote, cur, MAX_LINE_LENGTH, next_line, next_col, NUL,
      Nat.not_le.mpr ha]
  · simp [read_loop, step, st_quote, cur, MAX_LINE_LENGTH, next_line, next_col, h0, h1, h2,
      Nat.not_le.mpr ha]

theorem read_loop_quote_close (getenv : List Char → Option (List Char)) (n : Nat)
    (rest : List Char) (l k : Nat) (arg : List Char) (ha : arg.length < 2047) :
    read_loop getenv (n + 1) (st_quote ('\'' :: rest) l k arg) =
      read_loop getenv n (st_word true rest l (k + 1) arg) := by
  simp [read_loop, step, st_quote, st_word, cur, MAX_LINE_LENGTH, NUL, Nat.not_le.mpr ha]

theorem read_loop_esc_open (getenv : List Char → Option (List Char)) (n : Nat) (b : Bool)
    (rest : List Char) (l k : Nat) (arg : List Char) (ha : arg.length < 2047) :
    read_loop getenv (n + 1) (st_word b ('\\' :: rest) l k arg) =
      read_loop getenv n (st_esc rest l (k + 1) arg) := by
  cases b <;>
    simp [read_loop, step, st_word, st_esc, gobble_ide, dispatch, cur, MAX_LINE_LENGTH,
      strchr, IDE_STOP, IDE_MODE, NUL, Nat.not_le.mpr ha]

theorem read_loop_esc_char (getenv : List Char → Option (List Char)) (n : Nat) (c : Char)
    (rest : List Char) (l k : Nat) (arg : List Char) (h0 : c ≠ NUL) (ha : arg.length < 2047) :
    read_loop getenv (n + 1) (st_esc (c :: rest) l k arg) =
      read_loop getenv n (st_word true rest (next_line c l) (next_col c k) (arg ++ [c])) := by
  by_cases h2 : c = '\n'
  · subst h2
    simp [read_loop, step, st_esc, st_word, cur, MAX_LINE_LENGTH, next_line, next_col, NUL,
      Nat.not_le.mpr ha]
  · simp [read_loop, step, st_esc, st_word, cur, MAX_LINE_LENGTH, next_line, next_col, h0, h2,
      Nat.not_le.mpr ha]

theorem read_loop_var_open (getenv : List Char → Option (List Char)) (n : Nat) (b : Bool)
    (rest : List Char) (l k : Nat) (arg : List Char) (ha : arg.length < 2047)
    (hr : cur rest ≠ '{') :
    read_loop getenv (n + 1) (st_word b ('$' :: rest) l k arg) =
      read_loop getenv n (st_var false rest l (k + 1) arg []) := by
  simp only [cur, NUL, List.headD_eq_head?_getD] at hr
  cases b <;>
    simp [read_loop, step, st_word, st_var, gobble_ide, dispatch, cur, MAX_LINE_LENGTH,
      strchr, IDE_STOP, IDE_MODE, NUL, Nat.not_le.mpr ha, hr]

theorem read_loop_bvar_open (getenv : List Char → Option (List Char)) (n : Nat) (b : Bool)
    (rest : List Char) (l k : Nat) (arg : List Char) (ha : arg.length < 2047) :
    read_loop getenv (n + 1) (st_word b ('$' :: '{' :: rest) l k arg) =
      read_loop getenv n (st_var true rest l (k + 2) arg []) := by
  cases b <;>
    simp [read_loop, step, st_word, st_var, gobble_ide, dispatch, cur, MAX_LINE_LENGTH,
      strchr, IDE_STOP, IDE_MODE, NUL, Nat.not_le.mpr ha]

theorem read_loop_var_char (getenv : List Char → Option (List Char)) (n : Nat) (br : Bool)
    (c : Char) (rest : List Char) (l k : Nat) (arg var : List Char) (hc : name_char c)
    (ha : arg.length < 2047) (hv : var.length < 2047) :
    read_loop getenv (n + 1) (st_var br (c :: rest) l k arg var) =
      read_loop getenv n (st_var br rest l (k + 1) arg (var ++ [c])) := by
  obtain ⟨h0, h1⟩ := hc
  simp [VAR_STOP] at h1
  simp [read_loop, step, st_var, gobble_variable, cur, MAX_LINE_LENGTH, strchr, VAR_STOP,
    h0, h1, Nat.not_le.mpr ha, Nat.not_le.mpr hv]

theorem read_loop_var_end (getenv : List Char → Option (List Char)) (n : Nat)
    (stream : List Char) (l k : Nat) (arg var : List Char)
    (hs : cur stream = NUL ∨ cur stream ∈ VAR_STOP)
    (ha : arg.length + (value_of getenv var).length < 2047) (hv : var.length < 2047) :
    read_loop getenv (n + 1) (st_var false stream l k arg var) =
      read_loop getenv (n + 1) (st_word true stream l k (arg ++ value_of getenv var)) := by
  have ha1 : ¬ (2047 ≤ arg.length) := by omega
  have ha2 : ¬ (2047 ≤ arg.length + (value_of getenv var).length) := by omega
  have hstop : ¬ (cur stream ≠ NUL ∧ ¬ strchr VAR_STOP (cur stream) = true) := by
    rcases hs with h | h
    · simp [h]
    · simp [strchr, h]
  simp only [read_loop, step, st_var, st_word, MAX_LINE_LENGTH, gobble_variable, substitute]
  simp only [hstop, ha1, ha2, Nat.not_le.mpr hv, List.length_append, ge_iff_le, or_self,
    if_false, Bool.false_eq_true, List.length_nil, Nat.zero_le, Nat.not_succ_le_zero,
    Nat.reduceSub, if_true]
  unfold value_of at ha ha2 ⊢
  cases hg : getenv var with
  | none => simp [hg] at ha2 ⊢
  | some value =>
    simp only [hg, Option.getD_some] at ha ha2 ⊢
    rw [splice_eq value arg (by omega)]
    simp [gobble_ide, ha2]

theorem read_loop_bvar_end (getenv : List Char → Option (List Char)) (n : Nat)
    (rest : List Char) (l k : Nat) (arg var : List Char)
    (ha : arg.length + (value_of getenv var).length < 2047) (hv : var.length < 2047) :
    read_loop getenv (n + 1) (st_var true ('}' :: rest) l k arg var) =
      read_loop getenv (n + 1) (st_word true rest l (k + 1) (arg ++ value_of getenv var)) := by
  have ha1 : ¬ (2047 ≤ arg.length) := by omega
  have ha2 : ¬ (2047 ≤ arg.length + (value_of getenv var).length) := by omega
  simp only [read_loop, step, st_var, st_word, MAX_LINE_LENGTH, gobble_variable, substitute]
  simp only [ha1, ha2, Nat.not_le.mpr hv, List.length_append, ge_iff_le, or_self,
    if_false, Bool.false_eq_true, List.length_nil, Nat.zero_le, Nat.not_succ_le_zero,
    Nat.reduceSub, if_true]
  unfold value_of at ha ha2 ⊢
  cases hg : getenv var with
  | none => simp [hg, cur, strchr, VAR_STOP, NUL] at ha2 ⊢
  | some value =>
    simp only [hg, Option.getD_some] at ha ha2 ⊢
    simp [cur, strchr, VAR_STOP, NUL]
    rw [splice_eq value arg (by omega)]

theorem read_loop_word_end (getenv : List Char → Option (List Char)) (n : Nat)
    (stream : List Char) (l k : Nat) (arg : List Char) (hs : ends_word stream)
    (ha : arg.length < 2047) :
    read_loop getenv (n + 1) (st_word true stream l k arg) = .ok ⟨stream, l, k, ⟨IDE, arg⟩⟩ := by
  have h : cur stream = NUL ∨ strchr IDE_STOP (cur stream) = true := by
    rcases hs with h | h
    · exact Or.inl h
    · exact Or.inr (by simp [strchr, h])
  simp [read_loop, step, st_word, gobble_ide, MAX_LINE_LENGTH, Nat.not_le.mpr ha, h]

/-! ## The scanner, one run of characters at a time -/

theorem read_loop_blanks (getenv : List Char → Option (List Char)) (bs : List Char)
    (hb : ∀ c ∈ bs, blank_char c) (n : Nat) (rest : List Char) (l k : Nat) :
    read_loop getenv (n + bs.length) (st_word false (bs ++ rest) l k []) =
      read_loop getenv n (st_word false rest l (k + bs.length) []) := by
  induction bs generalizing k with
  | nil => simp
  | cons c bs ih =>
    have hc : blank_char c := hb c (by simp)
    have hbs : ∀ c ∈ bs, blank_char c := fun c h => hb c (by simp [h])
    have e : n + (c :: bs).length = (n + bs.length) + 1 := by simp; omega
    rw [e, List.cons_append, read_loop_blank getenv _ c _ l k hc, ih hbs (k + 1)]
    congr 2
    simp; omega

theorem read_loop_plains (getenv : List Char → Option (List Char)) (cs : List Char)
    (hc : ∀ c ∈ cs, plain_char c) (n : Nat) (rest : List Char) (l k : Nat) (arg : List Char)
    (ha : arg.length + cs.length ≤ 2047) :
    read_loop getenv (n + cs.length) (st_word true (cs ++ rest) l k arg) =
      read_loop getenv n (st_word true rest l (k + cs.length) (arg ++ cs)) := by
  induction cs generalizing k arg with
  | nil => simp
  | cons c cs ih =>
    have h1 : plain_char c := hc c (by simp)
    have h2 : ∀ c ∈ cs, plain_char c := fun c h => hc c (by simp [h])
    have e : n + (c :: cs).length = (n + cs.length) + 1 := by simp; omega
    have ha1 : arg.length < 2047 := by simp at ha; omega
    have ha2 : (arg ++ [c]).length + cs.length ≤ 2047 := by simp at ha ⊢; omega
    rw [e, List.cons_append, read_loop_plain getenv _ true c _ l k arg h1 ha1,
      ih h2 (k + 1) (arg ++ [c]) ha2]
    congr 2
    · simp; omega
    · simp

theorem read_loop_quoted (getenv : List Char → Option (List Char)) (cs : List Char)
    (hc : ∀ c ∈ cs, c ≠ NUL ∧ c ≠ '\'') (n : Nat) (rest : List Char) (l k : Nat)
    (arg : List Char) (ha : arg.length + cs.length ≤ 2047) :
    ∃ l1 k1, read_loop getenv (n + cs.length) (st_quote (cs ++ rest) l k arg) =
      read_loop getenv n (st_quote rest l1 k1 (arg ++ cs)) := by
  induction cs generalizing l k arg with
  | nil => exact ⟨l, k, by simp⟩
  | cons c cs ih =>
    have h1 := hc c (by simp)
    have h2 : ∀ c ∈ cs, c ≠ NUL ∧ c ≠ '\'' := fun c h => hc c (by simp [h])
    have e : n + (c :: cs).length = (n + cs.length) + 1 := by simp; omega
    have ha1 : arg.length < 2047 := by simp at ha; omega
    have ha2 : (arg ++ [c]).length + cs.length ≤ 2047 := by simp at ha ⊢; omega
    obtain ⟨l1, k1, h⟩ := ih h2 (next_line c l) (next_col c k) (arg ++ [c]) ha2
    refine ⟨l1, k1, ?_⟩
    rw [e, List.cons_append, read_loop_quote_char getenv _ c _ l k arg h1.1 h1.2 ha1, h]
    simp

theorem read_loop_name (getenv : List Char → Option (List Char)) (cs : List Char)
    (hc : ∀ c ∈ cs, name_char c) (n : Nat) (br : Bool) (rest : List Char) (l k : Nat)
    (arg var : List Char) (ha : arg.length < 2047) (hv : var.length + cs.length ≤ 2047) :
    read_loop getenv (n + cs.length) (st_var br (cs ++ rest) l k arg var) =
      read_loop getenv n (st_var br rest l (k + cs.length) arg (var ++ cs)) := by
  induction cs generalizing k var with
  | nil => simp
  | cons c cs ih =>
    have h1 : name_char c := hc c (by simp)
    have h2 : ∀ c ∈ cs, name_char c := fun c h => hc c (by simp [h])
    have e : n + (c :: cs).length = (n + cs.length) + 1 := by simp; omega
    have hv1 : var.length < 2047 := by simp at hv; omega
    have hv2 : (var ++ [c]).length + cs.length ≤ 2047 := by simp at hv ⊢; omega
    rw [e, List.cons_append, read_loop_var_char getenv _ br c _ l k arg var h1 ha hv1,
      ih h2 (k + 1) (var ++ [c]) hv2]
    congr 2
    · simp; omega
    · simp


/-! ## The scanner, one word at a time -/

theorem cur_after_var (w : List Seg) (rest : List Char) (hw : after_var w)
    (hr : ends_word rest) :
    (cur (render_word w ++ rest) = NUL ∨ cur (render_word w ++ rest) ∈ VAR_STOP) ∧
      cur (render_word w ++ rest) ≠ '{' := by
  cases w with
  | nil =>
    rcases hr with h | h
    · simp [render_word, h, NUL]
    · simp [render_word]
      simp [IDE_STOP] at h
      rcases h with h | h | h | h | h | h | h | h | h <;> simp [h, VAR_STOP]
  | cons s w =>
    cases s with
    | plain cs => simp [after_var] at hw
    | quoted cs => simp [render_word, Seg.render, cur, VAR_STOP]
    | esc c => simp [render_word, Seg.render, cur, VAR_STOP]
    | var name => simp [render_word, Seg.render, cur, VAR_STOP]
    | bvar name => simp [render_word, Seg.render, cur, VAR_STOP]

theorem cur_name_ne_brace (name rest : List Char) (hn : ∀ c ∈ name, name_char c)
    (hr : cur rest ≠ '{') : cur (name ++ rest) ≠ '{' := by
  cases name with
  | nil => simpa using hr
  | cons c cs =>
    have h := (hn c (by simp)).2
    simp [VAR_STOP] at h
    simp [cur, h]

theorem read_loop_word (getenv : List Char → Option (List Char)) (w : List Seg) :
    ∀ (b : Bool) (acc : List Char) (l k n : Nat) (rest : List Char),
      word_ok w → ends_word rest → (b = true ∨ w ≠ []) →
      acc.length + (expand_word getenv w).length ≤ 2046 →
      (render_word w ++ rest).length + 1 ≤ n →
      ∃ l1 k1, read_loop getenv n (st_word b (render_word w ++ rest) l k acc) =
        .ok ⟨rest, l1, k1, ⟨IDE, acc ++ expand_word getenv w⟩⟩ := by
  induction w with
  | nil =>
    intro b acc l k n rest _ hr hb ha hn
    have hb1 : b = true := by simpa using hb
    subst hb1
    obtain ⟨m, rfl⟩ : ∃ m, n = m + 1 := ⟨n - 1, by omega⟩
    simp only [expand_word, List.length_nil, Nat.add_zero] at ha
    exact ⟨l, k, by
      simpa [render_word, expand_word] using
        read_loop_word_end getenv m rest l k acc hr (by omega)⟩
  | cons s w ih =>
    intro b acc l k n rest hw hr _ ha hn
    cases s with
    | plain cs =>
      obtain ⟨⟨hne, hcs⟩, hw1⟩ : Seg.ok (.plain cs) ∧ word_ok w := by simpa [word_ok] using hw
      cases cs with
      | nil => exact absurd rfl hne
      | cons c cs =>
        simp only [render_word, Seg.render, expand_word, Seg.expand, List.length_append,
          List.length_cons, List.append_assoc, List.cons_append] at ha hn ⊢
        obtain ⟨m, rfl⟩ : ∃ m, n = (m + cs.length) + 1 := ⟨n - cs.length - 1, by omega⟩
        obtain ⟨l1, k1, h⟩ := ih true (acc ++ [c] ++ cs) l (k + 1 + cs.length) m rest hw1 hr
          (Or.inl rfl) (by simp; omega) (by simp at hn ⊢; omega)
        refine ⟨l1, k1, ?_⟩
        rw [read_loop_plain getenv _ b c _ l k acc (hcs c (by simp)) (by omega),
          read_loop_plains getenv cs (fun c h => hcs c (by simp [h])) m _ l (k + 1) (acc ++ [c])
            (by simp; omega), h]
        simp
    | quoted cs =>
      obtain ⟨hcs, hw1⟩ : Seg.ok (.quoted cs) ∧ word_ok w := by simpa [word_ok] using hw
      simp only [render_word, Seg.render, expand_word, Seg.expand, List.length_append,
        List.length_cons, List.append_assoc, List.cons_append, List.nil_append] at ha hn ⊢
      obtain ⟨m, rfl⟩ : ∃ m, n = ((m + 1) + cs.length) + 1 := ⟨n - cs.length - 2, by omega⟩
      obtain ⟨l0, k0, h0⟩ := read_loop_quoted getenv cs hcs (m + 1)
        ('\'' :: (render_word w ++ rest)) l (k + 1) acc (by omega)
      obtain ⟨l1, k1, h⟩ := ih true (acc ++ cs) l0 (k0 + 1) m rest hw1 hr
        (Or.inl rfl) (by simp; omega) (by simp at hn ⊢; omega)
      refine ⟨l1, k1, ?_⟩
      rw [read_loop_quote_open getenv _ b _ l k acc (by omega), h0,
        read_loop_quote_close getenv _ _ l0 k0 (acc ++ cs) (by simp; omega), h]
      simp
    | esc c =>
      obtain ⟨hc, hw1⟩ : Seg.ok (.esc c) ∧ word_ok w := by simpa [word_ok] using hw
      simp only [render_word, Seg.render, expand_word, Seg.expand, List.length_append,
        List.length_cons, List.append_assoc, List.cons_append, List.nil_append,
        List.length_nil] at ha hn ⊢
      obtain ⟨m, rfl⟩ : ∃ m, n = (m + 1) + 1 := ⟨n - 2, by omega⟩
      obtain ⟨l1, k1, h⟩ := ih true (acc ++ [c]) (next_line c l) (next_col c (k + 1)) m rest
        hw1 hr (Or.inl rfl) (by simp; omega) (by simp at hn ⊢; omega)
      refine ⟨l1, k1, ?_⟩
      rw [read_loop_esc_open getenv _ b _ l k acc (by omega),
        read_loop_esc_char getenv _ c _ l (k + 1) acc hc (by omega), h]
      simp
    | var name =>
      obtain ⟨⟨hcs, hlen⟩, haft, hw1⟩ :
          Seg.ok (.var name) ∧ after_var w ∧ word_ok w := by simpa [word_ok] using hw
      have hcur := cur_after_var w rest haft hr
      simp only [render_word, Seg.render, expand_word, Seg.expand, List.length_append,
        List.length_cons, List.append_assoc, List.cons_append, List.nil_append] at ha hn ⊢
      obtain ⟨m, rfl⟩ : ∃ m, n = ((m + 1) + name.length) + 1 :=
        ⟨n - name.length - 2, by omega⟩
      obtain ⟨l1, k1, h⟩ := ih true (acc ++ value_of getenv name) l (k + 1 + name.length)
        (m + 1) rest hw1 hr (Or.inl rfl) (by simp; omega) (by simp at hn ⊢; omega)
      refine ⟨l1, k1, ?_⟩
      rw [read_loop_var_open getenv _ b _ l k acc (by omega)
          (cur_name_ne_brace name _ hcs hcur.2),
        read_loop_name getenv name hcs (m + 1) false _ l (k + 1) acc [] (by omega)
          (by simp; omega),
        read_loop_var_end getenv m _ l _ acc _ hcur.1 (by simp; omega) (by simp; omega)]
      simp only [List.nil_append]
      rw [h]
      simp
    | bvar name =>
      obtain ⟨⟨hcs, hlen⟩, hw1⟩ : Seg.ok (.bvar name) ∧ word_ok w := by
        simpa [word_ok] using hw
      simp only [render_word, Seg.render, expand_word, Seg.expand, List.length_append,
        List.length_cons, List.append_assoc, List.cons_append, List.nil_append] at ha hn ⊢
      obtain ⟨m, rfl⟩ : ∃ m, n = ((m + 1) + name.length) + 1 :=
        ⟨n - name.length - 2, by omega⟩
      obtain ⟨l1, k1, h⟩ := ih true (acc ++ value_of getenv name) l (k + 2 + name.length + 1)
        (m + 1) rest hw1 hr (Or.inl rfl) (by simp; omega) (by simp at hn ⊢; omega)
      refine ⟨l1, k1, ?_⟩
      rw [read_loop_bvar_open getenv _ b _ l k acc (by omega),
        read_loop_name getenv name hcs (m + 1) true _ l (k + 2) acc [] (by omega)
          (by simp; omega),
        read_loop_bvar_end getenv m _ l _ acc _ (by simp; omega) (by simp; omega)]
      simp only [List.nil_append]
      rw [h]
      simp


/-! ## The scanner, one token at a time -/

theorem read_init_eq (s : Scanner) : read_init s = st_word false s.stream s.line s.col [] := rfl

theorem scan_of_read (getenv : List Char → Option (List Char)) (s s1 : Scanner)
    (h : read getenv s = .ok s1) (hk : s1.lookahead.kind ≠ REM) : scan getenv s = .ok s1 := by
  simp [scan, scan_loop, h, hk]

theorem read_word (getenv : List Char → Option (List Char)) (bs : List Char) (w : List Seg)
    (rest : List Char) (l k : Nat) (tok : token) (hb : ∀ c ∈ bs, blank_char c)
    (hne : w ≠ []) (hw : word_ok w) (hr : ends_word rest)
    (hlen : (expand_word getenv w).length ≤ 2046) :
    ∃ l1 k1, read getenv ⟨bs ++ (render_word w ++ rest), l, k, tok⟩ =
      .ok ⟨rest, l1, k1, ⟨IDE, expand_word getenv w⟩⟩ := by
  obtain ⟨l1, k1, h⟩ := read_loop_word getenv w false [] l (k + bs.length)
    ((render_word w ++ rest).length + 1) rest hw hr (Or.inr hne) (by simpa using hlen)
    (Nat.le_refl _)
  refine ⟨l1, k1, ?_⟩
  have e : (bs ++ (render_word w ++ rest)).length + 1 =
      ((render_word w ++ rest).length + 1) + bs.length := by simp; omega
  simp only [read, read_init_eq]
  rw [e, read_loop_blanks getenv bs hb, h]
  simp

theorem scan_word (getenv : List Char → Option (List Char)) (bs : List Char) (w : List Seg)
    (rest : List Char) (l k : Nat) (tok : token) (hb : ∀ c ∈ bs, blank_char c)
    (hne : w ≠ []) (hw : word_ok w) (hr : ends_word rest)
    (hlen : (expand_word getenv w).length ≤ 2046) :
    ∃ l1 k1, scan getenv ⟨bs ++ (render_word w ++ rest), l, k, tok⟩ =
      .ok ⟨rest, l1, k1, ⟨IDE, expand_word getenv w⟩⟩ := by
  obtain ⟨l1, k1, h⟩ := read_word getenv bs w rest l k tok hb hne hw hr hlen
  exact ⟨l1, k1, scan_of_read getenv _ _ h (by simp)⟩

theorem read_punct (getenv : List Char → Option (List Char)) (bs : List Char) (c : Char)
    (rest : List Char) (l k : Nat) (tok : token) (hb : ∀ c ∈ bs, blank_char c)
    (hc : c ∈ ['&', '>', '<', '|', ';', '\n']) :
    ∃ l1 k1, read getenv ⟨bs ++ c :: rest, l, k, tok⟩ = .ok ⟨rest, l1, k1, ⟨punct c, []⟩⟩ := by
  have e : (bs ++ c :: rest).length + 1 = (rest.length + 1 + 1) + bs.length := by simp; omega
  simp only [read, read_init_eq]
  rw [e, read_loop_blanks getenv bs hb]
  simp only [List.mem_cons, List.mem_singleton, List.not_mem_nil, or_false] at hc
  rcases hc with rfl | rfl | rfl | rfl | rfl | rfl <;>
    simp [read_loop, step, st_word, gobble_ide, dispatch, cur, MAX_LINE_LENGTH, NUL, punct]

theorem scan_punct (getenv : List Char → Option (List Char)) (bs : List Char) (c : Char)
    (rest : List Char) (l k : Nat) (tok : token) (hb : ∀ c ∈ bs, blank_char c)
    (hc : c ∈ ['&', '>', '<', '|', ';', '\n']) :
    ∃ l1 k1, scan getenv ⟨bs ++ c :: rest, l, k, tok⟩ = .ok ⟨rest, l1, k1, ⟨punct c, []⟩⟩ := by
  obtain ⟨l1, k1, h⟩ := read_punct getenv bs c rest l k tok hb hc
  refine ⟨l1, k1, scan_of_read getenv _ _ h ?_⟩
  simp only [List.mem_cons, List.mem_singleton, List.not_mem_nil, or_false] at hc
  rcases hc with rfl | rfl | rfl | rfl | rfl | rfl <;> simp [punct]

theorem read_end (getenv : List Char → Option (List Char)) (bs : List Char)
    (l k : Nat) (tok : token) (hb : ∀ c ∈ bs, blank_char c) :
    read getenv ⟨bs, l, k, tok⟩ = .ok ⟨[], l, k + bs.length, ⟨END, []⟩⟩ := by
  have e : bs.length + 1 = 1 + bs.length := by omega
  have h := read_loop_blanks getenv bs hb 1 [] l k
  simp only [List.append_nil] at h
  simp only [read, read_init_eq]
  rw [e, h]
  simp [read_loop, step, st_word, gobble_ide, dispatch, cur, MAX_LINE_LENGTH, NUL]

theorem scan_end (getenv : List Char → Option (List Char)) (bs : List Char)
    (l k : Nat) (tok : token) (hb : ∀ c ∈ bs, blank_char c) :
    scan getenv ⟨bs, l, k, tok⟩ = .ok ⟨[], l, k + bs.length, ⟨END, []⟩⟩ :=
  scan_of_read getenv _ _ (read_end getenv bs l k tok hb) (by simp)


/-! ## The grammar, one stage at a time -/

theorem ends_word_nil : ends_word [] := Or.inl rfl

theorem ends_word_blank (c : Char) (rest : List Char) (hc : blank_char c) :
    ends_word (c :: rest) := by
  rcases hc with rfl | rfl <;> exact Or.inr (by simp [cur, IDE_STOP])

theorem ends_word_punct (c : Char) (rest : List Char)
    (hc : c ∈ ['&', '>', '<', '|', ';', '\n']) : ends_word (c :: rest) := by
  simp only [List.mem_cons, List.mem_singleton, List.not_mem_nil, or_false] at hc
  rcases hc with rfl | rfl | rfl | rfl | rfl | rfl <;> exact Or.inr (by simp [cur, IDE_STOP])

theorem ends_word_gap (g rest : List Char) (hg : blanks g) (hr : ends_word rest) :
    ends_word (g ++ rest) := by
  cases g with
  | nil => simpa using hr
  | cons c g => exact ends_word_blank c _ (hg c (by simp))

theorem ends_word_item (getenv : List Char → Option (List Char)) (i : Item) (rest : List Char)
    (hi : i.ok getenv) (hs : i.sep) : ends_word (i.render ++ rest) := by
  cases i with
  | arg g w =>
    cases g with
    | nil => exact absurd rfl hs
    | cons c g => exact ends_word_blank c _ (hi.1 c (by simp))
  | inp g f w =>
    simp only [Item.render, List.append_assoc, List.cons_append]
    exact ends_word_gap g _ hi.1.1 (ends_word_punct '<' _ (by simp))
  | out g f w =>
    simp only [Item.render, List.append_assoc, List.cons_append]
    exact ends_word_gap g _ hi.1.1 (ends_word_punct '>' _ (by simp))

theorem ends_word_stage (getenv : List Char → Option (List Char)) (is : List Item)
    (tail : List Char) (his : ∀ j ∈ is, j.ok getenv ∧ j.sep) (ht : ends_word tail) :
    ends_word (render_stage is ++ tail) := by
  cases is with
  | nil => simpa [render_stage] using ht
  | cons i is =>
    simp only [render_stage, List.append_assoc]
    exact ends_word_item getenv i _ (his i (by simp)).1 (his i (by simp)).2

theorem blank_nil : ∀ c ∈ ([] : List Char), blank_char c := by simp

theorem blank_space : ∀ c ∈ [' '], blank_char c := by simp [blank_char]

theorem blanks_nil : blanks [] := blank_nil

theorem blanks_space : blanks [' '] := blank_space

theorem stage_end_blanks (getenv : List Char → Option (List Char)) (g : List Char)
    (hg : blanks g) : stage_end getenv g END [] :=
  ⟨by simpa using ends_word_gap g [] hg ends_word_nil, by simp,
    fun l k tok => ⟨l, k + g.length, scan_end getenv g l k tok hg⟩⟩

theorem stage_end_punct (getenv : List Char → Option (List Char)) (g : List Char) (c : Char)
    (rest : List Char) (hg : blanks g) (hc : c ∈ ['&', '|', ';', '\n']) :
    stage_end getenv (g ++ c :: rest) (punct c) rest := by
  have hc1 : c ∈ ['&', '>', '<', '|', ';', '\n'] := by
    simp only [List.mem_cons, List.mem_singleton, List.not_mem_nil, or_false] at hc ⊢
    tauto
  refine ⟨ends_word_gap g _ hg (ends_word_punct c rest hc1), ?_, fun l k tok => ?_⟩
  · simp only [List.mem_cons, List.mem_singleton, List.not_mem_nil, or_false] at hc
    rcases hc with rfl | rfl | rfl | rfl <;> simp [punct]
  · exact scan_punct getenv g c rest l k tok hg hc1

theorem parse_prog_loop_item (getenv : List Char → Option (List Char)) (i : Item)
    (rest : List Char) (l k : Nat) (tok : token) (hi : i.ok getenv) (hr : ends_word rest) :
    ∃ s1, scan getenv ⟨i.render ++ rest, l, k, tok⟩ = .ok s1 ∧
      (s1.lookahead.kind = IDE ∨ s1.lookahead.kind = IN ∨ s1.lookahead.kind = OUT) ∧
      rest.length ≤ s1.stream.length ∧
      ∀ m prog, ∃ l1 k1 tok1, parse_prog_loop getenv (m + 1) s1 prog =
        scan_prog getenv m ⟨rest, l1, k1, tok1⟩ (i.apply getenv prog) := by
  obtain ⟨hg, hne, hw, hlen⟩ := hi
  cases i with
  | arg g w =>
    obtain ⟨l1, k1, h⟩ := scan_word getenv g w rest l k tok hg hne hw hr hlen
    refine ⟨_, by simpa [Item.render] using h, by simp, by simp,
      fun m prog => ⟨l1, k1, ⟨IDE, expand_word getenv w⟩, ?_⟩⟩
    simp [parse_prog_loop, get_ide, scan_prog, Item.apply]
  | inp g f w =>
    obtain ⟨l1, k1, h⟩ := scan_punct getenv g '<' (f ++ (render_word w ++ rest)) l k tok hg.1
      (by simp)
    obtain ⟨l2, k2, h2⟩ := scan_word getenv f w rest l1 k1 ⟨IN, []⟩ hg.2 hne hw hr hlen
    have hp : punct '<' = IN := by simp [punct]
    rw [hp] at h
    refine ⟨_, by simpa [Item.render] using h, by simp, by simp; omega,
      fun m prog => ⟨l2, k2, ⟨IDE, expand_word getenv w⟩, ?_⟩⟩
    simp [parse_prog_loop, parse_redirection, h2, get_ide, scan_prog, Item.apply]
  | out g f w =>
    obtain ⟨l1, k1, h⟩ := scan_punct getenv g '>' (f ++ (render_word w ++ rest)) l k tok hg.1
      (by simp)
    obtain ⟨l2, k2, h2⟩ := scan_word getenv f w rest l1 k1 ⟨OUT, []⟩ hg.2 hne hw hr hlen
    have hp : punct '>' = OUT := by simp [punct]
    rw [hp] at h
    refine ⟨_, by simpa [Item.render] using h, by simp, by simp; omega,
      fun m prog => ⟨l2, k2, ⟨IDE, expand_word getenv w⟩, ?_⟩⟩
    simp [parse_prog_loop, parse_redirection, h2, get_ide, scan_prog, Item.apply]

theorem render_sep_length (i : Item) (hs : i.sep) : 1 ≤ i.render.length := by
  cases i with
  | arg g w =>
    cases g with
    | nil => exact absurd rfl hs
    | cons c g => simp [Item.render]
  | inp g f w => simp [Item.render]; omega
  | out g f w => simp [Item.render]; omega

theorem scan_prog_items (getenv : List Char → Option (List Char)) (is : List Item)
    (tail : List Char) (T : token_kind) (tail1 : List Char)
    (ht : stage_end getenv tail T tail1) :
    ∀ (prog : prog_args) (n l k : Nat) (tok : token),
      (∀ i ∈ is, i.ok getenv ∧ i.sep) → (render_stage is ++ tail).length + 1 ≤ n →
      ∃ l1 k1, scan_prog getenv n ⟨render_stage is ++ tail, l, k, tok⟩ prog =
        .ok (⟨tail1, l1, k1, ⟨T, []⟩⟩, finish T (apply_items getenv prog is)) := by
  induction is with
  | nil =>
    intro prog n l k tok _ hn
    obtain ⟨m, rfl⟩ : ∃ m, n = m + 1 := ⟨n - 1, by omega⟩
    obtain ⟨_, hT, hscan⟩ := ht
    obtain ⟨l1, k1, h⟩ := hscan l k tok
    refine ⟨l1, k1, ?_⟩
    simp only [render_stage, List.nil_append, scan_prog, h, apply_items]
    rcases hT with rfl | rfl | rfl | rfl <;> simp [parse_prog_loop, finish]
  | cons i is ih =>
    intro prog n l k tok hok hn
    obtain ⟨m, rfl⟩ : ∃ m, n = m + 1 := ⟨n - 1, by omega⟩
    have hrest : ends_word (render_stage is ++ tail) :=
      ends_word_stage getenv is tail (fun j hj => hok j (by simp [hj])) ht.1
    obtain ⟨s1, hs1, _, _, hstep⟩ := parse_prog_loop_item getenv i
      (render_stage is ++ tail) l k tok (hok i (by simp)).1 hrest
    obtain ⟨l1, k1, tok1, h1⟩ := hstep m prog
    have hlen := render_sep_length i (hok i (by simp)).2
    obtain ⟨l2, k2, h2⟩ := ih (i.apply getenv prog) m l1 k1 tok1
      (fun j hj => hok j (by simp [hj])) (by
        simp [render_stage] at hn ⊢
        omega)
    refine ⟨l2, k2, ?_⟩
    have e : render_stage (i :: is) ++ tail = i.render ++ (render_stage is ++ tail) := by
      simp [render_stage]
    rw [e]
    simp only [scan_prog, hs1]
    rw [h1, h2]
    simp [apply_items]

theorem parse_prog_stage (getenv : List Char → Option (List Char)) (st : List Item)
    (tail : List Char) (T : token_kind) (tail1 : List Char) (l k : Nat) (tok : token)
    (hok : stage_ok getenv st) (ht : stage_end getenv tail T tail1) :
    ∃ s1, scan getenv ⟨render_stage st ++ tail, l, k, tok⟩ = .ok s1 ∧
      (s1.lookahead.kind = IDE ∨ s1.lookahead.kind = IN ∨ s1.lookahead.kind = OUT) ∧
      tail.length ≤ s1.stream.length ∧
      ∀ prog, ∃ l1 k1, parse_prog getenv s1 prog =
        .ok (⟨tail1, l1, k1, ⟨T, []⟩⟩, finish T (apply_items getenv prog st)) := by
  obtain ⟨hne, hitems, hsep⟩ := hok
  cases st with
  | nil => exact absurd rfl hne
  | cons i is =>
    have his : ∀ j ∈ is, j.ok getenv ∧ j.sep := fun j hj =>
      ⟨hitems j (by simp [hj]), hsep j (by simpa using hj)⟩
    obtain ⟨s1, hs1, hk, hlen, hstep⟩ := parse_prog_loop_item getenv i
      (render_stage is ++ tail) l k tok (hitems i (by simp))
      (ends_word_stage getenv is tail his ht.1)
    refine ⟨s1, by simpa [render_stage] using hs1, hk, ?_, fun prog => ?_⟩
    · simp at hlen
      omega
    obtain ⟨l1, k1, tok1, h1⟩ := hstep (s1.stream.length + 1) prog
    obtain ⟨l2, k2, h2⟩ := scan_prog_items getenv is tail T tail1 ht (i.apply getenv prog)
      (s1.stream.length + 1) l1 k1 tok1 his (by omega)
    refine ⟨l2, k2, ?_⟩
    simp only [parse_prog]
    rw [h1, h2]
    simp [apply_items]

theorem parse_cmd_stage (getenv : List Char → Option (List Char)) (st : List Item)
    (tail : List Char) (T : token_kind) (tail1 : List Char) (l k : Nat) (tok : token)
    (hok : stage_ok getenv st) (ht : stage_end getenv tail T tail1) :
    ∃ s1, scan getenv ⟨render_stage st ++ tail, l, k, tok⟩ = .ok s1 ∧
      (s1.lookahead.kind = IDE ∨ s1.lookahead.kind = IN ∨ s1.lookahead.kind = OUT) ∧
      tail.length ≤ s1.stream.length ∧
      ∀ kind prog, ∃ l1 k1, parse_cmd getenv s1 kind prog =
        match classify ⟨tail1, l1, k1, ⟨T, []⟩⟩ kind
            (finish T (apply_items getenv prog st)) with
        | .ok r => .ok (⟨tail1, l1, k1, ⟨T, []⟩⟩, r)
        | .raise code l2 k2 => .raise code l2 k2
        | .fuel => .fuel := by
  obtain ⟨s1, hs1, hk, hlen, hp⟩ := parse_prog_stage getenv st tail T tail1 l k tok hok ht
  refine ⟨s1, hs1, hk, hlen, fun kind prog => ?_⟩
  obtain ⟨l1, k1, h⟩ := hp prog
  exact ⟨l1, k1, by simp [parse_cmd, h]⟩


/-! ## The grammar, one pipeline at a time -/

theorem get_int_move (s : Scanner) (number : List Char) :
    get_int s number = Result.move s.line s.col (get_int ⟨[], 0, 0, ⟨UNKNOWN, []⟩⟩ number) := by
  unfold get_int
  cases sscanf_i number with
  | none => rfl
  | some v => by_cases h : v < 0 <;> simp only [h, if_true, if_false] <;> rfl

theorem get_int_ne_fuel (s : Scanner) (number : List Char) : get_int s number ≠ .fuel := by
  unfold get_int
  cases sscanf_i number with
  | none => simp [raise_error, parser_errors.toNat]
  | some v => by_cases h : v < 0 <;> simp [h, raise_error, parser_errors.toNat]

theorem classify_move (s : Scanner) (kind : cmd_kind) (prog : prog_args) :
    classify s kind prog =
      Result.move s.line s.col (classify ⟨[], 0, 0, ⟨UNKNOWN, []⟩⟩ kind prog) := by
  obtain ⟨i, o, b, argv⟩ := prog
  cases argv with
  | nil => rfl
  | cons argv0 args =>
    simp only [classify]
    by_cases h1 : argv0 = ['e', 'x', 'i', 't']
    · simp only [if_pos h1]
      by_cases h : kind ≠ .PROG
      · simp only [if_pos h]; rfl
      · simp only [if_neg h]; rfl
    simp only [if_neg h1]
    by_cases h2 : argv0 = ['c', 'd']
    · simp only [if_pos h2]
      by_cases h : kind = .PIPE
      · simp only [if_pos h]; rfl
      · simp only [if_neg h]; rfl
    simp only [if_neg h2]
    by_cases h3 : argv0 = ['u', 'n', 's', 'e', 't', 'e', 'n', 'v']
    · simp only [if_pos h3]
      by_cases h : kind = .PIPE
      · simp only [if_pos h]; rfl
      · simp only [if_neg h]
        cases args <;> rfl
    simp only [if_neg h3]
    by_cases h4 : argv0 = ['s', 'e', 't', 'e', 'n', 'v']
    · simp only [if_pos h4]
      by_cases h : kind = .PIPE
      · simp only [if_pos h]; rfl
      · simp only [if_neg h]
        cases args with
        | nil => rfl
        | cons a as => cases as <;> rfl
    simp only [if_neg h4]
    by_cases h5 : argv0 = ['j', 'o', 'b', 's']
    · simp only [if_pos h5]
      by_cases h : kind = .PIPE
      · simp only [if_pos h]; rfl
      · simp only [if_neg h]
        cases args with
        | nil => rfl
        | cons a as =>
          simp only []
          rw [get_int_move s a]
          cases get_int ⟨[], 0, 0, ⟨UNKNOWN, []⟩⟩ a <;> rfl
    simp only [if_neg h5]
    by_cases h6 : argv0 = ['b', 'g']
    · simp only [if_pos h6]
      by_cases h : kind = .PIPE
      · simp only [if_pos h]; rfl
      · simp only [if_neg h]
        cases args with
        | nil => rfl
        | cons a as =>
          simp only []
          rw [get_int_move s a]
          cases get_int ⟨[], 0, 0, ⟨UNKNOWN, []⟩⟩ a <;> rfl
    simp only [if_neg h6]
    by_cases h7 : argv0 = ['f', 'g']
    · simp only [if_pos h7]
      by_cases h : kind = .PIPE
      · simp only [if_pos h]; rfl
      · simp only [if_neg h]
        cases args with
        | nil => rfl
        | cons a as =>
          simp only []
          rw [get_int_move s a]
          cases get_int ⟨[], 0, 0, ⟨UNKNOWN, []⟩⟩ a <;> rfl
    simp only [if_neg h7]
    by_cases h : kind = .PIPE ∧ (i ≠ none)
    · simp only [if_pos h]; rfl
    · simp only [if_neg h]; rfl

theorem classify_ne_fuel (s : Scanner) (kind : cmd_kind) (prog : prog_args) :
    classify s kind prog ≠ .fuel := by
  obtain ⟨i, o, b, argv⟩ := prog
  cases argv with
  | nil => simp [classify, raise_error, parser_errors.toNat]
  | cons argv0 args =>
    simp only [classify]
    by_cases h1 : argv0 = ['e', 'x', 'i', 't']
    · simp only [if_pos h1]
      by_cases h : kind ≠ .PROG
      · simp only [if_pos h]; simp [classify, raise_error, parser_errors.toNat]
      · simp only [if_neg h]; simp [classify, raise_error, parser_errors.toNat]
    simp only [if_neg h1]
    by_cases h2 : argv0 = ['c', 'd']
    · simp only [if_pos h2]
      by_cases h : kind = .PIPE
      · simp only [if_pos h]; simp [classify, raise_error, parser_errors.toNat]
      · simp only [if_neg h]; simp [classify, raise_error, parser_errors.toNat]
    simp only [if_neg h2]
    by_cases h3 : argv0 = ['u', 'n', 's', 'e', 't', 'e', 'n', 'v']
    · simp only [if_pos h3]
      by_cases h : kind = .PIPE
      · simp only [if_pos h]; simp [classify, raise_error, parser_errors.toNat]
      · simp only [if_neg h]
        cases args <;> simp [classify, raise_error, parser_errors.toNat]
    simp only [if_neg h3]
    by_cases h4 : argv0 = ['s', 'e', 't', 'e', 'n', 'v']
    · simp only [if_pos h4]
      by_cases h : kind = .PIPE
      · simp only [if_pos h]; simp [classify, raise_error, parser_errors.toNat]
      · simp only [if_neg h]
        cases args with
        | nil => simp [classify, raise_error, parser_errors.toNat]
        | cons a as => cases as <;> simp [classify, raise_error, parser_errors.toNat]
    simp only [if_neg h4]
    by_cases h5 : argv0 = ['j', 'o', 'b', 's']
    · simp only [if_pos h5]
      by_cases h : kind = .PIPE
      · simp only [if_pos h]; simp [classify, raise_error, parser_errors.toNat]
      · simp only [if_neg h]
        cases args with
        | nil => simp [classify, raise_error, parser_errors.toNat]
        | cons a as =>
          simp only []
          have hg := get_int_ne_fuel s a
          cases hgi : get_int s a <;> simp [hgi] at hg ⊢
    simp only [if_neg h5]
    by_cases h6 : argv0 = ['b', 'g']
    · simp only [if_pos h6]
      by_cases h : kind = .PIPE
      · simp only [if_pos h]; simp [classify, raise_error, parser_errors.toNat]
      · simp only [if_neg h]
        cases args with
        | nil => simp [classify, raise_error, parser_errors.toNat]
        | cons a as =>
          simp only []
          have hg := get_int_ne_fuel s a
          cases hgi : get_int s a <;> simp [hgi] at hg ⊢
    simp only [if_neg h6]
    by_cases h7 : argv0 = ['f', 'g']
    · simp only [if_pos h7]
      by_cases h : kind = .PIPE
      · simp only [if_pos h]; simp [classify, raise_error, parser_errors.toNat]
      · simp only [if_neg h]
        cases args with
        | nil => simp [classify, raise_error, parser_errors.toNat]
        | cons a as =>
          simp only []
          have hg := get_int_ne_fuel s a
          cases hgi : get_int s a <;> simp [hgi] at hg ⊢
    simp only [if_neg h7]
    by_cases h : kind = .PIPE ∧ (i ≠ none)
    · simp only [if_pos h]; simp [classify, raise_error, parser_errors.toNat]
    · simp only [if_neg h]; simp [classify, raise_error, parser_errors.toNat]

theorem classify_cases (s : Scanner) (kind : cmd_kind) (prog : prog_args) :
    (∃ r, classify s kind prog = .ok r ∧ classify_code kind prog = .ok r) ∨
      (∃ code l k, classify s kind prog = .raise code l k ∧
        classify_code kind prog = .error code) := by
  have hm := classify_move s kind prog
  have hf := classify_ne_fuel ⟨[], 0, 0, ⟨UNKNOWN, []⟩⟩ kind prog
  unfold classify_code
  cases h0 : classify ⟨[], 0, 0, ⟨UNKNOWN, []⟩⟩ kind prog with
  | ok r => left; exact ⟨r, by rw [hm, h0]; rfl, rfl⟩
  | raise code l k => right; exact ⟨code, s.line, s.col, by rw [hm, h0]; rfl, rfl⟩
  | fuel => exact absurd h0 hf

theorem raise_error_pos {α : Type} (code : parser_errors) (l k : Nat) :
    ∃ l1 k1, (raise_error code l k : Result α) = .raise code l1 k1 := by
  unfold raise_error
  split_ifs
  · exact ⟨l, k, rfl⟩
  · exact ⟨0, 0, rfl⟩

theorem finish_stroke (prog : prog_args) : finish STROKE prog = prog := by simp [finish]

theorem parse_pipe_loop_stages (getenv : List Char → Option (List Char)) (tail : List Char)
    (T : token_kind) (tail1 : List Char) (ht : stage_end getenv tail T tail1)
    (hT : T ≠ STROKE) :
    ∀ (sts : List (List Char × List Item)) (st : List Item) (kind : cmd_kind) (n : Nat)
      (l k : Nat) (tok : token),
      stage_ok getenv st → (∀ r ∈ sts, blanks r.1 ∧ stage_ok getenv r.2) →
      sts.length + 1 ≤ n →
      ∃ s1, scan getenv ⟨render_pipe st sts ++ tail, l, k, tok⟩ = .ok s1 ∧
        (s1.lookahead.kind = IDE ∨ s1.lookahead.kind = IN ∨ s1.lookahead.kind = OUT) ∧
        (render_stages sts ++ tail).length ≤ s1.stream.length ∧
        match pipe_verdict kind (stage_progs getenv T (st :: sts.map Prod.snd)) with
        | .ok cmd => ∃ l1 k1, parse_pipe_loop getenv n s1 kind argv_new =
            .ok (⟨tail1, l1, k1, ⟨T, []⟩⟩, cmd)
        | .error code => ∃ l1 k1, parse_pipe_loop getenv n s1 kind argv_new =
            .raise code l1 k1 := by
  intro sts
  induction sts with
  | nil =>
    intro st kind n l k tok hst _ hn
    obtain ⟨m, rfl⟩ : ∃ m, n = m + 1 := ⟨n - 1, by omega⟩
    obtain ⟨s1, hs1, hk, hlen, hcmd⟩ := parse_cmd_stage getenv st tail T tail1 l k tok hst ht
    refine ⟨s1, by simpa [render_pipe, render_stages] using hs1, hk, ?_, ?_⟩
    · simpa [render_stages] using hlen
    obtain ⟨l1, k1, hc⟩ := hcmd kind argv_new
    simp only [List.map_nil, stage_progs, pipe_verdict, parse_pipe_loop, hc]
    rcases classify_cases ⟨tail1, l1, k1, ⟨T, []⟩⟩ kind
        (finish T (apply_items getenv argv_new st)) with
      ⟨r, h1, h2⟩ | ⟨code, l2, k2, h1, h2⟩
    · rw [h1, h2]
      cases r with
      | builtin cmd => exact ⟨l1, k1, by simp [hT]⟩
      | external p1 => exact ⟨l1, k1, by simp [hT]⟩
    · rw [h1, h2]
      exact ⟨l2, k2, rfl⟩
  | cons r2 sts ih =>
    intro st kind n l k tok hst hsts hn
    obtain ⟨g2, st2⟩ := r2
    obtain ⟨hg2, hst2⟩ := hsts (g2, st2) (by simp)
    obtain ⟨m, rfl⟩ : ∃ m, n = m + 1 := ⟨n - 1, by simp at hn; omega⟩
    have hend := stage_end_punct getenv g2 '|' (render_pipe st2 sts ++ tail) hg2 (by simp)
    have hp : punct '|' = STROKE := by simp [punct]
    rw [hp] at hend
    obtain ⟨s1, hs1, hk, hlen, hcmd⟩ :=
      parse_cmd_stage getenv st _ STROKE _ l k tok hst hend
    have e : render_pipe st ((g2, st2) :: sts) ++ tail =
        render_stage st ++ (g2 ++ '|' :: (render_pipe st2 sts ++ tail)) := by
      simp [render_pipe, render_stages]
    refine ⟨s1, by rw [e]; exact hs1, hk, ?_, ?_⟩
    · have : (render_stages ((g2, st2) :: sts) ++ tail).length =
          (g2 ++ '|' :: (render_pipe st2 sts ++ tail)).length := by
        simp [render_pipe, render_stages]
      omega
    obtain ⟨l1, k1, hc⟩ := hcmd kind argv_new
    obtain ⟨s2, hs2, _, _, hrec⟩ := ih st2 .PIPE m l1 k1 ⟨STROKE, []⟩ hst2
      (fun r hr => hsts r (by simp [hr])) (by simp at hn; omega)
    have esp : stage_progs getenv T (st :: ((g2, st2) :: sts).map Prod.snd) =
        apply_items getenv argv_new st :: stage_progs getenv T (st2 :: sts.map Prod.snd) := by
      simp [stage_progs]
    have hps : stage_progs getenv T (st2 :: sts.map Prod.snd) ≠ [] := by
      cases sts <;> simp [stage_progs]
    rw [finish_stroke] at hc
    simp only [esp, pipe_verdict, parse_pipe_loop, hc, hps, if_false]
    rcases classify_cases ⟨render_pipe st2 sts ++ tail, l1, k1, ⟨STROKE, []⟩⟩
        kind (apply_items getenv argv_new st) with
      ⟨r, h1, h2⟩ | ⟨code, l2, k2, h1, h2⟩
    · rw [h1, h2]
      cases r with
      | builtin cmd =>
        simpa using raise_error_pos (α := Scanner × cmds) PARSER_ILLEGAL_COMBINATION l1 k1
      | external p1 =>
        by_cases hkind : kind = .PROG ∨ kind = .PIPE
        · by_cases hout : p1.output = none
          · simp only [hkind, hout, not_true_eq_false, ne_eq, if_false, hs2, prog_new]
            cases hv : pipe_verdict .PIPE (stage_progs getenv T (st2 :: sts.map Prod.snd)) with
            | ok cmd =>
              rw [hv] at hrec
              obtain ⟨l3, k3, h3⟩ := hrec
              exact ⟨l3, k3, by simp [h3]⟩
            | error code =>
              rw [hv] at hrec
              obtain ⟨l3, k3, h3⟩ := hrec
              exact ⟨l3, k3, by simp [h3]⟩
          · simpa [hkind, hout] using
              raise_error_pos (α := Scanner × cmds) PARSER_ILLEGAL_REDIRECTION l1 k1
        · simpa [hkind] using
            raise_error_pos (α := Scanner × cmds) PARSER_ILLEGAL_COMBINATION l1 k1
    · rw [h1, h2]
      exact ⟨l2, k2, rfl⟩


/-! ## The parser on one pipeline -/

theorem length_render_stages (sts : List (List Char × List Item)) :
    sts.length ≤ (render_stages sts).length := by
  induction sts with
  | nil => simp
  | cons r sts ih => simp [render_stages]; omega

theorem parse_input_loop_end (getenv : List Char → Option (List Char)) (n l k : Nat)
    (tok : token) (g : List Char) (hg : blanks g) :
    parse_input_loop getenv (n + 1) ⟨g, l, k, tok⟩ = .ok [] := by
  have h := scan_end getenv g l k tok hg
  simp [parse_input_loop, h]

theorem stage_end_render_end (getenv : List Char → Option (List Char))
    (amp : Option (List Char)) (trail : List Char) (hamp : ∀ g ∈ amp, blanks g)
    (htrail : blanks trail) :
    ∃ tail1, blanks tail1 ∧ stage_end getenv (render_end amp trail) (end_token amp) tail1 := by
  cases amp with
  | none => exact ⟨[], blanks_nil, stage_end_blanks getenv trail htrail⟩
  | some g =>
    have h := stage_end_punct getenv g '&' trail (hamp g rfl) (by simp)
    have hp : punct '&' = AMP := by simp [punct]
    rw [hp] at h
    exact ⟨trail, htrail, h⟩

theorem end_token_ne_stroke (amp : Option (List Char)) : end_token amp ≠ STROKE := by
  cases amp <;> simp [end_token]

theorem parser_parse_pipe (getenv : List Char → Option (List Char)) (st : List Item)
    (sts : List (List Char × List Item)) (amp : Option (List Char)) (trail : List Char)
    (hst : stage_ok getenv st) (hsts : ∀ r ∈ sts, blanks r.1 ∧ stage_ok getenv r.2)
    (hamp : ∀ g ∈ amp, blanks g) (htrail : blanks trail) :
    match pipe_verdict .PROG (stage_progs getenv (end_token amp) (st :: sts.map Prod.snd)) with
    | .ok cmd =>
      parser_parse getenv (render_pipe st sts ++ render_end amp trail) =
        some ⟨[cmd], PARSER_OK, messages PARSER_OK, 0, 0⟩
    | .error code =>
      ∃ l k, parser_parse getenv (render_pipe st sts ++ render_end amp trail) =
        some ⟨[], code, messages code, l, k⟩ := by
  obtain ⟨tail1, hb1, ht⟩ := stage_end_render_end getenv amp trail hamp htrail
  have hT := end_token_ne_stroke amp
  obtain ⟨s1, hs1, hk, hlen, _⟩ := parse_pipe_loop_stages getenv _ _ _ ht hT sts st .PROG
    (sts.length + 1) 0 0 ⟨UNKNOWN, []⟩ hst hsts (Nat.le_refl _)
  obtain ⟨s2, hs2, _, _, hrec⟩ := parse_pipe_loop_stages getenv _ _ _ ht hT sts st .PROG
    (s1.stream.length + 2) 0 0 ⟨UNKNOWN, []⟩ hst hsts (by
      have := length_render_stages sts
      simp at hlen
      omega)
  have e12 : s2 = s1 := by
    rw [hs1] at hs2
    exact (Result.ok.inj hs2).symm
  subst e12
  have hne : s2.lookahead.kind ≠ END := by
    rcases hk with h | h | h <;> simp [h]
  cases hv : pipe_verdict .PROG (stage_progs getenv (end_token amp) (st :: sts.map Prod.snd)) with
  | ok cmd =>
    rw [hv] at hrec
    obtain ⟨l1, k1, h1⟩ := hrec
    simp only [parser_parse, parse_input, parse_input_loop, hs1, hne, if_false, parse_pipe, h1]
    have h := scan_end getenv tail1 l1 k1 ⟨end_token amp, []⟩ hb1
    simp [h]
  | error code =>
    rw [hv] at hrec
    obtain ⟨l1, k1, h1⟩ := hrec
    exact ⟨l1, k1, by
      simp only [parser_parse, parse_input, parse_input_loop, hs1, hne, if_false, parse_pipe, h1]⟩


/-! ## Commands that are not builtins -/

theorem classify_code_external (kind : cmd_kind) (prog : prog_args) (a : List Char)
    (args : List (List Char)) (h : prog.argv = a :: args) (ha : a ∉ builtin_names)
    (hk : ¬ (kind = .PIPE ∧ prog.input ≠ none)) :
    classify_code kind prog = .ok (.external prog) := by
  simp only [builtin_names, List.mem_cons, List.mem_singleton, List.not_mem_nil, or_false,
    not_or] at ha
  obtain ⟨h1, h2, h3, h4, h5, h6, h7⟩ := ha
  simp only [classify_code, classify, h, if_neg h1, if_neg h2, if_neg h3, if_neg h4, if_neg h5,
    if_neg h6, if_neg h7, if_neg hk]

theorem parser_parse_simple (getenv : List Char → Option (List Char)) (st : List Item)
    (a : List Char) (args : List (List Char)) (hok : stage_ok getenv st)
    (harg : (apply_items getenv argv_new st).argv = a :: args) (ha : a ∉ builtin_names) :
    parser_parse getenv (render_stage st) =
      some (success [.PROG [apply_items getenv argv_new st]]) := by
  have h := parser_parse_pipe getenv st [] none [] hok (by simp) (by simp) blanks_nil
  have hv : pipe_verdict .PROG (stage_progs getenv END [st]) =
      .ok (.PROG [apply_items getenv argv_new st]) := by
    simp only [stage_progs, finish, pipe_verdict]
    rw [classify_code_external .PROG _ a args (by simpa using harg) ha (by simp)]
    simp [cmds.external]
  simp only [List.map_nil, end_token] at h
  rw [hv] at h
  simpa [render_pipe, render_stages, render_end, success, messages] using h

theorem echo_item_ok (getenv : List Char → Option (List Char)) :
    Item.ok getenv (.arg [] [.plain ['e', 'c', 'h', 'o']]) := by
  simp [Item.ok, Item.gaps_ok, blanks, Item.word, word_ok, Seg.ok, expand_word, Seg.expand,
    plain_char, NUL, IDE_STOP, IDE_MODE]

theorem echo_stage_ok (getenv : List Char → Option (List Char)) (w : List Seg)
    (hne : w ≠ []) (hw : word_ok w) (hlen : (expand_word getenv w).length ≤ 2046) :
    stage_ok getenv [.arg [] [.plain ['e', 'c', 'h', 'o']], .arg [' '] w] := by
  refine ⟨by simp, ?_, ?_⟩
  · intro j hj
    simp only [List.mem_cons, List.mem_singleton, List.not_mem_nil, or_false] at hj
    rcases hj with rfl | rfl
    · exact echo_item_ok getenv
    · exact ⟨blanks_space, hne, hw, hlen⟩
  · intro j hj
    simp only [List.tail_cons, List.mem_singleton] at hj
    subst hj
    simp [Item.sep]

theorem parser_parse_echo (getenv : List Char → Option (List Char)) (w : List Seg)
    (hne : w ≠ []) (hw : word_ok w) (hlen : (expand_word getenv w).length ≤ 2046) :
    parser_parse getenv (['e', 'c', 'h', 'o', ' '] ++ render_word w) =
      some (success [.PROG [simple false [['e', 'c', 'h', 'o'], expand_word getenv w]]]) := by
  have h := parser_parse_simple getenv
    [.arg [] [.plain ['e', 'c', 'h', 'o']], .arg [' '] w] ['e', 'c', 'h', 'o']
    [expand_word getenv w] (echo_stage_ok getenv w hne hw hlen)
    (by simp [apply_items, Item.apply, argv_add, argv_new, expand_word, Seg.expand])
    (by decide)
  simpa [render_stage, Item.render, render_word, Seg.render, apply_items,
    Item.apply, argv_add, argv_new, expand_word, Seg.expand, simple] using h


/-! ## Overflow of the buffers -/

theorem read_loop_overflow (getenv : List Char → Option (List Char)) (n : Nat) (r : Reader)
    (h : 2047 ≤ r.arg.length ∨ 2047 ≤ r.var.length) :
    read_loop getenv (n + 1) r = .raise PARSER_OVERFLOW 0 0 := by
  simp [read_loop, step, MAX_LINE_LENGTH, h, raise_error, parser_errors.toNat]

theorem read_loop_plains_overflow (getenv : List Char → Option (List Char)) (cs : List Char)
    (rest : List Char) :
    ∀ (arg : List Char) (l k n : Nat), (∀ c ∈ cs, plain_char c) →
      2047 ≤ arg.length + cs.length → cs.length + 1 ≤ n →
      read_loop getenv n (st_word true (cs ++ rest) l k arg) = .raise PARSER_OVERFLOW 0 0 := by
  induction cs with
  | nil =>
    intro arg l k n _ ha hn
    obtain ⟨m, rfl⟩ : ∃ m, n = m + 1 := ⟨n - 1, by omega⟩
    exact read_loop_overflow getenv m _ (Or.inl (by simpa [st_word] using ha))
  | cons c cs ih =>
    intro arg l k n hc ha hn
    obtain ⟨m, rfl⟩ : ∃ m, n = m + 1 := ⟨n - 1, by omega⟩
    by_cases h : 2047 ≤ arg.length
    · exact read_loop_overflow getenv m _ (Or.inl (by simpa [st_word] using h))
    · rw [List.cons_append, read_loop_plain getenv m true c _ l k arg (hc c (by simp)) (by omega)]
      exact ih (arg ++ [c]) l (k + 1) m (fun d hd => hc d (by simp [hd]))
        (by simp at ha ⊢; omega) (by simp at hn; omega)

theorem read_loop_name_overflow (getenv : List Char → Option (List Char)) (cs : List Char)
    (rest : List Char) (br : Bool) (arg : List Char) (ha : arg.length < 2047) :
    ∀ (var : List Char) (l k n : Nat), (∀ c ∈ cs, name_char c) →
      2047 ≤ var.length + cs.length → cs.length + 1 ≤ n →
      read_loop getenv n (st_var br (cs ++ rest) l k arg var) = .raise PARSER_OVERFLOW 0 0 := by
  induction cs with
  | nil =>
    intro var l k n _ hv hn
    obtain ⟨m, rfl⟩ : ∃ m, n = m + 1 := ⟨n - 1, by omega⟩
    exact read_loop_overflow getenv m _ (Or.inr (by simpa [st_var] using hv))
  | cons c cs ih =>
    intro var l k n hc hv hn
    obtain ⟨m, rfl⟩ : ∃ m, n = m + 1 := ⟨n - 1, by omega⟩
    by_cases h : 2047 ≤ var.length
    · exact read_loop_overflow getenv m _ (Or.inr (by simpa [st_var] using h))
    · rw [List.cons_append,
        read_loop_var_char getenv m br c _ l k arg var (hc c (by simp)) ha (by omega)]
      exact ih (var ++ [c]) l (k + 1) m (fun d hd => hc d (by simp [hd]))
        (by simp at hv ⊢; omega) (by simp at hn; omega)

theorem scan_of_read_raise (getenv : List Char → Option (List Char)) (s : Scanner)
    (code : parser_errors) (l k : Nat) (h : read getenv s = .raise code l k) :
    scan getenv s = .raise code l k := by
  simp [scan, scan_loop, h]

theorem scan_plain_overflow (getenv : List Char → Option (List Char)) (bs cs rest : List Char)
    (l k : Nat) (tok : token) (hb : ∀ c ∈ bs, blank_char c) (hc : ∀ c ∈ cs, plain_char c)
    (hlen : 2047 ≤ cs.length) :
    scan getenv ⟨bs ++ (cs ++ rest), l, k, tok⟩ = .raise PARSER_OVERFLOW 0 0 := by
  apply scan_of_read_raise
  have e : (bs ++ (cs ++ rest)).length + 1 = ((cs ++ rest).length + 1) + bs.length := by
    simp; omega
  simp only [read, read_init_eq]
  rw [e, read_loop_blanks getenv bs hb]
  cases cs with
  | nil => simp at hlen
  | cons c cs =>
    have e2 : (c :: cs ++ rest).length + 1 = ((cs ++ rest).length + 1) + 1 := by simp
    rw [e2, List.cons_append,
      read_loop_plain getenv _ false c _ l _ [] (hc c (by simp)) (by simp)]
    exact read_loop_plains_overflow getenv cs rest _ l _ _ (fun d hd => hc d (by simp [hd]))
      (by simp at hlen ⊢; omega) (by simp)

theorem scan_name_overflow (getenv : List Char → Option (List Char)) (bs cs rest : List Char)
    (l k : Nat) (tok : token) (hb : ∀ c ∈ bs, blank_char c) (hc : ∀ c ∈ cs, name_char c)
    (hlen : 2047 ≤ cs.length) :
    scan getenv ⟨bs ++ ('$' :: (cs ++ rest)), l, k, tok⟩ = .raise PARSER_OVERFLOW 0 0 := by
  apply scan_of_read_raise
  have e : (bs ++ ('$' :: (cs ++ rest))).length + 1 =
      (((cs ++ rest).length + 1) + 1) + bs.length := by
    simp; omega
  have hne : cur (cs ++ rest) ≠ '{' := by
    cases cs with
    | nil => simp at hlen
    | cons c cs =>
      have h := (hc c (by simp)).2
      simp [VAR_STOP] at h
      simp [cur, h]
  simp only [read, read_init_eq]
  rw [e, read_loop_blanks getenv bs hb,
    read_loop_var_open getenv _ false _ l _ [] (by simp) hne]
  exact read_loop_name_overflow getenv cs rest false [] (by simp) [] l _ _ hc
    (by simpa using hlen) (by simp)

theorem parser_parse_first_raise (getenv : List Char → Option (List Char)) (input : List Char)
    (code : parser_errors) (l k : Nat)
    (h : scan getenv ⟨input, 0, 0, ⟨UNKNOWN, []⟩⟩ = .raise code l k) :
    parser_parse getenv input = some ⟨[], code, messages code, l, k⟩ := by
  simp [parser_parse, parse_input, parse_input_loop, h]

theorem parser_parse_echo_raise (getenv : List Char → Option (List Char)) (rest : List Char)
    (code : parser_errors) (el ec : Nat)
    (h : ∀ l k tok, scan getenv ⟨' ' :: rest, l, k, tok⟩ = .raise code el ec) :
    parser_parse getenv (['e', 'c', 'h', 'o'] ++ ' ' :: rest) =
      some ⟨[], code, messages code, el, ec⟩ := by
  obtain ⟨l1, k1, h1⟩ := scan_word getenv [] [.plain ['e', 'c', 'h', 'o']] (' ' :: rest) 0 0
    ⟨UNKNOWN, []⟩ blank_nil (by simp) (echo_item_ok getenv).2.2.1
    (ends_word_blank ' ' rest (by simp [blank_char])) (echo_item_ok getenv).2.2.2
  simp only [render_word, Seg.render, List.nil_append, List.append_nil, expand_word,
    Seg.expand, List.cons_append] at h1
  simp only [parser_parse, parse_input, parse_input_loop, List.cons_append, List.nil_append, h1]
  simp [parse_pipe, parse_pipe_loop, parse_cmd, parse_prog, parse_prog_loop, get_ide, h]

theorem long_word_length : long_word.length = 2047 := List.length_replicate 2047 'x'

theorem long_word_ne_nil : long_word ≠ [] := by
  intro h
  have h1 := long_word_length
  rw [h] at h1
  simp at h1

theorem long_word_plain : ∀ c ∈ long_word, plain_char c := by
  intro c hc
  rw [List.eq_of_mem_replicate hc]
  decide

/-! ## Chains of external stages -/

theorem classify_code_redirect (prog : prog_args) (h : is_external prog)
    (hi : prog.input ≠ none) :
    classify_code .PIPE prog = .error PARSER_ILLEGAL_REDIRECTION := by
  obtain ⟨a, args, h, ha⟩ := h
  simp only [builtin_names, List.mem_cons, List.mem_singleton, List.not_mem_nil, or_false,
    not_or] at ha
  obtain ⟨h1, h2, h3, h4, h5, h6, h7⟩ := ha
  simp only [classify_code, classify, h, if_neg h1, if_neg h2, if_neg h3, if_neg h4, if_neg h5,
    if_neg h6, if_neg h7]
  simp [hi, raise_error, parser_errors.toNat]

theorem classify_code_ext (kind : cmd_kind) (prog : prog_args) (h : is_external prog)
    (hk : ¬ (kind = .PIPE ∧ prog.input ≠ none)) :
    classify_code kind prog = .ok (.external prog) := by
  obtain ⟨a, args, h, ha⟩ := h
  exact classify_code_external kind prog a args h ha hk

theorem pipe_verdict_cons (kind : cmd_kind) (p : prog_args) (ps : List prog_args) :
    pipe_verdict kind (p :: ps) =
      match classify_code kind p with
      | .error code => .error code
      | .ok (.builtin cmd) => if ps = [] then .ok cmd else .error PARSER_ILLEGAL_COMBINATION
      | .ok (.external p1) =>
        if ps = [] then .ok (cmds.external kind [p1])
        else if ¬ (kind = .PROG ∨ kind = .PIPE) then .error PARSER_ILLEGAL_COMBINATION
        else if p1.output ≠ none then .error PARSER_ILLEGAL_REDIRECTION
        else
          match pipe_verdict .PIPE ps with
          | .ok cmd => .ok (.PIPE (p1 :: cmd.stages))
          | .error code => .error code := by
  rw [pipe_verdict]

theorem pipe_verdict_ext (ps : List prog_args) :
    ∀ (p : prog_args) (kind : cmd_kind), (kind = .PROG ∨ kind = .PIPE) →
      (∀ q ∈ p :: ps, is_external q) →
      (redir_bad kind (p :: ps) →
        pipe_verdict kind (p :: ps) = .error PARSER_ILLEGAL_REDIRECTION) ∧
      (¬ redir_bad kind (p :: ps) →
        pipe_verdict kind (p :: ps) =
          .ok (if ps = [] then cmds.external kind [p] else .PIPE (p :: ps))) := by
  induction ps with
  | nil =>
    intro p kind _ hext
    have hp := hext p (by simp)
    constructor
    · intro hbad
      simp only [redir_bad] at hbad
      obtain ⟨rfl, hi⟩ := hbad
      simp [pipe_verdict, classify_code_redirect p hp hi]
    · intro hgood
      simp only [redir_bad] at hgood
      simp [pipe_verdict, classify_code_ext kind p hp hgood]
  | cons q qs ih =>
    intro p kind hkind hext
    have hp := hext p (by simp)
    obtain ⟨ih1, ih2⟩ := ih q .PIPE (Or.inr rfl) (fun r hr => hext r (by simp at hr ⊢; tauto))
    rw [pipe_verdict_cons kind p (q :: qs)]
    by_cases hin : kind = .PIPE ∧ p.input ≠ none
    · constructor
      · intro _
        obtain ⟨rfl, hi⟩ := hin
        simp [classify_code_redirect p hp hi]
      · intro hgood
        exact absurd (by simp only [redir_bad]; exact Or.inl hin) hgood
    · rw [classify_code_ext kind p hp hin]
      by_cases hout : p.output ≠ none
      · constructor
        · intro _
          simp [hkind, hout]
        · intro hgood
          exact absurd (by simp only [redir_bad]; exact Or.inr (Or.inl hout)) hgood
      · have hout1 : p.output = none := by simpa using hout
        by_cases hrec : redir_bad .PIPE (q :: qs)
        · constructor
          · intro _
            simp [hkind, hout1, ih1 hrec]
          · intro hgood
            exact absurd (by simp only [redir_bad]; exact Or.inr (Or.inr hrec)) hgood
        · constructor
          · intro hbad
            simp only [redir_bad] at hbad
            rcases hbad with h | h | h
            · exact absurd h hin
            · exact absurd h hout
            · exact absurd h hrec
          · intro _
            rw [ih2 hrec]
            by_cases hq : qs = [] <;> simp [hkind, hout1, hq, cmds.stages, cmds.external]

theorem apply_items_parts (getenv : List Char → Option (List Char)) (st : List Part) :
    ∀ prog : prog_args,
      (apply_items getenv prog (stage_items st)).argv = prog.argv ++ stage_words st ∧
      ((apply_items getenv prog (stage_items st)).input ≠ none ↔
        prog.input ≠ none ∨ has_input st) ∧
      ((apply_items getenv prog (stage_items st)).output ≠ none ↔
        prog.output ≠ none ∨ has_output st) ∧
      (apply_items getenv prog (stage_items st)).background = prog.background := by
  induction st with
  | nil => intro prog; simp [stage_items, apply_items, stage_words, has_input, has_output]
  | cons p st ih =>
    intro prog
    cases p with
    | word g w =>
      obtain ⟨h1, h2, h3, h4⟩ := ih (argv_add prog w)
      simp only [stage_items] at h1 h2 h3 h4
      simp only [stage_items, List.map_cons, Part.item, apply_items, Item.apply, expand_word,
        Seg.expand, List.append_nil, stage_words, h1, h2, h3, h4]
      simp [argv_add, has_input, has_output, Part.is_input, Part.is_output]
    | input g f file =>
      obtain ⟨h1, h2, h3, h4⟩ := ih { prog with input := some file }
      simp only [stage_items] at h1 h2 h3 h4
      simp only [stage_items, List.map_cons, Part.item, apply_items, Item.apply, expand_word,
        Seg.expand, List.append_nil, stage_words, h1, h2, h3, h4]
      simp [has_input, has_output, Part.is_input, Part.is_output]
    | output g f file =>
      obtain ⟨h1, h2, h3, h4⟩ := ih { prog with output := some file }
      simp only [stage_items] at h1 h2 h3 h4
      simp only [stage_items, List.map_cons, Part.item, apply_items, Item.apply, expand_word,
        Seg.expand, List.append_nil, stage_words, h1, h2, h3, h4]
      simp [has_input, has_output, Part.is_input, Part.is_output]

theorem part_item_ok (getenv : List Char → Option (List Char)) (p : Part)
    (h : p.gaps_ok ∧ plain_word p.text ∧ p.text.length ≤ 2046) : p.item.ok getenv := by
  obtain ⟨hg, ⟨hne, hpl⟩, hlen⟩ := h
  cases p <;>
    exact ⟨hg, by simp [Part.item, Item.word],
      by simp only [Part.item, Item.word, word_ok, Seg.ok]; exact ⟨⟨hne, hpl⟩, trivial⟩,
      by simpa [Part.item, Item.word, expand_word, Seg.expand] using hlen⟩

theorem part_item_sep (p : Part) (h : p.sep) : p.item.sep := by
  cases p with
  | word g w => exact h
  | input g f file => trivial
  | output g f file => trivial

theorem stage_items_ok (getenv : List Char → Option (List Char)) (st : List Part)
    (hne : st ≠ []) (h : parts_ok st) : stage_ok getenv (stage_items st) := by
  refine ⟨by simpa [stage_items] using hne, ?_, ?_⟩
  · intro j hj
    simp only [stage_items, List.mem_map] at hj
    obtain ⟨p, hp, rfl⟩ := hj
    exact part_item_ok getenv p (h.1 p hp)
  · intro j hj
    cases st with
    | nil => exact absurd rfl hne
    | cons q st =>
      simp only [stage_items, List.map_cons, List.tail_cons, List.mem_map] at hj
      obtain ⟨p, hp, rfl⟩ := hj
      exact part_item_sep p (h.2 p (by simpa using hp))

theorem stage_words_ne_nil (st : List Part) (h : stage_words st ≠ []) : st ≠ [] := by
  intro hs
  rw [hs] at h
  exact h rfl

/-! ## Pipelines of plain words with one space between them -/

theorem stage_words_plain (ws : List (List Char)) :
    ∀ g, stage_words (plain_parts g ws) = ws := by
  induction ws with
  | nil => intro g; rfl
  | cons w ws ih => intro g; simp [plain_parts, stage_words, ih]

theorem plain_parts_no_redirection (ws : List (List Char)) :
    ∀ g, ¬ has_input (plain_parts g ws) ∧ ¬ has_output (plain_parts g ws) := by
  induction ws with
  | nil => intro g; simp [plain_parts, has_input, has_output]
  | cons w ws ih =>
    intro g
    have h := ih [' ']
    simp only [has_input, has_output, not_exists, not_and] at h ⊢
    simp only [plain_parts, List.mem_cons]
    constructor
    · rintro p (rfl | hp)
      · simp [Part.is_input]
      · exact h.1 p hp
    · rintro p (rfl | hp)
      · simp [Part.is_output]
      · exact h.2 p hp

theorem apply_items_plain (getenv : List Char → Option (List Char)) (g : List Char)
    (ws : List (List Char)) :
    apply_items getenv argv_new (stage_items (plain_parts g ws)) = simple false ws := by
  obtain ⟨h1, h2, h3, h4⟩ := apply_items_parts getenv (plain_parts g ws) argv_new
  have hn := plain_parts_no_redirection ws g
  rw [stage_words_plain] at h1
  simp only [argv_new, ne_eq, not_true_eq_false, false_or, hn.1, hn.2, iff_false,
    not_not, List.nil_append] at h1 h2 h3 h4
  cases h : apply_items getenv argv_new (stage_items (plain_parts g ws)) with
  | mk i o b a =>
    simp only [argv_new] at h
    rw [h] at h1 h2 h3 h4
    simp only at h1 h2 h3 h4
    simp [simple, h1, h2, h3, h4]

theorem plain_parts_ok (ws : List (List Char)) :
    ∀ g, blanks g → (∀ w ∈ ws, plain_word w ∧ w.length ≤ 2046) → parts_ok (plain_parts g ws) := by
  induction ws with
  | nil => intro g _ _; simp [plain_parts, parts_ok]
  | cons w ws ih =>
    intro g hg h
    obtain ⟨ih1, ih2⟩ := ih [' '] blanks_space (fun v hv => h v (by simp [hv]))
    refine ⟨?_, ?_⟩
    · intro p hp
      simp only [plain_parts, List.mem_cons] at hp
      rcases hp with rfl | hp
      · exact ⟨hg, h w (by simp)⟩
      · exact ih1 p hp
    · intro p hp
      simp only [plain_parts, List.tail_cons] at hp
      cases ws with
      | nil => simp [plain_parts] at hp
      | cons v vs =>
        simp only [plain_parts, List.mem_cons] at hp
        rcases hp with rfl | hp
        · simp [Part.sep]
        · exact ih2 p (by simpa [plain_parts] using hp)

theorem plain_parts_ne_nil (g : List Char) (ws : List (List Char)) (h : ws ≠ []) :
    plain_parts g ws ≠ [] := by
  cases ws with
  | nil => exact absurd rfl h
  | cons w ws => simp [plain_parts]

theorem render_stage_plain (ws : List (List Char)) :
    ∀ g w, render_stage (stage_items (plain_parts g (w :: ws))) =
      g ++ join_with [' '] (w :: ws) := by
  induction ws with
  | nil =>
    intro g w
    simp [plain_parts, stage_items, Part.item, render_stage, Item.render, render_word,
      Seg.render, join_with]
  | cons v ws ih =>
    intro g w
    have h := ih [' '] v
    simp only [stage_items] at h
    simp only [plain_parts, stage_items, List.map_cons, Part.item, render_stage, Item.render,
      render_word, Seg.render, join_with] at h ⊢
    rw [h]
    simp

theorem join_stages (rest : List (List (List Char))) :
    ∀ ws1, (∀ ws ∈ rest, ws ≠ []) →
      join_with [' ', '|', ' '] ((ws1 :: rest).map (join_with [' '])) =
        join_with [' '] ws1 ++
          render_stages (rest.map (fun v => ([' '], stage_items (plain_parts [' '] v)))) := by
  induction rest with
  | nil => intro ws1 _; simp [join_with, render_stages]
  | cons v rest ih =>
    intro ws1 h
    have hv := h v (by simp)
    have hr := ih v (fun u hu => h u (by simp [hu]))
    cases v with
    | nil => exact absurd rfl hv
    | cons w ws =>
      simp only [List.map_cons] at hr ⊢
      simp only [join_with, hr, render_stages, render_stage_plain]
      simp

theorem plain_text_eq (ws1 : List (List Char)) (rest : List (List (List Char))) (amp : Bool)
    (hne : ws1 ≠ []) (h : ∀ ws ∈ rest, ws ≠ []) :
    plain_text (ws1 :: rest) amp =
      render_pipe (stage_items (plain_parts [] ws1))
          (rest.map (fun v => ([' '], stage_items (plain_parts [' '] v)))) ++
        render_end (if amp then some [' '] else none) [] := by
  cases ws1 with
  | nil => exact absurd rfl hne
  | cons w ws =>
    rw [plain_text, join_stages rest (w :: ws) h, render_pipe, render_stage_plain]
    cases amp <;> simp [render_end]

theorem stage_progs_plain (getenv : List Char → Option (List Char)) (amp : Bool)
    (L : List (List Char × List (List Char))) :
    stage_progs getenv (if amp then AMP else END)
        (L.map (fun r => stage_items (plain_parts r.1 r.2))) =
      plain_progs amp (L.map Prod.snd) := by
  induction L with
  | nil => simp [stage_progs, plain_progs]
  | cons r L ih =>
    cases L with
    | nil =>
      cases amp <;>
        simp [stage_progs, plain_progs, finish, apply_items_plain, simple]
    | cons r2 L =>
      simp only [List.map_cons] at ih ⊢
      simp only [stage_progs, plain_progs, ih, apply_items_plain]

theorem plain_progs_external (amp : Bool) (stages : List (List (List Char)))
    (h : ∀ ws ∈ stages, ∃ a args, ws = a :: args ∧ a ∉ builtin_names) :
    ∀ p ∈ plain_progs amp stages, is_external p ∧ p.input = none ∧ p.output = none := by
  induction stages with
  | nil => simp [plain_progs]
  | cons ws stages ih =>
    have hws := h ws (by simp)
    have ih1 := ih (fun w hw => h w (by simp [hw]))
    cases stages with
    | nil =>
      intro p hp
      simp only [plain_progs, List.mem_singleton] at hp
      subst hp
      exact ⟨by simpa [is_external, simple] using hws, rfl, rfl⟩
    | cons ws2 stages =>
      intro p hp
      simp only [plain_progs, List.mem_cons] at hp
      rcases hp with rfl | hp
      · exact ⟨by simpa [is_external, simple] using hws, rfl, rfl⟩
      · exact ih1 p (by simpa [plain_progs] using hp)

theorem redir_bad_none (ps : List prog_args) :
    ∀ kind, (∀ p ∈ ps, p.input = none ∧ p.output = none) → ¬ redir_bad kind ps := by
  induction ps with
  | nil => intro kind _; simp [redir_bad]
  | cons p ps ih =>
    intro kind h
    have hp := h p (by simp)
    cases ps with
    | nil => simp [redir_bad, hp.1]
    | cons q qs =>
      have := ih .PIPE (fun r hr => h r (by simp at hr ⊢; tauto))
      simp [redir_bad, hp.1, hp.2, this]

theorem plain_progs_ne_nil (amp : Bool) (stages : List (List (List Char)))
    (h : stages ≠ []) : plain_progs amp stages ≠ [] := by
  cases stages with
  | nil => exact absurd rfl h
  | cons ws stages => cases stages <;> simp [plain_progs]

theorem plain_progs_length (amp : Bool) (stages : List (List (List Char))) :
    (plain_progs amp stages).length = stages.length := by
  induction stages with
  | nil => rfl
  | cons ws stages ih =>
    cases stages with
    | nil => rfl
    | cons ws2 stages => simp only [plain_progs, List.length_cons] at ih ⊢; omega

theorem parser_parse_plain_pipe (getenv : List Char → Option (List Char))
    (stages : List (List (List Char))) (amp : Bool) (hne : stages ≠ [])
    (hst : ∀ ws ∈ stages, (∃ a args, ws = a :: args ∧ a ∉ builtin_names) ∧
      ∀ w ∈ ws, plain_word w ∧ w.length ≤ 2046) :
    parser_parse getenv (plain_text stages amp) =
      some (success [if stages.length = 1 then .PROG (plain_progs amp stages)
        else .PIPE (plain_progs amp stages)]) := by
  cases stages with
  | nil => exact absurd rfl hne
  | cons ws stages =>
    have hnn : ∀ v ∈ ws :: stages, v ≠ [] := by
      intro v hv
      obtain ⟨⟨a, args, rfl, _⟩, _⟩ := hst v hv
      simp
    have h := parser_parse_pipe getenv (stage_items (plain_parts [] ws))
      (stages.map (fun v => ([' '], stage_items (plain_parts [' '] v))))
      (if amp then some [' '] else none) []
      (stage_items_ok getenv _ (plain_parts_ne_nil _ _ (hnn ws (by simp)))
        (plain_parts_ok ws [] blanks_nil (hst ws (by simp)).2))
      (by
        intro r hr
        obtain ⟨v, hv, rfl⟩ := List.mem_map.mp hr
        exact ⟨blanks_space, stage_items_ok getenv _
          (plain_parts_ne_nil _ _ (hnn v (by simp [hv])))
          (plain_parts_ok v [' '] blanks_space (hst v (by simp [hv])).2)⟩)
      (by cases amp <;> simp [blanks_space])
      blanks_nil
    have hT : end_token (if amp then some [' '] else none) = if amp then AMP else END := by
      cases amp <;> rfl
    have hL := stage_progs_plain getenv amp (([], ws) :: stages.map (fun v => ([' '], v)))
    have e1 : (([], ws) :: stages.map (fun v => ([' '], v))).map
          (fun r => stage_items (plain_parts r.1 r.2)) =
        stage_items (plain_parts [] ws) ::
          (stages.map (fun v => ([' '], stage_items (plain_parts [' '] v)))).map Prod.snd := by
      simp [List.map_map, Function.comp_def]
    have e2 : (([], ws) :: stages.map (fun v => (([' '] : List Char), v))).map Prod.snd =
        ws :: stages := by
      simp [List.map_map, Function.comp_def]
    rw [e1, e2] at hL
    rw [hT, hL] at h
    rw [plain_text_eq ws stages amp (hnn ws (by simp)) (fun v hv => hnn v (by simp [hv]))]
    have hext := plain_progs_external amp (ws :: stages) (fun v hv => (hst v hv).1)
    have hgood := redir_bad_none (plain_progs amp (ws :: stages)) .PROG
      (fun p hp => (hext p hp).2)
    have hlen := plain_progs_length amp (ws :: stages)
    cases hp : plain_progs amp (ws :: stages) with
    | nil => exact absurd hp (plain_progs_ne_nil amp _ (by simp))
    | cons p ps =>
      rw [hp] at hext hgood h hlen
      have hv := (pipe_verdict_ext ps p .PROG (Or.inl rfl) (fun q hq => (hext q hq).1)).2 hgood
      rw [hv] at h
      simp only [success, messages] at h ⊢
      rw [h]
      cases ps with
      | nil =>
        have : stages.length = 0 := by simpa using hlen.symm
        simp [this, cmds.external]
      | cons q qs =>
        have : stages.length ≠ 0 := by simp at hlen; omega
        simp [this]

theorem head_not_builtin (ws : List (List Char)) (hne : ws ≠ [])
    (h : ∀ a ∈ ws.head?, a ∉ builtin_names) : ∃ a args, ws = a :: args ∧ a ∉ builtin_names := by
  cases ws with
  | nil => exact absurd rfl hne
  | cons a args => exact ⟨a, args, rfl, h a (by simp)⟩

theorem long_word_not_builtin : long_word ∉ builtin_names := by
  intro h
  simp only [builtin_names, List.mem_cons, List.mem_singleton, List.not_mem_nil, or_false] at h
  have hl := long_word_length
  rcases h with h | h | h | h | h | h | h <;> rw [h] at hl <;> simp at hl

theorem long_word_is_plain : plain_word long_word := ⟨long_word_ne_nil, long_word_plain⟩

theorem parser_parse_long_word (getenv : List Char → Option (List Char)) (rest : List Char) :
    parser_parse getenv (long_word ++ rest) =
      some ⟨[], PARSER_OVERFLOW, "Overflow of internal buffer.", 0, 0⟩ := by
  have h := scan_plain_overflow getenv [] long_word rest 0 0 ⟨UNKNOWN, []⟩ blank_nil
    long_word_plain (by rw [long_word_length])
  simpa [messages] using parser_parse_first_raise getenv _ PARSER_OVERFLOW 0 0 h

/-! ## Builtins in a chain of stages -/

theorem get_int_code (s : Scanner) (number : List Char) (l k : Nat) :
    get_int s number ≠ .raise PARSER_OK l k := by
  unfold get_int
  cases sscanf_i number with
  | none => simp [raise_error, parser_errors.toNat]
  | some v => by_cases h : v < 0 <;> simp [h, raise_error, parser_errors.toNat]

theorem classify_code_pos (s : Scanner) (kind : cmd_kind) (prog : prog_args) (l k : Nat) :
    classify s kind prog ≠ .raise PARSER_OK l k := by
  obtain ⟨i, o, b, argv⟩ := prog
  cases argv with
  | nil => simp [classify, raise_error, parser_errors.toNat]
  | cons argv0 args =>
    simp only [classify]
    by_cases h1 : argv0 = ['e', 'x', 'i', 't']
    · simp only [if_pos h1]
      by_cases h : kind ≠ .PROG
      · simp only [if_pos h]; simp [classify, raise_error, parser_errors.toNat]
      · simp only [if_neg h]; simp [classify, raise_error, parser_errors.toNat]
    simp only [if_neg h1]
    by_cases h2 : argv0 = ['c', 'd']
    · simp only [if_pos h2]
      by_cases h : kind = .PIPE
      · simp only [if_pos h]; simp [classify, raise_error, parser_errors.toNat]
      · simp only [if_neg h]; simp [classify, raise_error, parser_errors.toNat]
    simp only [if_neg h2]
    by_cases h3 : argv0 = ['u', 'n', 's', 'e', 't', 'e', 'n', 'v']
    · simp only [if_pos h3]
      by_cases h : kind = .PIPE
      · simp only [if_pos h]; simp [classify, raise_error, parser_errors.toNat]
      · simp only [if_neg h]
        cases args <;> simp [classify, raise_error, parser_errors.toNat]
    simp only [if_neg h3]
    by_cases h4 : argv0 = ['s', 'e', 't', 'e', 'n', 'v']
    · simp only [if_pos h4]
      by_cases h : kind = .PIPE
      · simp only [if_pos h]; simp [classify, raise_error, parser_errors.toNat]
      · simp only [if_neg h]
        cases args with
        | nil => simp [classify, raise_error, parser_errors.toNat]
        | cons a as => cases as <;> simp [classify, raise_error, parser_errors.toNat]
    simp only [if_neg h4]
    by_cases h5 : argv0 = ['j', 'o', 'b', 's']
    · simp only [if_pos h5]
      by_cases h : kind = .PIPE
      · simp only [if_pos h]; simp [classify, raise_error, parser_errors.toNat]
      · simp only [if_neg h]
        cases args with
        | nil => simp [classify, raise_error, parser_errors.toNat]
        | cons a as =>
          simp only []
          have hg := get_int_code s a l k
          cases hgi : get_int s a <;> simp [hgi] at hg ⊢
          exact hg
    simp only [if_neg h5]
    by_cases h6 : argv0 = ['b', 'g']
    · simp only [if_pos h6]
      by_cases h : kind = .PIPE
      · simp only [if_pos h]; simp [classify, raise_error, parser_errors.toNat]
      · simp only [if_neg h]
        cases args with
        | nil => simp [classify, raise_error, parser_errors.toNat]
        | cons a as =>
          simp only []
          have hg := get_int_code s a l k
          cases hgi : get_int s a <;> simp [hgi] at hg ⊢
          exact hg
    simp only [if_neg h6]
    by_cases h7 : argv0 = ['f', 'g']
    · simp only [if_pos h7]
      by_cases h : kind = .PIPE
      · simp only [if_pos h]; simp [classify, raise_error, parser_errors.toNat]
      · simp only [if_neg h]
        cases args with
        | nil => simp [classify, raise_error, parser_errors.toNat]
        | cons a as =>
          simp only []
          have hg := get_int_code s a l k
          cases hgi : get_int s a <;> simp [hgi] at hg ⊢
          exact hg
    simp only [if_neg h7]
    by_cases h : kind = .PIPE ∧ (i ≠ none)
    · simp only [if_pos h]; simp [classify, raise_error, parser_errors.toNat]
    · simp only [if_neg h]; simp [classify, raise_error, parser_errors.toNat]

theorem classify_code_ne_ok (kind : cmd_kind) (prog : prog_args) :
    classify_code kind prog ≠ .error PARSER_OK := by
  have h1 := classify_ne_fuel ⟨[], 0, 0, ⟨UNKNOWN, []⟩⟩ kind prog
  unfold classify_code
  cases h : classify ⟨[], 0, 0, ⟨UNKNOWN, []⟩⟩ kind prog with
  | ok r => simp
  | raise code l k =>
    have h2 := classify_code_pos ⟨[], 0, 0, ⟨UNKNOWN, []⟩⟩ kind prog l k
    rw [h] at h2
    intro h3
    simp only [Except.error.injEq] at h3
    subst h3
    exact h2 rfl
  | fuel => exact absurd h h1

theorem classify_code_builtin_pipe (prog : prog_args) (h : is_builtin prog) :
    classify_code .PIPE prog = .error PARSER_ILLEGAL_COMBINATION := by
  obtain ⟨a, args, h, ha⟩ := h
  simp only [builtin_names, List.mem_cons, List.mem_singleton, List.not_mem_nil, or_false] at ha
  rcases ha with rfl | rfl | rfl | rfl | rfl | rfl | rfl <;>
    simp [classify_code, classify, h, raise_error, parser_errors.toNat]

theorem classify_code_builtin_prog (prog p1 : prog_args) (h : is_builtin prog) :
    classify_code .PROG prog ≠ .ok (.external p1) := by
  obtain ⟨a, args, h, ha⟩ := h
  simp only [builtin_names, List.mem_cons, List.mem_singleton, List.not_mem_nil, or_false] at ha
  have hf := classify_ne_fuel ⟨[], 0, 0, ⟨UNKNOWN, []⟩⟩ .PROG prog
  rcases ha with rfl | rfl | rfl | rfl | rfl | rfl | rfl
  · simp [classify_code, classify, h]
  · simp [classify_code, classify, h]
  · cases args <;> simp [classify_code, classify, h, raise_error, parser_errors.toNat]
  · cases args with
    | nil => simp [classify_code, classify, h, raise_error, parser_errors.toNat]
    | cons x xs => cases xs <;> simp [classify_code, classify, h, raise_error, parser_errors.toNat]
  · cases args with
    | nil => simp [classify_code, classify, h]
    | cons x xs =>
      simp only [classify_code, classify, h] at hf ⊢
      simp at hf ⊢
      cases hg : get_int ⟨[], 0, 0, ⟨UNKNOWN, []⟩⟩ x <;> simp [hg] at hf ⊢
  · cases args with
    | nil => simp [classify_code, classify, h]
    | cons x xs =>
      simp only [classify_code, classify, h] at hf ⊢
      simp at hf ⊢
      cases hg : get_int ⟨[], 0, 0, ⟨UNKNOWN, []⟩⟩ x <;> simp [hg] at hf ⊢
  · cases args with
    | nil => simp [classify_code, classify, h]
    | cons x xs =>
      simp only [classify_code, classify, h] at hf ⊢
      simp at hf ⊢
      cases hg : get_int ⟨[], 0, 0, ⟨UNKNOWN, []⟩⟩ x <;> simp [hg] at hf ⊢

theorem external_or_builtin (p : prog_args) (h : p.argv ≠ []) : is_external p ∨ is_builtin p := by
  cases hp : p.argv with
  | nil => exact absurd hp h
  | cons a args =>
    by_cases ha : a ∈ builtin_names
    · exact Or.inr ⟨a, args, hp, ha⟩
    · exact Or.inl ⟨a, args, hp, ha⟩

theorem pipe_verdict_builtin (ps : List prog_args) :
    (∀ p ∈ ps, p.argv ≠ [] ∧ p.input = none ∧ p.output = none) → (∃ p ∈ ps, is_builtin p) →
      pipe_verdict .PIPE ps = .error PARSER_ILLEGAL_COMBINATION := by
  induction ps with
  | nil => intro _ h; simp at h
  | cons p ps ih =>
    intro hall hex
    obtain ⟨hne, hin, hout⟩ := hall p (by simp)
    rw [pipe_verdict_cons]
    rcases external_or_builtin p hne with hp | hp
    · have hps : ∃ q ∈ ps, is_builtin q := by
        obtain ⟨q, hq, hb⟩ := hex
        simp only [List.mem_cons] at hq
        rcases hq with rfl | hq
        · obtain ⟨a, args, h1, h2⟩ := hp
          obtain ⟨b, args2, h3, h4⟩ := hb
          rw [h1] at h3
          simp only [List.cons.injEq] at h3
          rw [h3.1] at h2
          exact absurd h4 h2
        · exact ⟨q, hq, hb⟩
      have hne2 : ps ≠ [] := by
        intro h
        simp [h] at hps
      rw [classify_code_ext .PIPE p hp (by simp [hin]),
        ih (fun q hq => hall q (by simp [hq])) hps]
      simp [hne2, hout]
    · rw [classify_code_builtin_pipe p hp]

theorem pipe_verdict_builtin_prog (p : prog_args) (ps : List prog_args) (hps : ps ≠ [])
    (hall : ∀ q ∈ p :: ps, q.argv ≠ [] ∧ q.input = none ∧ q.output = none)
    (hex : ∃ q ∈ p :: ps, is_builtin q) (hfirst : ∃ r, classify_code .PROG p = .ok r) :
    pipe_verdict .PROG (p :: ps) = .error PARSER_ILLEGAL_COMBINATION := by
  obtain ⟨r, hr⟩ := hfirst
  rw [pipe_verdict_cons, hr]
  cases r with
  | builtin cmd => simp [hps]
  | external p1 =>
    have hnb : ¬ is_builtin p := fun hbi => classify_code_builtin_prog _ p1 hbi hr
    have hext : is_external p := by
      rcases external_or_builtin p (hall p (by simp)).1 with h | h
      · exact h
      · exact absurd h hnb
    have hp1 : p1 = p := by
      rw [classify_code_ext .PROG _ hext (by simp)] at hr
      simp only [Except.ok.injEq, parsed.external.injEq] at hr
      exact hr.symm
    have hex2 : ∃ q ∈ ps, is_builtin q := by
      obtain ⟨q, hq, hb⟩ := hex
      simp only [List.mem_cons] at hq
      rcases hq with rfl | hq
      · exact absurd hb hnb
      · exact ⟨q, hq, hb⟩
    rw [pipe_verdict_builtin ps (fun q hq => hall q (by simp [hq])) hex2]
    simp [hps, hp1, (hall p (by simp)).2.2]

/-! ## Pipelines written with plain words -/

theorem stage_progs_end (getenv : List Char → Option (List Char)) (sts : List (List Item)) :
    stage_progs getenv END sts = sts.map (apply_items getenv argv_new) := by
  induction sts with
  | nil => rfl
  | cons st sts ih =>
    cases sts with
    | nil => simp [stage_progs, finish]
    | cons st2 sts => simp only [stage_progs, List.map_cons] at ih ⊢; rw [ih]

theorem parser_parse_parts (getenv : List Char → Option (List Char)) (st : List Part)
    (rest : List (List Char × List Part)) (trail : List Char)
    (hst : ∀ s ∈ st :: rest.map Prod.snd, s ≠ [] ∧ parts_ok s)
    (hg : ∀ r ∈ rest, blanks r.1) (htrail : blanks trail) :
    match pipe_verdict .PROG ((st :: rest.map Prod.snd).map
        (fun s => apply_items getenv argv_new (stage_items s))) with
    | .ok cmd =>
      parser_parse getenv (pipe_text st rest trail) =
        some ⟨[cmd], PARSER_OK, messages PARSER_OK, 0, 0⟩
    | .error code =>
      ∃ l k, parser_parse getenv (pipe_text st rest trail) =
        some ⟨[], code, messages code, l, k⟩ := by
  have h := parser_parse_pipe getenv (stage_items st)
    (rest.map (fun r => (r.1, stage_items r.2))) none trail
    (stage_items_ok getenv st (hst st (by simp)).1 (hst st (by simp)).2)
    (by
      intro r hr
      obtain ⟨q, hq, rfl⟩ := List.mem_map.mp hr
      have hq2 := hst q.2 (by simp only [List.mem_cons, List.mem_map]; exact Or.inr ⟨q, hq, rfl⟩)
      exact ⟨hg q hq, stage_items_ok getenv q.2 hq2.1 hq2.2⟩)
    (by simp) htrail
  have e : stage_progs getenv (end_token none)
      (stage_items st :: (rest.map (fun r => (r.1, stage_items r.2))).map Prod.snd) =
      (st :: rest.map Prod.snd).map (fun s => apply_items getenv argv_new (stage_items s)) := by
    simp only [end_token]
    rw [stage_progs_end]
    simp [List.map_map, Function.comp_def]
  rw [e] at h
  simpa [pipe_text, render_end] using h

theorem apply_items_words (getenv : List Char → Option (List Char)) (st : List Part)
    (hi : ¬ has_input st) (ho : ¬ has_output st) :
    apply_items getenv argv_new (stage_items st) = simple false (stage_words st) := by
  obtain ⟨h1, h2, h3, h4⟩ := apply_items_parts getenv st argv_new
  simp only [argv_new, ne_eq, not_true_eq_false, false_or, hi, ho, iff_false,
    not_not, List.nil_append] at h1 h2 h3 h4
  cases h : apply_items getenv argv_new (stage_items st) with
  | mk i o b a =>
    simp only [argv_new] at h
    rw [h] at h1 h2 h3 h4
    simp only at h1 h2 h3 h4
    simp [simple, h1, h2, h3, h4]

theorem first_stage_ok (getenv : List Char → Option (List Char)) (st : List Part)
    (hne : st ≠ []) (hok : parts_ok st)
    (hfirst : ∃ list, parser_parse getenv (pipe_text st [] []) =
      some ⟨list, PARSER_OK, "Ok.", 0, 0⟩) :
    ∃ r, classify_code .PROG (apply_items getenv argv_new (stage_items st)) = .ok r := by
  have h1 := parser_parse_parts getenv st [] [] (by simpa using ⟨hne, hok⟩) (by simp)
    blanks_nil
  simp only [List.map_nil, List.map_cons] at h1
  cases hcc : classify_code .PROG (apply_items getenv argv_new (stage_items st)) with
  | ok r => exact ⟨r, rfl⟩
  | error code =>
    rw [pipe_verdict_cons, hcc] at h1
    obtain ⟨l, k, h2⟩ := h1
    obtain ⟨list, h3⟩ := hfirst
    rw [h3] at h2
    simp only [Option.some.injEq, Outcome.mk.injEq] at h2
    have := classify_code_ne_ok .PROG (apply_items getenv argv_new (stage_items st))
    rw [hcc, ← h2.2.1] at this
    exact absurd rfl this

theorem parser_parse_builtin_pipe (getenv : List Char → Option (List Char)) (st1 : List Part)
    (g2 : List Char) (st2 : List Part) (rest : List (List Char × List Part))
    (trail : List Char)
    (hg : blanks g2 ∧ (∀ r ∈ rest, blanks r.1) ∧ blanks trail)
    (hst : ∀ st ∈ st1 :: st2 :: rest.map Prod.snd,
      st ≠ [] ∧ parts_ok st ∧ ¬ has_input st ∧ ¬ has_output st)
    (hb : ∃ st ∈ st1 :: st2 :: rest.map Prod.snd,
      ∃ a ∈ (stage_words st).head?, a ∈ builtin_names)
    (hfirst : ∃ list, parser_parse getenv (pipe_text st1 [] []) =
      some ⟨list, PARSER_OK, "Ok.", 0, 0⟩) :
    ∃ l k, parser_parse getenv (pipe_text st1 ((g2, st2) :: rest) trail) =
      some ⟨[], PARSER_ILLEGAL_COMBINATION,
        "Illegal combination of internal and external commands.", l, k⟩ := by
  have h := parser_parse_parts getenv st1 ((g2, st2) :: rest) trail
    (by
      intro s hs
      have := hst s (by simpa using hs)
      exact ⟨this.1, this.2.1⟩)
    (by
      intro r hr
      simp only [List.mem_cons] at hr
      rcases hr with rfl | hr
      · exact hg.1
      · exact hg.2.1 r hr)
    hg.2.2
  have hr1 := first_stage_ok getenv st1 (hst st1 (by simp)).1 (hst st1 (by simp)).2.1 hfirst
  have hwords : ∀ st ∈ st1 :: st2 :: rest.map Prod.snd,
      apply_items getenv argv_new (stage_items st) = simple false (stage_words st) ∧
        stage_words st ≠ [] := by
    intro st hs
    obtain ⟨hne, _, hi, ho⟩ := hst st hs
    refine ⟨apply_items_words getenv st hi ho, ?_⟩
    cases st with
    | nil => exact absurd rfl hne
    | cons p ps =>
      cases p with
      | word g w => simp [stage_words]
      | input g f file => exact absurd ⟨Part.input g f file, by simp, rfl⟩ hi
      | output g f file => exact absurd ⟨Part.output g f file, by simp, rfl⟩ ho
  have hv : pipe_verdict .PROG ((st1 :: ((g2, st2) :: rest).map Prod.snd).map
      (fun s => apply_items getenv argv_new (stage_items s))) =
      .error PARSER_ILLEGAL_COMBINATION := by
    have e : (st1 :: ((g2, st2) :: rest).map Prod.snd).map
        (fun s => apply_items getenv argv_new (stage_items s)) =
        apply_items getenv argv_new (stage_items st1) :: (st2 :: rest.map Prod.snd).map
          (fun s => apply_items getenv argv_new (stage_items s)) := rfl
    rw [e]
    apply pipe_verdict_builtin_prog _ _ (by simp)
    · intro q hq
      have hq1 : q ∈ (st1 :: st2 :: rest.map Prod.snd).map
          (fun s => apply_items getenv argv_new (stage_items s)) := hq
      obtain ⟨s, hs, rfl⟩ := List.mem_map.mp hq1
      obtain ⟨e1, hne⟩ := hwords s hs
      rw [e1]
      exact ⟨by simpa [simple] using hne, rfl, rfl⟩
    · obtain ⟨s, hs, a, ha, hab⟩ := hb
      refine ⟨apply_items getenv argv_new (stage_items s), ?_, ?_⟩
      · have hm : apply_items getenv argv_new (stage_items s) ∈
            (st1 :: st2 :: rest.map Prod.snd).map
              (fun s => apply_items getenv argv_new (stage_items s)) :=
          List.mem_map.mpr ⟨s, hs, rfl⟩
        exact hm
      · rw [(hwords s hs).1]
        cases hw : stage_words s with
        | nil => rw [hw] at ha; simp at ha
        | cons x xs =>
          rw [hw] at ha
          simp only [List.head?_cons, Option.mem_def, Option.some.injEq] at ha
          subst ha
          exact ⟨x, xs, rfl, hab⟩
    · exact hr1
  rw [hv] at h
  simpa [messages] using h

theorem parser_parse_second_raise (getenv : List Char → Option (List Char)) (st : List Item)
    (g rest : List Char) (code : parser_errors) (el ec : Nat)
    (hst : stage_ok getenv st) (hg : blanks g)
    (hc : classify_code .PROG (apply_items getenv argv_new st) =
      .ok (.external (apply_items getenv argv_new st)))
    (hout : (apply_items getenv argv_new st).output = none)
    (h : ∀ l k tok, scan getenv ⟨rest, l, k, tok⟩ = .raise code el ec) :
    parser_parse getenv (render_stage st ++ (g ++ '|' :: rest)) =
      some ⟨[], code, messages code, el, ec⟩ := by
  have hend := stage_end_punct getenv g '|' rest hg (by simp)
  have hp : punct '|' = STROKE := by simp [punct]
  rw [hp] at hend
  obtain ⟨s1, hs1, hk, _, hcmd⟩ :=
    parse_cmd_stage getenv st _ STROKE _ 0 0 ⟨UNKNOWN, []⟩ hst hend
  obtain ⟨l1, k1, hc1⟩ := hcmd .PROG argv_new
  rw [finish_stroke] at hc1
  have hne : s1.lookahead.kind ≠ END := by
    rcases hk with h | h | h <;> simp [h]
  rcases classify_cases ⟨rest, l1, k1, ⟨STROKE, []⟩⟩ .PROG (apply_items getenv argv_new st) with
    ⟨r, h1, h2⟩ | ⟨c, l2, k2, _, h2⟩
  · rw [hc] at h2
    simp only [Except.ok.injEq] at h2
    subst h2
    rw [h1] at hc1
    simp only [parser_parse, parse_input, parse_input_loop, hs1, hne, if_false, parse_pipe,
      parse_pipe_loop, hc1]
    simp [hout, h]
  · rw [hc] at h2
    simp at h2

/-! ## Redirections in a chain of stages -/

theorem redir_bad_stages (getenv : List Char → Option (List Char)) (sts : List (List Part)) :
    ∀ (st : List Part) (kind : cmd_kind),
      redir_bad kind ((st :: sts).map (fun s => apply_items getenv argv_new (stage_items s))) ↔
        (kind = .PIPE ∧ has_input st) ∨ (∃ s ∈ sts, has_input s) ∨
          (∃ s ∈ (st :: sts).dropLast, has_output s) := by
  induction sts with
  | nil =>
    intro st kind
    have h := (apply_items_parts getenv st argv_new).2.1
    simp only [List.map_cons, List.map_nil, redir_bad, h]
    simp [argv_new]
  | cons s2 sts ih =>
    intro st kind
    have h1 := (apply_items_parts getenv st argv_new).2.1
    have h2 := (apply_items_parts getenv st argv_new).2.2.1
    have hrec := ih s2 .PIPE
    simp only [List.map_cons] at hrec ⊢
    simp only [redir_bad, h1, h2, hrec, List.dropLast_cons₂]
    simp only [argv_new, ne_eq, not_true_eq_false, false_or, true_and, List.mem_cons,
      exists_eq_or_imp]
    clear ih h1 h2 hrec
    generalize (∃ s ∈ sts, has_input s) = C
    generalize (∃ s ∈ (s2 :: sts).dropLast, has_output s) = D
    tauto

theorem parser_parse_redirections (getenv : List Char → Option (List Char)) (st1 : List Part)
    (g2 : List Char) (st2 : List Part) (rest : List (List Char × List Part))
    (trail : List Char)
    (hg : blanks g2 ∧ (∀ r ∈ rest, blanks r.1) ∧ blanks trail)
    (hst : ∀ st ∈ st1 :: st2 :: rest.map Prod.snd, parts_ok st ∧ stage_words st ≠ [] ∧
      ∀ a ∈ (stage_words st).head?, a ∉ builtin_names) :
    (((∀ st ∈ st2 :: rest.map Prod.snd, ¬ has_input st) ∧
          (∀ st ∈ (st1 :: st2 :: rest.map Prod.snd).dropLast, ¬ has_output st)) →
        ∃ progs, parser_parse getenv (pipe_text st1 ((g2, st2) :: rest) trail) =
          some ⟨[.PIPE progs], PARSER_OK, "Ok.", 0, 0⟩) ∧
      (¬ ((∀ st ∈ st2 :: rest.map Prod.snd, ¬ has_input st) ∧
          (∀ st ∈ (st1 :: st2 :: rest.map Prod.snd).dropLast, ¬ has_output st)) →
        ∃ l k, parser_parse getenv (pipe_text st1 ((g2, st2) :: rest) trail) =
          some ⟨[], PARSER_ILLEGAL_REDIRECTION, "Illegal input/output redirection in pipe.",
            l, k⟩) := by
  have h := parser_parse_parts getenv st1 ((g2, st2) :: rest) trail
    (by
      intro s hs
      have := hst s (by simpa using hs)
      exact ⟨stage_words_ne_nil s this.2.1, this.1⟩)
    (by
      intro r hr
      simp only [List.mem_cons] at hr
      rcases hr with rfl | hr
      · exact hg.1
      · exact hg.2.1 r hr)
    hg.2.2
  have e : (st1 :: ((g2, st2) :: rest).map Prod.snd).map
      (fun s => apply_items getenv argv_new (stage_items s)) =
      apply_items getenv argv_new (stage_items st1) :: (st2 :: rest.map Prod.snd).map
        (fun s => apply_items getenv argv_new (stage_items s)) := rfl
  rw [e] at h
  have hext : ∀ q ∈ apply_items getenv argv_new (stage_items st1) ::
      (st2 :: rest.map Prod.snd).map (fun s => apply_items getenv argv_new (stage_items s)),
      is_external q := by
    intro q hq
    have hq1 : q ∈ (st1 :: st2 :: rest.map Prod.snd).map
        (fun s => apply_items getenv argv_new (stage_items s)) := hq
    obtain ⟨v, hv, rfl⟩ := List.mem_map.mp hq1
    obtain ⟨_, hne, hhead⟩ := hst v hv
    have harg := (apply_items_parts getenv v argv_new).1
    simp only [argv_new, List.nil_append] at harg
    obtain ⟨a, args, h1, h2⟩ := head_not_builtin (stage_words v) hne hhead
    exact ⟨a, args, by rw [← h1]; exact harg, h2⟩
  obtain ⟨hbad, hgood⟩ := pipe_verdict_ext
    ((st2 :: rest.map Prod.snd).map (fun s => apply_items getenv argv_new (stage_items s)))
    (apply_items getenv argv_new (stage_items st1)) .PROG (Or.inl rfl) hext
  have hiff := redir_bad_stages getenv (st2 :: rest.map Prod.snd) st1 .PROG
  have e2 : (st1 :: st2 :: rest.map Prod.snd).map
      (fun s => apply_items getenv argv_new (stage_items s)) =
      apply_items getenv argv_new (stage_items st1) :: (st2 :: rest.map Prod.snd).map
        (fun s => apply_items getenv argv_new (stage_items s)) := rfl
  rw [e2] at hiff
  constructor
  · intro hlegal
    have hnb : ¬ redir_bad .PROG (apply_items getenv argv_new (stage_items st1) ::
        (st2 :: rest.map Prod.snd).map
          (fun s => apply_items getenv argv_new (stage_items s))) := by
      rw [hiff]
      rintro (h1 | ⟨s, hs, h2⟩ | ⟨s, hs, h2⟩)
      · simp at h1
      · exact hlegal.1 s hs h2
      · exact hlegal.2 s hs h2
    rw [hgood hnb] at h
    simp only [List.map_cons, List.cons_ne_nil, if_false] at h
    exact ⟨_, by simpa [messages] using h⟩
  · intro hill
    have hb : redir_bad .PROG (apply_items getenv argv_new (stage_items st1) ::
        (st2 :: rest.map Prod.snd).map
          (fun s => apply_items getenv argv_new (stage_items s))) := by
      rw [hiff]
      by_contra hcon
      apply hill
      constructor
      · intro s hs h2
        exact hcon (Or.inr (Or.inl ⟨s, hs, h2⟩))
      · intro s hs h2
        exact hcon (Or.inr (Or.inr ⟨s, hs, h2⟩))
    rw [hbad hb] at h
    simpa [messages] using h


/-! ## What a successful parse returns -/

theorem classify_ok_inv (s : Scanner) (kind : cmd_kind) (prog : prog_args) :
    ∀ r, classify s kind prog = .ok r →
      (∃ c, r = .builtin c ∧ c.stages = []) ∨ (r = .external prog ∧ is_external prog) := by
  obtain ⟨i, o, b, argv⟩ := prog
  cases argv with
  | nil => (intro r hr; simp [classify, raise_error, parser_errors.toNat] at hr)
  | cons argv0 args =>
    simp only [classify]
    by_cases h1 : argv0 = ['e', 'x', 'i', 't']
    · simp only [if_pos h1]
      by_cases h : kind ≠ .PROG
      · simp only [if_pos h]; (intro r hr; simp [classify, raise_error, parser_errors.toNat] at hr)
      · simp only [if_neg h]; (intro r hr; simp at hr; subst hr; simp [cmds.stages])
    simp only [if_neg h1]
    by_cases h2 : argv0 = ['c', 'd']
    · simp only [if_pos h2]
      by_cases h : kind = .PIPE
      · simp only [if_pos h]; (intro r hr; simp [classify, raise_error, parser_errors.toNat] at hr)
      · simp only [if_neg h]; (intro r hr; simp at hr; subst hr; simp [cmds.stages])
    simp only [if_neg h2]
    by_cases h3 : argv0 = ['u', 'n', 's', 'e', 't', 'e', 'n', 'v']
    · simp only [if_pos h3]
      by_cases h : kind = .PIPE
      · simp only [if_pos h]; (intro r hr; simp [classify, raise_error, parser_errors.toNat] at hr)
      · simp only [if_neg h]
        cases args with
        | nil => (intro r hr; simp [classify, raise_error, parser_errors.toNat] at hr)
        | cons a as => (intro r hr; simp at hr; subst hr; simp [cmds.stages])
    simp only [if_neg h3]
    by_cases h4 : argv0 = ['s', 'e', 't', 'e', 'n', 'v']
    · simp only [if_pos h4]
      by_cases h : kind = .PIPE
      · simp only [if_pos h]; (intro r hr; simp [classify, raise_error, parser_errors.toNat] at hr)
      · simp only [if_neg h]
        cases args with
        | nil => (intro r hr; simp [classify, raise_error, parser_errors.toNat] at hr)
        | cons a as =>
          cases as with
          | nil => (intro r hr; simp [classify, raise_error, parser_errors.toNat] at hr)
          | cons a2 as2 => (intro r hr; simp at hr; subst hr; simp [cmds.stages])
    simp only [if_neg h4]
    by_cases h5 : argv0 = ['j', 'o', 'b', 's']
    · simp only [if_pos h5]
      by_cases h : kind = .PIPE
      · simp only [if_pos h]; (intro r hr; simp [classify, raise_error, parser_errors.toNat] at hr)
      · simp only [if_neg h]
        cases args with
        | nil => (intro r hr; simp at hr; subst hr; simp [cmds.stages])
        | cons a as =>
          simp only []
          intro r hr
          cases hg : get_int s a <;> simp [hg] at hr
          subst hr
          simp [cmds.stages]
    simp only [if_neg h5]
    by_cases h6 : argv0 = ['b', 'g']
    · simp only [if_pos h6]
      by_cases h : kind = .PIPE
      · simp only [if_pos h]; (intro r hr; simp [classify, raise_error, parser_errors.toNat] at hr)
      · simp only [if_neg h]
        cases args with
        | nil => (intro r hr; simp at hr; subst hr; simp [cmds.stages])
        | cons a as =>
          simp only []
          intro r hr
          cases hg : get_int s a <;> simp [hg] at hr
          subst hr
          simp [cmds.stages]
    simp only [if_neg h6]
    by_cases h7 : argv0 = ['f', 'g']
    · simp only [if_pos h7]
      by_cases h : kind = .PIPE
      · simp only [if_pos h]; (intro r hr; simp [classify, raise_error, parser_errors.toNat] at hr)
      · simp only [if_neg h]
        cases args with
        | nil => (intro r hr; simp at hr; subst hr; simp [cmds.stages])
        | cons a as =>
          simp only []
          intro r hr
          cases hg : get_int s a <;> simp [hg] at hr
          subst hr
          simp [cmds.stages]
    simp only [if_neg h7]
    by_cases h : kind = .PIPE ∧ (i ≠ none)
    · simp only [if_pos h]; (intro r hr; simp [classify, raise_error, parser_errors.toNat] at hr)
    · simp only [if_neg h]
      intro r hr
      simp only [Result.ok.injEq] at hr
      subst hr
      right
      refine ⟨rfl, argv0, args, rfl, ?_⟩
      simp only [builtin_names, List.mem_cons, List.mem_singleton, List.not_mem_nil, or_false,
        not_or]
      exact ⟨h1, h2, h3, h4, h5, h6, h7⟩

theorem parse_cmd_inv (getenv : List Char → Option (List Char)) (s s1 : Scanner)
    (kind : cmd_kind) (prog : prog_args) (r : parsed)
    (h : parse_cmd getenv s kind prog = .ok (s1, r)) :
    (∃ c, r = .builtin c ∧ c.stages = []) ∨ (∃ p, r = .external p ∧ is_external p) := by
  unfold parse_cmd at h
  cases hp : parse_prog getenv s prog with
  | ok sp =>
    obtain ⟨s2, prog1⟩ := sp
    rw [hp] at h
    simp only at h
    cases hc : classify s2 kind prog1 with
    | ok r1 =>
      rw [hc] at h
      simp only [Result.ok.injEq, Prod.mk.injEq] at h
      obtain ⟨_, rfl⟩ := h
      rcases classify_ok_inv s2 kind prog1 r1 hc with h1 | ⟨h1, h2⟩
      · exact Or.inl h1
      · exact Or.inr ⟨prog1, h1, h2⟩
    | raise code l k => rw [hc] at h; simp at h
    | fuel => rw [hc] at h; simp at h
  | raise code l k => rw [hp] at h; simp at h
  | fuel => rw [hp] at h; simp at h

theorem raise_error_ne_ok {α : Type} (code : parser_errors) (l k : Nat) (a : α) :
    raise_error code l k ≠ .ok a := by
  unfold raise_error
  split_ifs <;> simp

theorem parse_pipe_loop_inv (getenv : List Char → Option (List Char)) :
    ∀ (n : Nat) (s : Scanner) (kind : cmd_kind) (prog : prog_args) (s1 : Scanner) (c : cmds),
      parse_pipe_loop getenv n s kind prog = .ok (s1, c) → ∀ p ∈ c.stages, is_external p := by
  intro n
  induction n with
  | zero => intro s kind prog s1 c h; simp [parse_pipe_loop] at h
  | succ n ih =>
    intro s kind prog s1 c h
    simp only [parse_pipe_loop] at h
    cases hc : parse_cmd getenv s kind prog with
    | ok sr =>
      obtain ⟨s2, r⟩ := sr
      rw [hc] at h
      rcases parse_cmd_inv getenv s s2 kind prog r hc with ⟨c1, rfl, hst⟩ | ⟨p1, rfl, hext⟩
      · simp only at h
        by_cases hk : s2.lookahead.kind ≠ STROKE
        · rw [if_pos hk] at h
          simp only [Result.ok.injEq, Prod.mk.injEq] at h
          obtain ⟨_, rfl⟩ := h
          rw [hst]
          simp
        · rw [if_neg hk] at h
          exact absurd h (raise_error_ne_ok _ _ _ _)
      · simp only at h
        by_cases hk : s2.lookahead.kind ≠ STROKE
        · rw [if_pos hk] at h
          simp only [Result.ok.injEq, Prod.mk.injEq] at h
          obtain ⟨_, rfl⟩ := h
          intro p hp
          have : p = p1 := by
            unfold cmds.external at hp
            split_ifs at hp <;> simpa [cmds.stages] using hp
          rw [this]
          exact hext
        · rw [if_neg hk] at h
          by_cases hkind : ¬ (kind = .PROG ∨ kind = .PIPE)
          · rw [if_pos hkind] at h
            exact absurd h (raise_error_ne_ok _ _ _ _)
          · rw [if_neg hkind] at h
            by_cases hout : p1.output ≠ none
            · rw [if_pos hout] at h
              exact absurd h (raise_error_ne_ok _ _ _ _)
            · rw [if_neg hout] at h
              cases hs : scan getenv s2 with
              | ok s3 =>
                rw [hs] at h
                simp only at h
                cases hr : parse_pipe_loop getenv n s3 .PIPE prog_new with
                | ok sc =>
                  obtain ⟨s4, c2⟩ := sc
                  rw [hr] at h
                  simp only [Result.ok.injEq, Prod.mk.injEq] at h
                  obtain ⟨_, rfl⟩ := h
                  intro p hp
                  simp only [cmds.stages, List.mem_cons] at hp
                  rcases hp with rfl | hp
                  · exact hext
                  · exact ih s3 .PIPE prog_new s4 c2 hr p hp
                | raise code l k => rw [hr] at h; simp at h
                | fuel => rw [hr] at h; simp at h
              | raise code l k => rw [hs] at h; simp at h
              | fuel => rw [hs] at h; simp at h
    | raise code l k => rw [hc] at h; simp at h
    | fuel => rw [hc] at h; simp at h

theorem parse_input_loop_inv (getenv : List Char → Option (List Char)) :
    ∀ (n : Nat) (s : Scanner) (list : List cmds),
      parse_input_loop getenv n s = .ok list →
      ∀ c ∈ list, ∀ p ∈ c.stages, is_external p := by
  intro n
  induction n with
  | zero => intro s list h; simp [parse_input_loop] at h
  | succ n ih =>
    intro s list h
    simp only [parse_input_loop] at h
    cases hs : scan getenv s with
    | ok s1 =>
      rw [hs] at h
      simp only at h
      by_cases hk : s1.lookahead.kind = END
      · rw [if_pos hk] at h
        simp only [Result.ok.injEq] at h
        subst h
        simp
      · rw [if_neg hk] at h
        cases hp : parse_pipe getenv s1 .PROG argv_new with
        | ok sc =>
          obtain ⟨s2, c1⟩ := sc
          rw [hp] at h
          simp only at h
          cases hr : parse_input_loop getenv n s2 with
          | ok rest =>
            rw [hr] at h
            simp only [Result.ok.injEq] at h
            subst h
            intro c hc
            simp only [List.mem_cons] at hc
            rcases hc with rfl | hc
            · exact parse_pipe_loop_inv getenv _ s1 .PROG argv_new s2 c hp
            · exact ih s2 rest hr c hc
          | raise code l k => rw [hr] at h; simp at h
          | fuel => rw [hr] at h; simp at h
        | raise code l k => rw [hp] at h; simp at h
        | fuel => rw [hp] at h; simp at h
    | raise code l k => rw [hs] at h; simp at h
    | fuel => rw [hs] at h; simp at h

theorem parser_parse_inv (getenv : List Char → Option (List Char)) (input : List Char)
    (out : Outcome) (h : parser_parse getenv input = some out) :
    ∀ c ∈ out.list, ∀ p ∈ c.stages, is_external p := by
  unfold parser_parse at h
  cases hp : parse_input getenv ⟨input, 0, 0, ⟨UNKNOWN, []⟩⟩ with
  | ok root =>
    rw [hp] at h
    simp only [Option.some.injEq] at h
    subst h
    exact parse_input_loop_inv getenv _ _ root hp
  | raise code l k =>
    rw [hp] at h
    simp only [Option.some.injEq] at h
    subst h
    simp
  | fuel => rw [hp] at h; simp at h


/-! ## Termination: every loop runs within its fuel -/

theorem tail_length_lt (stream : List Char) (h : cur stream ≠ NUL) :
    stream.tail.length < stream.length := by
  cases stream with
  | nil => simp [cur] at h
  | cons c cs => simp

theorem dispatch_cont (r r1 : Reader) (h : dispatch r = .cont r1) :
    cur r1.stream ≠ NUL ∧ r1.stream.length ≤ r.stream.length := by
  unfold dispatch at h
  dsimp only at h
  by_cases h1 : cur r.stream = NUL
  · rw [if_pos h1] at h; cases h
  rw [if_neg h1] at h
  by_cases h2 : cur r.stream = ' ' ∨ cur r.stream = '\t'
  · rw [if_pos h2] at h; cases h; exact ⟨h1, Nat.le_refl _⟩
  rw [if_neg h2] at h
  by_cases h3 : cur r.stream = '&'
  · rw [if_pos h3] at h; cases h
  rw [if_neg h3] at h
  by_cases h4 : cur r.stream = '>'
  · rw [if_pos h4] at h; cases h
  rw [if_neg h4] at h
  by_cases h5 : cur r.stream = '<'
  · rw [if_pos h5] at h; cases h
  rw [if_neg h5] at h
  by_cases h6 : cur r.stream = '|'
  · rw [if_pos h6] at h; cases h
  rw [if_neg h6] at h
  by_cases h7 : cur r.stream = '\n'
  · rw [if_pos h7] at h; cases h
  rw [if_neg h7] at h
  by_cases h8 : cur r.stream = ';'
  · rw [if_pos h8] at h; cases h
  rw [if_neg h8] at h
  by_cases h9 : cur r.stream = '#'
  · rw [if_pos h9] at h; cases h; exact ⟨h1, Nat.le_refl _⟩
  rw [if_neg h9] at h
  by_cases h10 : cur r.stream = '\''
  · rw [if_pos h10] at h; cases h; exact ⟨h1, Nat.le_refl _⟩
  rw [if_neg h10] at h
  by_cases h11 : cur r.stream = '\\'
  · rw [if_pos h11] at h; cases h; exact ⟨h1, Nat.le_refl _⟩
  rw [if_neg h11] at h
  by_cases h12 : cur r.stream = '$'
  · rw [if_pos h12] at h
    by_cases h13 : cur r.stream.tail = '{'
    · rw [if_pos h13] at h; cases h
      exact ⟨by rw [h13]; decide, by simp⟩
    · rw [if_neg h13] at h; cases h; exact ⟨h1, Nat.le_refl _⟩
  rw [if_neg h12] at h
  cases h
  exact ⟨h1, Nat.le_refl _⟩

theorem dispatch_ret (r r1 : Reader) (L : Nat) (hr : r.stream.length ≤ L)
    (h : dispatch r = .ret r1) :
    r1.stream.length ≤ L ∧ (r1.kind ≠ END → r1.stream.length < L) := by
  unfold dispatch at h
  dsimp only at h
  by_cases h1 : cur r.stream = NUL
  · rw [if_pos h1] at h; cases h; exact ⟨hr, fun h => absurd rfl h⟩
  rw [if_neg h1] at h
  have ht := tail_length_lt r.stream h1
  have hc : r.stream.tail.length ≤ L ∧ (r.stream.tail.length < L) := ⟨by omega, by omega⟩
  by_cases h2 : cur r.stream = ' ' ∨ cur r.stream = '\t'
  · rw [if_pos h2] at h; cases h
  rw [if_neg h2] at h
  by_cases h3 : cur r.stream = '&'
  · rw [if_pos h3] at h; cases h; exact ⟨hc.1, fun _ => hc.2⟩
  rw [if_neg h3] at h
  by_cases h4 : cur r.stream = '>'
  · rw [if_pos h4] at h; cases h; exact ⟨hc.1, fun _ => hc.2⟩
  rw [if_neg h4] at h
  by_cases h5 : cur r.stream = '<'
  · rw [if_pos h5] at h; cases h; exact ⟨hc.1, fun _ => hc.2⟩
  rw [if_neg h5] at h
  by_cases h6 : cur r.stream = '|'
  · rw [if_pos h6] at h; cases h; exact ⟨hc.1, fun _ => hc.2⟩
  rw [if_neg h6] at h
  by_cases h7 : cur r.stream = '\n'
  · rw [if_pos h7] at h; cases h; exact ⟨hc.1, fun _ => hc.2⟩
  rw [if_neg h7] at h
  by_cases h8 : cur r.stream = ';'
  · rw [if_pos h8] at h; cases h; exact ⟨hc.1, fun _ => hc.2⟩
  rw [if_neg h8] at h
  by_cases h9 : cur r.stream = '#'
  · rw [if_pos h9] at h; cases h
  rw [if_neg h9] at h
  by_cases h10 : cur r.stream = '\''
  · rw [if_pos h10] at h; cases h
  rw [if_neg h10] at h
  by_cases h11 : cur r.stream = '\\'
  · rw [if_pos h11] at h; cases h
  rw [if_neg h11] at h
  by_cases h12 : cur r.stream = '$'
  · rw [if_pos h12] at h
    by_cases h13 : cur r.stream.tail = '{'
    · rw [if_pos h13] at h; cases h
    · rw [if_neg h13] at h; cases h
  rw [if_neg h12] at h
  cases h

theorem gobble_ide_cont (r r1 : Reader) (h : gobble_ide r = .cont r1) :
    cur r1.stream ≠ NUL ∧ r1.stream.length ≤ r.stream.length := by
  unfold gobble_ide at h
  dsimp only at h
  by_cases hi : r.ide = true
  · rw [if_pos hi] at h
    by_cases h1 : cur r.stream = NUL ∨ strchr IDE_STOP (cur r.stream) = true
    · rw [if_pos h1] at h; cases h
    rw [if_neg h1] at h
    by_cases h2 : ¬ strchr IDE_MODE (cur r.stream) = true
    · rw [if_pos h2] at h; cases h
      exact ⟨fun hn => h1 (Or.inl hn), Nat.le_refl _⟩
    · rw [if_neg h2] at h
      exact dispatch_cont r r1 h
  · rw [if_neg hi] at h
    exact dispatch_cont r r1 h

theorem gobble_ide_ret (r r1 : Reader) (L : Nat) (hr : r.stream.length ≤ L)
    (hide : r.ide = true → r.stream.length < L) (h : gobble_ide r = .ret r1) :
    r1.stream.length ≤ L ∧ (r1.kind ≠ END → r1.stream.length < L) := by
  unfold gobble_ide at h
  dsimp only at h
  by_cases hi : r.ide = true
  · rw [if_pos hi] at h
    by_cases h1 : cur r.stream = NUL ∨ strchr IDE_STOP (cur r.stream) = true
    · rw [if_pos h1] at h; cases h
      exact ⟨hr, fun _ => hide hi⟩
    rw [if_neg h1] at h
    by_cases h2 : ¬ strchr IDE_MODE (cur r.stream) = true
    · rw [if_pos h2] at h; cases h
    · rw [if_neg h2] at h
      exact dispatch_ret r r1 L hr h
  · rw [if_neg hi] at h
    exact dispatch_ret r r1 L hr h

theorem substitute_cont (getenv : List Char → Option (List Char)) (r r1 : Reader)
    (h : substitute getenv r = .cont r1) :
    cur r1.stream ≠ NUL ∧ r1.stream.length ≤ r.stream.length := by
  unfold substitute at h
  dsimp only at h
  cases hg : getenv r.var with
  | none =>
    rw [hg] at h
    dsimp only at h
    (have h2 := gobble_ide_cont _ r1 h; exact h2)
  | some value =>
    rw [hg] at h
    dsimp only at h
    cases hs : splice r.arg value with
    | none => rw [hs] at h; dsimp only at h; cases h
    | some arg =>
      rw [hs] at h
      dsimp only at h
      (have h2 := gobble_ide_cont _ r1 h; exact h2)

theorem substitute_ret (getenv : List Char → Option (List Char)) (r r1 : Reader) (L : Nat)
    (hr : r.stream.length ≤ L) (hide : r.ide = true → r.stream.length < L)
    (h : substitute getenv r = .ret r1) :
    r1.stream.length ≤ L ∧ (r1.kind ≠ END → r1.stream.length < L) := by
  unfold substitute at h
  dsimp only at h
  cases hg : getenv r.var with
  | none =>
    rw [hg] at h
    dsimp only at h
    (have h2 := gobble_ide_ret _ r1 L (by exact hr) (by exact hide) h; exact h2)
  | some value =>
    rw [hg] at h
    dsimp only at h
    cases hs : splice r.arg value with
    | none => rw [hs] at h; dsimp only at h; cases h
    | some arg =>
      rw [hs] at h
      dsimp only at h
      (have h2 := gobble_ide_ret _ r1 L (by exact hr) (by exact hide) h; exact h2)

theorem gobble_variable_cont (getenv : List Char → Option (List Char)) (r r1 : Reader)
    (h : gobble_variable getenv r = .cont r1) :
    cur r1.stream ≠ NUL ∧ r1.stream.length ≤ r.stream.length := by
  unfold gobble_variable at h
  dsimp only at h
  by_cases h1 : cur r.stream ≠ NUL ∧ ¬ strchr VAR_STOP (cur r.stream) = true
  · rw [if_pos h1] at h; cases h
    exact ⟨h1.1, Nat.le_refl _⟩
  rw [if_neg h1] at h
  by_cases hb : r.bracket = true
  · rw [if_pos hb] at h
    by_cases h2 : cur r.stream ≠ '}'
    · rw [if_pos h2] at h; cases h
    · rw [if_neg h2] at h
      have := substitute_cont getenv _ r1 h
      exact ⟨this.1, Nat.le_trans this.2 (by simp)⟩
  · rw [if_neg hb] at h
    exact substitute_cont getenv r r1 h

theorem gobble_variable_ret (getenv : List Char → Option (List Char)) (r r1 : Reader)
    (L : Nat) (hr : r.stream.length ≤ L) (hide : r.ide = true → r.stream.length < L)
    (h : gobble_variable getenv r = .ret r1) :
    r1.stream.length ≤ L ∧ (r1.kind ≠ END → r1.stream.length < L) := by
  unfold gobble_variable at h
  dsimp only at h
  by_cases h1 : cur r.stream ≠ NUL ∧ ¬ strchr VAR_STOP (cur r.stream) = true
  · rw [if_pos h1] at h; cases h
  rw [if_neg h1] at h
  by_cases hb : r.bracket = true
  · rw [if_pos hb] at h
    by_cases h2 : cur r.stream ≠ '}'
    · rw [if_pos h2] at h; cases h
    · rw [if_neg h2] at h
      have ht : r.stream.tail.length ≤ r.stream.length := by simp
      have h3 := substitute_ret getenv _ r1 L (by exact Nat.le_trans ht hr)
        (by exact fun hi => Nat.lt_of_le_of_lt ht (hide hi)) h
      exact h3
  · rw [if_neg hb] at h
    exact substitute_ret getenv r r1 L hr hide h

theorem step_cont (getenv : List Char → Option (List Char)) (r r1 : Reader)
    (h : step getenv r = .cont r1) :
    cur r1.stream ≠ NUL ∧ r1.stream.length ≤ r.stream.length := by
  unfold step at h
  dsimp only at h
  by_cases h0 : r.arg.length ≥ MAX_LINE_LENGTH - 1 ∨ r.var.length ≥ MAX_LINE_LENGTH - 1
  · rw [if_pos h0] at h; cases h
  rw [if_neg h0] at h
  by_cases hc : r.comment = true
  · rw [if_pos hc] at h
    by_cases h1 : cur r.stream = '\n' ∨ cur r.stream = NUL
    · rw [if_pos h1] at h; cases h
    · rw [if_neg h1] at h; cases h
      exact ⟨fun hn => h1 (Or.inr hn), Nat.le_refl _⟩
  rw [if_neg hc] at h
  by_cases hq : r.quote = true
  · rw [if_pos hq] at h
    by_cases h1 : cur r.stream = NUL
    · rw [if_pos h1] at h; cases h
    rw [if_neg h1] at h
    by_cases h2 : cur r.stream = '\''
    · rw [if_pos h2] at h; cases h; exact ⟨h1, Nat.le_refl _⟩
    rw [if_neg h2] at h
    by_cases h3 : cur r.stream = '\n'
    · rw [if_pos h3] at h; cases h; exact ⟨h1, Nat.le_refl _⟩
    · rw [if_neg h3] at h; cases h; exact ⟨h1, Nat.le_refl _⟩
  rw [if_neg hq] at h
  by_cases hb : r.backspace = true
  · rw [if_pos hb] at h
    by_cases h1 : cur r.stream = NUL
    · rw [if_pos h1] at h; cases h
    rw [if_neg h1] at h
    by_cases h3 : cur r.stream = '\n'
    · rw [if_pos h3] at h; cases h; exact ⟨h1, Nat.le_refl _⟩
    · rw [if_neg h3] at h; cases h; exact ⟨h1, Nat.le_refl _⟩
  rw [if_neg hb] at h
  by_cases hv : r.variable_ = true
  · rw [if_pos hv] at h
    exact gobble_variable_cont getenv r r1 h
  · rw [if_neg hv] at h
    exact gobble_ide_cont r r1 h

theorem step_ret (getenv : List Char → Option (List Char)) (r r1 : Reader) (L : Nat)
    (hr : r.stream.length ≤ L)
    (hide : r.ide = true ∨ r.comment = true → r.stream.length < L)
    (h : step getenv r = .ret r1) :
    r1.stream.length ≤ L ∧ (r1.kind ≠ END → r1.stream.length < L) := by
  unfold step at h
  dsimp only at h
  by_cases h0 : r.arg.length ≥ MAX_LINE_LENGTH - 1 ∨ r.var.length ≥ MAX_LINE_LENGTH - 1
  · rw [if_pos h0] at h; cases h
  rw [if_neg h0] at h
  by_cases hc : r.comment = true
  · rw [if_pos hc] at h
    by_cases h1 : cur r.stream = '\n' ∨ cur r.stream = NUL
    · rw [if_pos h1] at h; cases h
      exact ⟨hr, fun _ => hide (Or.inr hc)⟩
    · rw [if_neg h1] at h; cases h
  rw [if_neg hc] at h
  by_cases hq : r.quote = true
  · rw [if_pos hq] at h
    by_cases h1 : cur r.stream = NUL
    · rw [if_pos h1] at h; cases h
    rw [if_neg h1] at h
    by_cases h2 : cur r.stream = '\''
    · rw [if_pos h2] at h; cases h
    rw [if_neg h2] at h
    by_cases h3 : cur r.stream = '\n'
    · rw [if_pos h3] at h; cases h
    · rw [if_neg h3] at h; cases h
  rw [if_neg hq] at h
  by_cases hb : r.backspace = true
  · rw [if_pos hb] at h
    by_cases h1 : cur r.stream = NUL
    · rw [if_pos h1] at h; cases h
    rw [if_neg h1] at h
    by_cases h3 : cur r.stream = '\n'
    · rw [if_pos h3] at h; cases h
    · rw [if_neg h3] at h; cases h
  rw [if_neg hb] at h
  by_cases hv : r.variable_ = true
  · rw [if_pos hv] at h
    exact gobble_variable_ret getenv r r1 L hr (fun hi => hide (Or.inl hi)) h
  · rw [if_neg hv] at h
    exact gobble_ide_ret r r1 L hr (fun hi => hide (Or.inl hi)) h

theorem read_loop_spec (getenv : List Char → Option (List Char)) (L : Nat) :
    ∀ (n : Nat) (r : Reader), r.stream.length < n → r.stream.length ≤ L →
      (r.ide = true ∨ r.comment = true → r.stream.length < L) →
      read_loop getenv n r ≠ .fuel ∧
        ∀ s1, read_loop getenv n r = .ok s1 →
          s1.stream.length ≤ L ∧ (s1.lookahead.kind ≠ END → s1.stream.length < L) := by
  intro n
  induction n with
  | zero => intro r h; omega
  | succ n ih =>
    intro r hn hr hide
    rw [read_loop]
    cases hs : step getenv r with
    | ret r1 =>
      have h := step_ret getenv r r1 L hr hide hs
      refine ⟨by simp, ?_⟩
      intro s1 h1
      simp only [Result.ok.injEq] at h1
      subst h1
      exact h
    | raise code r1 =>
      dsimp only
      obtain ⟨l, k, he⟩ := raise_error_pos (α := Scanner) code r1.line r1.col
      rw [he]
      exact ⟨by simp, by intro s1 h1; cases h1⟩
    | cont r1 =>
      dsimp only
      obtain ⟨h1, h2⟩ := step_cont getenv r r1 hs
      have h3 := tail_length_lt r1.stream h1
      exact ih _ (by simp only; omega) (by simp only; omega) (fun _ => by simp only; omega)

theorem read_spec (getenv : List Char → Option (List Char)) (s : Scanner) :
    read getenv s ≠ .fuel ∧
      ∀ s1, read getenv s = .ok s1 →
        s1.stream.length ≤ s.stream.length ∧
          (s1.lookahead.kind ≠ END → s1.stream.length < s.stream.length) := by
  unfold read
  exact read_loop_spec getenv s.stream.length _ (read_init s) (by simp [read_init])
    (by simp [read_init]) (by simp [read_init])

theorem scan_loop_spec (getenv : List Char → Option (List Char)) :
    ∀ (n : Nat) (s : Scanner), s.stream.length < n →
      scan_loop getenv n s ≠ .fuel ∧
        ∀ s1, scan_loop getenv n s = .ok s1 →
          s1.stream.length ≤ s.stream.length ∧
            (s1.lookahead.kind ≠ END → s1.stream.length < s.stream.length) := by
  intro n
  induction n with
  | zero => intro s h; omega
  | succ n ih =>
    intro s hn
    obtain ⟨hf, hok⟩ := read_spec getenv s
    rw [scan_loop]
    cases hr : read getenv s with
    | ok s1 =>
      dsimp only
      obtain ⟨h1, h2⟩ := hok s1 hr
      by_cases hk : s1.lookahead.kind = REM
      · rw [if_pos hk]
        have h3 := h2 (by rw [hk]; decide)
        obtain ⟨ih1, ih2⟩ := ih s1 (by omega)
        refine ⟨ih1, fun s2 hs2 => ?_⟩
        obtain ⟨h4, h5⟩ := ih2 s2 hs2
        exact ⟨by omega, fun _ => by omega⟩
      · rw [if_neg hk]
        refine ⟨by simp, fun s2 hs2 => ?_⟩
        simp only [Result.ok.injEq] at hs2
        subst hs2
        exact ⟨h1, h2⟩
    | raise code l c => exact ⟨by simp, by intro s1 h1; cases h1⟩
    | fuel => exact absurd hr hf

theorem scan_spec (getenv : List Char → Option (List Char)) (s : Scanner) :
    scan getenv s ≠ .fuel ∧
      ∀ s1, scan getenv s = .ok s1 →
        s1.stream.length ≤ s.stream.length ∧
          (s1.lookahead.kind ≠ END → s1.stream.length < s.stream.length) := by
  unfold scan
  exact scan_loop_spec getenv _ s (by omega)

theorem parse_redirection_spec (getenv : List Char → Option (List Char)) (s : Scanner)
    (prog : prog_args) :
    parse_redirection getenv s prog ≠ .fuel ∧
      ∀ s1 p1, parse_redirection getenv s prog = .ok (s1, p1) →
        s1.stream.length ≤ s.stream.length := by
  obtain ⟨hf, hok⟩ := scan_spec getenv s
  unfold parse_redirection get_ide
  by_cases hin : s.lookahead.kind = IN
  · rw [if_pos hin]
    cases hs : scan getenv s with
    | ok s1 =>
      dsimp only
      have hlen := (hok s1 hs).1
      by_cases hk : s1.lookahead.kind ≠ IDE
      · rw [if_pos hk]
        obtain ⟨l, k, he⟩ := raise_error_pos (α := Scanner × prog_args) PARSER_MISSING_FILE
          s1.line s1.col
        rw [he]
        exact ⟨by simp, by intro s2 p2 h; cases h⟩
      · rw [if_neg hk]
        have hk2 : s1.lookahead.kind = IDE := by simpa using hk
        simp only [hk2, not_true_eq_false, if_false]
        refine ⟨by simp, ?_⟩
        intro s2 p2 h
        simp only [Result.ok.injEq, Prod.mk.injEq] at h
        rw [← h.1]
        exact hlen
    | raise code l c => exact ⟨by simp, by intro s2 p2 h; cases h⟩
    | fuel => exact absurd hs hf
  · rw [if_neg hin]
    cases hs : scan getenv s with
    | ok s1 =>
      dsimp only
      have hlen := (hok s1 hs).1
      by_cases hk : s1.lookahead.kind ≠ IDE
      · rw [if_pos hk]
        obtain ⟨l, k, he⟩ := raise_error_pos (α := Scanner × prog_args) PARSER_MISSING_FILE
          s1.line s1.col
        rw [he]
        exact ⟨by simp, by intro s2 p2 h; cases h⟩
      · rw [if_neg hk]
        have hk2 : s1.lookahead.kind = IDE := by simpa using hk
        simp only [hk2, not_true_eq_false, if_false]
        refine ⟨by simp, ?_⟩
        intro s2 p2 h
        simp only [Result.ok.injEq, Prod.mk.injEq] at h
        rw [← h.1]
        exact hlen
    | raise code l c => exact ⟨by simp, by intro s2 p2 h; cases h⟩
    | fuel => exact absurd hs hf

theorem parse_prog_loop_spec (getenv : List Char → Option (List Char)) :
    ∀ (n : Nat) (s : Scanner) (prog : prog_args), s.stream.length < n →
      (s.lookahead.kind ≠ END → s.stream.length + 1 < n) →
      parse_prog_loop getenv n s prog ≠ .fuel ∧
        ∀ s1 p1, parse_prog_loop getenv n s prog = .ok (s1, p1) →
          s1.stream.length ≤ s.stream.length := by
  intro n
  induction n with
  | zero => intro s prog h; omega
  | succ n ih =>
    intro s prog hn hne
    have hredir : s.lookahead.kind ≠ END →
        (match parse_redirection getenv s prog with
          | .ok (s1, prog1) =>
            match scan getenv s1 with
            | .ok s2 => parse_prog_loop getenv n s2 prog1
            | .raise code l c => .raise code l c
            | .fuel => .fuel
          | .raise code l c => .raise code l c
          | .fuel => .fuel) ≠ .fuel ∧
        ∀ s1 p1, (match parse_redirection getenv s prog with
          | .ok (s1, prog1) =>
            match scan getenv s1 with
            | .ok s2 => parse_prog_loop getenv n s2 prog1
            | .raise code l c => .raise code l c
            | .fuel => .fuel
          | .raise code l c => .raise code l c
          | .fuel => .fuel) = .ok (s1, p1) → s1.stream.length ≤ s.stream.length := by
      intro hk
      have hn2 := hne hk
      obtain ⟨hf, hok⟩ := parse_redirection_spec getenv s prog
      cases hr : parse_redirection getenv s prog with
      | ok v =>
        obtain ⟨s1, prog1⟩ := v
        dsimp only
        have h1 := hok s1 prog1 hr
        obtain ⟨hf2, hok2⟩ := scan_spec getenv s1
        cases hs : scan getenv s1 with
        | ok s2 =>
          dsimp only
          obtain ⟨h2, h3⟩ := hok2 s2 hs
          obtain ⟨i1, i2⟩ := ih s2 prog1 (by omega) (fun hk2 => by have := h3 hk2; omega)
          exact ⟨i1, fun s3 p3 h => by have := i2 s3 p3 h; omega⟩
        | raise code l c => exact ⟨by simp, by intro s3 p3 h; cases h⟩
        | fuel => exact absurd hs hf2
      | raise code l c => exact ⟨by simp, by intro s3 p3 h; cases h⟩
      | fuel => exact absurd hr hf
    rw [parse_prog_loop]
    cases hk : s.lookahead.kind with
    | UNKNOWN =>
      dsimp only
      obtain ⟨l, k, he⟩ := raise_error_pos (α := Scanner × prog_args) PARSER_INVALID_STATE
        s.line s.col
      rw [he]
      exact ⟨by simp, by intro s3 p3 h; cases h⟩
    | REM =>
      dsimp only
      obtain ⟨l, k, he⟩ := raise_error_pos (α := Scanner × prog_args) PARSER_INVALID_STATE
        s.line s.col
      rw [he]
      exact ⟨by simp, by intro s3 p3 h; cases h⟩
    | END =>
      refine ⟨by simp, ?_⟩
      intro s3 p3 h
      simp only [Result.ok.injEq, Prod.mk.injEq] at h
      rw [← h.1]
    | SEP =>
      refine ⟨by simp, ?_⟩
      intro s3 p3 h
      simp only [Result.ok.injEq, Prod.mk.injEq] at h
      rw [← h.1]
    | STROKE =>
      refine ⟨by simp, ?_⟩
      intro s3 p3 h
      simp only [Result.ok.injEq, Prod.mk.injEq] at h
      rw [← h.1]
    | AMP =>
      refine ⟨by simp, ?_⟩
      intro s3 p3 h
      simp only [Result.ok.injEq, Prod.mk.injEq] at h
      rw [← h.1]
    | IN => exact hredir (by rw [hk]; decide)
    | OUT => exact hredir (by rw [hk]; decide)
    | IDE =>
      dsimp only
      have hn2 := hne (by rw [hk]; decide)
      simp only [get_ide, hk, not_true_eq_false, if_false]
      obtain ⟨hf2, hok2⟩ := scan_spec getenv s
      cases hs : scan getenv s with
      | ok s2 =>
        dsimp only
        obtain ⟨h2, h3⟩ := hok2 s2 hs
        obtain ⟨i1, i2⟩ := ih s2 (argv_add prog s.lookahead.arg) (by omega)
          (fun hk2 => by have := h3 hk2; omega)
        exact ⟨i1, fun s3 p3 h => by have := i2 s3 p3 h; omega⟩
      | raise code l c => exact ⟨by simp, by intro s3 p3 h; cases h⟩
      | fuel => exact absurd hs hf2

theorem parse_prog_spec (getenv : List Char → Option (List Char)) (s : Scanner)
    (prog : prog_args) :
    parse_prog getenv s prog ≠ .fuel ∧
      ∀ s1 p1, parse_prog getenv s prog = .ok (s1, p1) →
        s1.stream.length ≤ s.stream.length := by
  unfold parse_prog
  exact parse_prog_loop_spec getenv _ s prog (by omega) (fun _ => by omega)

theorem parse_prog_end (getenv : List Char → Option (List Char)) (s : Scanner)
    (prog : prog_args) (h : s.lookahead.kind = END) :
    parse_prog getenv s prog = .ok (s, prog) := by
  simp [parse_prog, parse_prog_loop, h]

theorem parse_cmd_spec (getenv : List Char → Option (List Char)) (s : Scanner)
    (kind : cmd_kind) (prog : prog_args) :
    parse_cmd getenv s kind prog ≠ .fuel ∧
      ∀ s1 r, parse_cmd getenv s kind prog = .ok (s1, r) →
        s1.stream.length ≤ s.stream.length ∧ (s.lookahead.kind = END → s1 = s) := by
  obtain ⟨hf, hok⟩ := parse_prog_spec getenv s prog
  unfold parse_cmd
  cases hp : parse_prog getenv s prog with
  | ok v =>
    obtain ⟨s1, prog1⟩ := v
    dsimp only
    have h1 := hok s1 prog1 hp
    have hcf := classify_ne_fuel s1 kind prog1
    cases hc : classify s1 kind prog1 with
    | ok r =>
      refine ⟨by simp, ?_⟩
      intro s2 r2 h
      simp only [Result.ok.injEq, Prod.mk.injEq] at h
      rw [← h.1]
      refine ⟨h1, fun hk => ?_⟩
      rw [parse_prog_end getenv s prog hk] at hp
      simp only [Result.ok.injEq, Prod.mk.injEq] at hp
      exact hp.1.symm
    | raise code l c => exact ⟨by simp, by intro s3 p3 h; cases h⟩
    | fuel => exact absurd hc hcf
  | raise code l c => exact ⟨by simp, by intro s3 p3 h; cases h⟩
  | fuel => exact absurd hp hf

theorem parse_pipe_loop_spec (getenv : List Char → Option (List Char)) :
    ∀ (n : Nat) (s : Scanner) (kind : cmd_kind) (prog : prog_args), s.stream.length < n →
      (s.lookahead.kind ≠ END → s.stream.length + 1 < n) →
      parse_pipe_loop getenv n s kind prog ≠ .fuel ∧
        ∀ s1 cmd, parse_pipe_loop getenv n s kind prog = .ok (s1, cmd) →
          s1.stream.length ≤ s.stream.length := by
  intro n
  induction n with
  | zero => intro s kind prog h; omega
  | succ n ih =>
    intro s kind prog hn hne
    obtain ⟨hf, hok⟩ := parse_cmd_spec getenv s kind prog
    rw [parse_pipe_loop]
    cases hc : parse_cmd getenv s kind prog with
    | ok v =>
      obtain ⟨s1, r⟩ := v
      obtain ⟨h1, hend⟩ := hok s1 r hc
      cases r with
      | builtin cmd =>
        dsimp only
        by_cases hk : s1.lookahead.kind ≠ STROKE
        · rw [if_pos hk]
          refine ⟨by simp, ?_⟩
          intro s2 c2 h
          simp only [Result.ok.injEq, Prod.mk.injEq] at h
          rw [← h.1]
          exact h1
        · rw [if_neg hk]
          obtain ⟨l, k, he⟩ := raise_error_pos (α := Scanner × cmds) PARSER_ILLEGAL_COMBINATION
            s1.line s1.col
          rw [he]
          exact ⟨by simp, by intro s3 p3 h; cases h⟩
      | external prog1 =>
        dsimp only
        by_cases hk : s1.lookahead.kind ≠ STROKE
        · rw [if_pos hk]
          refine ⟨by simp, ?_⟩
          intro s2 c2 h
          simp only [Result.ok.injEq, Prod.mk.injEq] at h
          rw [← h.1]
          exact h1
        rw [if_neg hk]
        have hk1 : s1.lookahead.kind = STROKE := by simpa using hk
        have hsk : s.lookahead.kind ≠ END := by
          intro he
          rw [hend he] at hk1
          rw [he] at hk1
          cases hk1
        have hn2 := hne hsk
        by_cases hkind : ¬ (kind = .PROG ∨ kind = .PIPE)
        · rw [if_pos hkind]
          obtain ⟨l, k, he⟩ := raise_error_pos (α := Scanner × cmds) PARSER_ILLEGAL_COMBINATION
            s1.line s1.col
          rw [he]
          exact ⟨by simp, by intro s3 p3 h; cases h⟩
        rw [if_neg hkind]
        by_cases hout : prog1.output ≠ none
        · rw [if_pos hout]
          obtain ⟨l, k, he⟩ := raise_error_pos (α := Scanner × cmds) PARSER_ILLEGAL_REDIRECTION
            s1.line s1.col
          rw [he]
          exact ⟨by simp, by intro s3 p3 h; cases h⟩
        rw [if_neg hout]
        obtain ⟨hf2, hok2⟩ := scan_spec getenv s1
        cases hs : scan getenv s1 with
        | ok s2 =>
          dsimp only
          obtain ⟨h2, h3⟩ := hok2 s2 hs
          obtain ⟨i1, i2⟩ := ih s2 .PIPE prog_new (by omega)
            (fun hk2 => by have := h3 hk2; omega)
          cases hrec : parse_pipe_loop getenv n s2 .PIPE prog_new with
          | ok v2 =>
            obtain ⟨s3, cmd⟩ := v2
            refine ⟨by simp, ?_⟩
            intro s4 c4 h
            simp only [Result.ok.injEq, Prod.mk.injEq] at h
            rw [← h.1]
            have := i2 s3 cmd hrec
            omega
          | raise code l c => exact ⟨by simp, by intro s3 p3 h; cases h⟩
          | fuel => exact absurd hrec i1
        | raise code l c => exact ⟨by simp, by intro s3 p3 h; cases h⟩
        | fuel => exact absurd hs hf2
    | raise code l c => exact ⟨by simp, by intro s3 p3 h; cases h⟩
    | fuel => exact absurd hc hf

theorem parse_input_loop_spec (getenv : List Char → Option (List Char)) :
    ∀ (n : Nat) (s : Scanner), s.stream.length < n → parse_input_loop getenv n s ≠ .fuel := by
  intro n
  induction n with
  | zero => intro s h; omega
  | succ n ih =>
    intro s hn
    obtain ⟨hf, hok⟩ := scan_spec getenv s
    rw [parse_input_loop]
    cases hs : scan getenv s with
    | ok s1 =>
      dsimp only
      obtain ⟨h1, h2⟩ := hok s1 hs
      by_cases hk : s1.lookahead.kind = END
      · rw [if_pos hk]; simp
      rw [if_neg hk]
      have h3 := h2 hk
      obtain ⟨hpf, hpok⟩ := parse_pipe_loop_spec getenv (s1.stream.length + 2) s1 .PROG argv_new
        (by omega) (fun _ => by omega)
      unfold parse_pipe
      cases hp : parse_pipe_loop getenv (s1.stream.length + 2) s1 .PROG argv_new with
      | ok v =>
        obtain ⟨s2, elem⟩ := v
        dsimp only
        have h4 := hpok s2 elem hp
        have i1 := ih s2 (by omega)
        cases hrec : parse_input_loop getenv n s2 with
        | ok rest => simp
        | raise code l c => simp
        | fuel => exact absurd hrec i1
      | raise code l c => simp
      | fuel => exact absurd hp hpf
    | raise code l c => simp
    | fuel => exact absurd hs hf

theorem parser_parse_total (getenv : List Char → Option (List Char)) (input : List Char) :
    ∃ out, parser_parse getenv input = some out := by
  have h := parse_input_loop_spec getenv (input.length + 2) ⟨input, 0, 0, ⟨UNKNOWN, []⟩⟩
    (by simp)
  unfold parser_parse parse_input
  cases hp : parse_input_loop getenv (input.length + 2) ⟨input, 0, 0, ⟨UNKNOWN, []⟩⟩ with
  | ok root => exact ⟨_, rfl⟩
  | raise code l c => exact ⟨_, rfl⟩
  | fuel => exact absurd hp h

/-! ## A builtin name or a command name followed by words -/

theorem apply_items_args (getenv : List Char → Option (List Char)) (ws : List (List Seg))
    (g : List Char) :
    ∀ prog : prog_args, apply_items getenv prog (ws.map (Item.arg g)) =
      { prog with argv := prog.argv ++ ws.map (expand_word getenv) } := by
  induction ws with
  | nil => intro prog; simp [apply_items]
  | cons w ws ih =>
    intro prog
    simp only [List.map_cons, apply_items, Item.apply, ih, argv_add]
    simp

theorem apply_word_items (getenv : List Char → Option (List Char)) (name : List Char)
    (ws : List (List Seg)) :
    apply_items getenv argv_new (word_items name ws) =
      simple false (name :: ws.map (expand_word getenv)) := by
  simp [word_items, apply_items, Item.apply, apply_items_args, argv_add, argv_new, simple,
    expand_word, Seg.expand]

theorem render_args (ws : List (List Seg)) :
    ∀ x : List Char, x ++ render_stage (ws.map (Item.arg [' '])) =
      join_with [' '] (x :: ws.map render_word) := by
  induction ws with
  | nil => intro x; simp [render_stage, join_with]
  | cons w ws ih =>
    intro x
    have h := ih (render_word w)
    simp only [List.map_cons, render_stage, Item.render, join_with] at h ⊢
    rw [← h]
    simp

theorem render_word_items (name : List Char) (ws : List (List Seg)) :
    render_stage (word_items name ws) = words_text name ws := by
  have h := render_args ws name
  simp only [word_items, words_text, render_stage, Item.render, render_word, Seg.render,
    List.nil_append, List.append_nil]
  exact h

theorem word_items_ok (getenv : List Char → Option (List Char)) (name : List Char)
    (ws : List (List Seg)) (hn : plain_word name ∧ name.length ≤ 2046)
    (hws : words_ok getenv ws) : stage_ok getenv (word_items name ws) := by
  refine ⟨by simp [word_items], ?_, ?_⟩
  · intro j hj
    simp only [word_items, List.mem_cons, List.mem_map] at hj
    rcases hj with rfl | ⟨w, hw, rfl⟩
    · refine ⟨blanks_nil, by simp [Item.word], ?_, by
        simpa [Item.word, expand_word, Seg.expand] using hn.2⟩
      simp only [Item.word, word_ok, Seg.ok]
      exact ⟨hn.1, trivial⟩
    · exact ⟨blanks_space, hws w hw⟩
  · intro j hj
    simp only [word_items, List.tail_cons, List.mem_map] at hj
    obtain ⟨w, _, rfl⟩ := hj
    simp [Item.sep]

theorem parser_parse_words (getenv : List Char → Option (List Char)) (name : List Char)
    (ws : List (List Seg)) (hn : plain_word name ∧ name.length ≤ 2046)
    (hws : words_ok getenv ws) :
    match classify_code .PROG (simple false (name :: ws.map (expand_word getenv))) with
    | .ok (.builtin cmd) =>
      parser_parse getenv (words_text name ws) = some ⟨[cmd], PARSER_OK, "Ok.", 0, 0⟩
    | .ok (.external p) =>
      parser_parse getenv (words_text name ws) = some ⟨[.PROG [p]], PARSER_OK, "Ok.", 0, 0⟩
    | .error code =>
      ∃ l k, parser_parse getenv (words_text name ws) =
        some ⟨[], code, messages code, l, k⟩ := by
  have h := parser_parse_pipe getenv (word_items name ws) [] none []
    (word_items_ok getenv name ws hn hws) (by simp) (by simp) blanks_nil
  have e : stage_progs getenv (end_token none)
      (word_items name ws :: ([] : List (List Char × List Item)).map Prod.snd) =
      [simple false (name :: ws.map (expand_word getenv))] := by
    simp [stage_progs, end_token, finish, apply_word_items]
  rw [e] at h
  simp only [pipe_verdict, render_pipe, render_stages, render_end, List.append_nil,
    render_word_items] at h
  cases hc : classify_code .PROG (simple false (name :: ws.map (expand_word getenv))) with
  | error code =>
    rw [hc] at h
    exact h
  | ok r =>
    rw [hc] at h
    cases r with
    | builtin cmd => simpa [messages] using h
    | external p => simpa [messages, cmds.external] using h

/-! ## A stage that ends in an error -/

theorem scan_fails_stage (getenv : List Char → Option (List Char)) (tail : List Char)
    (code : parser_errors)
    (h : ∀ l k tok, ∃ el ec, scan getenv ⟨tail, l, k, tok⟩ = .raise code el ec) :
    stage_fails getenv tail code := by
  intro l k tok m prog
  obtain ⟨el, ec, he⟩ := h l k tok
  exact ⟨el, ec, by simp [scan_prog, he]⟩

theorem scan_prog_items_raise (getenv : List Char → Option (List Char)) (is : List Item)
    (tail : List Char) (code : parser_errors) (ht : ends_word tail)
    (hf : stage_fails getenv tail code) :
    ∀ (prog : prog_args) (n l k : Nat) (tok : token),
      (∀ i ∈ is, i.ok getenv ∧ i.sep) → is.length + 1 ≤ n →
      ∃ el ec, scan_prog getenv n ⟨render_stage is ++ tail, l, k, tok⟩ prog =
        .raise code el ec := by
  induction is with
  | nil =>
    intro prog n l k tok _ hn
    obtain ⟨m, rfl⟩ : ∃ m, n = m + 1 := ⟨n - 1, by simp at hn; omega⟩
    simpa [render_stage] using hf l k tok m prog
  | cons i is ih =>
    intro prog n l k tok hok hn
    obtain ⟨m, rfl⟩ : ∃ m, n = m + 1 := ⟨n - 1, by omega⟩
    have hrest : ends_word (render_stage is ++ tail) :=
      ends_word_stage getenv is tail (fun j hj => hok j (by simp [hj])) ht
    obtain ⟨s1, hs1, _, _, hstep⟩ := parse_prog_loop_item getenv i
      (render_stage is ++ tail) l k tok (hok i (by simp)).1 hrest
    obtain ⟨l1, k1, tok1, h1⟩ := hstep m prog
    obtain ⟨el, ec, h2⟩ := ih (i.apply getenv prog) m l1 k1 tok1
      (fun j hj => hok j (by simp [hj])) (by simp at hn ⊢; omega)
    refine ⟨el, ec, ?_⟩
    have e : render_stage (i :: is) ++ tail = i.render ++ (render_stage is ++ tail) := by
      simp [render_stage]
    rw [e]
    simp only [scan_prog, hs1]
    rw [h1, h2]

theorem length_render_items (is : List Item) (h : ∀ i ∈ is, i.sep) :
    is.length ≤ (render_stage is).length := by
  induction is with
  | nil => simp
  | cons i is ih =>
    have h1 := render_sep_length i (h i (by simp))
    have h2 := ih (fun j hj => h j (by simp [hj]))
    simp [render_stage]
    omega

theorem parse_prog_stage_raise (getenv : List Char → Option (List Char)) (st : List Item)
    (tail : List Char) (code : parser_errors) (l k : Nat) (tok : token)
    (hok : stage_ok getenv st) (ht : ends_word tail) (hf : stage_fails getenv tail code) :
    ∃ s1, scan getenv ⟨render_stage st ++ tail, l, k, tok⟩ = .ok s1 ∧
      (s1.lookahead.kind = IDE ∨ s1.lookahead.kind = IN ∨ s1.lookahead.kind = OUT) ∧
      ∀ prog, ∃ el ec, parse_prog getenv s1 prog = .raise code el ec := by
  obtain ⟨hne, hitems, hsep⟩ := hok
  cases st with
  | nil => exact absurd rfl hne
  | cons i is =>
    have his : ∀ j ∈ is, j.ok getenv ∧ j.sep := fun j hj =>
      ⟨hitems j (by simp [hj]), hsep j (by simpa using hj)⟩
    obtain ⟨s1, hs1, hk, hlen, hstep⟩ := parse_prog_loop_item getenv i
      (render_stage is ++ tail) l k tok (hitems i (by simp))
      (ends_word_stage getenv is tail his ht)
    refine ⟨s1, by simpa [render_stage] using hs1, hk, fun prog => ?_⟩
    obtain ⟨l1, k1, tok1, h1⟩ := hstep (s1.stream.length + 1) prog
    have hl := length_render_items is (fun j hj => (his j hj).2)
    obtain ⟨el, ec, h2⟩ := scan_prog_items_raise getenv is tail code ht hf (i.apply getenv prog)
      (s1.stream.length + 1) l1 k1 tok1 his (by simp at hlen; omega)
    refine ⟨el, ec, ?_⟩
    simp only [parse_prog]
    rw [h1, h2]

theorem parse_cmd_stage_raise (getenv : List Char → Option (List Char)) (st : List Item)
    (tail : List Char) (code : parser_errors) (l k : Nat) (tok : token)
    (hok : stage_ok getenv st) (ht : ends_word tail) (hf : stage_fails getenv tail code) :
    ∃ s1, scan getenv ⟨render_stage st ++ tail, l, k, tok⟩ = .ok s1 ∧
      (s1.lookahead.kind = IDE ∨ s1.lookahead.kind = IN ∨ s1.lookahead.kind = OUT) ∧
      ∀ kind prog, ∃ el ec, parse_cmd getenv s1 kind prog = .raise code el ec := by
  obtain ⟨s1, hs1, hk, hp⟩ := parse_prog_stage_raise getenv st tail code l k tok hok ht hf
  refine ⟨s1, hs1, hk, fun kind prog => ?_⟩
  obtain ⟨el, ec, h⟩ := hp prog
  exact ⟨el, ec, by simp [parse_cmd, h]⟩

theorem parser_parse_stage_raise (getenv : List Char → Option (List Char)) (st : List Item)
    (tail : List Char) (code : parser_errors)
    (hok : stage_ok getenv st) (ht : ends_word tail) (hf : stage_fails getenv tail code) :
    ∃ l k, parser_parse getenv (render_stage st ++ tail) =
      some ⟨[], code, messages code, l, k⟩ := by
  obtain ⟨s1, hs1, hk, hc⟩ :=
    parse_cmd_stage_raise getenv st tail code 0 0 ⟨UNKNOWN, []⟩ hok ht hf
  obtain ⟨el, ec, h⟩ := hc .PROG argv_new
  have hne : s1.lookahead.kind ≠ END := by
    rcases hk with h | h | h <;> simp [h]
  exact ⟨el, ec, by
    simp only [parser_parse, parse_input, parse_input_loop, hs1, hne, if_false, parse_pipe,
      parse_pipe_loop, h]⟩

theorem long_tail_fails (getenv : List Char → Option (List Char)) (g cs rest : List Char)
    (hg : blanks g) (hc : ∀ c ∈ cs, plain_char c) (hlen : 2047 ≤ cs.length) :
    stage_fails getenv (g ++ (cs ++ rest)) PARSER_OVERFLOW :=
  scan_fails_stage getenv _ _ (fun l k tok =>
    ⟨0, 0, scan_plain_overflow getenv g cs rest l k tok hg hc hlen⟩)

theorem parser_parse_words_long (getenv : List Char → Option (List Char)) (name : List Char)
    (ws : List (List Seg)) (rest : List Char) (hn : plain_word name ∧ name.length ≤ 2046)
    (hws : words_ok getenv ws) :
    ∃ l k, parser_parse getenv (words_text name ws ++ ' ' :: (long_word ++ rest)) =
      some ⟨[], PARSER_OVERFLOW, "Overflow of internal buffer.", l, k⟩ := by
  have h := parser_parse_stage_raise getenv (word_items name ws) ([' '] ++ (long_word ++ rest))
    PARSER_OVERFLOW (word_items_ok getenv name ws hn hws)
    (ends_word_blank ' ' _ (by simp [blank_char]))
    (long_tail_fails getenv [' '] long_word rest blanks_space long_word_plain
      (by rw [long_word_length]))
  simpa [render_word_items, messages] using h

/-! ## The builtins with arguments -/

theorem classify_code_job (jk : job_kind) (args : List (List Char)) :
    classify_code .PROG (simple false (job_name jk :: args)) =
      match args with
      | [] => .ok (.builtin (.JOB ⟨jk, -1⟩))
      | number :: _ =>
        match sscanf_i number with
        | none => .error PARSER_ILLEGAL_ARGUMENT
        | some v =>
          if v < 0 then .error PARSER_ILLEGAL_ARGUMENT else .ok (.builtin (.JOB ⟨jk, v⟩)) := by
  cases args with
  | nil => cases jk <;> simp [classify_code, classify, job_name, simple]
  | cons number rest =>
    cases hs : sscanf_i number with
    | none =>
      cases jk <;>
        simp [classify_code, classify, job_name, simple, get_int, hs, raise_error,
          parser_errors.toNat]
    | some v =>
      by_cases hv : v < 0
      · cases jk <;>
          simp [classify_code, classify, job_name, simple, get_int, hs, hv, raise_error,
            parser_errors.toNat]
      · cases jk <;>
          simp [classify_code, classify, job_name, simple, get_int, hs, hv]

theorem job_name_plain (jk : job_kind) :
    plain_word (job_name jk) ∧ (job_name jk).length ≤ 2046 := by
  cases jk <;> exact ⟨by decide, by decide⟩

theorem words_ok_cons (getenv : List Char → Option (List Char)) (w : List Seg)
    (ws : List (List Seg)) :
    words_ok getenv (w :: ws) ↔
      (w ≠ [] ∧ word_ok w ∧ (expand_word getenv w).length ≤ 2046) ∧ words_ok getenv ws := by
  simp [words_ok]

theorem words_ok_nil (getenv : List Char → Option (List Char)) : words_ok getenv [] := by
  simp [words_ok]

theorem words_text_nil (name : List Char) : words_text name [] = name := by
  simp [words_text, join_with]

theorem plain_words_ok (getenv : List Char → Option (List Char)) (ws : List (List Char))
    (h : ∀ w ∈ ws, plain_word w ∧ w.length ≤ 2046) :
    words_ok getenv (ws.map (fun w => [Seg.plain w])) := by
  intro w hw
  obtain ⟨v, hv, rfl⟩ := List.mem_map.mp hw
  obtain ⟨hp, hl⟩ := h v hv
  refine ⟨by simp, ?_, by simpa [expand_word, Seg.expand] using hl⟩
  simp only [word_ok, Seg.ok]
  exact ⟨hp, trivial⟩

theorem plain_words_text (name : List Char) (ws : List (List Char)) :
    words_text name (ws.map (fun w => [Seg.plain w])) = join_with [' '] (name :: ws) := by
  have e : (ws.map (fun w => [Seg.plain w])).map render_word = ws := by
    simp [List.map_map, Function.comp_def, render_word, Seg.render]
  rw [words_text, e]

theorem plain_words_expand (getenv : List Char → Option (List Char)) (ws : List (List Char)) :
    (ws.map (fun w => [Seg.plain w])).map (expand_word getenv) = ws := by
  simp [List.map_map, Function.comp_def, expand_word, Seg.expand]

theorem classify_code_setenv (args : List (List Char)) :
    classify_code .PROG (simple false (['s', 'e', 't', 'e', 'n', 'v'] :: args)) =
      match args with
      | name :: value :: _ => .ok (.builtin (.ENV ⟨name, some value⟩))
      | _ => .error PARSER_MISSING_ARGUMENT := by
  cases args with
  | nil => simp [classify_code, classify, simple, raise_error, parser_errors.toNat]
  | cons name rest =>
    cases rest with
    | nil => simp [classify_code, classify, simple, raise_error, parser_errors.toNat]
    | cons value rest => simp [classify_code, classify, simple]

theorem classify_code_unsetenv (args : List (List Char)) :
    classify_code .PROG (simple false (['u', 'n', 's', 'e', 't', 'e', 'n', 'v'] :: args)) =
      match args with
      | name :: _ => .ok (.builtin (.ENV ⟨name, none⟩))
      | [] => .error PARSER_MISSING_ARGUMENT := by
  cases args with
  | nil => simp [classify_code, classify, simple, raise_error, parser_errors.toNat]
  | cons name rest => simp [classify_code, classify, simple]

theorem classify_code_cd (args : List (List Char)) :
    classify_code .PROG (simple false (['c', 'd'] :: args)) =
      .ok (.builtin (.CD ⟨args.head?⟩)) := by
  simp [classify_code, classify, simple]

theorem parser_parse_plain_words (getenv : List Char → Option (List Char)) (name : List Char)
    (ws : List (List Char)) (hn : plain_word name ∧ name.length ≤ 2046)
    (hws : ∀ w ∈ ws, plain_word w ∧ w.length ≤ 2046) :
    match classify_code .PROG (simple false (name :: ws)) with
    | .ok (.builtin cmd) =>
      parser_parse getenv (join_with [' '] (name :: ws)) =
        some ⟨[cmd], PARSER_OK, "Ok.", 0, 0⟩
    | .ok (.external p) =>
      parser_parse getenv (join_with [' '] (name :: ws)) =
        some ⟨[.PROG [p]], PARSER_OK, "Ok.", 0, 0⟩
    | .error code =>
      ∃ l k, parser_parse getenv (join_with [' '] (name :: ws)) =
        some ⟨[], code, messages code, l, k⟩ := by
  have h := parser_parse_words getenv name (ws.map (fun w => [Seg.plain w])) hn
    (plain_words_ok getenv ws hws)
  rw [plain_words_text, plain_words_expand] at h
  exact h

/-! ## The parser on a sequence of commands -/

theorem parse_input_loop_cmd (getenv : List Char → Option (List Char)) (st : List Item)
    (sts : List (List Char × List Item)) (tail : List Char) (T : token_kind)
    (tail1 : List Char) (hst : stage_ok getenv st)
    (hsts : ∀ r ∈ sts, blanks r.1 ∧ stage_ok getenv r.2)
    (ht : stage_end getenv tail T tail1) (hT : T ≠ STROKE) (n l k : Nat) (tok : token) :
    ∃ l1 k1, parse_input_loop getenv (n + 1) ⟨render_pipe st sts ++ tail, l, k, tok⟩ =
      match pipe_verdict .PROG (stage_progs getenv T (st :: sts.map Prod.snd)) with
      | .ok cmd =>
        (match parse_input_loop getenv n ⟨tail1, l1, k1, ⟨T, []⟩⟩ with
          | .ok rest => .ok (cmd :: rest)
          | .raise code a b => .raise code a b
          | .fuel => .fuel)
      | .error code => .raise code l1 k1 := by
  obtain ⟨s1, hs1, hk, hlen, _⟩ := parse_pipe_loop_stages getenv _ _ _ ht hT sts st .PROG
    (sts.length + 1) l k tok hst hsts (Nat.le_refl _)
  obtain ⟨s2, hs2, _, _, hrec⟩ := parse_pipe_loop_stages getenv _ _ _ ht hT sts st .PROG
    (s1.stream.length + 2) l k tok hst hsts (by
      have := length_render_stages sts
      simp at hlen
      omega)
  have e12 : s2 = s1 := by
    rw [hs1] at hs2
    exact (Result.ok.inj hs2).symm
  subst e12
  have hne : s2.lookahead.kind ≠ END := by
    rcases hk with h | h | h <;> simp [h]
  cases hv : pipe_verdict .PROG (stage_progs getenv T (st :: sts.map Prod.snd)) with
  | ok cmd =>
    rw [hv] at hrec
    obtain ⟨l1, k1, h1⟩ := hrec
    exact ⟨l1, k1, by
      simp only [parse_input_loop, hs1, hne, if_false, parse_pipe, h1]⟩
  | error code =>
    rw [hv] at hrec
    obtain ⟨l1, k1, h1⟩ := hrec
    exact ⟨l1, k1, by
      simp only [parse_input_loop, hs1, hne, if_false, parse_pipe, h1]⟩

theorem punct_amp (c : Char) (hc : c ∈ [';', '\n', '&']) : (punct c = AMP ↔ c = '&') := by
  simp only [List.mem_cons, List.mem_singleton, List.not_mem_nil, or_false] at hc
  rcases hc with rfl | rfl | rfl <;> simp [punct]

theorem punct_ne_stroke (c : Char) (hc : c ∈ [';', '\n', '&']) : punct c ≠ STROKE := by
  simp only [List.mem_cons, List.mem_singleton, List.not_mem_nil, or_false] at hc
  rcases hc with rfl | rfl | rfl <;> simp [punct]

theorem simple_verdict (getenv : List Char → Option (List Char)) (T : token_kind)
    (lead : List Char) (ws : List (List Char))
    (hw : ∃ a args, ws = a :: args ∧ a ∉ builtin_names) :
    pipe_verdict .PROG (stage_progs getenv T
        (stage_items (plain_parts lead ws) ::
          ([] : List (List Char × List Item)).map Prod.snd)) =
      .ok (.PROG [simple (decide (T = AMP)) ws]) := by
  obtain ⟨a, args, rfl, ha⟩ := hw
  have e : finish T (simple false (a :: args)) = simple (decide (T = AMP)) (a :: args) := by
    by_cases h : T = AMP <;> simp [finish, simple, h]
  simp only [List.map_nil, stage_progs, apply_items_plain, e, pipe_verdict]
  rw [classify_code_external .PROG _ a args (by simp [simple]) ha (by simp)]
  simp [cmds.external]

theorem parse_input_loop_simple (getenv : List Char → Option (List Char)) (c : Simple)
    (hc : c.ok) (rest : List Char) (n l k : Nat) (tok : token) :
    ∃ l1 k1 tok1, parse_input_loop getenv (n + 1) ⟨c.text ++ rest, l, k, tok⟩ =
      match parse_input_loop getenv n ⟨rest, l1, k1, tok1⟩ with
      | .ok list => .ok (c.cmd :: list)
      | .raise code a b => .raise code a b
      | .fuel => .fuel := by
  obtain ⟨hne, hhead, hws, hlead, hgap, hterm⟩ := hc
  have hend := stage_end_punct getenv c.gap c.term rest hgap (by
    simp only [List.mem_cons, List.mem_singleton, List.not_mem_nil, or_false] at hterm ⊢
    tauto)
  have hst : stage_ok getenv (stage_items (plain_parts c.lead c.words)) :=
    stage_items_ok getenv _ (plain_parts_ne_nil _ _ hne) (plain_parts_ok c.words c.lead hlead hws)
  obtain ⟨l1, k1, h⟩ := parse_input_loop_cmd getenv (stage_items (plain_parts c.lead c.words)) []
    (c.gap ++ c.term :: rest) (punct c.term) rest hst (by simp) hend
    (punct_ne_stroke c.term hterm) n l k tok
  have hv := simple_verdict getenv (punct c.term) c.lead c.words
    (head_not_builtin c.words hne hhead)
  rw [hv] at h
  have ed : decide (punct c.term = AMP) = decide (c.term = '&') := by
    simp [punct_amp c.term hterm]
  have et : render_pipe (stage_items (plain_parts c.lead c.words)) [] ++
      (c.gap ++ c.term :: rest) = c.text ++ rest := by
    obtain ⟨a, args, hw, _⟩ := head_not_builtin c.words hne hhead
    simp [render_pipe, render_stages, hw, render_stage_plain, Simple.text]
  rw [et, ed] at h
  exact ⟨l1, k1, ⟨punct c.term, []⟩, h⟩

theorem parse_input_loop_simples (getenv : List Char → Option (List Char)) (cs : List Simple) :
    (∀ c ∈ cs, c.ok) → ∀ (rest : List Char) (n l k : Nat) (tok : token),
      ∃ l1 k1 tok1, parse_input_loop getenv (n + cs.length) ⟨seq_text cs ++ rest, l, k, tok⟩ =
        match parse_input_loop getenv n ⟨rest, l1, k1, tok1⟩ with
        | .ok list => .ok (cs.map Simple.cmd ++ list)
        | .raise code a b => .raise code a b
        | .fuel => .fuel := by
  induction cs with
  | nil =>
    intro _ rest n l k tok
    refine ⟨l, k, tok, ?_⟩
    cases hp : parse_input_loop getenv n ⟨rest, l, k, tok⟩ <;> simp [seq_text, hp]
  | cons c cs ih =>
    intro hok rest n l k tok
    obtain ⟨l1, k1, tok1, h1⟩ := parse_input_loop_simple getenv c (hok c (by simp))
      (seq_text cs ++ rest) (n + cs.length) l k tok
    obtain ⟨l2, k2, tok2, h2⟩ := ih (fun d hd => hok d (by simp [hd])) rest n l1 k1 tok1
    refine ⟨l2, k2, tok2, ?_⟩
    have e : seq_text (c :: cs) ++ rest = c.text ++ (seq_text cs ++ rest) := by
      simp [seq_text]
    rw [e, List.length_cons, ← Nat.add_assoc, h1, h2]
    cases hp : parse_input_loop getenv n ⟨rest, l2, k2, tok2⟩ <;> simp

theorem simple_text_length (c : Simple) : 1 ≤ c.text.length := by
  simp [Simple.text]
  omega

theorem seq_text_length (cs : List Simple) : cs.length ≤ (seq_text cs).length := by
  induction cs with
  | nil => simp
  | cons c cs ih =>
    have := simple_text_length c
    simp [seq_text]
    omega

theorem parser_parse_simples (getenv : List Char → Option (List Char)) (cs : List Simple)
    (hcs : ∀ c ∈ cs, c.ok) (trail : List Char) (ht : blanks trail) :
    parser_parse getenv (seq_text cs ++ trail) =
      some ⟨cs.map Simple.cmd, PARSER_OK, "Ok.", 0, 0⟩ := by
  have hl := seq_text_length cs
  obtain ⟨m, hm⟩ : ∃ m, (seq_text cs ++ trail).length + 2 = (m + 1) + cs.length :=
    ⟨(seq_text cs ++ trail).length + 1 - cs.length, by simp; omega⟩
  obtain ⟨l1, k1, tok1, h⟩ := parse_input_loop_simples getenv cs hcs trail (m + 1) 0 0
    ⟨UNKNOWN, []⟩
  rw [parse_input_loop_end getenv m l1 k1 tok1 trail ht] at h
  simp only [parser_parse, parse_input, hm, h]
  simp [messages]

theorem parser_parse_simples_last (getenv : List Char → Option (List Char)) (cs : List Simple)
    (hcs : ∀ c ∈ cs, c.ok) (lead : List Char) (last : List (List Char)) (trail : List Char)
    (hlead : blanks lead) (hne : last ≠ []) (hhead : ∀ a ∈ last.head?, a ∉ builtin_names)
    (hws : ∀ w ∈ last, plain_word w ∧ w.length ≤ 2046) (ht : blanks trail) :
    parser_parse getenv (seq_text cs ++ (lead ++ join_with [' '] last ++ trail)) =
      some ⟨cs.map Simple.cmd ++ [.PROG [simple false last]], PARSER_OK, "Ok.", 0, 0⟩ := by
  have hl := seq_text_length cs
  obtain ⟨m, hm⟩ : ∃ m, (seq_text cs ++ (lead ++ join_with [' '] last ++ trail)).length + 2 =
      (m + 1 + 1) + cs.length :=
    ⟨(seq_text cs ++ (lead ++ join_with [' '] last ++ trail)).length - cs.length, by
      simp; omega⟩
  obtain ⟨l1, k1, tok1, h⟩ := parse_input_loop_simples getenv cs hcs
    (lead ++ join_with [' '] last ++ trail) (m + 1 + 1) 0 0 ⟨UNKNOWN, []⟩
  have hst : stage_ok getenv (stage_items (plain_parts lead last)) :=
    stage_items_ok getenv _ (plain_parts_ne_nil _ _ hne) (plain_parts_ok last lead hlead hws)
  obtain ⟨l2, k2, h2⟩ := parse_input_loop_cmd getenv (stage_items (plain_parts lead last)) []
    trail END [] hst (by simp) (stage_end_blanks getenv trail ht) (by simp) (m + 1) l1 k1 tok1
  have hv := simple_verdict getenv END lead last (head_not_builtin last hne hhead)
  rw [hv] at h2
  have et : render_pipe (stage_items (plain_parts lead last)) [] ++ trail =
      lead ++ join_with [' '] last ++ trail := by
    obtain ⟨a, args, hw, _⟩ := head_not_builtin last hne hhead
    rw [hw]
    simp [render_pipe, render_stages, render_stage_plain]
  rw [et, parse_input_loop_end getenv m l2 k2 ⟨END, []⟩ [] blanks_nil] at h2
  rw [h2] at h
  simp only [parser_parse, parse_input, hm, h]
  simp [messages]

/-! ## Errors after a valid beginning of the input -/

theorem parse_cmd_empty (getenv : List Char → Option (List Char)) (s : Scanner)
    (kind : cmd_kind)
    (h : s.lookahead.kind = SEP ∨ s.lookahead.kind = END ∨ s.lookahead.kind = STROKE ∨
      s.lookahead.kind = AMP) :
    parse_cmd getenv s kind prog_new = .raise PARSER_MISSING_COMMAND s.line s.col := by
  rcases h with h | h | h | h <;>
    simp [parse_cmd, parse_prog, parse_prog_loop, h, classify, prog_new, argv_new, raise_error,
      parser_errors.toNat]

theorem parse_pipe_loop_empty (getenv : List Char → Option (List Char)) (s : Scanner)
    (kind : cmd_kind) (n : Nat)
    (h : s.lookahead.kind = SEP ∨ s.lookahead.kind = END ∨ s.lookahead.kind = STROKE ∨
      s.lookahead.kind = AMP) :
    parse_pipe_loop getenv (n + 1) s kind prog_new =
      .raise PARSER_MISSING_COMMAND s.line s.col := by
  simp [parse_pipe_loop, parse_cmd_empty getenv s kind h]

theorem punct_pipe_fails (getenv : List Char → Option (List Char)) (g : List Char) (c : Char)
    (rest : List Char) (hg : blanks g) (hc : c ∈ [';', '\n', '|', '&']) :
    pipe_fails getenv (g ++ c :: rest) PARSER_MISSING_COMMAND := by
  intro l k tok m kind
  obtain ⟨l1, k1, h⟩ := scan_punct getenv g c rest l k tok hg (by
    simp only [List.mem_cons, List.mem_singleton, List.not_mem_nil, or_false] at hc ⊢
    tauto)
  refine ⟨l1, k1, ?_⟩
  simp only [scan_pipe, h]
  apply parse_pipe_loop_empty
  simp only [List.mem_cons, List.mem_singleton, List.not_mem_nil, or_false] at hc
  rcases hc with rfl | rfl | rfl | rfl <;> simp [punct]

theorem blank_pipe_fails (getenv : List Char → Option (List Char)) (g : List Char)
    (hg : blanks g) : pipe_fails getenv g PARSER_MISSING_COMMAND := by
  intro l k tok m kind
  refine ⟨l, k + g.length, ?_⟩
  simp only [scan_pipe, scan_end getenv g l k tok hg]
  exact parse_pipe_loop_empty getenv _ kind m (by simp)

theorem pipe_input_fails (getenv : List Char → Option (List Char)) (X : List Char)
    (code : parser_errors) (hX : pipe_fails getenv X code)
    (hne : ∀ l k tok s1, scan getenv ⟨X, l, k, tok⟩ = .ok s1 → s1.lookahead.kind ≠ END) :
    input_fails getenv X code := by
  intro l k tok m
  cases hs : scan getenv ⟨X, l, k, tok⟩ with
  | ok s1 =>
    obtain ⟨el, ec, h⟩ := hX l k tok (s1.stream.length + 1) .PROG
    simp only [scan_pipe, hs] at h
    refine ⟨el, ec, ?_⟩
    simp only [parse_input_loop, hs, hne l k tok s1 hs, if_false, parse_pipe]
    have e : argv_new = prog_new := rfl
    rw [e, h]
  | raise c a b =>
    obtain ⟨el, ec, h⟩ := hX l k tok 0 .PROG
    simp only [scan_pipe, hs] at h
    exact ⟨el, ec, by
      simp only [Result.raise.injEq] at h
      simp only [parse_input_loop, hs, Result.raise.injEq]
      exact h⟩
  | fuel =>
    obtain ⟨el, ec, h⟩ := hX l k tok 0 .PROG
    simp [scan_pipe, hs] at h

theorem punct_input_fails (getenv : List Char → Option (List Char)) (g : List Char) (c : Char)
    (rest : List Char) (hg : blanks g) (hc : c ∈ [';', '\n', '|', '&']) :
    input_fails getenv (g ++ c :: rest) PARSER_MISSING_COMMAND := by
  apply pipe_input_fails getenv _ _ (punct_pipe_fails getenv g c rest hg hc)
  intro l k tok s1 hs
  obtain ⟨l1, k1, h⟩ := scan_punct getenv g c rest l k tok hg (by
    simp only [List.mem_cons, List.mem_singleton, List.not_mem_nil, or_false] at hc ⊢
    tauto)
  rw [h] at hs
  simp only [Result.ok.injEq] at hs
  subst hs
  simp only [List.mem_cons, List.mem_singleton, List.not_mem_nil, or_false] at hc
  rcases hc with rfl | rfl | rfl | rfl <;> simp [punct]

theorem stage_pipe_fails (getenv : List Char → Option (List Char)) (tail : List Char)
    (code : parser_errors) (hf : stage_fails getenv tail code) :
    pipe_fails getenv tail code := by
  intro l k tok m kind
  cases hs : scan getenv ⟨tail, l, k, tok⟩ with
  | ok s1 =>
    obtain ⟨el, ec, h⟩ := hf l k tok (s1.stream.length + 1) prog_new
    simp only [scan_prog, hs] at h
    exact ⟨el, ec, by simp [scan_pipe, hs, parse_pipe_loop, parse_cmd, parse_prog, h]⟩
  | raise c a b =>
    obtain ⟨el, ec, h⟩ := hf l k tok 0 prog_new
    simp only [scan_prog, hs] at h
    exact ⟨el, ec, by
      simp only [Result.raise.injEq] at h
      simp only [scan_pipe, hs, Result.raise.injEq]
      exact h⟩
  | fuel =>
    obtain ⟨el, ec, h⟩ := hf l k tok 0 prog_new
    simp [scan_prog, hs] at h

theorem stage_scan_ne_end (getenv : List Char → Option (List Char)) (tail : List Char)
    (code : parser_errors) (hf : stage_fails getenv tail code) :
    ∀ l k tok s1, scan getenv ⟨tail, l, k, tok⟩ = .ok s1 → s1.lookahead.kind ≠ END := by
  intro l k tok s1 hs hk
  obtain ⟨el, ec, h⟩ := hf l k tok 0 prog_new
  simp [scan_prog, hs, parse_prog_loop, hk] at h

theorem items_pipe_fails (getenv : List Char → Option (List Char)) (st : List Item)
    (tail : List Char) (code : parser_errors) (hst : items_ok getenv st)
    (ht : st = [] ∨ ends_word tail) (hf : stage_fails getenv tail code) :
    pipe_fails getenv (render_stage st ++ tail) code ∧
      ∀ l k tok s1, scan getenv ⟨render_stage st ++ tail, l, k, tok⟩ = .ok s1 →
        s1.lookahead.kind ≠ END := by
  cases st with
  | nil =>
    simp only [render_stage, List.nil_append]
    exact ⟨stage_pipe_fails getenv tail code hf, stage_scan_ne_end getenv tail code hf⟩
  | cons i is =>
    have hw : ends_word tail := by
      rcases ht with h | h
      · exact absurd h (by simp)
      · exact h
    have hok : stage_ok getenv (i :: is) := ⟨by simp, hst.1, hst.2⟩
    constructor
    · intro l k tok m kind
      obtain ⟨s1, hs1, _, hc⟩ :=
        parse_cmd_stage_raise getenv (i :: is) tail code l k tok hok hw hf
      obtain ⟨el, ec, h⟩ := hc kind prog_new
      exact ⟨el, ec, by simp [scan_pipe, hs1, parse_pipe_loop, h]⟩
    · intro l k tok s1 hs
      obtain ⟨s2, hs2, hk, _⟩ :=
        parse_cmd_stage_raise getenv (i :: is) tail code l k tok hok hw hf
      rw [hs] at hs2
      simp only [Result.ok.injEq] at hs2
      subst hs2
      rcases hk with h | h | h <;> simp [h]

theorem length_render_chain (chain : List (List Item × List Char)) :
    chain.length ≤ (render_chain chain).length := by
  induction chain with
  | nil => simp
  | cons r chain ih => simp [render_chain]; omega

theorem scan_pipe_chain (getenv : List Char → Option (List Char)) (X : List Char)
    (code : parser_errors) (hX : pipe_fails getenv X code) :
    ∀ (chain : List (List Item × List Char)) (kind : cmd_kind) (n l k : Nat) (tok : token),
      (∀ r ∈ chain, stage_ok getenv r.1 ∧ blanks r.2) →
      chain_ok kind (chain.map (fun r => apply_items getenv argv_new r.1)) →
      chain.length + 1 ≤ n →
      ∃ el ec, scan_pipe getenv n ⟨render_chain chain ++ X, l, k, tok⟩ kind =
        .raise code el ec := by
  intro chain
  induction chain with
  | nil =>
    intro kind n l k tok _ _ hn
    obtain ⟨m, rfl⟩ : ∃ m, n = m + 1 := ⟨n - 1, by simp at hn; omega⟩
    simpa [render_chain] using hX l k tok m kind
  | cons r chain ih =>
    intro kind n l k tok hst hch hn
    obtain ⟨st, g⟩ := r
    obtain ⟨hst1, hg⟩ := hst (st, g) (by simp)
    obtain ⟨m, rfl⟩ : ∃ m, n = m + 1 := ⟨n - 1, by omega⟩
    simp only [List.map_cons, chain_ok] at hch
    obtain ⟨hcl, hkind, hout, hrest⟩ := hch
    have hend := stage_end_punct getenv g '|' (render_chain chain ++ X) hg (by simp)
    have hp : punct '|' = STROKE := by simp [punct]
    rw [hp] at hend
    obtain ⟨s1, hs1, _, _, hcmd⟩ := parse_cmd_stage getenv st _ STROKE _ l k tok hst1 hend
    obtain ⟨l1, k1, hc⟩ := hcmd kind prog_new
    rw [finish_stroke] at hc
    have e0 : prog_new = argv_new := rfl
    rw [e0] at hc
    rcases classify_cases ⟨render_chain chain ++ X, l1, k1, ⟨STROKE, []⟩⟩ kind
        (apply_items getenv argv_new st) with ⟨r, h1, h2⟩ | ⟨c2, l2, k2, _, h2⟩
    · rw [hcl] at h2
      simp only [Except.ok.injEq] at h2
      subst h2
      rw [h1] at hc
      obtain ⟨el, ec, hi⟩ := ih .PIPE m l1 k1 ⟨STROKE, []⟩
        (fun q hq => hst q (by simp [hq])) hrest (by simp at hn; omega)
      refine ⟨el, ec, ?_⟩
      have e : render_chain ((st, g) :: chain) ++ X =
          render_stage st ++ (g ++ '|' :: (render_chain chain ++ X)) := by
        simp [render_chain]
      rw [e]
      simp only [scan_pipe] at hi
      simp only [scan_pipe, hs1, parse_pipe_loop, e0, hc, ne_eq, not_true_eq_false, if_false,
        hkind, hout]
      cases hs2 : scan getenv ⟨render_chain chain ++ X, l1, k1, ⟨STROKE, []⟩⟩ with
      | ok s2 =>
        rw [hs2] at hi
        simp only at hi
        rw [e0] at hi
        simp only [hi]
      | raise c a b =>
        rw [hs2] at hi
        simp only [Result.raise.injEq] at hi
        simp only [Result.raise.injEq]
        exact hi
      | fuel =>
        rw [hs2] at hi
        simp at hi
    · rw [hcl] at h2
      simp at h2

theorem chain_input_fails (getenv : List Char → Option (List Char)) (X : List Char)
    (code : parser_errors) (chain : List (List Item × List Char))
    (hst : ∀ r ∈ chain, stage_ok getenv r.1 ∧ blanks r.2)
    (hch : chain_ok .PROG (chain.map (fun r => apply_items getenv argv_new r.1)))
    (hX : pipe_fails getenv X code)
    (hne : chain = [] →
      ∀ l k tok s1, scan getenv ⟨X, l, k, tok⟩ = .ok s1 → s1.lookahead.kind ≠ END) :
    input_fails getenv (render_chain chain ++ X) code := by
  cases chain with
  | nil => simpa [render_chain] using pipe_input_fails getenv X code hX (hne rfl)
  | cons r chain =>
    intro l k tok m
    obtain ⟨st, g⟩ := r
    obtain ⟨hst1, hg⟩ := hst (st, g) (by simp)
    have hend := stage_end_punct getenv g '|' (render_chain chain ++ X) hg (by simp)
    obtain ⟨s1, hs1, hk, hlen, _⟩ := parse_cmd_stage getenv st _ _ _ l k tok hst1 hend
    have e : render_chain ((st, g) :: chain) ++ X =
        render_stage st ++ (g ++ '|' :: (render_chain chain ++ X)) := by
      simp [render_chain]
    have hl := length_render_chain chain
    obtain ⟨el, ec, h⟩ := scan_pipe_chain getenv X code hX ((st, g) :: chain) .PROG
      (s1.stream.length + 2) l k tok hst hch (by
        simp at hlen ⊢
        omega)
    have hne1 : s1.lookahead.kind ≠ END := by
      rcases hk with h | h | h <;> simp [h]
    rw [e] at h ⊢
    simp only [scan_pipe, hs1] at h
    refine ⟨el, ec, ?_⟩
    simp only [parse_input_loop, hs1, hne1, if_false, parse_pipe]
    have e0 : argv_new = prog_new := rfl
    rw [e0, h]

theorem parse_input_loop_entry (getenv : List Char → Option (List Char)) (e : Entry)
    (he : e.ok getenv) (rest : List Char) (n l k : Nat) (tok : token) :
    ∃ cmd l1 k1 tok1, parse_input_loop getenv (n + 1) ⟨e.text ++ rest, l, k, tok⟩ =
      match parse_input_loop getenv n ⟨rest, l1, k1, tok1⟩ with
      | .ok list => .ok (cmd :: list)
      | .raise code a b => .raise code a b
      | .fuel => .fuel := by
  obtain ⟨hst, hsts, hgap, hterm, cmd, hv⟩ := he
  have hend := stage_end_punct getenv e.gap e.term rest hgap (by
    simp only [List.mem_cons, List.mem_singleton, List.not_mem_nil, or_false] at hterm ⊢
    tauto)
  obtain ⟨l1, k1, h⟩ := parse_input_loop_cmd getenv e.st e.sts (e.gap ++ e.term :: rest)
    (punct e.term) rest hst hsts hend (punct_ne_stroke e.term hterm) n l k tok
  simp only [Entry.verdict] at hv
  rw [hv] at h
  have et : render_pipe e.st e.sts ++ (e.gap ++ e.term :: rest) = e.text ++ rest := by
    simp [Entry.text]
  rw [et] at h
  exact ⟨cmd, l1, k1, ⟨punct e.term, []⟩, h⟩

theorem parse_input_loop_entries (getenv : List Char → Option (List Char)) (es : List Entry) :
    (∀ e ∈ es, e.ok getenv) → ∀ (rest : List Char) (n l k : Nat) (tok : token),
      ∃ cmds l1 k1 tok1,
        parse_input_loop getenv (n + es.length) ⟨entries_text es ++ rest, l, k, tok⟩ =
          match parse_input_loop getenv n ⟨rest, l1, k1, tok1⟩ with
          | .ok list => .ok (cmds ++ list)
          | .raise code a b => .raise code a b
          | .fuel => .fuel := by
  induction es with
  | nil =>
    intro _ rest n l k tok
    refine ⟨[], l, k, tok, ?_⟩
    cases hp : parse_input_loop getenv n ⟨rest, l, k, tok⟩ <;> simp [entries_text, hp]
  | cons e es ih =>
    intro hok rest n l k tok
    obtain ⟨cmd, l1, k1, tok1, h1⟩ := parse_input_loop_entry getenv e (hok e (by simp))
      (entries_text es ++ rest) (n + es.length) l k tok
    obtain ⟨cmds, l2, k2, tok2, h2⟩ := ih (fun d hd => hok d (by simp [hd])) rest n l1 k1 tok1
    refine ⟨cmd :: cmds, l2, k2, tok2, ?_⟩
    have e1 : entries_text (e :: es) ++ rest = e.text ++ (entries_text es ++ rest) := by
      simp [entries_text]
    rw [e1, List.length_cons, ← Nat.add_assoc, h1, h2]
    cases hp : parse_input_loop getenv n ⟨rest, l2, k2, tok2⟩ <;> simp

theorem entries_text_length (es : List Entry) : es.length ≤ (entries_text es).length := by
  induction es with
  | nil => simp
  | cons e es ih =>
    simp [entries_text, Entry.text]
    omega

theorem parser_parse_entries_raise (getenv : List Char → Option (List Char))
    (es : List Entry) (hes : ∀ e ∈ es, e.ok getenv) (Y : List Char) (code : parser_errors)
    (hY : input_fails getenv Y code) :
    ∃ l k, parser_parse getenv (entries_text es ++ Y) =
      some ⟨[], code, messages code, l, k⟩ := by
  have hl := entries_text_length es
  obtain ⟨m, hm⟩ : ∃ m, (entries_text es ++ Y).length + 2 = (m + 1) + es.length :=
    ⟨(entries_text es ++ Y).length + 1 - es.length, by simp; omega⟩
  obtain ⟨cmds, l1, k1, tok1, h⟩ := parse_input_loop_entries getenv es hes Y (m + 1) 0 0
    ⟨UNKNOWN, []⟩
  obtain ⟨el, ec, h2⟩ := hY l1 k1 tok1 m
  rw [h2] at h
  exact ⟨el, ec, by simp only [parser_parse, parse_input, hm, h]⟩

theorem context_raise (getenv : List Char → Option (List Char)) (c : Context) (X : List Char)
    (code : parser_errors) (hc : c.ok getenv) (hX : pipe_fails getenv X code)
    (hne : c.chain = [] →
      ∀ l k tok s1, scan getenv ⟨X, l, k, tok⟩ = .ok s1 → s1.lookahead.kind ≠ END) :
    ∃ l k, parser_parse getenv (c.text ++ X) = some ⟨[], code, messages code, l, k⟩ := by
  obtain ⟨hes, hst, hch⟩ := hc
  have h := parser_parse_entries_raise getenv c.entries hes (render_chain c.chain ++ X) code
    (chain_input_fails getenv X code c.chain hst hch hX hne)
  simpa [Context.text] using h

theorem context_stage_raise (getenv : List Char → Option (List Char)) (c : Context)
    (st : List Item) (tail : List Char) (code : parser_errors) (hc : c.ok getenv)
    (hst : items_ok getenv st) (ht : st = [] ∨ ends_word tail)
    (hf : stage_fails getenv tail code) :
    ∃ l k, parser_parse getenv (c.text ++ (render_stage st ++ tail)) =
      some ⟨[], code, messages code, l, k⟩ := by
  obtain ⟨h1, h2⟩ := items_pipe_fails getenv st tail code hst ht hf
  exact context_raise getenv c _ code hc h1 (fun _ => h2)

/-! ## Stages without arguments -/

theorem simple_entry_ok (getenv : List Char → Option (List Char)) (c : Simple) (hc : c.ok) :
    c.entry.ok getenv := by
  obtain ⟨hne, hhead, hws, hlead, hgap, hterm⟩ := hc
  refine ⟨stage_items_ok getenv _ (plain_parts_ne_nil _ _ hne)
    (plain_parts_ok c.words c.lead hlead hws), by simp [Simple.entry], hgap, hterm, ?_⟩
  exact ⟨_, simple_verdict getenv (punct c.term) c.lead c.words
    (head_not_builtin c.words hne hhead)⟩

theorem simple_entry_text (c : Simple) (hne : c.words ≠ []) : c.entry.text = c.text := by
  cases hw : c.words with
  | nil => exact absurd hw hne
  | cons a args =>
    simp [Simple.entry, Entry.text, Simple.text, render_pipe, render_stages, hw,
      render_stage_plain]

theorem apply_items_redir (getenv : List Char → Option (List Char)) (st : List Item) :
    ∀ prog : prog_args, (∀ j ∈ st, j.is_redir = true) →
      (apply_items getenv prog st).argv = prog.argv := by
  induction st with
  | nil => intro prog _; rfl
  | cons i st ih =>
    intro prog h
    have hi := h i (by simp)
    have hr := ih (i.apply getenv prog) (fun j hj => h j (by simp [hj]))
    cases i with
    | arg g w => simp [Item.is_redir] at hi
    | inp g f w => simpa [apply_items, Item.apply] using hr
    | out g f w => simpa [apply_items, Item.apply] using hr

theorem finish_argv (T : token_kind) (prog : prog_args) : (finish T prog).argv = prog.argv := by
  unfold finish
  split_ifs <;> rfl

theorem classify_empty (s : Scanner) (kind : cmd_kind) (prog : prog_args)
    (h : prog.argv = []) :
    classify s kind prog = .raise PARSER_MISSING_COMMAND s.line s.col := by
  simp [classify, h, raise_error, parser_errors.toNat]

theorem parse_cmd_no_argument (getenv : List Char → Option (List Char)) (s s1 : Scanner)
    (kind : cmd_kind) (prog prog1 : prog_args)
    (hp : parse_prog getenv s prog = .ok (s1, prog1)) (h : prog1.argv = []) :
    parse_cmd getenv s kind prog = .raise PARSER_MISSING_COMMAND s1.line s1.col := by
  simp [parse_cmd, hp, classify_empty s1 kind prog1 h]

theorem redir_pipe_fails (getenv : List Char → Option (List Char)) (st : List Item)
    (tail : List Char) (T : token_kind) (tail1 : List Char) (hst : stage_ok getenv st)
    (hr : ∀ j ∈ st, j.is_redir = true) (ht : stage_end getenv tail T tail1) :
    pipe_fails getenv (render_stage st ++ tail) PARSER_MISSING_COMMAND ∧
      ∀ l k tok s1, scan getenv ⟨render_stage st ++ tail, l, k, tok⟩ = .ok s1 →
        s1.lookahead.kind ≠ END := by
  constructor
  · intro l k tok m kind
    obtain ⟨s1, hs1, _, _, hcmd⟩ := parse_cmd_stage getenv st tail T tail1 l k tok hst ht
    obtain ⟨l1, k1, hc⟩ := hcmd kind prog_new
    have ha : (finish T (apply_items getenv prog_new st)).argv = [] := by
      rw [finish_argv, apply_items_redir getenv st prog_new hr]
      rfl
    rw [classify_empty _ kind _ ha] at hc
    exact ⟨l1, k1, by simp [scan_pipe, hs1, parse_pipe_loop, hc]⟩
  · intro l k tok s1 hs
    obtain ⟨s2, hs2, hk, _⟩ := parse_cmd_stage getenv st tail T tail1 l k tok hst ht
    rw [hs] at hs2
    simp only [Result.ok.injEq] at hs2
    subst hs2
    rcases hk with h | h | h <;> simp [h]

theorem punct_scan_ne_end (getenv : List Char → Option (List Char)) (g : List Char) (c : Char)
    (rest : List Char) (hg : blanks g) (hc : c ∈ [';', '\n', '|', '&', '<', '>']) :
    ∀ l k tok s1, scan getenv ⟨g ++ c :: rest, l, k, tok⟩ = .ok s1 →
      s1.lookahead.kind ≠ END := by
  intro l k tok s1 hs
  obtain ⟨l1, k1, h⟩ := scan_punct getenv g c rest l k tok hg (by
    simp only [List.mem_cons, List.mem_singleton, List.not_mem_nil, or_false] at hc ⊢
    tauto)
  rw [h] at hs
  simp only [Result.ok.injEq] at hs
  subst hs
  simp only [List.mem_cons, List.mem_singleton, List.not_mem_nil, or_false] at hc
  rcases hc with rfl | rfl | rfl | rfl | rfl | rfl <;> simp [punct]

theorem stages_argv_ne_nil (getenv : List Char → Option (List Char)) (input : List Char)
    (out : Outcome) (h : parser_parse getenv input = some out) :
    ∀ cmd ∈ out.list, ∀ p ∈ cmd.stages, p.argv ≠ [] := by
  intro cmd hcmd p hp
  obtain ⟨a, args, ha, _⟩ := parser_parse_inv getenv input out h cmd hcmd p hp
  rw [ha]
  simp

theorem simple_chain_ok (getenv : List Char → Option (List Char)) (chain : List Simple)
    (h : ∀ c ∈ chain, c.ok) :
    ∀ kind, kind = .PROG ∨ kind = .PIPE →
      chain_ok kind ((chain.map Simple.stage).map (fun r => apply_items getenv argv_new r.1)) := by
  induction chain with
  | nil => intro kind _; simp [chain_ok]
  | cons c chain ih =>
    intro kind hk
    obtain ⟨hne, hhead, hws, hlead, hgap, hterm⟩ := h c (by simp)
    have e : apply_items getenv argv_new (stage_items (plain_parts c.lead c.words)) =
        simple false c.words := apply_items_plain getenv c.lead c.words
    simp only [List.map_cons, chain_ok, Simple.stage]
    rw [e]
    refine ⟨?_, hk, rfl, ih (fun d hd => h d (by simp [hd])) .PIPE (Or.inr rfl)⟩
    obtain ⟨a, args, hw, ha⟩ := head_not_builtin c.words hne hhead
    exact classify_code_external kind _ a args (by simp [simple, hw]) ha (by simp [simple])

theorem simple_context_ok (getenv : List Char → Option (List Char)) (cs chain : List Simple)
    (h1 : ∀ c ∈ cs, c.ok) (h2 : ∀ c ∈ chain, c.ok) : (simple_context cs chain).ok getenv := by
  refine ⟨?_, ?_, simple_chain_ok getenv chain h2 .PROG (Or.inl rfl)⟩
  · intro e he
    simp only [simple_context, List.mem_map] at he
    obtain ⟨c, hc, rfl⟩ := he
    exact simple_entry_ok getenv c (h1 c hc)
  · intro r hr
    simp only [simple_context, List.mem_map] at hr
    obtain ⟨c, hc, rfl⟩ := hr
    obtain ⟨hne, hhead, hws, hlead, hgap, hterm⟩ := h2 c hc
    exact ⟨stage_items_ok getenv _ (plain_parts_ne_nil _ _ hne)
      (plain_parts_ok c.words c.lead hlead hws), hgap⟩

/-! ## The beginning of a word -/

theorem follows_tail (s : Seg) (w : List Seg) (X : List Char) (h : follows (s :: w) X) :
    follows w X := by
  cases w with
  | nil => intro h0; simp [var_last] at h0
  | cons t w => simpa [follows, var_last, List.getLast?_cons_cons] using h

theorem cur_after_var_follows (w : List Seg) (X : List Char) (hw : after_var w)
    (hf : follows (.var [] :: w) X) :
    (cur (render_word w ++ X) = NUL ∨ cur (render_word w ++ X) ∈ VAR_STOP) ∧
      cur (render_word w ++ X) ≠ '{' := by
  cases w with
  | nil => simpa [render_word] using hf (by simp [var_last])
  | cons s w =>
    cases s with
    | plain cs => simp [after_var] at hw
    | quoted cs => simp [render_word, Seg.render, cur, VAR_STOP]
    | esc c => simp [render_word, Seg.render, cur, VAR_STOP]
    | var name => simp [render_word, Seg.render, cur, VAR_STOP]
    | bvar name => simp [render_word, Seg.render, cur, VAR_STOP]

theorem follows_var_nil (name : List Char) (w : List Seg) (X : List Char)
    (h : follows (.var name :: w) X) : follows (.var [] :: w) X := by
  cases w with
  | nil => simpa [follows, var_last] using h
  | cons t w => simpa [follows, var_last, List.getLast?_cons_cons] using h

theorem read_loop_prefix (getenv : List Char → Option (List Char)) (w : List Seg) :
    ∀ (b : Bool) (acc : List Char) (X : List Char),
      word_ok w → follows w X → acc.length + (expand_word getenv w).length ≤ 2046 →
      ∃ m, m ≤ (render_word w).length ∧ ∀ l k n, ∃ l1 k1,
        read_loop getenv (n + 1 + m) (st_word b (render_word w ++ X) l k acc) =
          read_loop getenv (n + 1)
            (st_word (b || !w.isEmpty) X l1 k1 (acc ++ expand_word getenv w)) := by
  induction w with
  | nil =>
    intro b acc X _ _ _
    exact ⟨0, by simp, fun l k n => ⟨l, k, by simp [render_word, expand_word]⟩⟩
  | cons s w ih =>
    intro b acc X hw hf ha
    have hf1 := follows_tail s w X hf
    cases s with
    | plain cs =>
      obtain ⟨⟨hne, hcs⟩, hw1⟩ : Seg.ok (.plain cs) ∧ word_ok w := by simpa [word_ok] using hw
      cases cs with
      | nil => exact absurd rfl hne
      | cons c cs =>
        simp only [render_word, Seg.render, expand_word, Seg.expand, List.length_append,
          List.length_cons, List.append_assoc, List.cons_append] at ha ⊢
        obtain ⟨m, hm, h⟩ := ih true (acc ++ [c] ++ cs) X hw1 hf1 (by simp; omega)
        refine ⟨m + cs.length + 1, by omega, fun l k n => ?_⟩
        obtain ⟨l1, k1, h1⟩ := h l (k + 1 + cs.length) n
        refine ⟨l1, k1, ?_⟩
        have e : n + 1 + (m + cs.length + 1) = ((n + 1 + m) + cs.length) + 1 := by omega
        rw [e, read_loop_plain getenv _ b c _ l k acc (hcs c (by simp)) (by omega),
          read_loop_plains getenv cs (fun c h => hcs c (by simp [h])) _ _ l (k + 1) (acc ++ [c])
            (by simp; omega), h1]
        simp
    | quoted cs =>
      obtain ⟨hcs, hw1⟩ : Seg.ok (.quoted cs) ∧ word_ok w := by simpa [word_ok] using hw
      simp only [render_word, Seg.render, expand_word, Seg.expand, List.length_append,
        List.length_cons, List.append_assoc, List.cons_append, List.nil_append] at ha ⊢
      obtain ⟨m, hm, h⟩ := ih true (acc ++ cs) X hw1 hf1 (by simp; omega)
      refine ⟨m + 1 + cs.length + 1, by omega, fun l k n => ?_⟩
      obtain ⟨l0, k0, h0⟩ := read_loop_quoted getenv cs hcs (n + 1 + m + 1)
        ('\'' :: (render_word w ++ X)) l (k + 1) acc (by omega)
      obtain ⟨l1, k1, h1⟩ := h l0 (k0 + 1) n
      refine ⟨l1, k1, ?_⟩
      have e : n + 1 + (m + 1 + cs.length + 1) = ((n + 1 + m + 1) + cs.length) + 1 := by omega
      rw [e, read_loop_quote_open getenv _ b _ l k acc (by omega), h0,
        read_loop_quote_close getenv _ _ l0 k0 (acc ++ cs) (by simp; omega), h1]
      simp
    | esc c =>
      obtain ⟨hc, hw1⟩ : Seg.ok (.esc c) ∧ word_ok w := by simpa [word_ok] using hw
      simp only [render_word, Seg.render, expand_word, Seg.expand, List.length_append,
        List.length_cons, List.append_assoc, List.cons_append, List.nil_append,
        List.length_nil] at ha ⊢
      obtain ⟨m, hm, h⟩ := ih true (acc ++ [c]) X hw1 hf1 (by simp; omega)
      refine ⟨m + 2, by omega, fun l k n => ?_⟩
      obtain ⟨l1, k1, h1⟩ := h (next_line c l) (next_col c (k + 1)) n
      refine ⟨l1, k1, ?_⟩
      have e : n + 1 + (m + 2) = ((n + 1 + m) + 1) + 1 := by omega
      rw [e, read_loop_esc_open getenv _ b _ l k acc (by omega),
        read_loop_esc_char getenv _ c _ l (k + 1) acc hc (by omega), h1]
      simp
    | var name =>
      obtain ⟨⟨hcs, hlen⟩, haft, hw1⟩ :
          Seg.ok (.var name) ∧ after_var w ∧ word_ok w := by simpa [word_ok] using hw
      have hcur := cur_after_var_follows w X haft (follows_var_nil name w X hf)
      simp only [render_word, Seg.render, expand_word, Seg.expand, List.length_append,
        List.length_cons, List.append_assoc, List.cons_append, List.nil_append] at ha ⊢
      obtain ⟨m, hm, h⟩ := ih true (acc ++ value_of getenv name) X hw1 hf1 (by simp; omega)
      refine ⟨m + name.length + 1, by omega, fun l k n => ?_⟩
      obtain ⟨l1, k1, h1⟩ := h l (k + 1 + name.length) n
      refine ⟨l1, k1, ?_⟩
      have e : n + 1 + (m + name.length + 1) = ((n + m + 1) + name.length) + 1 := by omega
      rw [e, read_loop_var_open getenv _ b _ l k acc (by omega)
          (cur_name_ne_brace name _ hcs hcur.2),
        read_loop_name getenv name hcs (n + m + 1) false _ l (k + 1) acc [] (by omega)
          (by simp; omega),
        read_loop_var_end getenv (n + m) _ l _ acc _ hcur.1 (by simp; omega) (by simp; omega)]
      simp only [List.nil_append]
      have e2 : n + m + 1 = n + 1 + m := by omega
      rw [e2, h1]
      simp
    | bvar name =>
      obtain ⟨⟨hcs, hlen⟩, hw1⟩ : Seg.ok (.bvar name) ∧ word_ok w := by
        simpa [word_ok] using hw
      simp only [render_word, Seg.render, expand_word, Seg.expand, List.length_append,
        List.length_cons, List.append_assoc, List.cons_append, List.nil_append] at ha ⊢
      obtain ⟨m, hm, h⟩ := ih true (acc ++ value_of getenv name) X hw1 hf1 (by simp; omega)
      refine ⟨m + name.length + 1, by omega, fun l k n => ?_⟩
      obtain ⟨l1, k1, h1⟩ := h l (k + 2 + name.length + 1) n
      refine ⟨l1, k1, ?_⟩
      have e : n + 1 + (m + name.length + 1) = ((n + m + 1) + name.length) + 1 := by omega
      rw [e, read_loop_bvar_open getenv _ b _ l k acc (by omega),
        read_loop_name getenv name hcs (n + m + 1) true _ l (k + 2) acc [] (by omega)
          (by simp; omega),
        read_loop_bvar_end getenv (n + m) _ l _ acc _ (by simp; omega) (by simp; omega)]
      simp only [List.nil_append]
      have e2 : n + m + 1 = n + 1 + m := by omega
      rw [e2, h1]
      simp

/-! ## Words that do not end -/

theorem open_quote_fails (getenv : List Char → Option (List Char)) (q : List Char) (a : Nat)
    (hq : ∀ c ∈ q, c ≠ NUL ∧ c ≠ '\'') (ha : a + q.length ≤ 2046) :
    word_fails getenv a ('\'' :: q) PARSER_UNEXPECTED_EOF := by
  intro b acc l k n hacc
  obtain ⟨l1, k1, h⟩ := read_loop_quoted getenv q hq (n + 1) [] l (k + 1) acc (by omega)
  refine ⟨l1, k1, ?_⟩
  have e : n + 1 + ('\'' :: q).length = ((n + 1) + q.length) + 1 := by simp; omega
  rw [e, read_loop_quote_open getenv _ b _ l k acc (by omega)]
  simp only [List.append_nil] at h
  rw [h]
  have h2 : ¬ (2047 ≤ acc.length + q.length) := by omega
  simp [read_loop, step, st_quote, cur, MAX_LINE_LENGTH, NUL, h2, raise_error,
    parser_errors.toNat]

theorem open_escape_fails (getenv : List Char → Option (List Char)) :
    word_fails getenv 2046 ['\\'] PARSER_UNEXPECTED_EOF := by
  intro b acc l k n hacc
  refine ⟨l, k + 1, ?_⟩
  have e : n + 1 + ['\\'].length = (n + 1) + 1 := by simp
  rw [e, read_loop_esc_open getenv _ b _ l k acc (by omega)]
  have h2 : ¬ (2047 ≤ acc.length) := by omega
  simp [read_loop, step, st_esc, cur, MAX_LINE_LENGTH, NUL, h2, raise_error,
    parser_errors.toNat]

theorem open_brace_fails (getenv : List Char → Option (List Char)) (name X : List Char)
    (hn : ∀ c ∈ name, name_char c) (hlen : name.length ≤ 2046)
    (hX : cur X = NUL ∨ (cur X ∈ VAR_STOP ∧ cur X ≠ '}')) :
    word_fails getenv 2046 ('$' :: '{' :: (name ++ X)) PARSER_BAD_SUBSTITUTION := by
  intro b acc l k n hacc
  refine ⟨l, k + 2 + name.length, ?_⟩
  have e : n + 1 + ('$' :: '{' :: (name ++ X)).length =
      ((n + X.length + 1 + 1) + name.length) + 1 := by simp; omega
  rw [e, read_loop_bvar_open getenv _ b _ l k acc (by omega),
    read_loop_name getenv name hn _ true X l (k + 2) acc [] (by omega) (by simp; omega)]
  have h1 : ¬ (2047 ≤ acc.length) := by omega
  have h2 : ¬ (2047 ≤ name.length) := by omega
  have hstop : ¬ (cur X ≠ NUL ∧ ¬ strchr VAR_STOP (cur X) = true) := by
    rcases hX with h | h
    · simp [h]
    · simp [strchr, h.1]
  have hb : cur X ≠ '}' := by
    rcases hX with h | h
    · rw [h]; simp [NUL]
    · exact h.2
  have h0 : ¬ ((st_var true X l (k + 2 + name.length) acc ([] ++ name)).arg.length ≥
      MAX_LINE_LENGTH - 1 ∨ (st_var true X l (k + 2 + name.length) acc ([] ++ name)).var.length ≥
      MAX_LINE_LENGTH - 1) := by
    simp [st_var, MAX_LINE_LENGTH]; omega
  rw [read_loop, step]
  rw [if_neg h0]
  simp only [st_var, Bool.false_eq_true, if_false, if_true, gobble_variable]
  rw [if_neg hstop, if_pos hb]
  simp [raise_error, parser_errors.toNat]

theorem scan_word_fails (getenv : List Char → Option (List Char)) (bs : List Char)
    (w : List Seg) (F : List Char) (code : parser_errors) (a : Nat) (hb : blanks bs)
    (hw : word_ok w) (hf : follows w F) (hlen : (expand_word getenv w).length ≤ a)
    (ha : a ≤ 2046) (hF : word_fails getenv a F code) :
    ∀ l k tok, ∃ el ec,
      scan getenv ⟨bs ++ (render_word w ++ F), l, k, tok⟩ = .raise code el ec := by
  intro l k tok
  obtain ⟨m, hm, h⟩ := read_loop_prefix getenv w false [] F hw hf (by simp; omega)
  obtain ⟨l1, k1, h1⟩ := h l (k + bs.length) ((render_word w).length - m + F.length)
  obtain ⟨el, ec, h2⟩ := hF (false || !w.isEmpty) ([] ++ expand_word getenv w) l1 k1
    ((render_word w).length - m) (by simpa using hlen)
  refine ⟨el, ec, scan_of_read_raise getenv _ code el ec ?_⟩
  have e : (bs ++ (render_word w ++ F)).length + 1 =
      (((render_word w).length - m + F.length) + 1 + m) + bs.length := by
    simp; omega
  have e2 : (render_word w).length - m + F.length + 1 =
      (render_word w).length - m + 1 + F.length := by omega
  simp only [read, read_init_eq]
  rw [e, read_loop_blanks getenv bs hb, h1, e2, h2]

/-! ## An error in the last word of a stage -/

theorem redirection_scan_raise (getenv : List Char → Option (List Char)) (s : Scanner)
    (prog : prog_args) (code : parser_errors) (el ec : Nat)
    (h : scan getenv s = .raise code el ec) :
    parse_redirection getenv s prog = .raise code el ec := by
  unfold parse_redirection
  by_cases hk : s.lookahead.kind = IN
  · rw [if_pos hk, h]
  · rw [if_neg hk, h]

theorem lead_stage_fails (getenv : List Char → Option (List Char)) (ld : Lead) (W : List Char)
    (code : parser_errors) (hld : ld.ok)
    (h : ∀ g, blanks g → ∀ l k tok, ∃ el ec,
      scan getenv ⟨g ++ W, l, k, tok⟩ = .raise code el ec) :
    stage_fails getenv (ld.text ++ W) code := by
  cases ld with
  | arg g => exact scan_fails_stage getenv _ code (h g hld)
  | redir g op f =>
    obtain ⟨hg, hop, hf⟩ := hld
    intro l k tok m prog
    obtain ⟨l1, k1, h1⟩ := scan_punct getenv g op (f ++ W) l k tok hg (by
      simp only [List.mem_cons, List.mem_singleton, List.not_mem_nil, or_false] at hop ⊢
      tauto)
    obtain ⟨el, ec, h2⟩ := h f hf l1 k1 ⟨punct op, []⟩
    refine ⟨el, ec, ?_⟩
    have h3 := redirection_scan_raise getenv ⟨f ++ W, l1, k1, ⟨punct op, []⟩⟩ prog code el ec h2
    simp only [List.mem_cons, List.mem_singleton, List.not_mem_nil, or_false] at hop
    rcases hop with rfl | rfl
    · have hp : punct '<' = IN := by simp [punct]
      rw [hp] at h1 h3
      simp [Lead.text, scan_prog, h1, parse_prog_loop, h3]
    · have hp : punct '>' = OUT := by simp [punct]
      rw [hp] at h1 h3
      simp [Lead.text, scan_prog, h1, parse_prog_loop, h3]

theorem lead_ends_word (ld : Lead) (W : List Char) (hld : ld.ok) (hs : ld.sep) :
    ends_word (ld.text ++ W) := by
  cases ld with
  | arg g =>
    cases g with
    | nil => exact absurd rfl hs
    | cons c g => exact ends_word_blank c _ (hld c (by simp))
  | redir g op f =>
    obtain ⟨hg, hop, hf⟩ := hld
    have h := ends_word_gap g (op :: (f ++ W)) hg (ends_word_punct op _ (by
      simp only [List.mem_cons, List.mem_singleton, List.not_mem_nil, or_false] at hop ⊢
      tauto))
    simpa [Lead.text] using h

theorem context_word_raise (getenv : List Char → Option (List Char)) (c : Context)
    (st : List Item) (ld : Lead) (w : List Seg) (F : List Char) (code : parser_errors) (a : Nat)
    (hc : c.ok getenv) (hst : items_ok getenv st) (hld : ld.ok) (hs : st = [] ∨ ld.sep)
    (hw : word_ok w) (hf : follows w F) (hlen : (expand_word getenv w).length ≤ a)
    (ha : a ≤ 2046) (hF : word_fails getenv a F code) :
    ∃ l k, parser_parse getenv
        (c.text ++ (render_stage st ++ (ld.text ++ (render_word w ++ F)))) =
      some ⟨[], code, messages code, l, k⟩ :=
  context_stage_raise getenv c st _ code hc hst
    (hs.imp id (fun h => lead_ends_word ld _ hld h))
    (lead_stage_fails getenv ld _ code hld
      (fun g hg => scan_word_fails getenv g w F code a hg hw hf hlen ha hF))

/-! ## The lexical modes of the input -/

theorem lex_nul (m : lex_mode) (s : List Char) (h : cur s = NUL) : lex m s = m := by
  cases s with
  | nil => rfl
  | cons c s =>
    have hc : c = NUL := by simpa [cur] using h
    simp [lex, hc]

theorem lex_cur (m : lex_mode) (s : List Char) (h : cur s ≠ NUL) :
    lex m s = lex (lex_step m (cur s)) s.tail := by
  cases s with
  | nil => simp [cur] at h
  | cons c s =>
    have hc : c ≠ NUL := by simpa [cur] using h
    simp [lex, hc, cur]

theorem lex_broken (s : List Char) : lex .broken s = .broken := by
  induction s with
  | nil => rfl
  | cons c s ih =>
    by_cases hc : c = NUL
    · simp [lex, hc]
    · simp [lex, hc, lex_step, ih]

theorem dispatch_lex (r : Reader) (hk : r.kind ≠ END) (hb : r.bracket = false)
    (h1 : r.comment = false) (h2 : r.quote = false) (h3 : r.backspace = false)
    (h4 : r.variable_ = false) :
    (dispatch r).lex_ok (lex .plain r.stream).verdict := by
  unfold dispatch
  dsimp only
  by_cases c0 : cur r.stream = NUL
  · rw [if_pos c0]
    simp [Step.lex_ok, lex_nul _ _ c0, lex_mode.verdict]
  rw [if_neg c0, lex_cur _ _ c0]
  by_cases c1 : cur r.stream = ' ' ∨ cur r.stream = '\t'
  · rw [if_pos c1]
    have e : lex_step .plain (cur r.stream) = .plain := by
      rcases c1 with h | h <;> simp [h, lex_step, lex_plain]
    simp [Step.lex_ok, Reader.flags_ok, Reader.mode, hk, hb, h1, h2, h3, h4, e]
  rw [if_neg c1]
  by_cases c2 : cur r.stream = '&'
  · rw [if_pos c2]
    simp [Step.lex_ok, c2, lex_step, lex_plain]
  rw [if_neg c2]
  by_cases c3 : cur r.stream = '>'
  · rw [if_pos c3]
    simp [Step.lex_ok, c3, lex_step, lex_plain]
  rw [if_neg c3]
  by_cases c4 : cur r.stream = '<'
  · rw [if_pos c4]
    simp [Step.lex_ok, c4, lex_step, lex_plain]
  rw [if_neg c4]
  by_cases c5 : cur r.stream = '|'
  · rw [if_pos c5]
    simp [Step.lex_ok, c5, lex_step, lex_plain]
  rw [if_neg c5]
  by_cases c6 : cur r.stream = '\n'
  · rw [if_pos c6]
    simp [Step.lex_ok, c6, lex_step, lex_plain]
  rw [if_neg c6]
  by_cases c7 : cur r.stream = ';'
  · rw [if_pos c7]
    simp [Step.lex_ok, c7, lex_step, lex_plain]
  rw [if_neg c7]
  by_cases c8 : cur r.stream = '#'
  · rw [if_pos c8]
    simp [Step.lex_ok, Reader.flags_ok, Reader.mode, hb, h2, h3, h4, c8, lex_step, lex_plain]
  rw [if_neg c8]
  by_cases c9 : cur r.stream = '\''
  · rw [if_pos c9]
    simp [Step.lex_ok, Reader.flags_ok, Reader.mode, hb, h1, h3, h4, c9, lex_step, lex_plain]
  rw [if_neg c9]
  by_cases c10 : cur r.stream = '\\'
  · rw [if_pos c10]
    simp [Step.lex_ok, Reader.flags_ok, Reader.mode, hb, h1, h2, h4, c10, lex_step, lex_plain]
  rw [if_neg c10]
  by_cases c11 : cur r.stream = '$'
  · rw [if_pos c11]
    have e : lex_step .plain (cur r.stream) = .dollar := by simp [c11, lex_step, lex_plain]
    rw [e]
    by_cases c12 : cur r.stream.tail = '{'
    · rw [if_pos c12]
      have c13 : cur r.stream.tail ≠ NUL := by rw [c12]; simp [NUL]
      rw [lex_cur _ _ c13]
      simp [Step.lex_ok, Reader.flags_ok, Reader.mode, h1, h2, h3, c12, lex_step]
    · rw [if_neg c12]
      by_cases c13 : cur r.stream.tail = NUL
      · simp [Step.lex_ok, Reader.flags_ok, Reader.mode, hb, h1, h2, h3, lex_nul _ _ c13,
          lex_mode.verdict]
      · rw [lex_cur _ _ c13]
        simp [Step.lex_ok, Reader.flags_ok, Reader.mode, hb, h1, h2, h3, c12, lex_step,
          lex_cur .name _ c13]
  rw [if_neg c11]
  have e : lex_step .plain (cur r.stream) = .plain := by
    simp [lex_step, lex_plain, c8, c9, c10, c11]
  simp [Step.lex_ok, Reader.flags_ok, Reader.mode, hk, hb, h1, h2, h3, h4, e]

theorem gobble_ide_lex (r : Reader) (hk : r.kind ≠ END) (hb : r.bracket = false)
    (h1 : r.comment = false) (h2 : r.quote = false) (h3 : r.backspace = false)
    (h4 : r.variable_ = false) :
    (gobble_ide r).lex_ok (lex .plain r.stream).verdict := by
  unfold gobble_ide
  dsimp only
  by_cases hi : r.ide = true
  · rw [if_pos hi]
    by_cases s1 : cur r.stream = NUL ∨ strchr IDE_STOP (cur r.stream) = true
    · rw [if_pos s1]
      exact ⟨rfl, fun h => absurd h hk⟩
    · rw [if_neg s1]
      by_cases s2 : ¬ strchr IDE_MODE (cur r.stream) = true
      · rw [if_pos s2]
        have c0 : cur r.stream ≠ NUL := fun h => s1 (Or.inl h)
        have e : lex_step .plain (cur r.stream) = .plain := by
          have s3 : ¬ strchr IDE_STOP (cur r.stream) = true := fun h => s1 (Or.inr h)
          simp [strchr, IDE_STOP, IDE_MODE] at s2 s3
          simp [lex_step, lex_plain, s2, s3]
        rw [lex_cur _ _ c0, e]
        simp [Step.lex_ok, Reader.flags_ok, Reader.mode, hk, hb, h1, h2, h3, h4]
      · rw [if_neg s2]
        exact dispatch_lex r hk hb h1 h2 h3 h4
  · rw [if_neg hi]
    exact dispatch_lex r hk hb h1 h2 h3 h4

theorem substitute_lex (getenv : List Char → Option (List Char)) (r : Reader)
    (hk : r.kind ≠ END) (h1 : r.comment = false) (h2 : r.quote = false)
    (h3 : r.backspace = false) :
    (substitute getenv r).lex_ok (lex .plain r.stream).verdict := by
  unfold substitute
  dsimp only
  cases hg : getenv r.var with
  | none =>
    exact gobble_ide_lex { r with bracket := false, variable_ := false, var := [] } hk rfl h1 h2
      h3 rfl
  | some value =>
    dsimp only
    cases hs : splice r.arg value with
    | none => simp [Step.lex_ok]
    | some arg =>
      exact gobble_ide_lex { r with bracket := false, variable_ := false, var := [], arg := arg }
        hk rfl h1 h2 h3 rfl

theorem gobble_variable_lex (getenv : List Char → Option (List Char)) (r : Reader)
    (hk : r.kind ≠ END) (h1 : r.comment = false) (h2 : r.quote = false)
    (h3 : r.backspace = false) (h4 : r.variable_ = true) :
    (gobble_variable getenv r).lex_ok
      (lex (if r.bracket then .brace else .name) r.stream).verdict := by
  unfold gobble_variable
  dsimp only
  by_cases s1 : cur r.stream ≠ NUL ∧ ¬ strchr VAR_STOP (cur r.stream) = true
  · rw [if_pos s1, lex_cur _ _ s1.1]
    have s2 : strchr VAR_STOP (cur r.stream) = false := by simpa using s1.2
    cases hbr : r.bracket <;>
      simp [Step.lex_ok, Reader.flags_ok, Reader.mode, hk, h1, h2, h3, h4, hbr, lex_step, s2]
  · rw [if_neg s1]
    by_cases hbr : r.bracket = true
    · rw [if_pos hbr]
      simp only [hbr, if_true]
      by_cases s3 : cur r.stream ≠ '}'
      · rw [if_pos s3]
        simp only [Step.lex_ok, reduceCtorEq, false_implies, true_implies, true_and, ne_eq,
          not_false_eq_true]
        by_cases c0 : cur r.stream = NUL
        · rw [lex_nul _ _ c0]; rfl
        · have s4 : strchr VAR_STOP (cur r.stream) = true := by
            by_contra h; exact s1 ⟨c0, h⟩
          rw [lex_cur _ _ c0]
          simp [lex_step, s4, s3, lex_broken, lex_mode.verdict]
      · rw [if_neg s3]
        have s4 : cur r.stream = '}' := by simpa using s3
        have c0 : cur r.stream ≠ NUL := by rw [s4]; simp [NUL]
        have e : lex_step .brace (cur r.stream) = .plain := by
          rw [s4]; simp [lex_step, strchr, VAR_STOP]
        rw [lex_cur _ _ c0, e]
        exact substitute_lex getenv { r with stream := r.stream.tail, col := r.col + 1 } hk h1 h2
          h3
    · rw [if_neg hbr]
      have hbr2 : r.bracket = false := by simpa using hbr
      simp only [hbr2, Bool.false_eq_true, if_false]
      have e : (lex .name r.stream).verdict = (lex .plain r.stream).verdict := by
        by_cases c0 : cur r.stream = NUL
        · rw [lex_nul _ _ c0, lex_nul _ _ c0]; rfl
        · have s4 : strchr VAR_STOP (cur r.stream) = true := by
            by_contra h; exact s1 ⟨c0, h⟩
          rw [lex_cur _ _ c0, lex_cur .plain _ c0]
          simp [lex_step, s4]
      rw [e]
      exact substitute_lex getenv r hk h1 h2 h3

theorem step_lex (getenv : List Char → Option (List Char)) (r : Reader) (hr : r.flags_ok) :
    (step getenv r).lex_ok (lex r.mode r.stream).verdict := by
  obtain ⟨hk, hbv, hc, hq, hbs⟩ := hr
  unfold step
  dsimp only
  by_cases h0 : r.arg.length ≥ MAX_LINE_LENGTH - 1 ∨ r.var.length ≥ MAX_LINE_LENGTH - 1
  · rw [if_pos h0]
    simp [Step.lex_ok]
  rw [if_neg h0]
  by_cases h1 : r.comment = true
  · rw [if_pos h1]
    obtain ⟨h2, h3, h4⟩ := hc h1
    have em : r.mode = .comment := by simp [Reader.mode, h1]
    rw [em]
    by_cases s1 : cur r.stream = '\n' ∨ cur r.stream = NUL
    · rw [if_pos s1]
      simp only [Step.lex_ok]
      refine ⟨?_, fun h => absurd h hk⟩
      rcases s1 with s | s
      · have c0 : cur r.stream ≠ NUL := by rw [s]; simp [NUL]
        rw [lex_cur _ _ c0, lex_cur .comment _ c0, s]
        simp [lex_step, lex_plain]
      · rw [lex_nul _ _ s, lex_nul _ _ s]; rfl
    · rw [if_neg s1]
      have c0 : cur r.stream ≠ NUL := fun h => s1 (Or.inr h)
      have c1 : cur r.stream ≠ '\n' := fun h => s1 (Or.inl h)
      rw [lex_cur _ _ c0]
      simp [Step.lex_ok, Reader.flags_ok, Reader.mode, hk, h1, h2, h3, h4, hbv, lex_step, c1]
  rw [if_neg h1]
  have h1f : r.comment = false := by simpa using h1
  by_cases h2 : r.quote = true
  · rw [if_pos h2]
    obtain ⟨h3, h4⟩ := hq h2
    have em : r.mode = .quote := by simp [Reader.mode, h1f, h2]
    rw [em]
    by_cases c0 : cur r.stream = NUL
    · rw [if_pos c0, lex_nul _ _ c0]
      simp [Step.lex_ok, lex_mode.verdict]
    rw [if_neg c0, lex_cur _ _ c0]
    by_cases c1 : cur r.stream = '\''
    · rw [if_pos c1]
      simp [Step.lex_ok, Reader.flags_ok, Reader.mode, hk, h1f, h3, h4, hbv, lex_step, c1]
    rw [if_neg c1]
    by_cases c2 : cur r.stream = '\n'
    · rw [if_pos c2]
      simp [Step.lex_ok, Reader.flags_ok, Reader.mode, hk, h1f, h2, h3, h4, hbv, lex_step, c2]
    · rw [if_neg c2]
      simp [Step.lex_ok, Reader.flags_ok, Reader.mode, hk, h1f, h2, h3, h4, hbv, lex_step, c1]
  rw [if_neg h2]
  have h2f : r.quote = false := by simpa using h2
  by_cases h3 : r.backspace = true
  · rw [if_pos h3]
    have h4 := hbs h3
    have em : r.mode = .escape := by simp [Reader.mode, h1f, h2f, h3]
    rw [em]
    by_cases c0 : cur r.stream = NUL
    · rw [if_pos c0, lex_nul _ _ c0]
      simp [Step.lex_ok, lex_mode.verdict]
    rw [if_neg c0, lex_cur _ _ c0]
    by_cases c2 : cur r.stream = '\n'
    · rw [if_pos c2]
      simp [Step.lex_ok, Reader.flags_ok, Reader.mode, hk, h1f, h2f, h4, hbv, lex_step]
    · rw [if_neg c2]
      simp [Step.lex_ok, Reader.flags_ok, Reader.mode, hk, h1f, h2f, h4, hbv, lex_step]
  rw [if_neg h3]
  have h3f : r.backspace = false := by simpa using h3
  by_cases h4 : r.variable_ = true
  · rw [if_pos h4]
    have em : r.mode = if r.bracket then .brace else .name := by
      simp [Reader.mode, h1f, h2f, h3f, h4]
    rw [em]
    exact gobble_variable_lex getenv r hk h1f h2f h3f h4
  · rw [if_neg h4]
    have h4f : r.variable_ = false := by simpa using h4
    have em : r.mode = .plain := by simp [Reader.mode, h1f, h2f, h3f, h4f]
    rw [em]
    exact gobble_ide_lex r hk (hbv h4f) h1f h2f h3f h4f

theorem lex_ok_error {α : Type} (v : lex_verdict) (rest : α → List Char) (at_end : α → Prop)
    (code : parser_errors) (l k : Nat) (h0 : code ≠ PARSER_OK)
    (h1 : code ≠ PARSER_UNEXPECTED_EOF) (h2 : code ≠ PARSER_BAD_SUBSTITUTION) :
    (raise_error code l k : Result α).lex_ok v rest at_end := by
  obtain ⟨l1, k1, he⟩ := raise_error_pos (α := α) code l k
  rw [he]
  exact ⟨h0, fun h => absurd h h1, fun h => absurd h h2⟩

theorem read_loop_lex (getenv : List Char → Option (List Char)) :
    ∀ (n : Nat) (r : Reader), r.flags_ok →
      (read_loop getenv n r).lex_ok (lex r.mode r.stream).verdict (fun s => s.stream)
        (fun s => s.lookahead.kind = END) := by
  intro n
  induction n with
  | zero => intro r _; simp [read_loop, Result.lex_ok]
  | succ n ih =>
    intro r hr
    have h := step_lex getenv r hr
    rw [read_loop]
    cases hs : step getenv r with
    | ret r1 =>
      rw [hs] at h
      exact h
    | raise code r1 =>
      rw [hs] at h
      dsimp only
      obtain ⟨l, k, he⟩ := raise_error_pos (α := Scanner) code r1.line r1.col
      rw [he]
      exact h
    | cont r1 =>
      rw [hs] at h
      dsimp only
      obtain ⟨h1, h2⟩ := h
      have h3 := ih { r1 with stream := r1.stream.tail, col := r1.col + 1 } h1
      have e : ({ r1 with stream := r1.stream.tail, col := r1.col + 1 } : Reader).mode =
          r1.mode := rfl
      rw [e] at h3
      simp only at h3
      rw [h2] at h3
      exact h3

theorem read_lex (getenv : List Char → Option (List Char)) (s : Scanner) :
    (read getenv s).lex_ok (lex .plain s.stream).verdict (fun s => s.stream)
      (fun s => s.lookahead.kind = END) := by
  have h := read_loop_lex getenv (s.stream.length + 1) (read_init s)
    (by simp [read_init, Reader.flags_ok])
  exact h

theorem scan_loop_lex (getenv : List Char → Option (List Char)) :
    ∀ (n : Nat) (s : Scanner),
      (scan_loop getenv n s).lex_ok (lex .plain s.stream).verdict (fun s => s.stream)
        (fun s => s.lookahead.kind = END) := by
  intro n
  induction n with
  | zero => intro s; simp [scan_loop, Result.lex_ok]
  | succ n ih =>
    intro s
    have h := read_lex getenv s
    rw [scan_loop]
    cases hr : read getenv s with
    | ok s1 =>
      rw [hr] at h
      dsimp only
      by_cases hk : s1.lookahead.kind = REM
      · rw [if_pos hk]
        have h2 := ih s1
        rw [h.1] at h2
        exact h2
      · rw [if_neg hk]
        exact h
    | raise code l c =>
      rw [hr] at h
      exact h
    | fuel => simp [Result.lex_ok]

theorem scan_lex (getenv : List Char → Option (List Char)) (s : Scanner) :
    (scan getenv s).lex_ok (lex .plain s.stream).verdict (fun s => s.stream)
      (fun s => s.lookahead.kind = END) :=
  scan_loop_lex getenv _ s

/-! ## The errors of the grammar -/

theorem get_int_codes (s : Scanner) (number : List Char) (code : parser_errors) (l k : Nat)
    (h : get_int s number = .raise code l k) : code = PARSER_ILLEGAL_ARGUMENT := by
  unfold get_int at h
  cases hs : sscanf_i number with
  | none =>
    rw [hs] at h
    simp [raise_error, parser_errors.toNat] at h
    exact h.1.symm
  | some v =>
    rw [hs] at h
    by_cases hv : v < 0
    · simp [hv, raise_error, parser_errors.toNat] at h
      exact h.1.symm
    · simp [hv] at h

theorem classify_codes (s : Scanner) (kind : cmd_kind) (prog : prog_args) :
    ∀ code l k, classify s kind prog = .raise code l k →
      code ≠ PARSER_OK ∧ code ≠ PARSER_OVERFLOW ∧ code ≠ PARSER_UNEXPECTED_EOF ∧
        code ≠ PARSER_BAD_SUBSTITUTION ∧ code ≠ PARSER_MISSING_FILE := by
  have hint : ∀ (a : List Char) (f : Int → parsed) (code : parser_errors) (l k : Nat),
      (match get_int s a with
        | .ok id => Result.ok (f id)
        | .raise code l c => .raise code l c
        | .fuel => .fuel) = .raise code l k →
      code ≠ PARSER_OK ∧ code ≠ PARSER_OVERFLOW ∧ code ≠ PARSER_UNEXPECTED_EOF ∧
        code ≠ PARSER_BAD_SUBSTITUTION ∧ code ≠ PARSER_MISSING_FILE := by
    intro a f code l k h
    cases hg : get_int s a with
    | ok id => rw [hg] at h; cases h
    | raise c2 l2 k2 =>
      rw [hg] at h
      simp only [Result.raise.injEq] at h
      have := get_int_codes s a c2 l2 k2 hg
      rw [← h.1, this]
      decide
    | fuel => rw [hg] at h; cases h
  obtain ⟨i, o, b, argv⟩ := prog
  cases argv with
  | nil => simp [classify, raise_error, parser_errors.toNat]
  | cons argv0 args =>
    simp only [classify]
    by_cases h1 : argv0 = ['e', 'x', 'i', 't']
    · simp only [if_pos h1]
      by_cases h : kind ≠ .PROG
      · simp only [if_pos h]; simp [raise_error, parser_errors.toNat]
      · simp only [if_neg h]; simp
    simp only [if_neg h1]
    by_cases h2 : argv0 = ['c', 'd']
    · simp only [if_pos h2]
      by_cases h : kind = .PIPE
      · simp only [if_pos h]; simp [raise_error, parser_errors.toNat]
      · simp only [if_neg h]; simp
    simp only [if_neg h2]
    by_cases h3 : argv0 = ['u', 'n', 's', 'e', 't', 'e', 'n', 'v']
    · simp only [if_pos h3]
      by_cases h : kind = .PIPE
      · simp only [if_pos h]; simp [raise_error, parser_errors.toNat]
      · simp only [if_neg h]
        cases args <;> simp [raise_error, parser_errors.toNat]
    simp only [if_neg h3]
    by_cases h4 : argv0 = ['s', 'e', 't', 'e', 'n', 'v']
    · simp only [if_pos h4]
      by_cases h : kind = .PIPE
      · simp only [if_pos h]; simp [raise_error, parser_errors.toNat]
      · simp only [if_neg h]
        cases args with
        | nil => simp [raise_error, parser_errors.toNat]
        | cons a as => cases as <;> simp [raise_error, parser_errors.toNat]
    simp only [if_neg h4]
    by_cases h5 : argv0 = ['j', 'o', 'b', 's']
    · simp only [if_pos h5]
      by_cases h : kind = .PIPE
      · simp only [if_pos h]; simp [raise_error, parser_errors.toNat]
      · simp only [if_neg h]
        cases args with
        | nil => simp
        | cons a as => exact hint a _
    simp only [if_neg h5]
    by_cases h6 : argv0 = ['b', 'g']
    · simp only [if_pos h6]
      by_cases h : kind = .PIPE
      · simp only [if_pos h]; simp [raise_error, parser_errors.toNat]
      · simp only [if_neg h]
        cases args with
        | nil => simp
        | cons a as => exact hint a _
    simp only [if_neg h6]
    by_cases h7 : argv0 = ['f', 'g']
    · simp only [if_pos h7]
      by_cases h : kind = .PIPE
      · simp only [if_pos h]; simp [raise_error, parser_errors.toNat]
      · simp only [if_neg h]
        cases args with
        | nil => simp
        | cons a as => exact hint a _
    simp only [if_neg h7]
    by_cases h : kind = .PIPE ∧ (i ≠ none)
    · simp only [if_pos h]; simp [raise_error, parser_errors.toNat]
    · simp only [if_neg h]; simp

/-! ## The parser and the lexical modes -/

theorem parse_redirection_lex (getenv : List Char → Option (List Char)) (s : Scanner)
    (prog : prog_args) :
    (parse_redirection getenv s prog).lex_ok (lex .plain s.stream).verdict
      (fun p => p.1.stream) (fun p => p.1.lookahead.kind = END) := by
  have h := scan_lex getenv s
  unfold parse_redirection get_ide
  by_cases hin : s.lookahead.kind = IN
  · rw [if_pos hin]
    cases hs : scan getenv s with
    | ok s1 =>
      rw [hs] at h
      dsimp only
      by_cases hk : s1.lookahead.kind ≠ IDE
      · rw [if_pos hk]
        exact lex_ok_error _ _ _ _ _ _ (by decide) (by decide) (by decide)
      · rw [if_neg hk]
        have hk2 : s1.lookahead.kind = IDE := by simpa using hk
        simp only [hk2, not_true_eq_false, if_false]
        exact h
    | raise code l c => rw [hs] at h; exact h
    | fuel => simp [Result.lex_ok]
  · rw [if_neg hin]
    cases hs : scan getenv s with
    | ok s1 =>
      rw [hs] at h
      dsimp only
      by_cases hk : s1.lookahead.kind ≠ IDE
      · rw [if_pos hk]
        exact lex_ok_error _ _ _ _ _ _ (by decide) (by decide) (by decide)
      · rw [if_neg hk]
        have hk2 : s1.lookahead.kind = IDE := by simpa using hk
        simp only [hk2, not_true_eq_false, if_false]
        exact h
    | raise code l c => rw [hs] at h; exact h
    | fuel => simp [Result.lex_ok]

theorem parse_prog_loop_lex (getenv : List Char → Option (List Char)) :
    ∀ (n : Nat) (s : Scanner) (prog : prog_args),
      (s.lookahead.kind = END → (lex .plain s.stream).verdict = .closed) →
      (parse_prog_loop getenv n s prog).lex_ok (lex .plain s.stream).verdict
        (fun p => p.1.stream) (fun p => p.1.lookahead.kind = END) := by
  intro n
  induction n with
  | zero => intro s prog _; simp [parse_prog_loop, Result.lex_ok]
  | succ n ih =>
    intro s prog hend
    have hredir :
        (match parse_redirection getenv s prog with
          | .ok (s1, prog1) =>
            match scan getenv s1 with
            | .ok s2 => parse_prog_loop getenv n s2 prog1
            | .raise code l c => .raise code l c
            | .fuel => .fuel
          | .raise code l c => .raise code l c
          | .fuel => .fuel).lex_ok (lex .plain s.stream).verdict
        (fun p : Scanner × prog_args => p.1.stream)
        (fun p : Scanner × prog_args => p.1.lookahead.kind = END) := by
      have h := parse_redirection_lex getenv s prog
      cases hr : parse_redirection getenv s prog with
      | ok v =>
        obtain ⟨s1, prog1⟩ := v
        rw [hr] at h
        dsimp only
        have h2 := scan_lex getenv s1
        have e1 : (lex .plain s1.stream).verdict = (lex .plain s.stream).verdict := h.1
        cases hs : scan getenv s1 with
        | ok s2 =>
          rw [hs] at h2
          dsimp only
          have e2 : (lex .plain s2.stream).verdict = (lex .plain s1.stream).verdict := h2.1
          have h3 := ih s2 prog1 (fun hk => by rw [e2]; exact h2.2 hk)
          rw [e2, e1] at h3
          exact h3
        | raise code l c =>
          rw [hs, e1] at h2
          exact h2
        | fuel => simp [Result.lex_ok]
      | raise code l c => rw [hr] at h; exact h
      | fuel => simp [Result.lex_ok]
    rw [parse_prog_loop]
    cases hk : s.lookahead.kind with
    | UNKNOWN => exact lex_ok_error _ _ _ _ _ _ (by decide) (by decide) (by decide)
    | REM => exact lex_ok_error _ _ _ _ _ _ (by decide) (by decide) (by decide)
    | END => exact ⟨rfl, fun _ => hend hk⟩
    | SEP => exact ⟨rfl, fun h => by simp [hk] at h⟩
    | STROKE => exact ⟨rfl, fun h => by simp [hk] at h⟩
    | AMP => exact ⟨rfl, fun h => by simp [hk] at h⟩
    | IN => exact hredir
    | OUT => exact hredir
    | IDE =>
      dsimp only
      simp only [get_ide, hk, not_true_eq_false, if_false]
      have h2 := scan_lex getenv s
      cases hs : scan getenv s with
      | ok s2 =>
        rw [hs] at h2
        dsimp only
        have e2 : (lex .plain s2.stream).verdict = (lex .plain s.stream).verdict := h2.1
        have h3 := ih s2 (argv_add prog s.lookahead.arg) (fun hk => by rw [e2]; exact h2.2 hk)
        rw [e2] at h3
        exact h3
      | raise code l c => rw [hs] at h2; exact h2
      | fuel => simp [Result.lex_ok]

theorem parse_cmd_lex (getenv : List Char → Option (List Char)) (s : Scanner)
    (kind : cmd_kind) (prog : prog_args)
    (hend : s.lookahead.kind = END → (lex .plain s.stream).verdict = .closed) :
    (parse_cmd getenv s kind prog).lex_ok (lex .plain s.stream).verdict
      (fun p => p.1.stream) (fun p => p.1.lookahead.kind = END) := by
  have h := parse_prog_loop_lex getenv (s.stream.length + 2) s prog hend
  unfold parse_cmd parse_prog
  cases hp : parse_prog_loop getenv (s.stream.length + 2) s prog with
  | ok v =>
    obtain ⟨s1, prog1⟩ := v
    rw [hp] at h
    dsimp only
    cases hc : classify s1 kind prog1 with
    | ok r => exact h
    | raise code l c =>
      obtain ⟨h0, _, h1, h2, _⟩ := classify_codes s1 kind prog1 code l c hc
      exact ⟨h0, fun h => absurd h h1, fun h => absurd h h2⟩
    | fuel => simp [Result.lex_ok]
  | raise code l c => rw [hp] at h; exact h
  | fuel => simp [Result.lex_ok]

theorem parse_pipe_loop_lex (getenv : List Char → Option (List Char)) :
    ∀ (n : Nat) (s : Scanner) (kind : cmd_kind) (prog : prog_args),
      (s.lookahead.kind = END → (lex .plain s.stream).verdict = .closed) →
      (parse_pipe_loop getenv n s kind prog).lex_ok (lex .plain s.stream).verdict
        (fun p => p.1.stream) (fun p => p.1.lookahead.kind = END) := by
  intro n
  induction n with
  | zero => intro s kind prog _; simp [parse_pipe_loop, Result.lex_ok]
  | succ n ih =>
    intro s kind prog hend
    have h := parse_cmd_lex getenv s kind prog hend
    rw [parse_pipe_loop]
    cases hp : parse_cmd getenv s kind prog with
    | ok v =>
      obtain ⟨s1, r⟩ := v
      rw [hp] at h
      have e1 : (lex .plain s1.stream).verdict = (lex .plain s.stream).verdict := h.1
      cases r with
      | builtin cmd =>
        dsimp only
        by_cases hk : s1.lookahead.kind ≠ STROKE
        · rw [if_pos hk]; exact h
        · rw [if_neg hk]
          exact lex_ok_error _ _ _ _ _ _ (by decide) (by decide) (by decide)
      | external prog1 =>
        dsimp only
        by_cases hk : s1.lookahead.kind ≠ STROKE
        · rw [if_pos hk]; exact h
        rw [if_neg hk]
        by_cases hk2 : ¬ (kind = .PROG ∨ kind = .PIPE)
        · rw [if_pos hk2]
          exact lex_ok_error _ _ _ _ _ _ (by decide) (by decide) (by decide)
        rw [if_neg hk2]
        by_cases hk3 : prog1.output ≠ none
        · rw [if_pos hk3]
          exact lex_ok_error _ _ _ _ _ _ (by decide) (by decide) (by decide)
        rw [if_neg hk3]
        have h2 := scan_lex getenv s1
        cases hs : scan getenv s1 with
        | ok s2 =>
          rw [hs] at h2
          dsimp only
          have e2 : (lex .plain s2.stream).verdict = (lex .plain s1.stream).verdict := h2.1
          have h3 := ih s2 .PIPE prog_new (fun hk => by rw [e2]; exact h2.2 hk)
          rw [e2, e1] at h3
          cases hq : parse_pipe_loop getenv n s2 .PIPE prog_new with
          | ok v2 =>
            obtain ⟨s3, cmd⟩ := v2
            rw [hq] at h3
            exact h3
          | raise code l c => rw [hq] at h3; exact h3
          | fuel => simp [Result.lex_ok]
        | raise code l c =>
          rw [hs, e1] at h2
          exact h2
        | fuel => simp [Result.lex_ok]
    | raise code l c => rw [hp] at h; exact h
    | fuel => simp [Result.lex_ok]

theorem parse_input_loop_lex (getenv : List Char → Option (List Char)) :
    ∀ (n : Nat) (s : Scanner),
      (parse_input_loop getenv n s).lex_ok (lex .plain s.stream).verdict
        (fun _ => []) (fun _ => True) := by
  intro n
  induction n with
  | zero => intro s; simp [parse_input_loop, Result.lex_ok]
  | succ n ih =>
    intro s
    have h := scan_lex getenv s
    rw [parse_input_loop]
    cases hs : scan getenv s with
    | ok s1 =>
      rw [hs] at h
      dsimp only
      have e1 : (lex .plain s1.stream).verdict = (lex .plain s.stream).verdict := h.1
      by_cases hk : s1.lookahead.kind = END
      · rw [if_pos hk]
        have hv := h.2 hk
        exact ⟨by rw [hv]; rfl, fun _ => hv⟩
      · rw [if_neg hk]
        have h2 := parse_pipe_loop_lex getenv (s1.stream.length + 2) s1 .PROG argv_new
          (fun hk2 => absurd hk2 hk)
        rw [e1] at h2
        unfold parse_pipe
        cases hp : parse_pipe_loop getenv (s1.stream.length + 2) s1 .PROG argv_new with
        | ok v =>
          obtain ⟨s2, elem⟩ := v
          rw [hp] at h2
          dsimp only
          have e2 : (lex .plain s2.stream).verdict = (lex .plain s.stream).verdict := h2.1
          have h3 := ih s2
          rw [e2] at h3
          cases hq : parse_input_loop getenv n s2 with
          | ok rest =>
            rw [hq] at h3
            exact h3
          | raise code l c => rw [hq] at h3; exact h3
          | fuel => simp [Result.lex_ok]
        | raise code l c => rw [hp] at h2; exact h2
        | fuel => simp [Result.lex_ok]
    | raise code l c => rw [hs] at h; exact h
    | fuel => simp [Result.lex_ok]

theorem parser_parse_lex (getenv : List Char → Option (List Char)) (input : List Char)
    (out : Outcome) (h : parser_parse getenv input = some out) :
    (out.parser_status = PARSER_OK → lex_end input = .closed) ∧
      (out.parser_status = PARSER_UNEXPECTED_EOF → lex_end input = .unclosed) ∧
      (out.parser_status = PARSER_BAD_SUBSTITUTION → lex_end input = .unbraced) := by
  have h1 := parse_input_loop_lex getenv (input.length + 2) ⟨input, 0, 0, ⟨UNKNOWN, []⟩⟩
  unfold parser_parse parse_input at h
  cases hp : parse_input_loop getenv (input.length + 2) ⟨input, 0, 0, ⟨UNKNOWN, []⟩⟩ with
  | ok root =>
    rw [hp] at h h1
    simp only [Option.some.injEq] at h
    subst h
    refine ⟨fun _ => h1.2 trivial, fun h => ?_, fun h => ?_⟩
    · cases h
    · cases h
  | raise code l c =>
    rw [hp] at h h1
    simp only [Option.some.injEq] at h
    subst h
    exact ⟨fun h => absurd h h1.1, h1.2.1, h1.2.2⟩
  | fuel =>
    rw [hp] at h
    cases h

theorem parser_parse_error_list (getenv : List Char → Option (List Char)) (input : List Char)
    (out : Outcome) (h : parser_parse getenv input = some out)
    (hs : out.parser_status ≠ PARSER_OK) : out.list = [] := by
  unfold parser_parse at h
  cases hp : parse_input getenv ⟨input, 0, 0, ⟨UNKNOWN, []⟩⟩ with
  | ok root =>
    rw [hp] at h
    simp only [Option.some.injEq] at h
    subst h
    exact absurd rfl hs
  | raise code l c =>
    rw [hp] at h
    simp only [Option.some.injEq] at h
    subst h
    rfl
  | fuel =>
    rw [hp] at h
    cases h

theorem parser_parse_open (getenv : List Char → Option (List Char)) (input : List Char)
    (v : lex_verdict) (hv : lex_end input = v) (hc : v ≠ .closed) :
    ∃ out, parser_parse getenv input = some out ∧ out.list = [] ∧
      out.parser_status ≠ PARSER_OK := by
  obtain ⟨out, h⟩ := parser_parse_total getenv input
  have hs : out.parser_status ≠ PARSER_OK := by
    intro h0
    have := (parser_parse_lex getenv input out h).1 h0
    rw [hv] at this
    exact hc this
  exact ⟨out, h, parser_parse_error_list getenv input out h hs, hs⟩

theorem follows_quote (w : List Seg) (q : List Char) : follows w ('\'' :: q) := by
  intro _
  simp [cur, VAR_STOP]

theorem follows_escape (w : List Seg) (q : List Char) : follows w ('\\' :: q) := by
  intro _
  simp [cur, VAR_STOP]

theorem follows_dollar (w : List Seg) (q : List Char) : follows w ('$' :: q) := by
  intro _
  simp [cur, VAR_STOP]

/-! ## Comments -/

theorem read_loop_comment_open (getenv : List Char → Option (List Char)) (n : Nat)
    (rest : List Char) (l k : Nat) :
    read_loop getenv (n + 1) (st_word false ('#' :: rest) l k []) =
      read_loop getenv n (st_comment rest l (k + 1) []) := by
  simp [read_loop, step, st_word, st_comment, gobble_ide, dispatch, cur, MAX_LINE_LENGTH, NUL]

theorem read_loop_comment_char (getenv : List Char → Option (List Char)) (n : Nat) (c : Char)
    (rest : List Char) (l k : Nat) (arg : List Char) (hc : comment_char c)
    (ha : arg.length < 2047) :
    read_loop getenv (n + 1) (st_comment (c :: rest) l k arg) =
      read_loop getenv n (st_comment rest l (k + 1) (arg ++ [c])) := by
  obtain ⟨h1, h2⟩ := hc
  simp [read_loop, step, st_comment, cur, MAX_LINE_LENGTH, h1, h2, Nat.not_le.mpr ha]

theorem read_loop_comment_end (getenv : List Char → Option (List Char)) (n : Nat)
    (stream : List Char) (l k : Nat) (arg : List Char)
    (hs : cur stream = '\n' ∨ cur stream = NUL) (ha : arg.length < 2047) :
    read_loop getenv (n + 1) (st_comment stream l k arg) = .ok ⟨stream, l, k, ⟨REM, arg⟩⟩ := by
  simp [read_loop, step, st_comment, MAX_LINE_LENGTH, Nat.not_le.mpr ha, hs]

theorem read_loop_comment (getenv : List Char → Option (List Char)) (cs : List Char)
    (hc : ∀ c ∈ cs, comment_char c) (n : Nat) (rest : List Char) (l k : Nat)
    (arg : List Char) (ha : arg.length + cs.length ≤ 2047) :
    read_loop getenv (n + cs.length) (st_comment (cs ++ rest) l k arg) =
      read_loop getenv n (st_comment rest l (k + cs.length) (arg ++ cs)) := by
  induction cs generalizing k arg with
  | nil => simp
  | cons c cs ih =>
    have h1 : comment_char c := hc c (by simp)
    have h2 : ∀ c ∈ cs, comment_char c := fun c h => hc c (by simp [h])
    have e : n + (c :: cs).length = (n + cs.length) + 1 := by simp; omega
    have ha1 : arg.length < 2047 := by simp at ha; omega
    have ha2 : (arg ++ [c]).length + cs.length ≤ 2047 := by simp at ha ⊢; omega
    rw [e, List.cons_append, read_loop_comment_char getenv _ c _ l k arg h1 ha1,
      ih h2 (k + 1) (arg ++ [c]) ha2]
    congr 2
    · simp; omega
    · simp

theorem read_loop_comment_overflow (getenv : List Char → Option (List Char)) (cs : List Char)
    (rest : List Char) :
    ∀ (arg : List Char) (l k n : Nat), (∀ c ∈ cs, comment_char c) →
      2047 ≤ arg.length + cs.length → cs.length + 1 ≤ n →
      read_loop getenv n (st_comment (cs ++ rest) l k arg) = .raise PARSER_OVERFLOW 0 0 := by
  induction cs with
  | nil =>
    intro arg l k n _ ha hn
    obtain ⟨m, rfl⟩ : ∃ m, n = m + 1 := ⟨n - 1, by omega⟩
    exact read_loop_overflow getenv m _ (Or.inl (by simpa [st_comment] using ha))
  | cons c cs ih =>
    intro arg l k n hc ha hn
    obtain ⟨m, rfl⟩ : ∃ m, n = m + 1 := ⟨n - 1, by omega⟩
    by_cases h : 2047 ≤ arg.length
    · exact read_loop_overflow getenv m _ (Or.inl (by simpa [st_comment] using h))
    · rw [List.cons_append, read_loop_comment_char getenv m c _ l k arg (hc c (by simp)) (by omega)]
      exact ih (arg ++ [c]) l (k + 1) m (fun d hd => hc d (by simp [hd]))
        (by simp at ha ⊢; omega) (by simp at hn; omega)

theorem read_comment (getenv : List Char → Option (List Char)) (bs cm T : List Char)
    (l k : Nat) (tok : token) (hb : blanks bs) (hc : ∀ c ∈ cm, comment_char c)
    (hlen : cm.length ≤ 2046) (hT : cur T = '\n' ∨ cur T = NUL) :
    read getenv ⟨bs ++ '#' :: (cm ++ T), l, k, tok⟩ =
      .ok ⟨T, l, k + bs.length + 1 + cm.length, ⟨REM, cm⟩⟩ := by
  have e : (bs ++ '#' :: (cm ++ T)).length + 1 = (((T.length + 1) + cm.length) + 1) + bs.length := by
    simp; omega
  simp only [read, read_init_eq]
  rw [e, read_loop_blanks getenv bs hb, read_loop_comment_open,
    read_loop_comment getenv cm hc _ T l _ [] (by simp; omega),
    read_loop_comment_end getenv _ T l _ _ hT (by simpa using by omega)]
  simp

theorem scan_comment_overflow (getenv : List Char → Option (List Char)) (bs cm rest : List Char)
    (l k : Nat) (tok : token) (hb : blanks bs) (hc : ∀ c ∈ cm, comment_char c)
    (hlen : 2047 ≤ cm.length) :
    scan getenv ⟨bs ++ '#' :: (cm ++ rest), l, k, tok⟩ = .raise PARSER_OVERFLOW 0 0 := by
  apply scan_of_read_raise
  have e : (bs ++ '#' :: (cm ++ rest)).length + 1 =
      (((cm ++ rest).length + 1) + 1) + bs.length := by
    simp; omega
  simp only [read, read_init_eq]
  rw [e, read_loop_blanks getenv bs hb, read_loop_comment_open]
  exact read_loop_comment_overflow getenv cm rest [] l _ _ hc (by simpa using hlen)
    (by simp)

theorem scan_comment_end (getenv : List Char → Option (List Char)) (bs cm : List Char)
    (l k : Nat) (tok : token) (hb : blanks bs) (hc : ∀ c ∈ cm, comment_char c)
    (hlen : cm.length ≤ 2046) :
    scan getenv ⟨bs ++ '#' :: cm, l, k, tok⟩ =
      .ok ⟨[], l, k + bs.length + 1 + cm.length, ⟨END, []⟩⟩ := by
  have h := read_comment getenv bs cm [] l k tok hb hc hlen (Or.inr rfl)
  simp only [List.append_nil] at h
  have h2 := read_end getenv [] l (k + bs.length + 1 + cm.length) ⟨REM, cm⟩ (by simp)
  have e : (bs ++ '#' :: cm).length + 1 = (bs.length + cm.length) + 1 + 1 := by simp; omega
  simp only [scan]
  rw [e, scan_loop, h]
  simp only [if_true]
  rw [scan_loop, h2]
  simp

theorem scan_comment_line (getenv : List Char → Option (List Char)) (bs cm rest : List Char)
    (l k : Nat) (tok : token) (hb : blanks bs) (hc : ∀ c ∈ cm, comment_char c)
    (hlen : cm.length ≤ 2046) :
    ∃ l1 k1, scan getenv ⟨bs ++ '#' :: (cm ++ '\n' :: rest), l, k, tok⟩ =
      .ok ⟨rest, l1, k1, ⟨SEP, []⟩⟩ := by
  have h := read_comment getenv bs cm ('\n' :: rest) l k tok hb hc hlen (Or.inl rfl)
  obtain ⟨l1, k1, h2⟩ := read_punct getenv [] '\n' rest l (k + bs.length + 1 + cm.length)
    ⟨REM, cm⟩ (by simp) (by simp)
  refine ⟨l1, k1, ?_⟩
  have e : (bs ++ '#' :: (cm ++ '\n' :: rest)).length + 1 =
      (bs.length + cm.length + rest.length + 1) + 1 + 1 := by simp; omega
  simp only [List.nil_append] at h2
  simp only [scan]
  rw [e, scan_loop, h]
  simp only [if_true]
  rw [scan_loop, h2]
  simp [punct]

/-! ## A redirection without a file name -/

theorem gap_no_word_end (getenv : List Char → Option (List Char)) (gp : Gap) (h : gp.ok) :
    no_word getenv gp.text := by
  obtain ⟨bs, cm⟩ := gp
  obtain ⟨hb, hc⟩ := h
  intro l k tok
  cases cm with
  | none => exact ⟨_, scan_end getenv bs l k tok hb, by simp⟩
  | some cm =>
    obtain ⟨h1, h2⟩ := hc cm rfl
    exact ⟨_, scan_comment_end getenv bs cm l k tok hb h1 h2, by simp⟩

theorem gap_no_word_char (getenv : List Char → Option (List Char)) (gp : Gap) (ch : Char)
    (rest : List Char) (h : gp.ok) (hch : ch ∈ [';', '\n', '&', '|', '<', '>'])
    (hcm : gp.comment ≠ none → ch = '\n') : no_word getenv (gp.text ++ ch :: rest) := by
  obtain ⟨bs, cm⟩ := gp
  obtain ⟨hb, hc⟩ := h
  intro l k tok
  cases cm with
  | none =>
    obtain ⟨l1, k1, h1⟩ := scan_punct getenv bs ch rest l k tok hb (by
      simp only [List.mem_cons, List.mem_singleton, List.not_mem_nil, or_false] at hch ⊢
      tauto)
    refine ⟨_, h1, ?_⟩
    simp only [List.mem_cons, List.mem_singleton, List.not_mem_nil, or_false] at hch
    rcases hch with rfl | rfl | rfl | rfl | rfl | rfl <;> simp [punct]
  | some cm =>
    obtain ⟨h1, h2⟩ := hc cm rfl
    have e : ch = '\n' := hcm (by simp)
    subst e
    obtain ⟨l1, k1, h3⟩ := scan_comment_line getenv bs cm rest l k tok hb h1 h2
    exact ⟨_, by simpa [Gap.text] using h3, by simp⟩

theorem parse_redirection_no_word (getenv : List Char → Option (List Char)) (s s1 : Scanner)
    (prog : prog_args) (hs : scan getenv s = .ok s1) (hk : s1.lookahead.kind ≠ IDE) :
    parse_redirection getenv s prog = .raise PARSER_MISSING_FILE s1.line s1.col := by
  unfold parse_redirection
  by_cases hin : s.lookahead.kind = IN
  · rw [if_pos hin, hs]
    simp [hk, raise_error, parser_errors.toNat]
  · rw [if_neg hin, hs]
    simp [hk, raise_error, parser_errors.toNat]

theorem redir_stage_fails (getenv : List Char → Option (List Char)) (g : List Char) (op : Char)
    (R : List Char) (hg : blanks g) (hop : op ∈ ['<', '>']) (hR : no_word getenv R) :
    stage_fails getenv (g ++ op :: R) PARSER_MISSING_FILE := by
  intro l k tok m prog
  obtain ⟨l1, k1, h1⟩ := scan_punct getenv g op R l k tok hg (by
    simp only [List.mem_cons, List.mem_singleton, List.not_mem_nil, or_false] at hop ⊢
    tauto)
  obtain ⟨s1, h2, hk⟩ := hR l1 k1 ⟨punct op, []⟩
  have h3 := parse_redirection_no_word getenv ⟨R, l1, k1, ⟨punct op, []⟩⟩ s1 prog h2 hk
  refine ⟨s1.line, s1.col, ?_⟩
  simp only [List.mem_cons, List.mem_singleton, List.not_mem_nil, or_false] at hop
  rcases hop with rfl | rfl
  · have hp : punct '<' = IN := by simp [punct]
    rw [hp] at h1 h3
    simp [scan_prog, h1, parse_prog_loop, h3]
  · have hp : punct '>' = OUT := by simp [punct]
    rw [hp] at h1 h3
    simp [scan_prog, h1, parse_prog_loop, h3]

theorem context_redir_raise (getenv : List Char → Option (List Char)) (c : Context)
    (st : List Item) (g : List Char) (op : Char) (R : List Char) (hc : c.ok getenv)
    (hst : items_ok getenv st) (hg : blanks g) (hop : op ∈ ['<', '>'])
    (hR : no_word getenv R) :
    ∃ l k, parser_parse getenv (c.text ++ (render_stage st ++ (g ++ op :: R))) =
      some ⟨[], PARSER_MISSING_FILE, "Missing file for input or output redirection.", l, k⟩ := by
  have h := context_stage_raise getenv c st (g ++ op :: R) PARSER_MISSING_FILE hc hst
    (Or.inr (by
      have := lead_ends_word (.redir g op []) R ⟨hg, hop, blanks_nil⟩ trivial
      simpa [Lead.text] using this))
    (redir_stage_fails getenv g op R hg hop hR)
  simpa [messages] using h

/-! ## Words that do not fit the buffer -/

theorem splice_none (value : List Char) :
    ∀ arg : List Char, arg.length ≤ 2047 → 2048 ≤ arg.length + value.length →
      splice arg value = none := by
  induction value with
  | nil => intro arg h1 h2; simp at h2; omega
  | cons v value ih =>
    intro arg h1 h2
    by_cases h : 2047 ≤ arg.length
    · simp [splice, MAX_LINE_LENGTH, h]
    · have h3 := ih (arg ++ [v]) (by simp; omega) (by simp at h2 ⊢; omega)
      simp [splice, MAX_LINE_LENGTH, h, h3]

theorem substitute_overflow (getenv : List Char → Option (List Char)) (r : Reader)
    (h1 : r.arg.length ≤ 2047) (h2 : 2048 ≤ r.arg.length + (value_of getenv r.var).length) :
    ∃ r1, substitute getenv r = .raise PARSER_OVERFLOW r1 := by
  unfold substitute
  dsimp only
  unfold value_of at h2
  cases hg : getenv r.var with
  | none => simp [hg] at h2; omega
  | some value =>
    simp only [hg, Option.getD_some] at h2
    dsimp only
    rw [splice_none value r.arg h1 h2]
    exact ⟨_, rfl⟩

theorem gobble_ide_full (r : Reader) (hi : r.ide = true) (h0 : cur r.stream ≠ NUL)
    (hs : cur r.stream ∉ IDE_STOP) : (gobble_ide r).cont_full r.arg.length := by
  unfold gobble_ide
  dsimp only
  have s1 : ¬ (cur r.stream = NUL ∨ strchr IDE_STOP (cur r.stream) = true) := by
    simp [strchr, h0, hs]
  rw [if_pos hi, if_neg s1]
  by_cases s2 : ¬ strchr IDE_MODE (cur r.stream) = true
  · rw [if_pos s2]
    simp [Step.cont_full]
  · rw [if_neg s2]
    have s3 : cur r.stream ∈ IDE_MODE := by simpa [strchr, h0] using s2
    simp only [IDE_MODE, List.mem_cons, List.mem_singleton, List.not_mem_nil, or_false] at s3
    unfold dispatch
    dsimp only
    rcases s3 with h | h | h
    · rw [h]
      simp [NUL, Step.cont_full]
    · rw [h]
      simp [NUL, Step.cont_full]
    · rw [h]
      by_cases hb : cur r.stream.tail = '{'
      · simp [NUL, hb, Step.cont_full]
      · simp [NUL, hb, Step.cont_full]

theorem substitute_full (getenv : List Char → Option (List Char)) (r : Reader)
    (hi : r.ide = true) (h0 : cur r.stream ≠ NUL) (hs : cur r.stream ∉ IDE_STOP)
    (ha : r.arg.length + (value_of getenv r.var).length = 2047) :
    (substitute getenv r).cont_full 2047 := by
  unfold substitute
  dsimp only
  unfold value_of at ha
  cases hg : getenv r.var with
  | none =>
    simp only [hg, Option.getD_none, List.length_nil, Nat.add_zero] at ha
    have h := gobble_ide_full { r with bracket := false, variable_ := false, var := [] } hi h0 hs
    simp only [ha] at h
    exact h
  | some value =>
    simp only [hg, Option.getD_some] at ha
    dsimp only
    rw [splice_eq value r.arg (by omega)]
    have h := gobble_ide_full
      { r with bracket := false, variable_ := false, var := [], arg := r.arg ++ value } hi h0 hs
    simp only [List.length_append, ha] at h
    exact h

theorem read_loop_cont_full (getenv : List Char → Option (List Char)) (n : Nat) (r : Reader)
    (h : (step getenv r).cont_full 2047) :
    read_loop getenv (n + 2) r = .raise PARSER_OVERFLOW 0 0 := by
  rw [read_loop]
  cases hs : step getenv r with
  | ret r1 => rw [hs] at h; exact absurd h (by simp [Step.cont_full])
  | raise code r1 => rw [hs] at h; exact absurd h (by simp [Step.cont_full])
  | cont r1 =>
    rw [hs] at h
    dsimp only
    exact read_loop_overflow getenv n _ (Or.inl h)

theorem read_loop_raise_overflow (getenv : List Char → Option (List Char)) (n : Nat)
    (r r1 : Reader) (h : step getenv r = .raise PARSER_OVERFLOW r1) :
    read_loop getenv (n + 1) r = .raise PARSER_OVERFLOW 0 0 := by
  rw [read_loop, h]
  simp [raise_error, parser_errors.toNat]

theorem step_var_end (getenv : List Char → Option (List Char)) (stream : List Char)
    (l k : Nat) (arg var : List Char)
    (hs : cur stream = NUL ∨ cur stream ∈ VAR_STOP) (ha : arg.length < 2047)
    (hv : var.length < 2047) :
    step getenv (st_var false stream l k arg var) =
      substitute getenv (st_var false stream l k arg var) := by
  have hstop : ¬ (cur stream ≠ NUL ∧ ¬ strchr VAR_STOP (cur stream) = true) := by
    rcases hs with h | h
    · simp [h]
    · simp [strchr, h]
  have h0 : ¬ ((st_var false stream l k arg var).arg.length ≥ MAX_LINE_LENGTH - 1 ∨
      (st_var false stream l k arg var).var.length ≥ MAX_LINE_LENGTH - 1) := by
    simp [st_var, MAX_LINE_LENGTH]; omega
  rw [step, if_neg h0]
  simp only [st_var, Bool.false_eq_true, if_false, if_true, gobble_variable]
  rw [if_neg hstop]

theorem step_bvar_end (getenv : List Char → Option (List Char)) (rest : List Char)
    (l k : Nat) (arg var : List Char) (ha : arg.length < 2047) (hv : var.length < 2047) :
    step getenv (st_var true ('}' :: rest) l k arg var) =
      substitute getenv (st_var true rest l (k + 1) arg var) := by
  have h0 : ¬ ((st_var true ('}' :: rest) l k arg var).arg.length ≥ MAX_LINE_LENGTH - 1 ∨
      (st_var true ('}' :: rest) l k arg var).var.length ≥ MAX_LINE_LENGTH - 1) := by
    simp [st_var, MAX_LINE_LENGTH]; omega
  rw [step, if_neg h0]
  simp [st_var, gobble_variable, cur, strchr, VAR_STOP, NUL]

theorem read_loop_quoted_overflow (getenv : List Char → Option (List Char)) (cs : List Char)
    (rest : List Char) :
    ∀ (arg : List Char) (l k n : Nat), (∀ c ∈ cs, c ≠ NUL ∧ c ≠ '\'') →
      2047 ≤ arg.length + cs.length → cs.length + 1 ≤ n →
      read_loop getenv n (st_quote (cs ++ rest) l k arg) = .raise PARSER_OVERFLOW 0 0 := by
  induction cs with
  | nil =>
    intro arg l k n _ ha hn
    obtain ⟨m, rfl⟩ : ∃ m, n = m + 1 := ⟨n - 1, by omega⟩
    exact read_loop_overflow getenv m _ (Or.inl (by simpa [st_quote] using ha))
  | cons c cs ih =>
    intro arg l k n hc ha hn
    obtain ⟨m, rfl⟩ : ∃ m, n = m + 1 := ⟨n - 1, by omega⟩
    by_cases h : 2047 ≤ arg.length
    · exact read_loop_overflow getenv m _ (Or.inl (by simpa [st_quote] using h))
    · rw [List.cons_append, read_loop_quote_char getenv m c _ l k arg (hc c (by simp)).1
        (hc c (by simp)).2 (by omega)]
      exact ih (arg ++ [c]) _ _ m (fun d hd => hc d (by simp [hd]))
        (by simp at ha ⊢; omega) (by simp at hn; omega)

theorem word_ok_head (s : Seg) (w : List Seg) (h : word_ok (s :: w)) :
    word_ok [s] ∧ word_ok w := by
  cases s <;> simp_all [word_ok, after_var]

theorem follows_head (s : Seg) (w : List Seg) (X : List Char) (hw : word_ok (s :: w))
    (hf : follows (s :: w) X) : follows [s] (render_word w ++ X) := by
  cases s with
  | var name =>
    have haft : after_var w := by
      simp only [word_ok] at hw
      exact hw.2.1
    intro _
    exact cur_after_var_follows w X haft (follows_var_nil name w X hf)
  | plain cs => intro h; simp [var_last] at h
  | quoted cs => intro h; simp [var_last] at h
  | esc c => intro h; simp [var_last] at h
  | bvar name => intro h; simp [var_last] at h

theorem subst_last_cons (s : Seg) (w : List Seg) (h : w ≠ []) :
    subst_last (s :: w) = subst_last w := by
  cases w with
  | nil => exact absurd rfl h
  | cons t w => simp [subst_last, List.getLast?_cons_cons]

theorem cur_word_not_stop (w : List Seg) (X : List Char) (hne : w ≠ []) (hw : word_ok w) :
    cur (render_word w ++ X) ≠ NUL ∧ cur (render_word w ++ X) ∉ IDE_STOP := by
  cases w with
  | nil => exact absurd rfl hne
  | cons s w =>
    have h1 := (word_ok_head s w hw).1
    cases s with
    | plain cs =>
      obtain ⟨hne2, hcs⟩ : cs ≠ [] ∧ ∀ c ∈ cs, plain_char c := by
        simpa [word_ok, Seg.ok] using h1
      cases cs with
      | nil => exact absurd rfl hne2
      | cons c cs =>
        have hc := hcs c (by simp)
        simpa [render_word, Seg.render, cur] using ⟨hc.1, hc.2.1⟩
    | quoted cs => simp [render_word, Seg.render, cur, IDE_STOP, NUL]
    | esc c => simp [render_word, Seg.render, cur, IDE_STOP, NUL]
    | var name => simp [render_word, Seg.render, cur, IDE_STOP, NUL]
    | bvar name => simp [render_word, Seg.render, cur, IDE_STOP, NUL]

theorem render_word_length_pos (w : List Seg) (hne : w ≠ []) (hw : word_ok w) :
    1 ≤ (render_word w).length := by
  cases w with
  | nil => exact absurd rfl hne
  | cons s w =>
    have h1 := (word_ok_head s w hw).1
    cases s with
    | plain cs =>
      obtain ⟨hne2, _⟩ : cs ≠ [] ∧ ∀ c ∈ cs, plain_char c := by
        simpa [word_ok, Seg.ok] using h1
      cases cs with
      | nil => exact absurd rfl hne2
      | cons c cs => simp [render_word, Seg.render]
    | quoted cs => simp [render_word, Seg.render]
    | esc c => simp [render_word, Seg.render]
    | var name => simp [render_word, Seg.render]
    | bvar name => simp [render_word, Seg.render]

theorem read_loop_word_overflow (getenv : List Char → Option (List Char)) (w : List Seg) :
    ∀ (b : Bool) (acc : List Char) (X : List Char) (l k n : Nat),
      word_ok w → follows w X → acc.length ≤ 2046 →
      (2048 ≤ acc.length + (expand_word getenv w).length ∨
        (2047 ≤ acc.length + (expand_word getenv w).length ∧ subst_last w = false)) →
      (render_word w ++ X).length + 1 ≤ n →
      read_loop getenv n (st_word b (render_word w ++ X) l k acc) =
        .raise PARSER_OVERFLOW 0 0 := by
  induction w with
  | nil =>
    intro b acc X l k n _ _ ha hc _
    simp [expand_word] at hc
    omega
  | cons s w ih =>
    intro b acc X l k n hw hf ha hc hn
    obtain ⟨hw0, hw1⟩ := word_ok_head s w hw
    have hexp : (expand_word getenv (s :: w)).length =
        (s.expand getenv).length + (expand_word getenv w).length := by simp [expand_word]
    have hren : (render_word (s :: w) ++ X).length =
        s.render.length + ((render_word w).length + X.length) := by
      simp [render_word, Nat.add_assoc]
    rw [hren] at hn
    have hlw : (render_word w ++ X).length = (render_word w).length + X.length := by simp
    have e : render_word (s :: w) ++ X = render_word [s] ++ (render_word w ++ X) := by
      simp [render_word]
    by_cases hfit : acc.length + (s.expand getenv).length ≤ 2046
    · obtain ⟨m, hm, h⟩ := read_loop_prefix getenv [s] b acc (render_word w ++ X) hw0
        (follows_head s w X hw hf) (by simpa [expand_word] using hfit)
      have hm2 : m ≤ s.render.length := by simpa [render_word] using hm
      obtain ⟨n1, rfl⟩ : ∃ n1, n = n1 + 1 + m := ⟨n - 1 - m, by omega⟩
      obtain ⟨l1, k1, h1⟩ := h l k n1
      have hwne : w ≠ [] := by
        intro h0
        subst h0
        simp [expand_word] at hc hfit
        omega
      rw [e, h1]
      refine ih _ _ X l1 k1 _ hw1 (follows_tail s w X hf)
        (by simpa [expand_word] using hfit) ?_ (by omega)
      rw [subst_last_cons s w hwne] at hc
      simpa [expand_word, Nat.add_assoc] using hc
    · have hcross : 2047 ≤ acc.length + (s.expand getenv).length := by omega
      cases s with
      | plain cs =>
        obtain ⟨hne, hcs⟩ : cs ≠ [] ∧ ∀ c ∈ cs, plain_char c := by
          simpa [word_ok, Seg.ok] using hw0
        cases cs with
        | nil => exact absurd rfl hne
        | cons c cs =>
          simp only [Seg.expand, Seg.render, List.length_cons] at hcross hn
          obtain ⟨m, rfl⟩ : ∃ m, n = m + 1 := ⟨n - 1, by omega⟩
          simp only [render_word, Seg.render, List.cons_append, List.append_assoc]
          rw [read_loop_plain getenv m b c _ l k acc (hcs c (by simp)) (by omega)]
          exact read_loop_plains_overflow getenv cs _ (acc ++ [c]) l (k + 1) m
            (fun d hd => hcs d (by simp [hd])) (by simp; omega) (by omega)
      | quoted cs =>
        have hcs : ∀ c ∈ cs, c ≠ NUL ∧ c ≠ '\'' := by simpa [word_ok, Seg.ok] using hw0
        simp only [Seg.expand, Seg.render, List.length_cons, List.length_append,
          List.length_nil] at hcross hn
        obtain ⟨m, rfl⟩ : ∃ m, n = m + 1 := ⟨n - 1, by omega⟩
        simp only [render_word, Seg.render, List.cons_append, List.append_assoc]
        rw [read_loop_quote_open getenv m b _ l k acc (by omega)]
        exact read_loop_quoted_overflow getenv cs _ acc l (k + 1) m hcs hcross (by omega)
      | esc c =>
        have hc0 : c ≠ NUL := by simpa [word_ok, Seg.ok] using hw0
        simp only [Seg.expand, Seg.render, List.length_cons, List.length_nil] at hcross hn
        obtain ⟨m, rfl⟩ : ∃ m, n = m + 1 + 1 + 1 := ⟨n - 3, by omega⟩
        simp only [render_word, Seg.render, List.cons_append, List.append_assoc,
          List.nil_append]
        rw [read_loop_esc_open getenv _ b _ l k acc (by omega),
          read_loop_esc_char getenv _ c _ l (k + 1) acc hc0 (by omega)]
        exact read_loop_overflow getenv m _ (Or.inl (by simp [st_word]; omega))
      | var name =>
        obtain ⟨⟨hcs, hlen⟩, haft, _⟩ :
            Seg.ok (.var name) ∧ after_var w ∧ word_ok w := by simpa [word_ok] using hw
        have hcur := cur_after_var_follows w X haft (follows_var_nil name w X hf)
        simp only [Seg.expand, Seg.render, List.length_cons] at hcross hn hexp
        simp only [render_word, Seg.render, List.cons_append, List.append_assoc]
        by_cases hA : 2048 ≤ acc.length + (value_of getenv name).length
        · obtain ⟨m, rfl⟩ : ∃ m, n = ((m + 1) + name.length) + 1 :=
            ⟨n - name.length - 2, by omega⟩
          rw [read_loop_var_open getenv _ b _ l k acc (by omega)
              (cur_name_ne_brace name _ hcs hcur.2),
            read_loop_name getenv name hcs (m + 1) false _ l (k + 1) acc [] (by omega)
              (by simp; omega)]
          obtain ⟨r1, h1⟩ := substitute_overflow getenv
            (st_var false (render_word w ++ X) l (k + 1 + name.length) acc ([] ++ name))
            (by simp [st_var]; omega) (by simpa [st_var] using hA)
          rw [← step_var_end getenv _ l _ acc _ hcur.1 (by omega) (by simp; omega)] at h1
          exact read_loop_raise_overflow getenv m _ r1 h1
        · have hB : acc.length + (value_of getenv name).length = 2047 := by omega
          have hwne : w ≠ [] := by
            intro h0
            subst h0
            simp [expand_word, subst_last, Seg.expand] at hc
            omega
          have hpos := render_word_length_pos w hwne hw1
          obtain ⟨hc0, hc1⟩ := cur_word_not_stop w X hwne hw1
          obtain ⟨m, rfl⟩ : ∃ m, n = ((m + 2) + name.length) + 1 :=
            ⟨n - name.length - 3, by omega⟩
          rw [read_loop_var_open getenv _ b _ l k acc (by omega)
              (cur_name_ne_brace name _ hcs hcur.2),
            read_loop_name getenv name hcs (m + 2) false _ l (k + 1) acc [] (by omega)
              (by simp; omega)]
          have h1 := substitute_full getenv
            (st_var false (render_word w ++ X) l (k + 1 + name.length) acc ([] ++ name))
            rfl hc0 hc1 (by simpa [st_var] using hB)
          rw [← step_var_end getenv _ l _ acc _ hcur.1 (by omega) (by simp; omega)] at h1
          exact read_loop_cont_full getenv m _ h1
      | bvar name =>
        obtain ⟨hcs, hlen⟩ : (∀ c ∈ name, name_char c) ∧ name.length ≤ 2046 := by
          simpa [word_ok, Seg.ok] using hw0
        simp only [Seg.expand, Seg.render, List.length_cons, List.length_append,
          List.length_nil] at hcross hn hexp
        simp only [render_word, Seg.render, List.cons_append, List.append_assoc,
          List.nil_append]
        by_cases hA : 2048 ≤ acc.length + (value_of getenv name).length
        · obtain ⟨m, rfl⟩ : ∃ m, n = ((m + 1) + name.length) + 1 :=
            ⟨n - name.length - 2, by omega⟩
          rw [read_loop_bvar_open getenv _ b _ l k acc (by omega),
            read_loop_name getenv name hcs (m + 1) true _ l (k + 2) acc [] (by omega)
              (by simp; omega)]
          obtain ⟨r1, h1⟩ := substitute_overflow getenv
            (st_var true (render_word w ++ X) l (k + 2 + name.length + 1) acc ([] ++ name))
            (by simp [st_var]; omega) (by simpa [st_var] using hA)
          rw [← step_bvar_end getenv _ l _ acc _ (by omega) (by simp; omega)] at h1
          exact read_loop_raise_overflow getenv m _ r1 h1
        · have hB : acc.length + (value_of getenv name).length = 2047 := by omega
          have hwne : w ≠ [] := by
            intro h0
            subst h0
            simp [expand_word, subst_last, Seg.expand] at hc
            omega
          have hpos := render_word_length_pos w hwne hw1
          obtain ⟨hc0, hc1⟩ := cur_word_not_stop w X hwne hw1
          obtain ⟨m, rfl⟩ : ∃ m, n = ((m + 2) + name.length) + 1 :=
            ⟨n - name.length - 3, by omega⟩
          rw [read_loop_bvar_open getenv _ b _ l k acc (by omega),
            read_loop_name getenv name hcs (m + 2) true _ l (k + 2) acc [] (by omega)
              (by simp; omega)]
          have h1 := substitute_full getenv
            (st_var true (render_word w ++ X) l (k + 2 + name.length + 1) acc ([] ++ name))
            rfl hc0 hc1 (by simpa [st_var] using hB)
          rw [← step_bvar_end getenv _ l _ acc _ (by omega) (by simp; omega)] at h1
          exact read_loop_cont_full getenv m _ h1

/-! ## Overflow after a beginning that parses -/

theorem scan_word_overflow (getenv : List Char → Option (List Char)) (bs : List Char)
    (w : List Seg) (X : List Char) (hb : blanks bs) (hw : word_ok w) (hf : follows w X)
    (ho : word_overflows getenv w) :
    ∀ l k tok, ∃ el ec,
      scan getenv ⟨bs ++ (render_word w ++ X), l, k, tok⟩ = .raise PARSER_OVERFLOW el ec := by
  intro l k tok
  refine ⟨0, 0, scan_of_read_raise getenv _ _ 0 0 ?_⟩
  have e : (bs ++ (render_word w ++ X)).length + 1 =
      ((render_word w ++ X).length + 1) + bs.length := by simp; omega
  simp only [read, read_init_eq]
  rw [e, read_loop_blanks getenv bs hb]
  exact read_loop_word_overflow getenv w false [] X l _ _ hw hf (by simp)
    (by simpa [word_overflows] using ho) (Nat.le_refl _)

theorem context_word_overflow (getenv : List Char → Option (List Char)) (c : Context)
    (st : List Item) (ld : Lead) (w : List Seg) (X : List Char) (hc : c.ok getenv)
    (hst : items_ok getenv st) (hld : ld.ok) (hs : st = [] ∨ ld.sep) (hw : word_ok w)
    (hf : follows w X) (ho : word_overflows getenv w) :
    ∃ l k, parser_parse getenv (c.text ++ (render_stage st ++ (ld.text ++ (render_word w ++ X)))) =
      some ⟨[], PARSER_OVERFLOW, "Overflow of internal buffer.", l, k⟩ := by
  have h := context_stage_raise getenv c st _ PARSER_OVERFLOW hc hst
    (hs.imp id (fun h => lead_ends_word ld _ hld h))
    (lead_stage_fails getenv ld _ PARSER_OVERFLOW hld
      (fun g hg => scan_word_overflow getenv g w X hg hw hf ho))
  simpa [messages] using h

theorem long_name_fails (getenv : List Char → Option (List Char)) (name X : List Char)
    (hn : ∀ c ∈ name, name_char c) (hlen : 2047 ≤ name.length) :
    word_fails getenv 2046 ('$' :: (name ++ X)) PARSER_OVERFLOW := by
  intro b acc l k n hacc
  refine ⟨0, 0, ?_⟩
  have hne : cur (name ++ X) ≠ '{' := by
    cases name with
    | nil => simp at hlen
    | cons c cs =>
      have h := (hn c (by simp)).2
      simp [VAR_STOP] at h
      simp [cur, h]
  have e : n + 1 + ('$' :: (name ++ X)).length = (n + 1 + (name ++ X).length) + 1 := by
    simp; omega
  rw [e, read_loop_var_open getenv _ b _ l k acc (by omega) hne]
  exact read_loop_name_overflow getenv name X false acc (by omega) [] l (k + 1) _ hn
    (by simpa using hlen) (by simp; omega)

theorem long_brace_name_fails (getenv : List Char → Option (List Char)) (name X : List Char)
    (hn : ∀ c ∈ name, name_char c) (hlen : 2047 ≤ name.length) :
    word_fails getenv 2046 ('$' :: '{' :: (name ++ X)) PARSER_OVERFLOW := by
  intro b acc l k n hacc
  refine ⟨0, 0, ?_⟩
  have e : n + 1 + ('$' :: '{' :: (name ++ X)).length =
      (n + 2 + (name ++ X).length) + 1 := by
    simp; omega
  rw [e, read_loop_bvar_open getenv _ b _ l k acc (by omega)]
  exact read_loop_name_overflow getenv name X true acc (by omega) [] l (k + 2) _ hn
    (by simpa using hlen) (by simp; omega)

theorem context_comment_overflow (getenv : List Char → Option (List Char)) (c : Context)
    (st : List Item) (g cm rest : List Char) (hc : c.ok getenv) (hst : items_ok getenv st)
    (hg : blanks g) (hcm : ∀ ch ∈ cm, comment_char ch) (hlen : 2047 ≤ cm.length) :
    ∃ l k, parser_parse getenv (c.text ++ (render_stage st ++ (g ++ '#' :: (cm ++ rest)))) =
      some ⟨[], PARSER_OVERFLOW, "Overflow of internal buffer.", l, k⟩ := by
  have h := context_stage_raise getenv c st (g ++ '#' :: (cm ++ rest)) PARSER_OVERFLOW hc hst
    (Or.inr (ends_word_gap g _ hg (Or.inr (by simp [cur, IDE_STOP]))))
    (scan_fails_stage getenv _ _ (fun l k tok =>
      ⟨0, 0, scan_comment_overflow getenv g cm rest l k tok hg hcm hlen⟩))
  simpa [messages] using h

theorem classify_code_codes (kind : cmd_kind) (prog : prog_args) (code : parser_errors)
    (h : classify_code kind prog = .error code) :
    code ≠ PARSER_OVERFLOW ∧ code ≠ PARSER_UNEXPECTED_EOF ∧
      code ≠ PARSER_BAD_SUBSTITUTION ∧ code ≠ PARSER_MISSING_FILE := by
  rcases classify_cases ⟨[], 0, 0, ⟨UNKNOWN, []⟩⟩ kind prog with ⟨r, _, h2⟩ | ⟨c2, l, k, h1, h2⟩
  · rw [h2] at h; cases h
  · rw [h2] at h
    simp only [Except.error.injEq] at h
    subst h
    exact (classify_codes _ kind prog c2 l k h1).2

theorem pipe_verdict_codes (ps : List prog_args) :
    ∀ (kind : cmd_kind) (code : parser_errors), pipe_verdict kind ps = .error code →
      code ≠ PARSER_OVERFLOW ∧ code ≠ PARSER_UNEXPECTED_EOF ∧
        code ≠ PARSER_BAD_SUBSTITUTION ∧ code ≠ PARSER_MISSING_FILE := by
  induction ps with
  | nil =>
    intro kind code h
    simp only [pipe_verdict, Except.error.injEq] at h
    subst h
    decide
  | cons p ps ih =>
    intro kind code h
    rw [pipe_verdict_cons] at h
    cases hc : classify_code kind p with
    | error c2 =>
      rw [hc] at h
      simp only [Except.error.injEq] at h
      subst h
      exact classify_code_codes kind p c2 hc
    | ok r =>
      rw [hc] at h
      cases r with
      | builtin cmd =>
        dsimp only at h
        by_cases hp : ps = []
        · rw [if_pos hp] at h; cases h
        · rw [if_neg hp] at h
          simp only [Except.error.injEq] at h
          subst h
          decide
      | external p1 =>
        dsimp only at h
        by_cases hp : ps = []
        · rw [if_pos hp] at h; cases h
        rw [if_neg hp] at h
        by_cases hk : ¬ (kind = .PROG ∨ kind = .PIPE)
        · rw [if_pos hk] at h
          simp only [Except.error.injEq] at h
          subst h
          decide
        rw [if_neg hk] at h
        by_cases ho : p1.output ≠ none
        · rw [if_pos ho] at h
          simp only [Except.error.injEq] at h
          subst h
          decide
        rw [if_neg ho] at h
        cases hv : pipe_verdict .PIPE ps with
        | ok cmd => rw [hv] at h; cases h
        | error c3 =>
          rw [hv] at h
          simp only [Except.error.injEq] at h
          subst h
          exact ih .PIPE c3 hv

theorem parser_parse_pipe_fits (getenv : List Char → Option (List Char)) (st : List Item)
    (sts : List (List Char × List Item)) (amp : Option (List Char)) (trail : List Char)
    (hst : stage_ok getenv st) (hsts : ∀ r ∈ sts, blanks r.1 ∧ stage_ok getenv r.2)
    (hamp : ∀ g ∈ amp, blanks g) (htrail : blanks trail) :
    ∃ out, parser_parse getenv (render_pipe st sts ++ render_end amp trail) = some out ∧
      out.parser_status ≠ PARSER_OVERFLOW := by
  have h := parser_parse_pipe getenv st sts amp trail hst hsts hamp htrail
  cases hv : pipe_verdict .PROG (stage_progs getenv (end_token amp) (st :: sts.map Prod.snd)) with
  | ok cmd =>
    rw [hv] at h
    exact ⟨_, h, by simp⟩
  | error code =>
    rw [hv] at h
    obtain ⟨l, k, h2⟩ := h
    exact ⟨_, h2, (pipe_verdict_codes _ .PROG code hv).1⟩

/-! ## A substitution that fills the buffer -/

theorem read_loop_var_full (getenv : List Char → Option (List Char)) (n : Nat)
    (stream : List Char) (l k : Nat) (arg var value : List Char) (hs : ends_word stream)
    (hg : getenv var = some value) (ha : arg.length + value.length = 2047)
    (hv : var.length < 2047) (hne : value ≠ []) :
    read_loop getenv (n + 1) (st_var false stream l k arg var) =
      .ok ⟨stream, l, k, ⟨IDE, arg ++ value⟩⟩ := by
  have hpos : 1 ≤ value.length := by
    cases value with
    | nil => exact absurd rfl hne
    | cons v vs => simp
  have hstop : cur stream = NUL ∨ cur stream ∈ VAR_STOP := by
    rcases hs with h | h
    · exact Or.inl h
    · right
      simp only [IDE_STOP, List.mem_cons, List.mem_singleton, List.not_mem_nil, or_false] at h
      rcases h with h | h | h | h | h | h | h | h | h <;> simp [h, VAR_STOP]
  have h2 : cur stream = NUL ∨ strchr IDE_STOP (cur stream) = true := by
    rcases hs with h | h
    · exact Or.inl h
    · exact Or.inr (by simp [strchr, h])
  rw [read_loop, step_var_end getenv stream l k arg var hstop (by omega) hv]
  simp only [substitute, st_var, hg]
  rw [splice_eq value arg (by omega)]
  simp [gobble_ide, h2]

theorem scan_var_full (l k : Nat) (tok : token) :
    scan long_env ⟨[' ', '$', 'v'], l, k, tok⟩ = .ok ⟨[], l, k + 3, ⟨IDE, long_word⟩⟩ := by
  apply scan_of_read _ _ _ _ (by simp)
  have e : ([' ', '$', 'v'] : List Char).length + 1 = 1 + 1 + 1 + 1 := rfl
  simp only [read, read_init_eq]
  rw [e, read_loop_blank long_env _ ' ' _ l k (Or.inl rfl),
    read_loop_var_open long_env _ false _ l (k + 1) [] (by simp) (by simp [cur]),
    read_loop_var_char long_env _ false 'v' [] l (k + 1 + 1) [] [] (by decide) (by simp)
      (by simp),
    read_loop_var_full long_env 0 [] l _ [] _ long_word ends_word_nil rfl
      (by simp [long_word_length]) (by simp) long_word_ne_nil]
  simp

theorem parser_parse_two_words (getenv : List Char → Option (List Char)) (input : List Char)
    (s1 s2 s3 s4 : Scanner) (a b : List Char)
    (h1 : scan getenv ⟨input, 0, 0, ⟨UNKNOWN, []⟩⟩ = .ok s1) (k1 : s1.lookahead = ⟨IDE, a⟩)
    (h2 : scan getenv s1 = .ok s2) (k2 : s2.lookahead = ⟨IDE, b⟩)
    (h3 : scan getenv s2 = .ok s3) (k3 : s3.lookahead.kind = END)
    (h4 : scan getenv s3 = .ok s4) (k4 : s4.lookahead.kind = END)
    (hs : 1 ≤ s1.stream.length) (ha : a ∉ builtin_names) :
    parser_parse getenv input =
      some ⟨[.PROG [⟨none, none, false, [a, b]⟩]], PARSER_OK, "Ok.", 0, 0⟩ := by
  have hp : parse_prog getenv s1 argv_new = .ok (s3, ⟨none, none, false, [a, b]⟩) := by
    obtain ⟨m, hm⟩ : ∃ m, s1.stream.length + 2 = m + 1 + 1 + 1 :=
      ⟨s1.stream.length - 1, by omega⟩
    simp only [parse_prog]
    rw [hm]
    simp [parse_prog_loop, get_ide, k1, k2, k3, h2, h3, argv_add, argv_new]
  have hc : classify s3 .PROG ⟨none, none, false, [a, b]⟩ =
      .ok (.external ⟨none, none, false, [a, b]⟩) := by
    simp only [builtin_names, List.mem_cons, List.mem_singleton, List.not_mem_nil, or_false,
      not_or] at ha
    obtain ⟨e1, e2, e3, e4, e5, e6, e7⟩ := ha
    simp only [classify, if_neg e1, if_neg e2, if_neg e3, if_neg e4, if_neg e5, if_neg e6,
      if_neg e7]
    simp
  have hk : s1.lookahead.kind ≠ END := by rw [k1]; simp
  have hk3 : s3.lookahead.kind ≠ STROKE := by rw [k3]; simp
  simp [parser_parse, parse_input, parse_input_loop, h1, hk, parse_pipe, parse_pipe_loop,
    parse_cmd, hp, hc, hk3, k3, h4, k4, cmds.external, messages]

theorem parser_parse_var_full :
    parser_parse long_env ['e', 'c', 'h', 'o', ' ', '$', 'v'] =
      some ⟨[.PROG [⟨none, none, false, [['e', 'c', 'h', 'o'], long_word]⟩]],
        PARSER_OK, "Ok.", 0, 0⟩ := by
  obtain ⟨l1, k1, h1⟩ := scan_word long_env [] [.plain ['e', 'c', 'h', 'o']] [' ', '$', 'v'] 0 0
    ⟨UNKNOWN, []⟩ (by simp) (by simp) (by simp only [word_ok, Seg.ok]; decide)
    (ends_word_blank ' ' _ (Or.inl rfl)) (by decide)
  exact parser_parse_two_words long_env _ _ _ _ _ _ _ h1 rfl
    (scan_var_full l1 k1 ⟨IDE, ['e', 'c', 'h', 'o']⟩) rfl
    (scan_end long_env [] l1 (k1 + 3) ⟨IDE, long_word⟩ blank_nil) rfl
    (scan_end long_env [] l1 (k1 + 3 + 0) ⟨END, []⟩ blank_nil) rfl (by simp) (by decide)
/-! ## No internal error: the kinds of the tokens -/

theorem raise_error_sound {α : Type} (p : α → Prop) (code : parser_errors) (l k : Nat)
    (h : code ≠ PARSER_INVALID_STATE) : (raise_error code l k : Result α).sound p := by
  unfold raise_error
  by_cases hc : code.toNat ≥ PARSER_INVALID_STATE.toNat
  · rw [if_pos hc]
    refine ⟨h, fun ho => ?_⟩
    rw [ho] at hc
    simp [parser_errors.toNat] at hc
  · rw [if_neg hc]
    exact ⟨h, fun _ => ⟨rfl, rfl⟩⟩

theorem Result.sound_mono {α : Type} (p q : α → Prop) (r : Result α) (h : ∀ a, p a → q a)
    (hr : r.sound p) : r.sound q := by
  cases r with
  | ok a => exact h a hr
  | raise code l k => exact hr
  | fuel => trivial

theorem dispatch_sound (r : Reader) (hr : r.kind_ok) (hc : r.comment = false) :
    (dispatch r).sound := by
  unfold dispatch
  dsimp only
  by_cases h1 : cur r.stream = NUL
  · rw [if_pos h1]; simp [Step.sound, h1]
  rw [if_neg h1]
  by_cases h2 : cur r.stream = ' ' ∨ cur r.stream = '\t'
  · rw [if_pos h2]; exact hr
  rw [if_neg h2]
  by_cases h3 : cur r.stream = '&'
  · rw [if_pos h3]; simp [Step.sound, Reader.kind_ok, hc]
  rw [if_neg h3]
  by_cases h4 : cur r.stream = '>'
  · rw [if_pos h4]; simp [Step.sound, Reader.kind_ok, hc]
  rw [if_neg h4]
  by_cases h5 : cur r.stream = '<'
  · rw [if_pos h5]; simp [Step.sound, Reader.kind_ok, hc]
  rw [if_neg h5]
  by_cases h6 : cur r.stream = '|'
  · rw [if_pos h6]; simp [Step.sound, Reader.kind_ok, hc]
  rw [if_neg h6]
  by_cases h7 : cur r.stream = '\n'
  · rw [if_pos h7]; simp [Step.sound, Reader.kind_ok, hc]
  rw [if_neg h7]
  by_cases h8 : cur r.stream = ';'
  · rw [if_pos h8]; simp [Step.sound, Reader.kind_ok, hc]
  rw [if_neg h8]
  by_cases h9 : cur r.stream = '#'
  · rw [if_pos h9]; simp [Step.sound, Reader.kind_ok, hc]
  rw [if_neg h9]
  by_cases h10 : cur r.stream = '\''
  · rw [if_pos h10]; simp [Step.sound, Reader.kind_ok, hc]
  rw [if_neg h10]
  by_cases h11 : cur r.stream = '\\'
  · rw [if_pos h11]; simp [Step.sound, Reader.kind_ok, hc]
  rw [if_neg h11]
  by_cases h12 : cur r.stream = '$'
  · rw [if_pos h12]
    by_cases h13 : cur r.stream.tail = '{'
    · rw [if_pos h13]; simp [Step.sound, Reader.kind_ok, hc]
    · rw [if_neg h13]; simp [Step.sound, Reader.kind_ok, hc]
  rw [if_neg h12]
  simp [Step.sound, Reader.kind_ok, hc]

theorem gobble_ide_sound (r : Reader) (hr : r.kind_ok) (hc : r.comment = false) :
    (gobble_ide r).sound := by
  unfold gobble_ide
  dsimp only
  by_cases hi : r.ide = true
  · rw [if_pos hi]
    by_cases h1 : cur r.stream = NUL ∨ strchr IDE_STOP (cur r.stream) = true
    · rw [if_pos h1]
      have hk := hr.2 hc hi
      simp [Step.sound, hk]
    rw [if_neg h1]
    by_cases h2 : ¬ strchr IDE_MODE (cur r.stream) = true
    · rw [if_pos h2]; exact hr
    · rw [if_neg h2]; exact dispatch_sound r hr hc
  · rw [if_neg hi]; exact dispatch_sound r hr hc

theorem substitute_sound (getenv : List Char → Option (List Char)) (r : Reader)
    (hr : r.kind_ok) (hc : r.comment = false) : (substitute getenv r).sound := by
  unfold substitute
  dsimp only
  cases getenv r.var with
  | none => exact gobble_ide_sound _ hr hc
  | some value =>
    dsimp only
    cases splice r.arg value with
    | none => simp [Step.sound]
    | some arg => exact gobble_ide_sound _ hr hc

theorem gobble_variable_sound (getenv : List Char → Option (List Char)) (r : Reader)
    (hr : r.kind_ok) (hc : r.comment = false) : (gobble_variable getenv r).sound := by
  unfold gobble_variable
  dsimp only
  by_cases h1 : cur r.stream ≠ NUL ∧ ¬ strchr VAR_STOP (cur r.stream) = true
  · rw [if_pos h1]; exact hr
  rw [if_neg h1]
  by_cases hb : r.bracket = true
  · rw [if_pos hb]
    by_cases h2 : cur r.stream ≠ '}'
    · rw [if_pos h2]; simp [Step.sound]
    · rw [if_neg h2]; exact substitute_sound getenv _ hr hc
  · rw [if_neg hb]; exact substitute_sound getenv r hr hc

theorem step_sound (getenv : List Char → Option (List Char)) (r : Reader) (hr : r.kind_ok) :
    (step getenv r).sound := by
  unfold step
  dsimp only
  by_cases h0 : r.arg.length ≥ MAX_LINE_LENGTH - 1 ∨ r.var.length ≥ MAX_LINE_LENGTH - 1
  · rw [if_pos h0]; simp [Step.sound]
  rw [if_neg h0]
  by_cases hc : r.comment = true
  · rw [if_pos hc]
    by_cases h1 : cur r.stream = '\n' ∨ cur r.stream = NUL
    · rw [if_pos h1]
      have hk := hr.1 hc
      simp [Step.sound, hk]
    · rw [if_neg h1]; exact hr
  rw [if_neg hc]
  have hc0 : r.comment = false := by simpa using hc
  by_cases hq : r.quote = true
  · rw [if_pos hq]
    by_cases h1 : cur r.stream = NUL
    · rw [if_pos h1]; simp [Step.sound]
    rw [if_neg h1]
    by_cases h2 : cur r.stream = '\''
    · rw [if_pos h2]; exact hr
    rw [if_neg h2]
    by_cases h3 : cur r.stream = '\n'
    · rw [if_pos h3]; exact hr
    · rw [if_neg h3]; exact hr
  rw [if_neg hq]
  by_cases hb : r.backspace = true
  · rw [if_pos hb]
    by_cases h1 : cur r.stream = NUL
    · rw [if_pos h1]; simp [Step.sound]
    rw [if_neg h1]
    by_cases h3 : cur r.stream = '\n'
    · rw [if_pos h3]; exact hr
    · rw [if_neg h3]; exact hr
  rw [if_neg hb]
  by_cases hv : r.variable_ = true
  · rw [if_pos hv]; exact gobble_variable_sound getenv r hr hc0
  · rw [if_neg hv]; exact gobble_ide_sound r hr hc0

theorem read_loop_sound (getenv : List Char → Option (List Char)) :
    ∀ (n : Nat) (r : Reader), r.kind_ok →
      (read_loop getenv n r).sound (fun s => s.lookahead.kind ≠ UNKNOWN ∧ s.at_end) := by
  intro n
  induction n with
  | zero => intro r _; simp [read_loop, Result.sound]
  | succ n ih =>
    intro r hr
    have h := step_sound getenv r hr
    rw [read_loop]
    cases hs : step getenv r with
    | ret r1 =>
      rw [hs] at h
      exact h
    | raise code r1 =>
      rw [hs] at h
      exact raise_error_sound _ code r1.line r1.col h
    | cont r1 =>
      rw [hs] at h
      exact ih _ h

theorem read_sound (getenv : List Char → Option (List Char)) (s : Scanner) :
    (read getenv s).sound (fun s1 => s1.lookahead.kind ≠ UNKNOWN ∧ s1.at_end) :=
  read_loop_sound getenv (s.stream.length + 1) (read_init s) (by simp [read_init, Reader.kind_ok])

theorem scan_loop_sound (getenv : List Char → Option (List Char)) :
    ∀ (n : Nat) (s : Scanner),
      (scan_loop getenv n s).sound (fun s1 => s1.token_ok ∧ s1.at_end) := by
  intro n
  induction n with
  | zero => intro s; simp [scan_loop, Result.sound]
  | succ n ih =>
    intro s
    have h := read_sound getenv s
    rw [scan_loop]
    cases hs : read getenv s with
    | ok s1 =>
      rw [hs] at h
      dsimp only
      by_cases hk : s1.lookahead.kind = REM
      · rw [if_pos hk]; exact ih s1
      · rw [if_neg hk]; exact ⟨⟨h.1, hk⟩, h.2⟩
    | raise code l c => rw [hs] at h; exact h
    | fuel => simp [Result.sound]

theorem scan_sound_end (getenv : List Char → Option (List Char)) (s : Scanner) :
    (scan getenv s).sound (fun s1 => s1.token_ok ∧ s1.at_end) :=
  scan_loop_sound getenv (s.stream.length + 1) s

theorem scan_sound (getenv : List Char → Option (List Char)) (s : Scanner) :
    (scan getenv s).sound Scanner.token_ok :=
  Result.sound_mono _ _ _ (fun _ h => h.1) (scan_sound_end getenv s)

theorem classify_not_invalid (s : Scanner) (kind : cmd_kind) (prog : prog_args) :
    ∀ code l k, classify s kind prog = .raise code l k →
      code ≠ PARSER_INVALID_STATE := by
  have hint : ∀ (a : List Char) (f : Int → parsed) (code : parser_errors) (l k : Nat),
      (match get_int s a with
        | .ok id => Result.ok (f id)
        | .raise code l c => .raise code l c
        | .fuel => .fuel) = .raise code l k →
      code ≠ PARSER_INVALID_STATE := by
    intro a f code l k h
    cases hg : get_int s a with
    | ok id => rw [hg] at h; cases h
    | raise c2 l2 k2 =>
      rw [hg] at h
      simp only [Result.raise.injEq] at h
      have := get_int_codes s a c2 l2 k2 hg
      rw [← h.1, this]
      decide
    | fuel => rw [hg] at h; cases h
  obtain ⟨i, o, b, argv⟩ := prog
  cases argv with
  | nil => simp [classify, raise_error, parser_errors.toNat]
  | cons argv0 args =>
    simp only [classify]
    by_cases h1 : argv0 = ['e', 'x', 'i', 't']
    · simp only [if_pos h1]
      by_cases h : kind ≠ .PROG
      · simp only [if_pos h]; simp [raise_error, parser_errors.toNat]
      · simp only [if_neg h]; simp
    simp only [if_neg h1]
    by_cases h2 : argv0 = ['c', 'd']
    · simp only [if_pos h2]
      by_cases h : kind = .PIPE
      · simp only [if_pos h]; simp [raise_error, parser_errors.toNat]
      · simp only [if_neg h]; simp
    simp only [if_neg h2]
    by_cases h3 : argv0 = ['u', 'n', 's', 'e', 't', 'e', 'n', 'v']
    · simp only [if_pos h3]
      by_cases h : kind = .PIPE
      · simp only [if_pos h]; simp [raise_error, parser_errors.toNat]
      · simp only [if_neg h]
        cases args <;> simp [raise_error, parser_errors.toNat]
    simp only [if_neg h3]
    by_cases h4 : argv0 = ['s', 'e', 't', 'e', 'n', 'v']
    · simp only [if_pos h4]
      by_cases h : kind = .PIPE
      · simp only [if_pos h]; simp [raise_error, parser_errors.toNat]
      · simp only [if_neg h]
        cases args with
        | nil => simp [raise_error, parser_errors.toNat]
        | cons a as => cases as <;> simp [raise_error, parser_errors.toNat]
    simp only [if_neg h4]
    by_cases h5 : argv0 = ['j', 'o', 'b', 's']
    · simp only [if_pos h5]
      by_cases h : kind = .PIPE
      · simp only [if_pos h]; simp [raise_error, parser_errors.toNat]
      · simp only [if_neg h]
        cases args with
        | nil => simp
        | cons a as => exact hint a _
    simp only [if_neg h5]
    by_cases h6 : argv0 = ['b', 'g']
    · simp only [if_pos h6]
      by_cases h : kind = .PIPE
      · simp only [if_pos h]; simp [raise_error, parser_errors.toNat]
      · simp only [if_neg h]
        cases args with
        | nil => simp
        | cons a as => exact hint a _
    simp only [if_neg h6]
    by_cases h7 : argv0 = ['f', 'g']
    · simp only [if_pos h7]
      by_cases h : kind = .PIPE
      · simp only [if_pos h]; simp [raise_error, parser_errors.toNat]
      · simp only [if_neg h]
        cases args with
        | nil => simp
        | cons a as => exact hint a _
    simp only [if_neg h7]
    by_cases h : kind = .PIPE ∧ (i ≠ none)
    · simp only [if_pos h]; simp [raise_error, parser_errors.toNat]
    · simp only [if_neg h]; simp


theorem classify_sound (s : Scanner) (kind : cmd_kind) (prog : prog_args) :
    (classify s kind prog).sound (fun _ => True) := by
  cases hc : classify s kind prog with
  | ok r => trivial
  | raise code l k =>
    exact ⟨classify_not_invalid s kind prog code l k hc,
      fun h => absurd h (classify_codes s kind prog code l k hc).2.1⟩
  | fuel => trivial

theorem parse_redirection_sound (getenv : List Char → Option (List Char)) (s : Scanner)
    (prog : prog_args) :
    (parse_redirection getenv s prog).sound (fun p => p.1.token_ok) := by
  have h := scan_sound getenv s
  unfold parse_redirection get_ide
  by_cases hin : s.lookahead.kind = IN
  · rw [if_pos hin]
    cases hs : scan getenv s with
    | ok s1 =>
      rw [hs] at h
      dsimp only
      by_cases hk : s1.lookahead.kind ≠ IDE
      · rw [if_pos hk]
        exact raise_error_sound _ _ _ _ (by decide)
      · rw [if_neg hk]
        have hk2 : s1.lookahead.kind = IDE := by simpa using hk
        simp only [hk2, not_true_eq_false, if_false]
        exact h
    | raise code l c => rw [hs] at h; exact h
    | fuel => simp [Result.sound]
  · rw [if_neg hin]
    cases hs : scan getenv s with
    | ok s1 =>
      rw [hs] at h
      dsimp only
      by_cases hk : s1.lookahead.kind ≠ IDE
      · rw [if_pos hk]
        exact raise_error_sound _ _ _ _ (by decide)
      · rw [if_neg hk]
        have hk2 : s1.lookahead.kind = IDE := by simpa using hk
        simp only [hk2, not_true_eq_false, if_false]
        exact h
    | raise code l c => rw [hs] at h; exact h
    | fuel => simp [Result.sound]

theorem parse_prog_loop_sound (getenv : List Char → Option (List Char)) :
    ∀ (n : Nat) (s : Scanner) (prog : prog_args), s.token_ok →
      (parse_prog_loop getenv n s prog).sound (fun _ => True) := by
  intro n
  induction n with
  | zero => intro s prog _; simp [parse_prog_loop, Result.sound]
  | succ n ih =>
    intro s prog hs0
    have hredir :
        (match parse_redirection getenv s prog with
          | .ok (s1, prog1) =>
            match scan getenv s1 with
            | .ok s2 => parse_prog_loop getenv n s2 prog1
            | .raise code l c => .raise code l c
            | .fuel => .fuel
          | .raise code l c => .raise code l c
          | .fuel => .fuel).sound (fun _ : Scanner × prog_args => True) := by
      have h := parse_redirection_sound getenv s prog
      cases hr : parse_redirection getenv s prog with
      | ok v =>
        obtain ⟨s1, prog1⟩ := v
        dsimp only
        have h2 := scan_sound getenv s1
        cases hs : scan getenv s1 with
        | ok s2 =>
          rw [hs] at h2
          exact ih s2 prog1 h2
        | raise code l c => rw [hs] at h2; exact h2
        | fuel => simp [Result.sound]
      | raise code l c => rw [hr] at h; exact h
      | fuel => simp [Result.sound]
    rw [parse_prog_loop]
    cases hk : s.lookahead.kind with
    | UNKNOWN => exact absurd hk hs0.1
    | REM => exact absurd hk hs0.2
    | END => trivial
    | SEP => trivial
    | STROKE => trivial
    | AMP => trivial
    | IN => exact hredir
    | OUT => exact hredir
    | IDE =>
      dsimp only
      simp only [get_ide, hk, not_true_eq_false, if_false]
      have h2 := scan_sound getenv s
      cases hs : scan getenv s with
      | ok s2 =>
        rw [hs] at h2
        exact ih s2 _ h2
      | raise code l c => rw [hs] at h2; exact h2
      | fuel => simp [Result.sound]

theorem parse_cmd_sound (getenv : List Char → Option (List Char)) (s : Scanner)
    (kind : cmd_kind) (prog : prog_args) (hs0 : s.token_ok) :
    (parse_cmd getenv s kind prog).sound (fun _ => True) := by
  have h := parse_prog_loop_sound getenv (s.stream.length + 2) s prog hs0
  unfold parse_cmd parse_prog
  cases hp : parse_prog_loop getenv (s.stream.length + 2) s prog with
  | ok v =>
    obtain ⟨s1, prog1⟩ := v
    dsimp only
    have h2 := classify_sound s1 kind prog1
    cases hc : classify s1 kind prog1 with
    | ok r => trivial
    | raise code l c => rw [hc] at h2; exact h2
    | fuel => trivial
  | raise code l c => rw [hp] at h; exact h
  | fuel => trivial

theorem parse_pipe_loop_sound (getenv : List Char → Option (List Char)) :
    ∀ (n : Nat) (s : Scanner) (kind : cmd_kind) (prog : prog_args), s.token_ok →
      (parse_pipe_loop getenv n s kind prog).sound (fun _ => True) := by
  intro n
  induction n with
  | zero => intro s kind prog _; simp [parse_pipe_loop, Result.sound]
  | succ n ih =>
    intro s kind prog hs0
    have h := parse_cmd_sound getenv s kind prog hs0
    rw [parse_pipe_loop]
    cases hp : parse_cmd getenv s kind prog with
    | ok v =>
      obtain ⟨s1, r⟩ := v
      cases r with
      | builtin cmd =>
        dsimp only
        by_cases hk : s1.lookahead.kind ≠ STROKE
        · rw [if_pos hk]; trivial
        · rw [if_neg hk]
          exact raise_error_sound _ _ _ _ (by decide)
      | external prog1 =>
        dsimp only
        by_cases hk : s1.lookahead.kind ≠ STROKE
        · rw [if_pos hk]; trivial
        rw [if_neg hk]
        by_cases hk2 : ¬ (kind = .PROG ∨ kind = .PIPE)
        · rw [if_pos hk2]
          exact raise_error_sound _ _ _ _ (by decide)
        rw [if_neg hk2]
        by_cases hk3 : prog1.output ≠ none
        · rw [if_pos hk3]
          exact raise_error_sound _ _ _ _ (by decide)
        rw [if_neg hk3]
        have h2 := scan_sound getenv s1
        cases hs : scan getenv s1 with
        | ok s2 =>
          rw [hs] at h2
          dsimp only
          have h3 := ih s2 .PIPE prog_new h2
          cases hq : parse_pipe_loop getenv n s2 .PIPE prog_new with
          | ok v2 => trivial
          | raise code l c => rw [hq] at h3; exact h3
          | fuel => trivial
        | raise code l c => rw [hs] at h2; exact h2
        | fuel => trivial
    | raise code l c => rw [hp] at h; exact h
    | fuel => trivial

theorem parse_input_loop_sound (getenv : List Char → Option (List Char)) :
    ∀ (n : Nat) (s : Scanner), (parse_input_loop getenv n s).sound (fun _ => True) := by
  intro n
  induction n with
  | zero => intro s; simp [parse_input_loop, Result.sound]
  | succ n ih =>
    intro s
    have h := scan_sound getenv s
    rw [parse_input_loop]
    cases hs : scan getenv s with
    | ok s1 =>
      rw [hs] at h
      dsimp only
      by_cases hk : s1.lookahead.kind = END
      · rw [if_pos hk]; trivial
      · rw [if_neg hk]
        have h2 := parse_pipe_loop_sound getenv (s1.stream.length + 2) s1 .PROG argv_new h
        unfold parse_pipe
        cases hp : parse_pipe_loop getenv (s1.stream.length + 2) s1 .PROG argv_new with
        | ok v =>
          obtain ⟨s2, elem⟩ := v
          dsimp only
          have h3 := ih s2
          cases hq : parse_input_loop getenv n s2 with
          | ok rest => trivial
          | raise code l c => rw [hq] at h3; exact h3
          | fuel => trivial
        | raise code l c => rw [hp] at h2; exact h2
        | fuel => trivial
    | raise code l c => rw [hs] at h; exact h
    | fuel => trivial

theorem parser_parse_sound (getenv : List Char → Option (List Char)) (input : List Char)
    (out : Outcome) (h : parser_parse getenv input = some out) :
    out.parser_status ≠ PARSER_INVALID_STATE ∧
      (out.parser_status = PARSER_OVERFLOW → out.error_line = 0 ∧ out.error_column = 0) := by
  have h1 := parse_input_loop_sound getenv (input.length + 2) ⟨input, 0, 0, ⟨UNKNOWN, []⟩⟩
  unfold parser_parse parse_input at h
  cases hp : parse_input_loop getenv (input.length + 2) ⟨input, 0, 0, ⟨UNKNOWN, []⟩⟩ with
  | ok root =>
    rw [hp] at h
    simp only [Option.some.injEq] at h
    subst h
    refine ⟨?_, ?_⟩ <;> intro h <;> cases h
  | raise code l c =>
    rw [hp] at h h1
    simp only [Option.some.injEq] at h
    subst h
    exact h1
  | fuel =>
    rw [hp] at h
    cases h
/-! ## Termination: the cursor stays inside the text -/

theorem reaches_refl (a : List Char) : reaches a a := ⟨[], rfl, by simp⟩

theorem reaches_tail (a : List Char) (h : cur a ≠ NUL) : reaches a a.tail := by
  cases a with
  | nil => exact absurd rfl h
  | cons c t =>
    refine ⟨[c], rfl, ?_⟩
    simp only [List.mem_singleton]
    exact fun e => h e.symm

theorem reaches_trans (a b c : List Char) (h1 : reaches a b) (h2 : reaches b c) :
    reaches a c := by
  obtain ⟨p1, e1, n1⟩ := h1
  obtain ⟨p2, e2, n2⟩ := h2
  refine ⟨p1 ++ p2, by rw [e1, e2, List.append_assoc], ?_⟩
  simp only [List.mem_append, not_or]
  exact ⟨n1, n2⟩

theorem Step.within_trans (a b : List Char) (st : Step) (h1 : reaches a b)
    (h2 : st.within b) : st.within a := by
  cases st with
  | cont r1 => exact ⟨reaches_trans _ _ _ h1 h2.1, h2.2⟩
  | ret r1 => exact reaches_trans _ _ _ h1 h2
  | raise code r1 => trivial

theorem dispatch_within (r : Reader) : (dispatch r).within r.stream := by
  unfold dispatch
  dsimp only
  by_cases h1 : cur r.stream = NUL
  · rw [if_pos h1]; exact reaches_refl _
  rw [if_neg h1]
  by_cases h2 : cur r.stream = ' ' ∨ cur r.stream = '\t'
  · rw [if_pos h2]; exact ⟨reaches_refl _, h1⟩
  rw [if_neg h2]
  by_cases h3 : cur r.stream = '&'
  · rw [if_pos h3]; exact reaches_tail _ h1
  rw [if_neg h3]
  by_cases h4 : cur r.stream = '>'
  · rw [if_pos h4]; exact reaches_tail _ h1
  rw [if_neg h4]
  by_cases h5 : cur r.stream = '<'
  · rw [if_pos h5]; exact reaches_tail _ h1
  rw [if_neg h5]
  by_cases h6 : cur r.stream = '|'
  · rw [if_pos h6]; exact reaches_tail _ h1
  rw [if_neg h6]
  by_cases h7 : cur r.stream = '\n'
  · rw [if_pos h7]; exact reaches_tail _ h1
  rw [if_neg h7]
  by_cases h8 : cur r.stream = ';'
  · rw [if_pos h8]; exact reaches_tail _ h1
  rw [if_neg h8]
  by_cases h9 : cur r.stream = '#'
  · rw [if_pos h9]; exact ⟨reaches_refl _, h1⟩
  rw [if_neg h9]
  by_cases h10 : cur r.stream = '\''
  · rw [if_pos h10]; exact ⟨reaches_refl _, h1⟩
  rw [if_neg h10]
  by_cases h11 : cur r.stream = '\\'
  · rw [if_pos h11]; exact ⟨reaches_refl _, h1⟩
  rw [if_neg h11]
  by_cases h12 : cur r.stream = '$'
  · rw [if_pos h12]
    by_cases h13 : cur r.stream.tail = '{'
    · rw [if_pos h13]
      exact ⟨reaches_tail _ h1, by show cur r.stream.tail ≠ NUL; rw [h13]; decide⟩
    · rw [if_neg h13]; exact ⟨reaches_refl _, h1⟩
  rw [if_neg h12]
  exact ⟨reaches_refl _, h1⟩

theorem gobble_ide_within (r : Reader) : (gobble_ide r).within r.stream := by
  unfold gobble_ide
  dsimp only
  by_cases hi : r.ide = true
  · rw [if_pos hi]
    by_cases h1 : cur r.stream = NUL ∨ strchr IDE_STOP (cur r.stream) = true
    · rw [if_pos h1]; exact reaches_refl _
    rw [if_neg h1]
    by_cases h2 : ¬ strchr IDE_MODE (cur r.stream) = true
    · rw [if_pos h2]; exact ⟨reaches_refl _, fun e => h1 (Or.inl e)⟩
    · rw [if_neg h2]; exact dispatch_within r
  · rw [if_neg hi]; exact dispatch_within r

theorem substitute_within (getenv : List Char → Option (List Char)) (r : Reader) :
    (substitute getenv r).within r.stream := by
  unfold substitute
  dsimp only
  cases getenv r.var with
  | none => exact gobble_ide_within _
  | some value =>
    dsimp only
    cases splice r.arg value with
    | none => trivial
    | some arg => exact gobble_ide_within _

theorem gobble_variable_within (getenv : List Char → Option (List Char)) (r : Reader) :
    (gobble_variable getenv r).within r.stream := by
  unfold gobble_variable
  dsimp only
  by_cases h1 : cur r.stream ≠ NUL ∧ ¬ strchr VAR_STOP (cur r.stream) = true
  · rw [if_pos h1]; exact ⟨reaches_refl _, h1.1⟩
  rw [if_neg h1]
  by_cases hb : r.bracket = true
  · rw [if_pos hb]
    by_cases h2 : cur r.stream ≠ '}'
    · rw [if_pos h2]; trivial
    · rw [if_neg h2]
      have h3 : cur r.stream = '}' := by simpa using h2
      have h4 : cur r.stream ≠ NUL := by rw [h3]; decide
      exact Step.within_trans _ _ _ (reaches_tail _ h4)
        (substitute_within getenv { r with stream := r.stream.tail, col := r.col + 1 })
  · rw [if_neg hb]; exact substitute_within getenv r

theorem step_within (getenv : List Char → Option (List Char)) (r : Reader) :
    (step getenv r).within r.stream := by
  unfold step
  dsimp only
  by_cases h0 : r.arg.length ≥ MAX_LINE_LENGTH - 1 ∨ r.var.length ≥ MAX_LINE_LENGTH - 1
  · rw [if_pos h0]; trivial
  rw [if_neg h0]
  by_cases hc : r.comment = true
  · rw [if_pos hc]
    by_cases h1 : cur r.stream = '\n' ∨ cur r.stream = NUL
    · rw [if_pos h1]; exact reaches_refl _
    · rw [if_neg h1]; exact ⟨reaches_refl _, fun e => h1 (Or.inr e)⟩
  rw [if_neg hc]
  by_cases hq : r.quote = true
  · rw [if_pos hq]
    by_cases h1 : cur r.stream = NUL
    · rw [if_pos h1]; trivial
    rw [if_neg h1]
    by_cases h2 : cur r.stream = '\''
    · rw [if_pos h2]; exact ⟨reaches_refl _, h1⟩
    rw [if_neg h2]
    by_cases h3 : cur r.stream = '\n'
    · rw [if_pos h3]; exact ⟨reaches_refl _, h1⟩
    · rw [if_neg h3]; exact ⟨reaches_refl _, h1⟩
  rw [if_neg hq]
  by_cases hb : r.backspace = true
  · rw [if_pos hb]
    by_cases h1 : cur r.stream = NUL
    · rw [if_pos h1]; trivial
    rw [if_neg h1]
    by_cases h3 : cur r.stream = '\n'
    · rw [if_pos h3]; exact ⟨reaches_refl _, h1⟩
    · rw [if_neg h3]; exact ⟨reaches_refl _, h1⟩
  rw [if_neg hb]
  by_cases hv : r.variable_ = true
  · rw [if_pos hv]; exact gobble_variable_within getenv r
  · rw [if_neg hv]; exact gobble_ide_within r

theorem read_loop_within (getenv : List Char → Option (List Char)) :
    ∀ (n : Nat) (r : Reader) (s1 : Scanner), read_loop getenv n r = .ok s1 →
      reaches r.stream s1.stream := by
  intro n
  induction n with
  | zero => intro r s1 h; simp [read_loop] at h
  | succ n ih =>
    intro r s1 h
    have hw := step_within getenv r
    rw [read_loop] at h
    cases hs : step getenv r with
    | ret r1 =>
      rw [hs] at h hw
      simp only [Result.ok.injEq] at h
      subst h
      exact hw
    | raise code r1 =>
      rw [hs] at h
      obtain ⟨l, k, he⟩ := raise_error_pos (α := Scanner) code r1.line r1.col
      dsimp only at h
      rw [he] at h
      cases h
    | cont r1 =>
      rw [hs] at h hw
      have h2 := ih _ s1 h
      exact reaches_trans _ _ _ hw.1 (reaches_trans _ _ _ (reaches_tail _ hw.2) h2)

theorem scan_loop_within (getenv : List Char → Option (List Char)) :
    ∀ (n : Nat) (s s1 : Scanner), scan_loop getenv n s = .ok s1 →
      reaches s.stream s1.stream := by
  intro n
  induction n with
  | zero => intro s s1 h; simp [scan_loop] at h
  | succ n ih =>
    intro s s1 h
    rw [scan_loop] at h
    cases hs : read getenv s with
    | ok s2 =>
      rw [hs] at h
      dsimp only at h
      have h2 : reaches s.stream s2.stream := read_loop_within getenv _ _ s2 hs
      by_cases hk : s2.lookahead.kind = REM
      · rw [if_pos hk] at h
        exact reaches_trans _ _ _ h2 (ih s2 s1 h)
      · rw [if_neg hk] at h
        simp only [Result.ok.injEq] at h
        subst h
        exact h2
    | raise code l c => rw [hs] at h; cases h
    | fuel => rw [hs] at h; cases h

theorem scan_within (getenv : List Char → Option (List Char)) (s s1 : Scanner)
    (h : scan getenv s = .ok s1) : reaches s.stream s1.stream :=
  scan_loop_within getenv _ s s1 h

/-! ## Termination: the recursion and the number of tokens -/

theorem scan_at_nul (getenv : List Char → Option (List Char)) (s : Scanner)
    (h : cur s.stream = NUL) :
    scan getenv s = .ok ⟨s.stream, s.line, s.col, ⟨END, []⟩⟩ := by
  simp [scan, scan_loop, read, read_loop, read_init, step, gobble_ide, dispatch, h,
    MAX_LINE_LENGTH]

theorem count_tokens_fuel (getenv : List Char → Option (List Char)) :
    ∀ (n m : Nat) (s : Scanner), s.stream.length < n → s.stream.length < m →
      count_tokens getenv n s = count_tokens getenv m s := by
  intro n
  induction n with
  | zero => intro m s h; omega
  | succ n ih =>
    intro m s hn hm
    cases m with
    | zero => omega
    | succ m =>
      rw [count_tokens, count_tokens]
      cases hs : scan getenv s with
      | ok s1 =>
        dsimp only
        by_cases hk : s1.lookahead.kind = END
        · rw [if_pos hk, if_pos hk]
        · rw [if_neg hk, if_neg hk]
          have hl := ((scan_spec getenv s).2 s1 hs).2 hk
          rw [ih m s1 (by omega) (by omega)]
      | raise code l c => rfl
      | fuel => rfl

theorem tokens_left_scan (getenv : List Char → Option (List Char)) (s s1 : Scanner)
    (h : scan getenv s = .ok s1) (hk : s1.lookahead.kind ≠ END) :
    tokens_left getenv s = tokens_left getenv s1 + 1 := by
  have hl := ((scan_spec getenv s).2 s1 h).2 hk
  unfold tokens_left
  rw [count_tokens, h]
  dsimp only
  rw [if_neg hk, count_tokens_fuel getenv s.stream.length (s1.stream.length + 1) s1 hl (by omega)]

theorem tokens_left_nul (getenv : List Char → Option (List Char)) (s : Scanner)
    (h : cur s.stream = NUL) : tokens_left getenv s = 0 := by
  unfold tokens_left
  rw [count_tokens, scan_at_nul getenv s h]
  simp

theorem tokens_left_le (getenv : List Char → Option (List Char)) (s s1 : Scanner)
    (h : scan getenv s = .ok s1) : tokens_left getenv s1 ≤ tokens_left getenv s := by
  by_cases hk : s1.lookahead.kind = END
  · have h2 := scan_sound_end getenv s
    rw [h] at h2
    rw [tokens_left_nul getenv s1 (h2.2 hk)]
    exact Nat.zero_le _
  · rw [tokens_left_scan getenv s s1 h hk]
    exact Nat.le_succ _

theorem tokens_left_length (getenv : List Char → Option (List Char)) :
    ∀ (n : Nat) (s : Scanner), s.stream.length < n →
      tokens_left getenv s ≤ s.stream.length := by
  intro n
  induction n with
  | zero => intro s h; omega
  | succ n ih =>
    intro s hn
    cases hs : scan getenv s with
    | ok s1 =>
      by_cases hk : s1.lookahead.kind = END
      · unfold tokens_left
        rw [count_tokens, hs]
        simp [hk]
      · have hl := ((scan_spec getenv s).2 s1 hs).2 hk
        rw [tokens_left_scan getenv s s1 hs hk]
        have := ih s1 (by omega)
        omega
    | raise code l c =>
      unfold tokens_left
      rw [count_tokens, hs]
      simp
    | fuel =>
      unfold tokens_left
      rw [count_tokens, hs]
      simp

theorem parse_redirection_ok (getenv : List Char → Option (List Char)) (s s1 : Scanner)
    (prog p1 : prog_args) (h : parse_redirection getenv s prog = .ok (s1, p1)) :
    scan getenv s = .ok s1 ∧ s1.lookahead.kind = IDE := by
  unfold parse_redirection get_ide at h
  by_cases hin : s.lookahead.kind = IN
  · rw [if_pos hin] at h
    cases hs : scan getenv s with
    | ok s2 =>
      rw [hs] at h
      dsimp only at h
      by_cases hk : s2.lookahead.kind ≠ IDE
      · rw [if_pos hk] at h
        obtain ⟨l, k, he⟩ := raise_error_pos (α := Scanner × prog_args) PARSER_MISSING_FILE
          s2.line s2.col
        rw [he] at h
        cases h
      · rw [if_neg hk] at h
        have hk2 : s2.lookahead.kind = IDE := by simpa using hk
        simp only [hk2, not_true_eq_false, if_false, Result.ok.injEq, Prod.mk.injEq] at h
        rw [← h.1]
        exact ⟨rfl, hk2⟩
    | raise code l c => rw [hs] at h; cases h
    | fuel => rw [hs] at h; cases h
  · rw [if_neg hin] at h
    cases hs : scan getenv s with
    | ok s2 =>
      rw [hs] at h
      dsimp only at h
      by_cases hk : s2.lookahead.kind ≠ IDE
      · rw [if_pos hk] at h
        obtain ⟨l, k, he⟩ := raise_error_pos (α := Scanner × prog_args) PARSER_MISSING_FILE
          s2.line s2.col
        rw [he] at h
        cases h
      · rw [if_neg hk] at h
        have hk2 : s2.lookahead.kind = IDE := by simpa using hk
        simp only [hk2, not_true_eq_false, if_false, Result.ok.injEq, Prod.mk.injEq] at h
        rw [← h.1]
        exact ⟨rfl, hk2⟩
    | raise code l c => rw [hs] at h; cases h
    | fuel => rw [hs] at h; cases h

theorem parse_prog_loop_tokens (getenv : List Char → Option (List Char)) :
    ∀ (n : Nat) (s : Scanner) (prog : prog_args) (s1 : Scanner) (p1 : prog_args),
      parse_prog_loop getenv n s prog = .ok (s1, p1) →
      tokens_left getenv s1 ≤ tokens_left getenv s := by
  intro n
  induction n with
  | zero => intro s prog s1 p1 h; simp [parse_prog_loop] at h
  | succ n ih =>
    intro s prog s1 p1 h
    have hredir :
        (match parse_redirection getenv s prog with
          | .ok (s1, prog1) =>
            match scan getenv s1 with
            | .ok s2 => parse_prog_loop getenv n s2 prog1
            | .raise code l c => .raise code l c
            | .fuel => .fuel
          | .raise code l c => .raise code l c
          | .fuel => .fuel) = .ok (s1, p1) →
        tokens_left getenv s1 ≤ tokens_left getenv s := by
      intro h
      cases hr : parse_redirection getenv s prog with
      | ok v =>
        obtain ⟨s2, prog2⟩ := v
        rw [hr] at h
        dsimp only at h
        have h1 := tokens_left_le getenv s s2 (parse_redirection_ok getenv s s2 prog prog2 hr).1
        cases hs : scan getenv s2 with
        | ok s3 =>
          rw [hs] at h
          dsimp only at h
          have h2 := tokens_left_le getenv s2 s3 hs
          have h3 := ih s3 prog2 s1 p1 h
          omega
        | raise code l c => rw [hs] at h; cases h
        | fuel => rw [hs] at h; cases h
      | raise code l c => rw [hr] at h; cases h
      | fuel => rw [hr] at h; cases h
    rw [parse_prog_loop] at h
    cases hk : s.lookahead.kind with
    | UNKNOWN =>
      rw [hk] at h
      obtain ⟨l, k, he⟩ := raise_error_pos (α := Scanner × prog_args) PARSER_INVALID_STATE
        s.line s.col
      dsimp only at h
      rw [he] at h
      cases h
    | REM =>
      rw [hk] at h
      obtain ⟨l, k, he⟩ := raise_error_pos (α := Scanner × prog_args) PARSER_INVALID_STATE
        s.line s.col
      dsimp only at h
      rw [he] at h
      cases h
    | END =>
      rw [hk] at h
      simp only [Result.ok.injEq, Prod.mk.injEq] at h
      rw [← h.1]
    | SEP =>
      rw [hk] at h
      simp only [Result.ok.injEq, Prod.mk.injEq] at h
      rw [← h.1]
    | STROKE =>
      rw [hk] at h
      simp only [Result.ok.injEq, Prod.mk.injEq] at h
      rw [← h.1]
    | AMP =>
      rw [hk] at h
      simp only [Result.ok.injEq, Prod.mk.injEq] at h
      rw [← h.1]
    | IN => rw [hk] at h; exact hredir h
    | OUT => rw [hk] at h; exact hredir h
    | IDE =>
      rw [hk] at h
      dsimp only at h
      simp only [get_ide, hk, not_true_eq_false, if_false] at h
      cases hs : scan getenv s with
      | ok s2 =>
        rw [hs] at h
        dsimp only at h
        have h2 := tokens_left_le getenv s s2 hs
        have h3 := ih s2 _ s1 p1 h
        omega
      | raise code l c => rw [hs] at h; cases h
      | fuel => rw [hs] at h; cases h

theorem parse_prog_loop_bound (getenv : List Char → Option (List Char)) :
    ∀ (n : Nat) (s : Scanner) (prog : prog_args), 1 ≤ n →
      (s.lookahead.kind ≠ END → tokens_left getenv s + 2 ≤ n) →
      parse_prog_loop getenv n s prog ≠ .fuel := by
  intro n
  induction n with
  | zero => intro s prog h; omega
  | succ n ih =>
    intro s prog _ hn
    have hnext : ∀ (s1 s2 : Scanner) (p : prog_args), tokens_left getenv s1 + 1 ≤ n →
        scan getenv s1 = .ok s2 → parse_prog_loop getenv n s2 p ≠ .fuel := by
      intro s1 s2 p h1 hs
      refine ih s2 p (by omega) (fun hk => ?_)
      have := tokens_left_scan getenv s1 s2 hs hk
      omega
    have hredir : s.lookahead.kind ≠ END →
        (match parse_redirection getenv s prog with
          | .ok (s1, prog1) =>
            match scan getenv s1 with
            | .ok s2 => parse_prog_loop getenv n s2 prog1
            | .raise code l c => .raise code l c
            | .fuel => .fuel
          | .raise code l c => .raise code l c
          | .fuel => .fuel) ≠ .fuel := by
      intro hne
      have hn2 := hn hne
      cases hr : parse_redirection getenv s prog with
      | ok v =>
        obtain ⟨s2, prog2⟩ := v
        dsimp only
        obtain ⟨e1, e2⟩ := parse_redirection_ok getenv s s2 prog prog2 hr
        have h1 := tokens_left_scan getenv s s2 e1 (by rw [e2]; decide)
        cases hs : scan getenv s2 with
        | ok s3 => exact hnext s2 s3 prog2 (by omega) hs
        | raise code l c => simp
        | fuel => exact absurd hs (scan_spec getenv s2).1
      | raise code l c => simp
      | fuel => exact absurd hr (parse_redirection_spec getenv s prog).1
    rw [parse_prog_loop]
    cases hk : s.lookahead.kind with
    | UNKNOWN =>
      obtain ⟨l, k, he⟩ := raise_error_pos (α := Scanner × prog_args) PARSER_INVALID_STATE
        s.line s.col
      dsimp only
      rw [he]
      simp
    | REM =>
      obtain ⟨l, k, he⟩ := raise_error_pos (α := Scanner × prog_args) PARSER_INVALID_STATE
        s.line s.col
      dsimp only
      rw [he]
      simp
    | END => simp
    | SEP => simp
    | STROKE => simp
    | AMP => simp
    | IN => exact hredir (by rw [hk]; decide)
    | OUT => exact hredir (by rw [hk]; decide)
    | IDE =>
      dsimp only
      simp only [get_ide, hk, not_true_eq_false, if_false]
      have hn2 := hn (by rw [hk]; decide)
      cases hs : scan getenv s with
      | ok s2 => exact hnext s s2 _ (by omega) hs
      | raise code l c => simp
      | fuel => exact absurd hs (scan_spec getenv s).1

theorem parse_cmd_tokens (getenv : List Char → Option (List Char)) (s s1 : Scanner)
    (kind : cmd_kind) (prog : prog_args) (r : parsed)
    (h : parse_cmd getenv s kind prog = .ok (s1, r)) :
    tokens_left getenv s1 ≤ tokens_left getenv s := by
  unfold parse_cmd parse_prog at h
  cases hp : parse_prog_loop getenv (s.stream.length + 2) s prog with
  | ok v =>
    obtain ⟨s2, prog2⟩ := v
    rw [hp] at h
    dsimp only at h
    have h1 := parse_prog_loop_tokens getenv _ s prog s2 prog2 hp
    cases hc : classify s2 kind prog2 with
    | ok r2 =>
      rw [hc] at h
      simp only [Result.ok.injEq, Prod.mk.injEq] at h
      rw [← h.1]
      exact h1
    | raise code l c => rw [hc] at h; cases h
    | fuel => rw [hc] at h; cases h
  | raise code l c => rw [hp] at h; cases h
  | fuel => rw [hp] at h; cases h

theorem parse_pipe_loop_tokens (getenv : List Char → Option (List Char)) :
    ∀ (n : Nat) (s : Scanner) (kind : cmd_kind) (prog : prog_args) (s3 : Scanner) (cmd : cmds),
      parse_pipe_loop getenv n s kind prog = .ok (s3, cmd) →
      tokens_left getenv s3 ≤ tokens_left getenv s := by
  intro n
  induction n with
  | zero => intro s kind prog s3 cmd h; simp [parse_pipe_loop] at h
  | succ n ih =>
    intro s kind prog s3 cmd h
    rw [parse_pipe_loop] at h
    cases hp : parse_cmd getenv s kind prog with
    | ok v =>
      obtain ⟨s1, r⟩ := v
      rw [hp] at h
      have h1 := parse_cmd_tokens getenv s s1 kind prog r hp
      cases r with
      | builtin c =>
        dsimp only at h
        by_cases hk : s1.lookahead.kind ≠ STROKE
        · rw [if_pos hk] at h
          simp only [Result.ok.injEq, Prod.mk.injEq] at h
          rw [← h.1]
          exact h1
        · rw [if_neg hk] at h
          obtain ⟨l, k, he⟩ := raise_error_pos (α := Scanner × cmds) PARSER_ILLEGAL_COMBINATION
            s1.line s1.col
          rw [he] at h
          cases h
      | external prog1 =>
        dsimp only at h
        by_cases hk : s1.lookahead.kind ≠ STROKE
        · rw [if_pos hk] at h
          simp only [Result.ok.injEq, Prod.mk.injEq] at h
          rw [← h.1]
          exact h1
        rw [if_neg hk] at h
        by_cases hk2 : ¬ (kind = .PROG ∨ kind = .PIPE)
        · rw [if_pos hk2] at h
          obtain ⟨l, k, he⟩ := raise_error_pos (α := Scanner × cmds) PARSER_ILLEGAL_COMBINATION
            s1.line s1.col
          rw [he] at h
          cases h
        rw [if_neg hk2] at h
        by_cases hk3 : prog1.output ≠ none
        · rw [if_pos hk3] at h
          obtain ⟨l, k, he⟩ := raise_error_pos (α := Scanner × cmds) PARSER_ILLEGAL_REDIRECTION
            s1.line s1.col
          rw [he] at h
          cases h
        rw [if_neg hk3] at h
        cases hs : scan getenv s1 with
        | ok s2 =>
          rw [hs] at h
          dsimp only at h
          have h2 := tokens_left_le getenv s1 s2 hs
          cases hq : parse_pipe_loop getenv n s2 .PIPE prog_new with
          | ok v2 =>
            obtain ⟨s4, cmd2⟩ := v2
            rw [hq] at h
            simp only [Result.ok.injEq, Prod.mk.injEq] at h
            have h3 := ih s2 .PIPE prog_new s4 cmd2 hq
            rw [← h.1]
            omega
          | raise code l c => rw [hq] at h; cases h
          | fuel => rw [hq] at h; cases h
        | raise code l c => rw [hs] at h; cases h
        | fuel => rw [hs] at h; cases h
    | raise code l c => rw [hp] at h; cases h
    | fuel => rw [hp] at h; cases h

theorem parse_pipe_loop_bound (getenv : List Char → Option (List Char)) :
    ∀ (n : Nat) (s : Scanner) (kind : cmd_kind) (prog : prog_args), 1 ≤ n →
      (s.lookahead.kind ≠ END → tokens_left getenv s + 2 ≤ n) →
      parse_pipe_loop getenv n s kind prog ≠ .fuel := by
  intro n
  induction n with
  | zero => intro s kind prog h; omega
  | succ n ih =>
    intro s kind prog _ hn
    rw [parse_pipe_loop]
    cases hp : parse_cmd getenv s kind prog with
    | ok v =>
      obtain ⟨s1, r⟩ := v
      have h1 := parse_cmd_tokens getenv s s1 kind prog r hp
      have hend := (parse_cmd_spec getenv s kind prog).2 s1 r hp
      cases r with
      | builtin c =>
        dsimp only
        by_cases hk : s1.lookahead.kind ≠ STROKE
        · rw [if_pos hk]; simp
        · rw [if_neg hk]
          obtain ⟨l, k, he⟩ := raise_error_pos (α := Scanner × cmds) PARSER_ILLEGAL_COMBINATION
            s1.line s1.col
          rw [he]
          simp
      | external prog1 =>
        dsimp only
        by_cases hk : s1.lookahead.kind ≠ STROKE
        · rw [if_pos hk]; simp
        rw [if_neg hk]
        have hk1 : s1.lookahead.kind = STROKE := by simpa using hk
        by_cases hk2 : ¬ (kind = .PROG ∨ kind = .PIPE)
        · rw [if_pos hk2]
          obtain ⟨l, k, he⟩ := raise_error_pos (α := Scanner × cmds) PARSER_ILLEGAL_COMBINATION
            s1.line s1.col
          rw [he]
          simp
        rw [if_neg hk2]
        by_cases hk3 : prog1.output ≠ none
        · rw [if_pos hk3]
          obtain ⟨l, k, he⟩ := raise_error_pos (α := Scanner × cmds) PARSER_ILLEGAL_REDIRECTION
            s1.line s1.col
          rw [he]
          simp
        rw [if_neg hk3]
        have hne : s.lookahead.kind ≠ END := by
          intro he
          have := hend.2 he
          rw [this, he] at hk1
          cases hk1
        have hn2 := hn hne
        cases hs : scan getenv s1 with
        | ok s2 =>
          dsimp only
          have h3 : parse_pipe_loop getenv n s2 .PIPE prog_new ≠ .fuel := by
            refine ih s2 .PIPE prog_new (by omega) (fun hk4 => ?_)
            have := tokens_left_scan getenv s1 s2 hs hk4
            omega
          cases hq : parse_pipe_loop getenv n s2 .PIPE prog_new with
          | ok v2 => simp
          | raise code l c => simp
          | fuel => exact absurd hq h3
        | raise code l c => simp
        | fuel => exact absurd hs (scan_spec getenv s1).1
    | raise code l c => simp
    | fuel => exact absurd hp (parse_cmd_spec getenv s kind prog).1

theorem parse_input_loop_bound (getenv : List Char → Option (List Char)) :
    ∀ (n : Nat) (s : Scanner), tokens_left getenv s + 1 ≤ n →
      parse_input_loop getenv n s ≠ .fuel := by
  intro n
  induction n with
  | zero => intro s h; omega
  | succ n ih =>
    intro s hn
    rw [parse_input_loop]
    cases hs : scan getenv s with
    | ok s1 =>
      dsimp only
      by_cases hk : s1.lookahead.kind = END
      · rw [if_pos hk]; simp
      · rw [if_neg hk]
        have h1 := tokens_left_scan getenv s s1 hs hk
        have hl := ((scan_spec getenv s).2 s1 hs).2 hk
        unfold parse_pipe
        have hp0 := (parse_pipe_loop_spec getenv (s1.stream.length + 2) s1 .PROG argv_new
          (by omega) (fun _ => by omega)).1
        cases hp : parse_pipe_loop getenv (s1.stream.length + 2) s1 .PROG argv_new with
        | ok v =>
          obtain ⟨s2, elem⟩ := v
          dsimp only
          have h2 := parse_pipe_loop_tokens getenv _ s1 .PROG argv_new s2 elem hp
          have h3 := ih s2 (by omega)
          cases hq : parse_input_loop getenv n s2 with
          | ok rest => simp
          | raise code l c => simp
          | fuel => exact absurd hq h3
        | raise code l c => simp
        | fuel => exact absurd hp hp0
    | raise code l c => simp
    | fuel => exact absurd hs (scan_spec getenv s).1
/-! ## The order of words and redirections in a stage -/

theorem apply_items_fill (getenv : List Char → Option (List Char)) (st : List Item) :
    ∀ prog : prog_args, apply_items getenv prog st =
      ⟨later (stage_input getenv st) prog.input, later (stage_output getenv st) prog.output,
        prog.background, prog.argv ++ stage_args getenv st⟩ := by
  induction st with
  | nil => intro prog; simp [apply_items, stage_input, stage_output, stage_args, later]
  | cons i is ih =>
    intro prog
    cases i with
    | arg g w =>
      simp [apply_items, ih, Item.apply, argv_add, stage_input, stage_output, stage_args]
    | inp g f w =>
      simp only [apply_items, ih, Item.apply, stage_input, stage_output, stage_args]
      cases stage_input getenv is <;> simp [later]
    | out g f w =>
      simp only [apply_items, ih, Item.apply, stage_input, stage_output, stage_args]
      cases stage_output getenv is <;> simp [later]

theorem apply_items_same (getenv : List Char → Option (List Char)) (a b : List Item)
    (h : same_stage getenv a b) :
    apply_items getenv argv_new a = apply_items getenv argv_new b := by
  rw [apply_items_fill, apply_items_fill, h.1, h.2.1, h.2.2]

theorem stage_progs_same (getenv : List Char → Option (List Char)) (T : token_kind)
    (l l' : List (List Item)) (h : List.Forall₂ (same_stage getenv) l l') :
    stage_progs getenv T l = stage_progs getenv T l' := by
  induction h with
  | nil => rfl
  | cons hab hl ih =>
    cases hl with
    | nil => simp only [stage_progs, apply_items_same getenv _ _ hab]
    | cons hcd hl2 =>
      simp only [stage_progs] at ih ⊢
      rw [apply_items_same getenv _ _ hab, ih]

theorem parser_parse_stage_fill (getenv : List Char → Option (List Char)) (st : List Item)
    (amp : Option (List Char)) (trail : List Char) (a : List Char) (args : List (List Char))
    (hst : stage_ok getenv st) (hamp : ∀ g ∈ amp, blanks g) (htrail : blanks trail)
    (harg : stage_args getenv st = a :: args) (ha : a ∉ builtin_names) :
    parser_parse getenv (render_stage st ++ render_end amp trail) =
      some ⟨[.PROG [⟨stage_input getenv st, stage_output getenv st, amp.isSome, a :: args⟩]],
        PARSER_OK, "Ok.", 0, 0⟩ := by
  have h := parser_parse_pipe getenv st [] amp trail hst (by simp) hamp htrail
  have hfill : finish (end_token amp) (apply_items getenv argv_new st) =
      ⟨stage_input getenv st, stage_output getenv st, amp.isSome, a :: args⟩ := by
    rw [apply_items_fill, harg]
    cases amp <;>
      cases stage_input getenv st <;> cases stage_output getenv st <;>
        simp [finish, end_token, later, argv_new]
  have hv : pipe_verdict .PROG (stage_progs getenv (end_token amp) [st]) =
      .ok (.PROG [⟨stage_input getenv st, stage_output getenv st, amp.isSome, a :: args⟩]) := by
    simp only [stage_progs, pipe_verdict, hfill]
    rw [classify_code_external .PROG _ a args rfl ha (by simp)]
    simp [cmds.external]
  simp only [List.map_nil] at h
  rw [hv] at h
  simpa [render_pipe, render_stages, messages] using h

theorem parser_parse_pipe_same (getenv : List Char → Option (List Char)) (st st' : List Item)
    (sts sts' : List (List Char × List Item)) (amp : Option (List Char)) (trail : List Char)
    (hst : stage_ok getenv st) (hst' : stage_ok getenv st')
    (hsts : ∀ r ∈ sts, blanks r.1 ∧ stage_ok getenv r.2)
    (hsts' : ∀ r ∈ sts', blanks r.1 ∧ stage_ok getenv r.2)
    (hamp : ∀ g ∈ amp, blanks g) (htrail : blanks trail)
    (hsame : List.Forall₂ (same_stage getenv) (st :: sts.map Prod.snd)
      (st' :: sts'.map Prod.snd)) :
    ∃ out out', parser_parse getenv (render_pipe st sts ++ render_end amp trail) = some out ∧
      parser_parse getenv (render_pipe st' sts' ++ render_end amp trail) = some out' ∧
      out.list = out'.list ∧ out.parser_status = out'.parser_status ∧
      out.parser_message = out'.parser_message := by
  have h := parser_parse_pipe getenv st sts amp trail hst hsts hamp htrail
  have h' := parser_parse_pipe getenv st' sts' amp trail hst' hsts' hamp htrail
  rw [stage_progs_same getenv (end_token amp) _ _ hsame] at h
  cases hv : pipe_verdict .PROG (stage_progs getenv (end_token amp)
      (st' :: sts'.map Prod.snd)) with
  | ok cmd =>
    rw [hv] at h h'
    exact ⟨_, _, h, h', rfl, rfl, rfl⟩
  | error code =>
    rw [hv] at h h'
    obtain ⟨l, k, h⟩ := h
    obtain ⟨l', k', h'⟩ := h'
    exact ⟨_, _, h, h', rfl, rfl, rfl⟩
/-! ## What follows the last command: blanks, a comment, a separator -/

theorem parse_input_loop_quiet (getenv : List Char → Option (List Char)) (X : List Char)
    (hX : ∀ l k tok, ∃ l1 k1, scan getenv ⟨X, l, k, tok⟩ = .ok ⟨[], l1, k1, ⟨END, []⟩⟩)
    (n l k : Nat) (tok : token) :
    parse_input_loop getenv (n + 1) ⟨X, l, k, tok⟩ = .ok [] := by
  obtain ⟨l1, k1, h⟩ := hX l k tok
  simp [parse_input_loop, h]

theorem blanks_append (a b : List Char) (ha : blanks a) (hb : blanks b) : blanks (a ++ b) := by
  intro c hc
  rcases List.mem_append.mp hc with h | h
  · exact ha c h
  · exact hb c h

theorem quiet_blanks (getenv : List Char → Option (List Char)) (g : List Char)
    (hg : blanks g) : quiet getenv g :=
  ⟨by simpa using ends_word_gap g [] hg ends_word_nil,
    fun l k tok => ⟨l, k + g.length, scan_end getenv g l k tok hg⟩⟩

theorem quiet_comment (getenv : List Char → Option (List Char)) (g cm : List Char)
    (hg : blanks g) (hc : ∀ c ∈ cm, comment_char c) (hlen : cm.length ≤ 2046) :
    quiet getenv (g ++ '#' :: cm) :=
  ⟨ends_word_gap g _ hg (Or.inr (by simp [cur, IDE_STOP])),
    fun l k tok => ⟨l, k + g.length + 1 + cm.length, scan_comment_end getenv g cm l k tok hg hc
      hlen⟩⟩

theorem stage_progs_ne_amp (getenv : List Char → Option (List Char)) (T : token_kind)
    (hT : T ≠ AMP) (sts : List (List Item)) :
    stage_progs getenv T sts = stage_progs getenv END sts := by
  induction sts with
  | nil => rfl
  | cons st sts ih =>
    cases sts with
    | nil => simp [stage_progs, finish, hT]
    | cons st2 sts => simp only [stage_progs] at ih ⊢; rw [ih]

/-! ## The number of a job command -/

theorem sscanf_i_denoted (number : List Char) :
    sscanf_i number = (denoted_int number).map to_int := by
  unfold sscanf_i denoted_int
  split <;> simp_all [Option.map_map, Function.comp_def]

theorem to_int_range (n : Int) (h1 : -2147483648 ≤ n) (h2 : n ≤ 2147483647) :
    to_int n = n := by
  unfold to_int
  norm_num
  split_ifs <;> omega
/-! ## Inputs with comments: complete commands, a last command, a last gap -/

theorem stage_end_line (getenv : List Char → Option (List Char)) (gap : Gap) (term : Char)
    (rest : List Char) (hgap : gap.ok) (hterm : term ∈ [';', '\n', '&'])
    (hcm : gap.comment ≠ none → term = '\n') :
    stage_end getenv (gap.text ++ term :: rest) (punct term) rest := by
  cases hc : gap.comment with
  | none =>
    have e : gap.text = gap.blank := by simp [Gap.text, hc]
    rw [e]
    exact stage_end_punct getenv gap.blank term rest hgap.1 (by
      simp only [List.mem_cons, List.mem_singleton, List.not_mem_nil, or_false] at hterm ⊢
      tauto)
  | some cm =>
    have ht : term = '\n' := hcm (by simp [hc])
    subst ht
    obtain ⟨h1, h2⟩ := hgap.2 cm (by simp [hc])
    have e : gap.text ++ '\n' :: rest = gap.blank ++ '#' :: (cm ++ '\n' :: rest) := by
      simp [Gap.text, hc]
    rw [e]
    exact ⟨ends_word_gap gap.blank _ hgap.1 (Or.inr (by simp [cur, IDE_STOP])),
      Or.inr (Or.inl (by simp [punct])),
      fun l k tok => by
        obtain ⟨l1, k1, h⟩ := scan_comment_line getenv gap.blank cm rest l k tok hgap.1 h1 h2
        exact ⟨l1, k1, by simpa [punct] using h⟩⟩

theorem parse_input_loop_line (getenv : List Char → Option (List Char)) (e : Line)
    (he : e.ok getenv) (cmd : cmds) (hv : e.verdict getenv = .ok cmd) (rest : List Char)
    (n l k : Nat) (tok : token) :
    ∃ l1 k1 tok1, parse_input_loop getenv (n + 1) ⟨e.text ++ rest, l, k, tok⟩ =
      match parse_input_loop getenv n ⟨rest, l1, k1, tok1⟩ with
      | .ok list => .ok (cmd :: list)
      | .raise code a b => .raise code a b
      | .fuel => .fuel := by
  obtain ⟨hst, hsts, hgap, hterm, hcm, _⟩ := he
  have hend := stage_end_line getenv e.gap e.term rest hgap hterm hcm
  obtain ⟨l1, k1, h⟩ := parse_input_loop_cmd getenv e.st e.sts (e.gap.text ++ e.term :: rest)
    (punct e.term) rest hst hsts hend (punct_ne_stroke e.term hterm) n l k tok
  simp only [Line.verdict] at hv
  rw [hv] at h
  have et : render_pipe e.st e.sts ++ (e.gap.text ++ e.term :: rest) = e.text ++ rest := by
    simp [Line.text]
  rw [et] at h
  exact ⟨l1, k1, ⟨punct e.term, []⟩, h⟩

theorem parse_input_loop_lines (getenv : List Char → Option (List Char)) (es : List Line) :
    (∀ e ∈ es, e.ok getenv) → ∀ (rest : List Char) (n l k : Nat) (tok : token),
      ∃ l1 k1 tok1,
        parse_input_loop getenv (n + es.length) ⟨lines_text es ++ rest, l, k, tok⟩ =
          match parse_input_loop getenv n ⟨rest, l1, k1, tok1⟩ with
          | .ok list => .ok (line_cmds getenv es ++ list)
          | .raise code a b => .raise code a b
          | .fuel => .fuel := by
  induction es with
  | nil =>
    intro _ rest n l k tok
    refine ⟨l, k, tok, ?_⟩
    cases hp : parse_input_loop getenv n ⟨rest, l, k, tok⟩ <;>
      simp [lines_text, line_cmds, hp]
  | cons e es ih =>
    intro hok rest n l k tok
    obtain ⟨_, _, _, _, _, cmd, hv⟩ := hok e (by simp)
    obtain ⟨l1, k1, tok1, h1⟩ := parse_input_loop_line getenv e (hok e (by simp)) cmd hv
      (lines_text es ++ rest) (n + es.length) l k tok
    obtain ⟨l2, k2, tok2, h2⟩ := ih (fun d hd => hok d (by simp [hd])) rest n l1 k1 tok1
    refine ⟨l2, k2, tok2, ?_⟩
    have e1 : lines_text (e :: es) ++ rest = e.text ++ (lines_text es ++ rest) := by
      simp [lines_text]
    have e2 : line_cmds getenv (e :: es) = cmd :: line_cmds getenv es := by
      simp [line_cmds, hv]
    rw [e1, e2, List.length_cons, ← Nat.add_assoc, h1, h2]
    cases hp : parse_input_loop getenv n ⟨rest, l2, k2, tok2⟩ <;> simp

theorem lines_text_length (es : List Line) : es.length ≤ (lines_text es).length := by
  induction es with
  | nil => simp
  | cons e es ih =>
    simp [lines_text, Line.text]
    omega

theorem parser_parse_lines_quiet (getenv : List Char → Option (List Char))
    (es : List Line) (hes : ∀ e ∈ es, e.ok getenv) (X : List Char)
    (hX : ∀ l k tok, ∃ l1 k1, scan getenv ⟨X, l, k, tok⟩ = .ok ⟨[], l1, k1, ⟨END, []⟩⟩) :
    parser_parse getenv (lines_text es ++ X) =
      some ⟨line_cmds getenv es, PARSER_OK, "Ok.", 0, 0⟩ := by
  have hl := lines_text_length es
  obtain ⟨m, hm⟩ : ∃ m, (lines_text es ++ X).length + 2 = (m + 1) + es.length :=
    ⟨(lines_text es ++ X).length + 1 - es.length, by simp; omega⟩
  obtain ⟨l1, k1, tok1, h⟩ := parse_input_loop_lines getenv es hes X (m + 1) 0 0
    ⟨UNKNOWN, []⟩
  rw [parse_input_loop_quiet getenv X hX m l1 k1 tok1] at h
  simp only [parser_parse, parse_input, hm, h, List.append_nil, messages]

theorem parser_parse_lines_last (getenv : List Char → Option (List Char))
    (es : List Line) (hes : ∀ e ∈ es, e.ok getenv) (st : List Item)
    (sts : List (List Char × List Item)) (tail : List Char) (T : token_kind)
    (tail1 : List Char) (hst : stage_ok getenv st)
    (hsts : ∀ r ∈ sts, blanks r.1 ∧ stage_ok getenv r.2)
    (ht : stage_end getenv tail T tail1) (hT : T ≠ STROKE)
    (hq : ∀ l k tok, ∃ l1 k1, scan getenv ⟨tail1, l, k, tok⟩ = .ok ⟨[], l1, k1, ⟨END, []⟩⟩)
    (cmd : cmds)
    (hv : pipe_verdict .PROG (stage_progs getenv T (st :: sts.map Prod.snd)) = .ok cmd) :
    parser_parse getenv (lines_text es ++ (render_pipe st sts ++ tail)) =
      some ⟨line_cmds getenv es ++ [cmd], PARSER_OK, "Ok.", 0, 0⟩ := by
  have hl := lines_text_length es
  obtain ⟨m, hm⟩ : ∃ m, (lines_text es ++ (render_pipe st sts ++ tail)).length + 2 =
      (m + 1 + 1) + es.length :=
    ⟨(lines_text es ++ (render_pipe st sts ++ tail)).length - es.length, by simp; omega⟩
  obtain ⟨l1, k1, tok1, h⟩ := parse_input_loop_lines getenv es hes
    (render_pipe st sts ++ tail) (m + 1 + 1) 0 0 ⟨UNKNOWN, []⟩
  obtain ⟨l2, k2, h2⟩ := parse_input_loop_cmd getenv st sts tail T tail1 hst hsts ht hT (m + 1)
    l1 k1 tok1
  simp only [hv, parse_input_loop_quiet getenv tail1 hq m l2 k2 ⟨T, []⟩] at h2
  rw [h2] at h
  simp only [parser_parse, parse_input, hm, h, messages]

theorem parser_parse_lines_raise (getenv : List Char → Option (List Char))
    (es : List Line) (hes : ∀ e ∈ es, e.ok getenv) (Y : List Char) (code : parser_errors)
    (hY : input_fails getenv Y code) :
    ∃ l k, parser_parse getenv (lines_text es ++ Y) =
      some ⟨[], code, messages code, l, k⟩ := by
  have hl := lines_text_length es
  obtain ⟨m, hm⟩ : ∃ m, (lines_text es ++ Y).length + 2 = (m + 1) + es.length :=
    ⟨(lines_text es ++ Y).length + 1 - es.length, by simp; omega⟩
  obtain ⟨l1, k1, tok1, h⟩ := parse_input_loop_lines getenv es hes Y (m + 1) 0 0
    ⟨UNKNOWN, []⟩
  obtain ⟨el, ec, h2⟩ := hY l1 k1 tok1 m
  rw [h2] at h
  exact ⟨el, ec, by simp only [parser_parse, parse_input, hm, h]⟩

theorem overflow_at_origin (getenv : List Char → Option (List Char)) (input : List Char)
    (h : ∃ l k, parser_parse getenv input = some ⟨[], PARSER_OVERFLOW, messages PARSER_OVERFLOW,
      l, k⟩) :
    parser_parse getenv input =
      some ⟨[], PARSER_OVERFLOW, "Overflow of internal buffer.", 0, 0⟩ := by
  obtain ⟨l, k, h⟩ := h
  obtain ⟨hl, hk⟩ := (parser_parse_sound getenv _ _ h).2 rfl
  simp only at hl hk
  subst hl
  subst hk
  simpa [messages] using h

theorem quiet_gap (getenv : List Char → Option (List Char)) (fin : Gap) (hfin : fin.ok) :
    quiet getenv fin.text := by
  cases hc : fin.comment with
  | none =>
    have e : fin.text = fin.blank := by simp [Gap.text, hc]
    rw [e]
    exact quiet_blanks getenv fin.blank hfin.1
  | some cm =>
    obtain ⟨h1, h2⟩ := hfin.2 cm (by simp [hc])
    have e : fin.text = fin.blank ++ '#' :: cm := by simp [Gap.text, hc]
    rw [e]
    exact quiet_comment getenv fin.blank cm hfin.1 h1 h2

theorem gap_join (fin : Gap) (g c : List Char) (hfin : fin.ok) (hg : blanks g)
    (hc : ∀ x ∈ c, comment_char x) :
    ∃ b, blanks b ∧ fin.text ++ (g ++ '#' :: c) = b ++ '#' :: joined fin g c ∧
      ∀ x ∈ joined fin g c, comment_char x := by
  cases hcm : fin.comment with
  | none =>
    refine ⟨fin.blank ++ g, blanks_append _ _ hfin.1 hg, ?_, ?_⟩
    · simp [Gap.text, joined, hcm]
    · simpa [joined, hcm] using hc
  | some t =>
    refine ⟨fin.blank, hfin.1, ?_, ?_⟩
    · simp [Gap.text, joined, hcm]
    · intro x hx
      simp only [joined, hcm, List.mem_append, List.mem_cons] at hx
      rcases hx with h | h | h | h
      · exact (hfin.2 t (by simp [hcm])).1 x h
      · rcases hg x h with rfl | rfl <;> decide
      · subst h; decide
      · exact hc x h

theorem comment_stage_fails (getenv : List Char → Option (List Char)) (b cm : List Char)
    (hb : blanks b) (hc : ∀ x ∈ cm, comment_char x) (hlen : 2047 ≤ cm.length) :
    stage_fails getenv (b ++ '#' :: cm) PARSER_OVERFLOW :=
  scan_fails_stage getenv _ _ (fun l k tok =>
    ⟨0, 0, by simpa using scan_comment_overflow getenv b cm [] l k tok hb hc hlen⟩)

theorem comment_input_fails (getenv : List Char → Option (List Char)) (b cm : List Char)
    (hb : blanks b) (hc : ∀ x ∈ cm, comment_char x) (hlen : 2047 ≤ cm.length) :
    input_fails getenv (b ++ '#' :: cm) PARSER_OVERFLOW := by
  intro l k tok m
  have h := scan_comment_overflow getenv b cm [] l k tok hb hc hlen
  simp only [List.append_nil] at h
  exact ⟨0, 0, by simp [parse_input_loop, h]⟩

theorem to_chain_text (tail : List Char) :
    ∀ (sts : List (List Char × List Item)) (st : List Item),
      render_pipe st sts ++ tail =
        render_chain (to_chain st sts).1 ++ (render_stage (to_chain st sts).2 ++ tail) := by
  intro sts
  induction sts with
  | nil => intro st; simp [render_pipe, render_stages, to_chain, render_chain]
  | cons r sts ih =>
    intro st
    have h := ih r.2
    simp only [render_pipe, List.append_assoc] at h
    simp only [render_pipe, render_stages, to_chain, render_chain, List.append_assoc,
      List.cons_append]
    rw [h]

theorem to_chain_ok (getenv : List Char → Option (List Char)) :
    ∀ (sts : List (List Char × List Item)) (st : List Item), stage_ok getenv st →
      (∀ r ∈ sts, blanks r.1 ∧ stage_ok getenv r.2) →
      (∀ r ∈ (to_chain st sts).1, stage_ok getenv r.1 ∧ blanks r.2) ∧
        stage_ok getenv (to_chain st sts).2 := by
  intro sts
  induction sts with
  | nil => intro st hst _; exact ⟨by simp [to_chain], hst⟩
  | cons r sts ih =>
    intro st hst hsts
    obtain ⟨h1, h2⟩ := ih r.2 (hsts r (by simp)).2 (fun q hq => hsts q (by simp [hq]))
    refine ⟨?_, h2⟩
    intro q hq
    simp only [to_chain, List.mem_cons] at hq
    rcases hq with rfl | hq
    · exact ⟨hst, (hsts r (by simp)).1⟩
    · exact h1 q hq

theorem to_chain_stages :
    ∀ (sts : List (List Char × List Item)) (st : List Item),
      st :: sts.map Prod.snd = (to_chain st sts).1.map Prod.fst ++ [(to_chain st sts).2] := by
  intro sts
  induction sts with
  | nil => intro st; simp [to_chain]
  | cons r sts ih =>
    intro st
    simp only [List.map_cons, to_chain, List.cons_append]
    rw [ih r.2]

theorem stage_progs_snoc (getenv : List Char → Option (List Char)) (T : token_kind)
    (x : List Item) :
    ∀ l : List (List Item), stage_progs getenv T (l ++ [x]) =
      l.map (apply_items getenv argv_new) ++ [finish T (apply_items getenv argv_new x)] := by
  intro l
  induction l with
  | nil => simp [stage_progs]
  | cons a l ih =>
    cases l with
    | nil => simp [stage_progs]
    | cons b l =>
      simp only [List.cons_append, stage_progs, List.map_cons] at ih ⊢
      exact congrArg (List.cons _) ih

theorem classify_code_external_inv (kind : cmd_kind) (p p1 : prog_args)
    (h : classify_code kind p = .ok (.external p1)) : p1 = p := by
  rcases classify_cases ⟨[], 0, 0, ⟨UNKNOWN, []⟩⟩ kind p with ⟨r, h1, h2⟩ | ⟨code, l, k, _, h2⟩
  · rw [h] at h2
    cases h2
    rcases classify_ok_inv _ kind p _ h1 with ⟨c, hc, _⟩ | ⟨hr, _⟩
    · cases hc
    · cases hr; rfl
  · rw [h] at h2
    cases h2

theorem pipe_verdict_chain :
    ∀ (ps : List prog_args) (kind : cmd_kind) (p : prog_args) (cmd : cmds),
      pipe_verdict kind (ps ++ [p]) = .ok cmd → chain_ok kind ps := by
  intro ps
  induction ps with
  | nil => intro kind p cmd _; trivial
  | cons q ps ih =>
    intro kind p cmd h
    rw [List.cons_append, pipe_verdict_cons] at h
    have hne : ps ++ [p] ≠ [] := by simp
    cases hc : classify_code kind q with
    | error code => rw [hc] at h; cases h
    | ok r =>
      rw [hc] at h
      cases r with
      | builtin c =>
        dsimp only at h
        rw [if_neg hne] at h
        cases h
      | external p1 =>
        have e := classify_code_external_inv kind q p1 hc
        subst e
        dsimp only at h
        rw [if_neg hne] at h
        by_cases hk : ¬ (kind = .PROG ∨ kind = .PIPE)
        · rw [if_pos hk] at h; cases h
        rw [if_neg hk] at h
        by_cases ho : p1.output ≠ none
        · rw [if_pos ho] at h; cases h
        rw [if_neg ho] at h
        cases hv : pipe_verdict .PIPE (ps ++ [p]) with
        | error code => rw [hv] at h; cases h
        | ok cmd2 =>
          exact ⟨hc, Classical.not_not.mp hk, Classical.not_not.mp ho, ih .PIPE p cmd2 hv⟩

theorem parser_parse_lines_pipe_raise (getenv : List Char → Option (List Char))
    (es : List Line) (hes : ∀ e ∈ es, e.ok getenv) (st : List Item)
    (sts : List (List Char × List Item)) (tail : List Char) (code : parser_errors)
    (T : token_kind) (cmd : cmds) (hst : stage_ok getenv st)
    (hsts : ∀ r ∈ sts, blanks r.1 ∧ stage_ok getenv r.2) (ht : ends_word tail)
    (hf : stage_fails getenv tail code)
    (hv : pipe_verdict .PROG (stage_progs getenv T (st :: sts.map Prod.snd)) = .ok cmd) :
    ∃ l k, parser_parse getenv (lines_text es ++ (render_pipe st sts ++ tail)) =
      some ⟨[], code, messages code, l, k⟩ := by
  obtain ⟨hch, hlast⟩ := to_chain_ok getenv sts st hst hsts
  rw [to_chain_stages sts st, stage_progs_snoc] at hv
  have hchain := pipe_verdict_chain _ .PROG _ cmd hv
  rw [List.map_map] at hchain
  obtain ⟨hp, hne⟩ := items_pipe_fails getenv (to_chain st sts).2 tail code
    ⟨hlast.2.1, hlast.2.2⟩ (Or.inr ht) hf
  have hin := chain_input_fails getenv _ code (to_chain st sts).1 hch hchain hp (fun _ => hne)
  rw [to_chain_text]
  exact parser_parse_lines_raise getenv es hes _ code hin

theorem parser_parse_lines_pipe_quiet (getenv : List Char → Option (List Char))
    (es : List Line) (hes : ∀ e ∈ es, e.ok getenv) (st : List Item)
    (sts : List (List Char × List Item)) (X : List Char) (cmd : cmds)
    (hst : stage_ok getenv st) (hsts : ∀ r ∈ sts, blanks r.1 ∧ stage_ok getenv r.2)
    (hX : quiet getenv X)
    (hv : pipe_verdict .PROG (stage_progs getenv END (st :: sts.map Prod.snd)) = .ok cmd) :
    parser_parse getenv (lines_text es ++ (render_pipe st sts ++ X)) =
      some ⟨line_cmds getenv es ++ [cmd], PARSER_OK, "Ok.", 0, 0⟩ :=
  parser_parse_lines_last getenv es hes st sts X END [] hst hsts
    ⟨hX.1, Or.inr (Or.inr (Or.inl rfl)), hX.2⟩ (by decide)
    (quiet_blanks getenv [] blanks_nil).2 cmd hv

theorem parser_parse_lines_pipe_sep (getenv : List Char → Option (List Char))
    (es : List Line) (hes : ∀ e ∈ es, e.ok getenv) (st : List Item)
    (sts : List (List Char × List Item)) (fin : Gap) (sep : Char) (cmd : cmds)
    (hst : stage_ok getenv st) (hsts : ∀ r ∈ sts, blanks r.1 ∧ stage_ok getenv r.2)
    (hfin : fin.ok) (hsep : sep = ';' ∨ sep = '\n') (hcm : fin.comment ≠ none → sep = '\n')
    (hv : pipe_verdict .PROG (stage_progs getenv END (st :: sts.map Prod.snd)) = .ok cmd) :
    parser_parse getenv (lines_text es ++ (render_pipe st sts ++ (fin.text ++ [sep]))) =
      some ⟨line_cmds getenv es ++ [cmd], PARSER_OK, "Ok.", 0, 0⟩ := by
  have hend := stage_end_line getenv fin sep [] hfin
    (by rcases hsep with rfl | rfl <;> simp) hcm
  have hp : punct sep = SEP := by rcases hsep with rfl | rfl <;> simp [punct]
  rw [hp] at hend
  exact parser_parse_lines_last getenv es hes st sts _ SEP [] hst hsts hend (by decide)
    (quiet_blanks getenv [] blanks_nil).2 cmd
    (by rw [stage_progs_ne_amp getenv SEP (by decide)]; exact hv)

theorem half_word_length : half_word.length = 1024 := List.length_replicate 1024 'x'

theorem long_comment_length : long_comment.length = 2046 := List.length_replicate 2046 'x'

theorem half_word_comment : ∀ x ∈ half_word, comment_char x := by
  intro x hx
  unfold half_word at hx
  rw [List.eq_of_mem_replicate hx]
  decide

theorem long_comment_comment : ∀ x ∈ long_comment, comment_char x := by
  intro x hx
  unfold long_comment at hx
  rw [List.eq_of_mem_replicate hx]
  decide

theorem long_word_comment : ∀ x ∈ long_word, comment_char x := by
  intro x hx
  unfold long_word at hx
  rw [List.eq_of_mem_replicate hx]
  decide

theorem ls_stage_ok (getenv : List Char → Option (List Char)) :
    stage_ok getenv (stage_items [Part.word [] ['l', 's']]) :=
  stage_items_ok getenv _ (by decide) (by decide)

theorem ls_comment_parses (getenv : List Char → Option (List Char)) (cm : List Char)
    (hc : ∀ x ∈ cm, comment_char x) (hlen : cm.length ≤ 2046) :
    parser_parse getenv (['l', 's', ' ', '#'] ++ cm) =
      some ⟨[.PROG [⟨none, none, false, [['l', 's']]⟩]], PARSER_OK, "Ok.", 0, 0⟩ := by
  have h := parser_parse_lines_pipe_quiet getenv [] (by simp)
    (stage_items [Part.word [] ['l', 's']]) [] ([' '] ++ '#' :: cm)
    (.PROG [⟨none, none, false, [['l', 's']]⟩]) (ls_stage_ok getenv) (by simp)
    (quiet_comment getenv [' '] cm blanks_space hc hlen) rfl
  simpa [lines_text, line_cmds, render_pipe, render_stages, stage_items, Part.item,
    render_stage, Item.render, render_word, Seg.render] using h

theorem ls_comment_overflows (getenv : List Char → Option (List Char)) (cm : List Char)
    (hc : ∀ x ∈ cm, comment_char x) (hlen : 2047 ≤ cm.length) :
    parser_parse getenv (['l', 's', ' ', '#'] ++ cm) =
      some ⟨[], PARSER_OVERFLOW, "Overflow of internal buffer.", 0, 0⟩ := by
  have h := parser_parse_lines_pipe_raise getenv [] (by simp)
    (stage_items [Part.word [] ['l', 's']]) [] ([' '] ++ '#' :: cm) PARSER_OVERFLOW END
    (.PROG [⟨none, none, false, [['l', 's']]⟩]) (ls_stage_ok getenv) (by simp)
    (ends_word_blank ' ' _ (Or.inl rfl)) (comment_stage_fails getenv [' '] cm blanks_space hc hlen)
    rfl
  apply overflow_at_origin
  simpa [lines_text, render_pipe, render_stages, stage_items, Part.item,
    render_stage, Item.render, render_word, Seg.render] using h
/-! ## Claims -/

/-- C1: for every input that is empty or made of spaces and tabs only,
`parser_parse` returns the NULL list and the status stays `PARSER_OK` with
message "Ok.", line 0 and column 0. -/
theorem C1_blank_input (getenv : List Char → Option (List Char)) (input : List Char)
    (h : ∀ c ∈ input, c = ' ' ∨ c = '\t') :
    parser_parse getenv input = some ⟨[], PARSER_OK, "Ok.", 0, 0⟩ := by
  have hs := scan_end getenv input 0 0 ⟨UNKNOWN, []⟩ h
  simp [parser_parse, parse_input, parse_input_loop, hs, messages]

/-- An instance: the input made of a space, a tab and a space. -/
theorem C1_blank_input_witness :
    (∀ c ∈ [' ', '\t', ' '], c = ' ' ∨ c = '\t') ∧
      parser_parse no_env [' ', '\t', ' '] = some ⟨[], PARSER_OK, "Ok.", 0, 0⟩ :=
  ⟨by decide, C1_blank_input no_env [' ', '\t', ' '] (by decide)⟩

/-- C2: for every string `s` without a single quote and without NUL, of at
most 2046 characters, the input `echo 's'` parses to one `PROG` command with
the arguments `echo` and `s`, every character of `s` copied as it is. -/
theorem C2_quoted_argument (getenv : List Char → Option (List Char)) (s : List Char)
    (hq : ∀ c ∈ s, c ≠ '\'' ∧ c ≠ NUL) (hlen : s.length ≤ 2046) :
    parser_parse getenv (['e', 'c', 'h', 'o', ' ', '\''] ++ s ++ ['\'']) =
      some ⟨[.PROG [⟨none, none, false, [['e', 'c', 'h', 'o'], s]⟩]], PARSER_OK, "Ok.", 0, 0⟩ := by
  have h := parser_parse_echo getenv [.quoted s] (by simp)
    (by
      simp only [word_ok, Seg.ok, and_true]
      exact fun c hc => ⟨(hq c hc).2, (hq c hc).1⟩)
    (by simpa [expand_word, Seg.expand] using hlen)
  simpa [render_word, Seg.render, expand_word, Seg.expand, success, simple] using h

/-- An instance: a quoted string holding a space, a tab, a newline and the
characters `;|&<>#$\`. -/
theorem C2_quoted_argument_witness :
    (∀ c ∈ "a b\t\n;|&<>#$\\".toList, c ≠ '\'' ∧ c ≠ NUL) ∧
      "a b\t\n;|&<>#$\\".toList.length ≤ 2046 ∧
      parser_parse no_env "echo 'a b\t\n;|&<>#$\\'".toList =
        some ⟨[.PROG [⟨none, none, false, ["echo".toList, "a b\t\n;|&<>#$\\".toList]⟩]],
          PARSER_OK, "Ok.", 0, 0⟩ :=
  ⟨by decide, by decide,
    C2_quoted_argument no_env "a b\t\n;|&<>#$\\".toList (by decide) (by decide)⟩

/-- C3: for every character `c` other than NUL, the input `echo \c` parses
to one `PROG` command with the arguments `echo` and the one-character string
`c`; and `echo a\ b` parses to the arguments `echo` and `a b`. -/
theorem C3_escaped_character (getenv : List Char → Option (List Char)) (c : Char)
    (hc : c ≠ NUL) :
    parser_parse getenv ['e', 'c', 'h', 'o', ' ', '\\', c] =
        some ⟨[.PROG [⟨none, none, false, [['e', 'c', 'h', 'o'], [c]]⟩]], PARSER_OK, "Ok.", 0, 0⟩ ∧
      parser_parse getenv ['e', 'c', 'h', 'o', ' ', 'a', '\\', ' ', 'b'] =
        some ⟨[.PROG [⟨none, none, false, [['e', 'c', 'h', 'o'], ['a', ' ', 'b']]⟩]],
          PARSER_OK, "Ok.", 0, 0⟩ := by
  refine ⟨?_, rfl⟩
  have h := parser_parse_echo getenv [.esc c] (by simp) (by simpa [word_ok, Seg.ok] using hc)
    (by simp [expand_word, Seg.expand])
  simpa [render_word, Seg.render, expand_word, Seg.expand, success, simple] using h

/-- An instance: the escaped character `;`. -/
theorem C3_escaped_character_witness :
    ';' ≠ NUL ∧
      parser_parse no_env ['e', 'c', 'h', 'o', ' ', '\\', ';'] =
        some ⟨[.PROG [⟨none, none, false, [['e', 'c', 'h', 'o'], [';']]⟩]], PARSER_OK, "Ok.", 0, 0⟩ :=
  ⟨by decide, (C3_escaped_character no_env ';' (by decide)).1⟩

/-- C4, as stated, fails: the name `long_word` of 2047 letters `x` is not
empty, is made of non-delimiter characters and is unset, but `echo $name`
does not parse to the arguments `echo` and the empty string; it fails with
`PARSER_OVERFLOW`. -/
theorem C4_counterexample :
    long_word ≠ [] ∧ (∀ c ∈ long_word, name_char c) ∧ no_env long_word = none ∧
      parser_parse no_env (['e', 'c', 'h', 'o', ' ', '$'] ++ long_word) =
        some ⟨[], PARSER_OVERFLOW, "Overflow of internal buffer.", 0, 0⟩ ∧
      parser_parse no_env (['e', 'c', 'h', 'o', ' ', '$'] ++ long_word) ≠
        some ⟨[.PROG [⟨none, none, false, [['e', 'c', 'h', 'o'], []]⟩]], PARSER_OK, "Ok.", 0, 0⟩ := by
  have hx : ∀ c ∈ long_word, name_char c := by
    intro c hc
    rw [List.eq_of_mem_replicate hc]
    decide
  have h : parser_parse no_env (['e', 'c', 'h', 'o', ' ', '$'] ++ long_word) =
      some ⟨[], PARSER_OVERFLOW, "Overflow of internal buffer.", 0, 0⟩ := by
    have h1 := parser_parse_echo_raise no_env ('$' :: long_word) PARSER_OVERFLOW 0 0
      (fun l k tok => by
        have h2 := scan_name_overflow no_env [' '] long_word [] l k tok
          blank_space hx (by rw [long_word_length])
        simpa using h2)
    simpa [messages] using h1
  refine ⟨long_word_ne_nil, hx, rfl, h, ?_⟩
  rw [h]
  simp

/-- C4, amended: for every environment and every variable name `n` made of
non-delimiter characters and of at most 2046 characters, `echo $n` and
`echo ${n}` parse to the same result: the arguments `echo` and `v` when `n`
is bound to `v` and `v` has fewer than 2047 characters, `v` being one
argument whatever characters it holds, and the arguments `echo` and the
empty string when `n` is unset. -/
theorem C4_substitution (getenv : List Char → Option (List Char)) (n : List Char)
    (hn : ∀ c ∈ n, name_char c) (hlen : n.length ≤ 2046) :
    (∀ v, getenv n = some v → v.length < 2047 →
        parser_parse getenv (['e', 'c', 'h', 'o', ' ', '$'] ++ n) =
          some ⟨[.PROG [⟨none, none, false, [['e', 'c', 'h', 'o'], v]⟩]], PARSER_OK, "Ok.", 0, 0⟩ ∧
        parser_parse getenv (['e', 'c', 'h', 'o', ' ', '$', '{'] ++ n ++ ['}']) =
          some ⟨[.PROG [⟨none, none, false, [['e', 'c', 'h', 'o'], v]⟩]], PARSER_OK, "Ok.", 0, 0⟩) ∧
      (getenv n = none →
        parser_parse getenv (['e', 'c', 'h', 'o', ' ', '$'] ++ n) =
          some ⟨[.PROG [⟨none, none, false, [['e', 'c', 'h', 'o'], []]⟩]], PARSER_OK, "Ok.", 0, 0⟩ ∧
        parser_parse getenv (['e', 'c', 'h', 'o', ' ', '$', '{'] ++ n ++ ['}']) =
          some ⟨[.PROG [⟨none, none, false, [['e', 'c', 'h', 'o'], []]⟩]], PARSER_OK, "Ok.", 0, 0⟩) := by
  have key : (value_of getenv n).length ≤ 2046 →
      parser_parse getenv (['e', 'c', 'h', 'o', ' ', '$'] ++ n) =
          some ⟨[.PROG [⟨none, none, false, [['e', 'c', 'h', 'o'], value_of getenv n]⟩]],
            PARSER_OK, "Ok.", 0, 0⟩ ∧
        parser_parse getenv (['e', 'c', 'h', 'o', ' ', '$', '{'] ++ n ++ ['}']) =
          some ⟨[.PROG [⟨none, none, false, [['e', 'c', 'h', 'o'], value_of getenv n]⟩]],
            PARSER_OK, "Ok.", 0, 0⟩ := by
    intro hv
    have h1 := parser_parse_echo getenv [.var n] (by simp)
      (by simp only [word_ok, Seg.ok, after_var]; exact ⟨⟨hn, hlen⟩, trivial, trivial⟩)
      (by simpa [expand_word, Seg.expand] using hv)
    have h2 := parser_parse_echo getenv [.bvar n] (by simp)
      (by simp only [word_ok, Seg.ok]; exact ⟨⟨hn, hlen⟩, trivial⟩)
      (by simpa [expand_word, Seg.expand] using hv)
    constructor
    · simpa [render_word, Seg.render, expand_word, Seg.expand, success, simple] using h1
    · simpa [render_word, Seg.render, expand_word, Seg.expand, success, simple] using h2
  constructor
  · intro v hv hvl
    have e : value_of getenv n = v := by simp [value_of, hv]
    rw [e] at key
    exact key (by omega)
  · intro hnone
    have e : value_of getenv n = [] := by simp [value_of, hnone]
    rw [e] at key
    exact key (by simp)

/-- An instance: with `a=var1`, the inputs `echo $a` and `echo ${a}`. -/
theorem C4_substitution_witness :
    (∀ c ∈ ['a'], name_char c) ∧ ['a'].length ≤ 2046 ∧
      parser_parse test_env ['e', 'c', 'h', 'o', ' ', '$', 'a'] =
        some ⟨[.PROG [⟨none, none, false, [['e', 'c', 'h', 'o'], ['v', 'a', 'r', '1']]⟩]],
          PARSER_OK, "Ok.", 0, 0⟩ ∧
      parser_parse test_env ['e', 'c', 'h', 'o', ' ', '$', '{', 'a', '}'] =
        some ⟨[.PROG [⟨none, none, false, [['e', 'c', 'h', 'o'], ['v', 'a', 'r', '1']]⟩]],
          PARSER_OK, "Ok.", 0, 0⟩ :=
  ⟨by decide, by decide,
    (C4_substitution test_env ['a'] (by decide) (by decide)).1 ['v', 'a', 'r', '1'] rfl
      (by decide)⟩

/-- C5, as stated, fails: the word made of the one plain segment `long_word`
(2047 letters `x`) is not scanned as an identifier, `scan` fails with
`PARSER_OVERFLOW`; and with `a=var1` the word made of the segments `$a` and
`b` is the text `$ab`, which is scanned as the identifier with the empty
text (the value of the unset `ab`), not as `var1b`. -/
theorem C5_counterexample :
    scan no_env ⟨render_word [.plain long_word], 0, 0, ⟨UNKNOWN, []⟩⟩ =
        .raise PARSER_OVERFLOW 0 0 ∧
      expand_word test_env [.var ['a'], .plain ['b']] = ['v', 'a', 'r', '1', 'b'] ∧
      scan test_env ⟨render_word [.var ['a'], .plain ['b']], 0, 0, ⟨UNKNOWN, []⟩⟩ =
        .ok ⟨[], 0, 3, ⟨IDE, []⟩⟩ := by
  refine ⟨?_, by decide, by decide⟩
  have h := scan_plain_overflow no_env [] long_word [] 0 0 ⟨UNKNOWN, []⟩ blank_nil
    long_word_plain (by rw [long_word_length])
  simpa [render_word, Seg.render] using h

/-- C5, amended: a word built from adjacent segments (plain characters,
quotations, escaped characters, substitutions `$name` and `${name}`), in
which no plain segment comes right after a `$name`, every variable name has
at most 2046 characters and the expansions of the segments have at most 2046
characters together, is scanned, up to the character that ends it, as one
identifier whose text is the expansions of the segments one after the
other; after `echo` it is parsed as one argument with that text. -/
theorem C5_one_identifier (getenv : List Char → Option (List Char)) (w : List Seg)
    (rest : List Char) (l k : Nat) (tok : token) (hne : w ≠ []) (hw : word_ok w)
    (hr : ends_word rest) (hlen : (expand_word getenv w).length ≤ 2046) :
    (∃ l1 k1, scan getenv ⟨render_word w ++ rest, l, k, tok⟩ =
        .ok ⟨rest, l1, k1, ⟨IDE, expand_word getenv w⟩⟩) ∧
      parser_parse getenv (['e', 'c', 'h', 'o', ' '] ++ render_word w) =
        some ⟨[.PROG [⟨none, none, false, [['e', 'c', 'h', 'o'], expand_word getenv w]⟩]],
          PARSER_OK, "Ok.", 0, 0⟩ := by
  refine ⟨?_, ?_⟩
  · simpa using scan_word getenv [] w rest l k tok blank_nil hne hw hr hlen
  · simpa [success, simple] using parser_parse_echo getenv w hne hw hlen

/-- An instance: the word `a'b'c` and the word of the test driver made of
plain, quoted and escaped segments and three substitutions. -/
theorem C5_one_identifier_witness :
    (∃ l1 k1, scan test_env ⟨"a'b'c".toList, 0, 0, ⟨UNKNOWN, []⟩⟩ =
        .ok ⟨[], l1, k1, ⟨IDE, "abc".toList⟩⟩) ∧
      parser_parse test_env "echo alloneide'bla'blub\\#\\;$a$\x7bb\x7d$c'yeah'".toList =
        some ⟨[.PROG [⟨none, none, false,
          ["echo".toList, "alloneideblablub#;var1var2var3yeah".toList]⟩]], PARSER_OK, "Ok.", 0, 0⟩ :=
  ⟨(C5_one_identifier test_env [.plain ['a'], .quoted ['b'], .plain ['c']] [] 0 0 ⟨UNKNOWN, []⟩
      (by simp) (by simp only [word_ok, Seg.ok]; decide) ends_word_nil (by decide)).1,
    (C5_one_identifier test_env
      [.plain "alloneide".toList, .quoted "bla".toList, .plain "blub".toList, .esc '#', .esc ';',
        .var ['a'], .bvar ['b'], .var ['c'], .quoted "yeah".toList] [] 0 0 ⟨UNKNOWN, []⟩
      (by simp) (by simp only [word_ok, Seg.ok, after_var]; decide) ends_word_nil
      (by decide)).2⟩

/-- C6, as stated, fails: the two stages `long_word` (a plain word of 2047
letters `x`, not a builtin name) and `b` are as the claim asks, but the
input `long_word | b` does not parse to a pipeline; it fails with
`PARSER_OVERFLOW`. -/
theorem C6_counterexample :
    plain_word long_word ∧ long_word ∉ builtin_names ∧ plain_word ['b'] ∧
      ['b'] ∉ builtin_names ∧
      plain_text [[long_word], [['b']]] false = long_word ++ [' ', '|', ' ', 'b'] ∧
      parser_parse no_env (plain_text [[long_word], [['b']]] false) =
        some ⟨[], PARSER_OVERFLOW, "Overflow of internal buffer.", 0, 0⟩ := by
  have e : plain_text [[long_word], [['b']]] false = long_word ++ [' ', '|', ' ', 'b'] := by
    simp [plain_text, join_with]
  refine ⟨long_word_is_plain, long_word_not_builtin, by decide, by decide, e, ?_⟩
  rw [e]
  exact parser_parse_long_word no_env [' ', '|', ' ', 'b']

/-- C6, amended: for stages `s1..sn`, each a non-empty list of plain words of
at most 2046 characters whose first word is not a builtin name, the input
`s1 | s2 | ... | sn`, optionally followed by ` &`, parses to exactly one
command: for `n >= 2` of kind `PIPE`, whose chain has the `n` stages in input
order, stage `i` with exactly the words of `si` as arguments and no
redirection, the background flag set on the last stage if and only if the
input ends with `&` and false on every other stage; for `n = 1` of kind
`PROG` with that one stage and no next stage. -/
theorem C6_pipeline (getenv : List Char → Option (List Char))
    (stages : List (List (List Char))) (amp : Bool)
    (hst : ∀ ws ∈ stages, ws ≠ [] ∧ (∀ a ∈ ws.head?, a ∉ builtin_names) ∧
      ∀ w ∈ ws, plain_word w ∧ w.length ≤ 2046) :
    (2 ≤ stages.length →
        parser_parse getenv (plain_text stages amp) =
          some ⟨[.PIPE (plain_progs amp stages)], PARSER_OK, "Ok.", 0, 0⟩ ∧
        (plain_progs amp stages).length = stages.length) ∧
      (stages.length = 1 →
        parser_parse getenv (plain_text stages amp) =
          some ⟨[.PROG (plain_progs amp stages)], PARSER_OK, "Ok.", 0, 0⟩ ∧
        (plain_progs amp stages).length = 1) := by
  have key : stages ≠ [] → parser_parse getenv (plain_text stages amp) =
      some (success [if stages.length = 1 then .PROG (plain_progs amp stages)
        else .PIPE (plain_progs amp stages)]) := fun hne =>
    parser_parse_plain_pipe getenv stages amp hne
      (fun ws hws => ⟨head_not_builtin ws (hst ws hws).1 (hst ws hws).2.1, (hst ws hws).2.2⟩)
  have hlen := plain_progs_length amp stages
  constructor
  · intro h2
    have hne : stages ≠ [] := by
      intro h
      simp [h] at h2
    rw [key hne, if_neg (by omega)]
    exact ⟨rfl, hlen⟩
  · intro h1
    have hne : stages ≠ [] := by
      intro h
      simp [h] at h1
    rw [key hne, if_pos h1]
    exact ⟨rfl, by omega⟩

/-- An instance: `ls | grep x | sort &` and the single stage `ls -l`. -/
theorem C6_pipeline_witness :
    parser_parse no_env "ls | grep x | sort &".toList =
        some ⟨[.PIPE [⟨none, none, false, ["ls".toList]⟩,
          ⟨none, none, false, ["grep".toList, "x".toList]⟩,
          ⟨none, none, true, ["sort".toList]⟩]], PARSER_OK, "Ok.", 0, 0⟩ ∧
      parser_parse no_env "ls -l".toList =
        some ⟨[.PROG [⟨none, none, false, ["ls".toList, "-l".toList]⟩]], PARSER_OK, "Ok.", 0, 0⟩ :=
  ⟨((C6_pipeline no_env [["ls".toList], ["grep".toList, "x".toList], ["sort".toList]] true
      (by decide)).1 (by decide)).1,
    ((C6_pipeline no_env [["ls".toList, "-l".toList]] false (by decide)).2 (by decide)).1⟩

/-- C7, as stated, fails: `ls | grep x | sort` does not parse to a pipeline
of three stages with 2, 1 and 1 arguments. -/
theorem C7_counterexample :
    ¬ ∃ p1 p2 p3 : prog_args,
      parser_parse no_env "ls | grep x | sort".toList =
          some ⟨[.PIPE [p1, p2, p3]], PARSER_OK, "Ok.", 0, 0⟩ ∧
        p1.argv.length = 2 ∧ p2.argv.length = 1 ∧ p3.argv.length = 1 := by
  have h : parser_parse no_env "ls | grep x | sort".toList =
      some ⟨[.PIPE [⟨none, none, false, ["ls".toList]⟩,
        ⟨none, none, false, ["grep".toList, "x".toList]⟩,
        ⟨none, none, false, ["sort".toList]⟩]], PARSER_OK, "Ok.", 0, 0⟩ := by decide
  rintro ⟨p1, p2, p3, hp, h1, _, _⟩
  rw [h] at hp
  simp only [Option.some.injEq, Outcome.mk.injEq, List.cons.injEq, cmds.PIPE.injEq, and_true]
    at hp
  obtain ⟨rfl, _⟩ := hp
  simp at h1

/-- C7, amended: in every environment `ls | grep x | sort` parses to one
command of kind `PIPE` with three stages that have 1, 2 and 1 arguments:
`ls`, then `grep` with the argument `x`, then `sort`; no stage has a
redirection or the background flag. -/
theorem C7_three_stages (getenv : List Char → Option (List Char)) :
    parser_parse getenv "ls | grep x | sort".toList =
      some ⟨[.PIPE [⟨none, none, false, ["ls".toList]⟩,
        ⟨none, none, false, ["grep".toList, "x".toList]⟩,
        ⟨none, none, false, ["sort".toList]⟩]], PARSER_OK, "Ok.", 0, 0⟩ := by
  rfl

/-- C8, as stated, fails. In `setenv foo | cd ..` the second stage `cd ..`
has a builtin name as first word and parses on its own, but the pipeline
fails with `PARSER_MISSING_ARGUMENT`, raised for the first stage, not with
`PARSER_ILLEGAL_COMBINATION`. In `ls | long_word | cd ..`, whose second stage
is a plain word of 2047 letters `x`, the pipeline fails with
`PARSER_OVERFLOW`. -/
theorem C8_counterexample :
    parser_parse no_env "cd ..".toList =
        some ⟨[.CD ⟨some "..".toList⟩], PARSER_OK, "Ok.", 0, 0⟩ ∧
      parser_parse no_env "setenv foo | cd ..".toList =
        some ⟨[], PARSER_MISSING_ARGUMENT, "Missing argument for builtin command.", 0, 12⟩ ∧
      plain_word long_word ∧
      parser_parse no_env ("ls | ".toList ++ long_word ++ " | cd ..".toList) =
        some ⟨[], PARSER_OVERFLOW, "Overflow of internal buffer.", 0, 0⟩ := by
  refine ⟨by decide, by decide, long_word_is_plain, ?_⟩
  have h := parser_parse_second_raise no_env [.arg [] [.plain ['l', 's']]] [' ']
    (' ' :: (long_word ++ [' ', '|', ' ', 'c', 'd', ' ', '.', '.'])) PARSER_OVERFLOW 0 0
    (stage_items_ok no_env [.word [] ['l', 's']] (by simp) (by decide)) blanks_space
    rfl rfl
    (fun l k tok => scan_plain_overflow no_env [' '] long_word
      [' ', '|', ' ', 'c', 'd', ' ', '.', '.'] l k tok blank_space long_word_plain
      (by rw [long_word_length]))
  simpa [render_stage, Item.render, render_word, Seg.render, messages] using h

/-- C8, amended: for every pipeline input of two or more stages without
redirections, each stage a non-empty list of plain words of at most 2046
characters, in which at least one stage (first, middle or last) has a
builtin name as its first word and the first stage parses successfully on
its own, the parse fails with `PARSER_ILLEGAL_COMBINATION`. The words of a
stage are set apart by spaces and tabs; any number of spaces and tabs may
stand around a pipe symbol and at the end of the input. -/
theorem C8_builtin_in_pipeline (getenv : List Char → Option (List Char)) (st1 : List Part)
    (g2 : List Char) (st2 : List Part) (rest : List (List Char × List Part))
    (trail : List Char)
    (hg : blanks g2 ∧ (∀ r ∈ rest, blanks r.1) ∧ blanks trail)
    (hst : ∀ st ∈ st1 :: st2 :: rest.map Prod.snd,
      st ≠ [] ∧ parts_ok st ∧ ¬ has_input st ∧ ¬ has_output st)
    (hb : ∃ st ∈ st1 :: st2 :: rest.map Prod.snd,
      ∃ a ∈ (stage_words st).head?, a ∈ builtin_names)
    (hfirst : ∃ list, parser_parse getenv (pipe_text st1 [] []) =
      some ⟨list, PARSER_OK, "Ok.", 0, 0⟩) :
    ∃ l k, parser_parse getenv (pipe_text st1 ((g2, st2) :: rest) trail) =
      some ⟨[], PARSER_ILLEGAL_COMBINATION,
        "Illegal combination of internal and external commands.", l, k⟩ :=
  parser_parse_builtin_pipe getenv st1 g2 st2 rest trail hg hst hb hfirst

/-- An instance: `cd .. | ls`, `ls | exit | sort` and
`ls | sort | cd /bar/foo`. -/
theorem C8_builtin_in_pipeline_witness :
    (∃ l k, parser_parse no_env "cd .. | ls".toList =
        some ⟨[], PARSER_ILLEGAL_COMBINATION,
          "Illegal combination of internal and external commands.", l, k⟩) ∧
      (∃ l k, parser_parse no_env "ls | exit | sort".toList =
        some ⟨[], PARSER_ILLEGAL_COMBINATION,
          "Illegal combination of internal and external commands.", l, k⟩) ∧
      (∃ l k, parser_parse no_env "ls | sort | cd /bar/foo".toList =
        some ⟨[], PARSER_ILLEGAL_COMBINATION,
          "Illegal combination of internal and external commands.", l, k⟩) :=
  ⟨C8_builtin_in_pipeline no_env [.word [] "cd".toList, .word [' '] "..".toList] [' ']
      [.word [' '] "ls".toList] [] [] (by decide) (by decide)
      ⟨[.word [] "cd".toList, .word [' '] "..".toList], by decide, "cd".toList, by decide,
        by decide⟩
      ⟨[.CD ⟨some "..".toList⟩], by decide⟩,
    C8_builtin_in_pipeline no_env [.word [] "ls".toList] [' '] [.word [' '] "exit".toList]
      [([' '], [.word [' '] "sort".toList])] [] (by decide) (by decide)
      ⟨[.word [' '] "exit".toList], by decide, "exit".toList, by decide, by decide⟩
      ⟨[.PROG [⟨none, none, false, ["ls".toList]⟩]], by decide⟩,
    C8_builtin_in_pipeline no_env [.word [] "ls".toList] [' '] [.word [' '] "sort".toList]
      [([' '], [.word [' '] "cd".toList, .word [' '] "/bar/foo".toList])] []
      (by decide) (by decide)
      ⟨[.word [' '] "cd".toList, .word [' '] "/bar/foo".toList], by decide, "cd".toList,
        by decide, by decide⟩
      ⟨[.PROG [⟨none, none, false, ["ls".toList]⟩]], by decide⟩⟩

/-- C9, as stated, fails: the pipeline `long_word <in | b` (its first word a
plain word of 2047 letters `x`, not a builtin name) has its only redirection,
an input redirection, on the first stage, but the parse does not succeed; it
fails with `PARSER_OVERFLOW`, not with `PARSER_ILLEGAL_REDIRECTION`. -/
theorem C9_counterexample :
    plain_word long_word ∧ long_word ∉ builtin_names ∧
      (∀ st ∈ [[Part.word [' '] ['b']]], ¬ has_input st) ∧
      (∀ st ∈ [[Part.word [] long_word, Part.input [' '] [] ['i', 'n']],
          [Part.word [' '] ['b']]].dropLast, ¬ has_output st) ∧
      pipe_text [Part.word [] long_word, Part.input [' '] [] ['i', 'n']]
          [([' '], [Part.word [' '] ['b']])] [] =
        long_word ++ [' ', '<', 'i', 'n', ' ', '|', ' ', 'b'] ∧
      parser_parse no_env (long_word ++ [' ', '<', 'i', 'n', ' ', '|', ' ', 'b']) =
        some ⟨[], PARSER_OVERFLOW, "Overflow of internal buffer.", 0, 0⟩ := by
  refine ⟨long_word_is_plain, long_word_not_builtin, by decide, ?_, ?_,
    parser_parse_long_word no_env [' ', '<', 'i', 'n', ' ', '|', ' ', 'b']⟩
  · simp [has_output, Part.is_output]
  · simp [pipe_text, render_pipe, render_stages, render_stage, stage_items, Part.item,
      Item.render, render_word, Seg.render]

/-- C9, amended: for every pipeline input of two or more stages, each stage
made of plain words of at most 2046 characters as arguments and as files of
redirections `<file` and `>file`, with at least one argument, the first
argument not a builtin name: the parse succeeds, giving one `PIPE` command,
if no stage other than the first has an input redirection and no stage other
than the last has an output redirection, and otherwise it fails with
`PARSER_ILLEGAL_REDIRECTION`. An argument after the first part of a stage
has at least one space or tab before it; any number of spaces and tabs may
stand before a part, between `<` or `>` and its file, around a pipe symbol
and at the end of the input. -/
theorem C9_redirections (getenv : List Char → Option (List Char)) (st1 : List Part)
    (g2 : List Char) (st2 : List Part) (rest : List (List Char × List Part))
    (trail : List Char)
    (hg : blanks g2 ∧ (∀ r ∈ rest, blanks r.1) ∧ blanks trail)
    (hst : ∀ st ∈ st1 :: st2 :: rest.map Prod.snd, parts_ok st ∧ stage_words st ≠ [] ∧
      ∀ a ∈ (stage_words st).head?, a ∉ builtin_names) :
    (((∀ st ∈ st2 :: rest.map Prod.snd, ¬ has_input st) ∧
          (∀ st ∈ (st1 :: st2 :: rest.map Prod.snd).dropLast, ¬ has_output st)) →
        ∃ progs, parser_parse getenv (pipe_text st1 ((g2, st2) :: rest) trail) =
          some ⟨[.PIPE progs], PARSER_OK, "Ok.", 0, 0⟩) ∧
      (¬ ((∀ st ∈ st2 :: rest.map Prod.snd, ¬ has_input st) ∧
          (∀ st ∈ (st1 :: st2 :: rest.map Prod.snd).dropLast, ¬ has_output st)) →
        ∃ l k, parser_parse getenv (pipe_text st1 ((g2, st2) :: rest) trail) =
          some ⟨[], PARSER_ILLEGAL_REDIRECTION, "Illegal input/output redirection in pipe.",
            l, k⟩) :=
  parser_parse_redirections getenv st1 g2 st2 rest trail hg hst

/-- An instance: `ls <in -lisa | grep .pdf | sort >out` parses,
`ls | grep x >out | sort` and `ls | <foo grep .pdf | sort` fail. -/
theorem C9_redirections_witness :
    (∃ progs, parser_parse no_env "ls <in -lisa | grep .pdf | sort >out".toList =
        some ⟨[.PIPE progs], PARSER_OK, "Ok.", 0, 0⟩) ∧
      (∃ l k, parser_parse no_env "ls | grep x >out | sort".toList =
        some ⟨[], PARSER_ILLEGAL_REDIRECTION, "Illegal input/output redirection in pipe.",
          l, k⟩) ∧
      (∃ l k, parser_parse no_env "ls | <foo grep .pdf | sort".toList =
        some ⟨[], PARSER_ILLEGAL_REDIRECTION, "Illegal input/output redirection in pipe.",
          l, k⟩) :=
  ⟨(C9_redirections no_env
      [.word [] "ls".toList, .input [' '] [] "in".toList, .word [' '] "-lisa".toList] [' ']
      [.word [' '] "grep".toList, .word [' '] ".pdf".toList]
      [([' '], [.word [' '] "sort".toList, .output [' '] [] "out".toList])] []
      (by decide) (by decide)).1 (by decide),
    (C9_redirections no_env [.word [] "ls".toList] [' ']
      [.word [' '] "grep".toList, .word [' '] "x".toList, .output [' '] [] "out".toList]
      [([' '], [.word [' '] "sort".toList])] [] (by decide) (by decide)).2 (by decide),
    (C9_redirections no_env [.word [] "ls".toList] [' ']
      [.input [' '] [] "foo".toList, .word [' '] "grep".toList, .word [' '] ".pdf".toList]
      [([' '], [.word [' '] "sort".toList])] [] (by decide) (by decide)).2 (by decide)⟩

/-- C10: for every input and environment `parser_parse` returns, and in
the list it returns (the parse having succeeded) every stage of every
command of kind `PROG` or `PIPE` has a first argument, and that argument is
not the name of a builtin (`exit`, `cd`, `setenv`, `unsetenv`, `jobs`, `bg`,
`fg`); a builtin appears only as its own kind of command, which has no
stage. -/
theorem C10_no_builtin_stage (getenv : List Char → Option (List Char)) (input : List Char) :
    ∃ out, parser_parse getenv input = some out ∧
      ∀ cmd ∈ out.list,
        (∀ stages, cmd = .PROG stages ∨ cmd = .PIPE stages →
          ∀ p ∈ stages, ∃ a args, p.argv = a :: args ∧ a ∉ builtin_names) ∧
        (cmd.kind = .EXIT ∨ cmd.kind = .CD ∨ cmd.kind = .ENV ∨ cmd.kind = .JOB →
          cmd.stages = []) := by
  obtain ⟨out, h⟩ := parser_parse_total getenv input
  refine ⟨out, h, ?_⟩
  intro cmd hcmd
  have hinv := parser_parse_inv getenv input out h cmd hcmd
  constructor
  · intro stages hs p hp
    rcases hs with rfl | rfl <;> exact hinv p (by simpa [cmds.stages] using hp)
  · intro hk
    cases cmd <;> simp [cmds.kind] at hk <;> rfl

/-- An instance: the input `cd exit; ls | grep cd; fg` parses to a `CD`
command with the path `exit`, a pipeline whose second stage has the argument
`cd`, and a `JOB` command. -/
theorem C10_no_builtin_stage_witness :
    parser_parse no_env "cd exit; ls | grep cd; fg".toList =
        some ⟨[.CD ⟨some "exit".toList⟩,
          .PIPE [⟨none, none, false, ["ls".toList]⟩,
            ⟨none, none, false, ["grep".toList, "cd".toList]⟩],
          .JOB ⟨.FG, -1⟩], PARSER_OK, "Ok.", 0, 0⟩ ∧
      ∃ out, parser_parse no_env "cd exit; ls | grep cd; fg".toList = some out ∧
        ∀ cmd ∈ out.list,
          (∀ stages, cmd = .PROG stages ∨ cmd = .PIPE stages →
            ∀ p ∈ stages, ∃ a args, p.argv = a :: args ∧ a ∉ builtin_names) ∧
          (cmd.kind = .EXIT ∨ cmd.kind = .CD ∨ cmd.kind = .ENV ∨ cmd.kind = .JOB →
            cmd.stages = []) :=
  ⟨by decide, C10_no_builtin_stage no_env "cd exit; ls | grep cd; fg".toList⟩

/-- C11, as stated, fails. In `jobs 3 long_word` the first argument `3`
denotes the integer 3 and `long_word` (2047 letters `x`) is a word to be
discarded, but the input does not parse to a job command with id 3; it
fails with `PARSER_OVERFLOW`. And the number is stored in an `int`: the
argument of `bg -4294967295` denotes a negative integer, but the input
parses to the job command with id 1, and the argument of `jobs 2147483648`
denotes a non-negative integer, but the input fails with
`PARSER_ILLEGAL_ARGUMENT`. -/
theorem C11_counterexample :
    denoted_int ['3'] = some 3 ∧ plain_word long_word ∧
      (∃ l k, parser_parse no_env (['j', 'o', 'b', 's', ' ', '3', ' '] ++ long_word) =
        some ⟨[], PARSER_OVERFLOW, "Overflow of internal buffer.", l, k⟩) ∧
      denoted_int "-4294967295".toList = some (-4294967295) ∧
      parser_parse no_env "bg -4294967295".toList =
        some ⟨[.JOB ⟨.BG, 1⟩], PARSER_OK, "Ok.", 0, 0⟩ ∧
      denoted_int "2147483648".toList = some 2147483648 ∧
      parser_parse no_env "jobs 2147483648".toList =
        some ⟨[], PARSER_ILLEGAL_ARGUMENT, "Illegal argument for builtin command.", 0, 15⟩ := by
  refine ⟨by decide, long_word_is_plain, ?_, by decide, by decide, by decide, by decide⟩
  have h := parser_parse_words_long no_env (job_name .INFO) [[.plain ['3']]] []
    (job_name_plain .INFO) (by
      rw [words_ok_cons]
      exact ⟨⟨by simp, by simp only [word_ok, Seg.ok]; decide, by decide⟩, words_ok_nil _⟩)
  simpa [words_text, join_with, job_name, render_word, Seg.render] using h

/-- C11, amended: for `K` one of `jobs`, `bg`, `fg`, with job kind `INFO`,
`BG`, `FG`, and words that each stand for at most 2046 characters: the input
`K` alone parses to the job command of that kind with id -1; `K a w1 ... wk`
parses to the job command of that kind with id `n` when `a` denotes, read as
by the conversion `%i`, an integer `n` with `0 ≤ n ≤ 2147483647`, the words
`w1 ... wk` being discarded; and it fails with `PARSER_ILLEGAL_ARGUMENT` when
`a` denotes no integer or denotes a negative integer not below
-2147483648. -/
theorem C11_job_control (getenv : List Char → Option (List Char)) (jk : job_kind)
    (a : List Seg) (ws : List (List Seg)) (hws : words_ok getenv (a :: ws)) :
    parser_parse getenv (job_name jk) = some ⟨[.JOB ⟨jk, -1⟩], PARSER_OK, "Ok.", 0, 0⟩ ∧
      (∀ n, denoted_int (expand_word getenv a) = some n → 0 ≤ n → n ≤ 2147483647 →
        parser_parse getenv (words_text (job_name jk) (a :: ws)) =
          some ⟨[.JOB ⟨jk, n⟩], PARSER_OK, "Ok.", 0, 0⟩) ∧
      ((denoted_int (expand_word getenv a) = none ∨
          ∃ n, denoted_int (expand_word getenv a) = some n ∧ n < 0 ∧ -2147483648 ≤ n) →
        ∃ l k, parser_parse getenv (words_text (job_name jk) (a :: ws)) =
          some ⟨[], PARSER_ILLEGAL_ARGUMENT, "Illegal argument for builtin command.", l, k⟩) := by
  have h0 := parser_parse_words getenv (job_name jk) [] (job_name_plain jk) (words_ok_nil _)
  have h1 := parser_parse_words getenv (job_name jk) (a :: ws) (job_name_plain jk) hws
  rw [List.map_nil, classify_code_job, words_text_nil] at h0
  rw [List.map_cons, classify_code_job] at h1
  refine ⟨h0, ?_, ?_⟩
  · intro n hn hpos hmax
    have hs : sscanf_i (expand_word getenv a) = some n := by
      rw [sscanf_i_denoted, hn, Option.map_some', to_int_range n (by omega) hmax]
    have hlt : ¬ n < 0 := by omega
    simp only [hs, hlt, if_false] at h1
    exact h1
  · rintro (hnone | ⟨n, hn, hneg, hmin⟩)
    · have hs : sscanf_i (expand_word getenv a) = none := by
        rw [sscanf_i_denoted, hnone, Option.map_none']
      simp only [hs] at h1
      simpa [messages] using h1
    · have hs : sscanf_i (expand_word getenv a) = some n := by
        rw [sscanf_i_denoted, hn, Option.map_some', to_int_range n hmin (by omega)]
      simp only [hs, hneg, if_true] at h1
      simpa [messages] using h1

/-- An instance: `jobs 3` gives the id 3, `bg` alone the id -1, and `bg -1`,
`bg -42`, `jobs foobar` and `fg dunno` fail with `PARSER_ILLEGAL_ARGUMENT`. -/
theorem C11_job_control_witness :
    parser_parse no_env "jobs 3".toList = some ⟨[.JOB ⟨.INFO, 3⟩], PARSER_OK, "Ok.", 0, 0⟩ ∧
      parser_parse no_env "bg".toList = some ⟨[.JOB ⟨.BG, -1⟩], PARSER_OK, "Ok.", 0, 0⟩ ∧
      (∃ l k, parser_parse no_env "bg -1".toList =
        some ⟨[], PARSER_ILLEGAL_ARGUMENT, "Illegal argument for builtin command.", l, k⟩) ∧
      (∃ l k, parser_parse no_env "bg -42".toList =
        some ⟨[], PARSER_ILLEGAL_ARGUMENT, "Illegal argument for builtin command.", l, k⟩) ∧
      (∃ l k, parser_parse no_env "jobs foobar".toList =
        some ⟨[], PARSER_ILLEGAL_ARGUMENT, "Illegal argument for builtin command.", l, k⟩) ∧
      (∃ l k, parser_parse no_env "fg dunno ignored".toList =
        some ⟨[], PARSER_ILLEGAL_ARGUMENT, "Illegal argument for builtin command.", l, k⟩) :=
  ⟨(C11_job_control no_env .INFO [.plain ['3']] [] (by
      rw [words_ok_cons]
      exact ⟨⟨by simp, by simp only [word_ok, Seg.ok]; decide, by decide⟩,
        words_ok_nil _⟩)).2.1 3 (by decide) (by decide) (by decide),
    (C11_job_control no_env .BG [.plain ['3']] [] (by
      rw [words_ok_cons]
      exact ⟨⟨by simp, by simp only [word_ok, Seg.ok]; decide, by decide⟩,
        words_ok_nil _⟩)).1,
    (C11_job_control no_env .BG [.plain ['-', '1']] [] (by
      rw [words_ok_cons]
      exact ⟨⟨by simp, by simp only [word_ok, Seg.ok]; decide, by decide⟩,
        words_ok_nil _⟩)).2.2 (Or.inr ⟨-1, by decide, by decide, by decide⟩),
    (C11_job_control no_env .BG [.plain ['-', '4', '2']] [] (by
      rw [words_ok_cons]
      exact ⟨⟨by simp, by simp only [word_ok, Seg.ok]; decide, by decide⟩,
        words_ok_nil _⟩)).2.2 (Or.inr ⟨-42, by decide, by decide, by decide⟩),
    (C11_job_control no_env .INFO [.plain "foobar".toList] [] (by
      rw [words_ok_cons]
      exact ⟨⟨by simp, by simp only [word_ok, Seg.ok]; decide, by decide⟩,
        words_ok_nil _⟩)).2.2 (Or.inl (by decide)),
    (C11_job_control no_env .FG [.plain "dunno".toList] [[.plain "ignored".toList]] (by
      rw [words_ok_cons, words_ok_cons]
      exact ⟨⟨by simp, by simp only [word_ok, Seg.ok]; decide, by decide⟩,
        ⟨by simp, by simp only [word_ok, Seg.ok]; decide, by decide⟩,
        words_ok_nil _⟩)).2.2 (Or.inl (by decide))⟩

/-- C12, as stated, fails: in `setenv n long_word` the value `long_word` is
a word of 2047 letters `x`, but the input does not parse to an environment
update; it fails with `PARSER_OVERFLOW`. -/
theorem C12_counterexample :
    plain_word ['n'] ∧ plain_word long_word ∧
      ∃ l k, parser_parse no_env (['s', 'e', 't', 'e', 'n', 'v', ' ', 'n', ' '] ++ long_word) =
        some ⟨[], PARSER_OVERFLOW, "Overflow of internal buffer.", l, k⟩ := by
  refine ⟨by decide, long_word_is_plain, ?_⟩
  have h := parser_parse_words_long no_env ['s', 'e', 't', 'e', 'n', 'v'] [[.plain ['n']]] []
    ⟨by decide, by decide⟩ (by
      rw [words_ok_cons]
      exact ⟨⟨by simp, by simp only [word_ok, Seg.ok]; decide, by decide⟩, words_ok_nil _⟩)
  simpa [words_text, join_with, render_word, Seg.render] using h

/-- C12, amended: for words that each stand for at most 2046 characters,
`setenv n v w1 ... wk` (k >= 0) parses to the environment command with the
name `n` and the value `v`, and `unsetenv n w1 ... wk` parses to the
environment command with the name `n` and no value, the words `w1 ... wk`
being discarded without error; `setenv` with one argument or none and
`unsetenv` with no argument fail with `PARSER_MISSING_ARGUMENT`. -/
theorem C12_environment (getenv : List Char → Option (List Char)) (n v : List Seg)
    (ws : List (List Seg)) (hws : words_ok getenv (n :: v :: ws)) :
    parser_parse getenv (words_text ['s', 'e', 't', 'e', 'n', 'v'] (n :: v :: ws)) =
        some ⟨[.ENV ⟨expand_word getenv n, some (expand_word getenv v)⟩],
          PARSER_OK, "Ok.", 0, 0⟩ ∧
      parser_parse getenv (words_text ['u', 'n', 's', 'e', 't', 'e', 'n', 'v'] (n :: ws)) =
        some ⟨[.ENV ⟨expand_word getenv n, none⟩], PARSER_OK, "Ok.", 0, 0⟩ ∧
      (∃ l k, parser_parse getenv (words_text ['s', 'e', 't', 'e', 'n', 'v'] [n]) =
        some ⟨[], PARSER_MISSING_ARGUMENT, "Missing argument for builtin command.", l, k⟩) ∧
      (∃ l k, parser_parse getenv ['s', 'e', 't', 'e', 'n', 'v'] =
        some ⟨[], PARSER_MISSING_ARGUMENT, "Missing argument for builtin command.", l, k⟩) ∧
      (∃ l k, parser_parse getenv ['u', 'n', 's', 'e', 't', 'e', 'n', 'v'] =
        some ⟨[], PARSER_MISSING_ARGUMENT, "Missing argument for builtin command.", l, k⟩) := by
  have hn := ((words_ok_cons getenv n (v :: ws)).mp hws).1
  have hvws := ((words_ok_cons getenv n (v :: ws)).mp hws).2
  have hrest := ((words_ok_cons getenv v ws).mp hvws).2
  have hnws : words_ok getenv (n :: ws) := (words_ok_cons getenv n ws).mpr ⟨hn, hrest⟩
  have hn1 : words_ok getenv [n] := (words_ok_cons getenv n []).mpr ⟨hn, words_ok_nil _⟩
  have h1 := parser_parse_words getenv ['s', 'e', 't', 'e', 'n', 'v'] (n :: v :: ws)
    ⟨by decide, by decide⟩ hws
  have h2 := parser_parse_words getenv ['u', 'n', 's', 'e', 't', 'e', 'n', 'v'] (n :: ws)
    ⟨by decide, by decide⟩ hnws
  have h3 := parser_parse_words getenv ['s', 'e', 't', 'e', 'n', 'v'] [n]
    ⟨by decide, by decide⟩ hn1
  have h4 := parser_parse_words getenv ['s', 'e', 't', 'e', 'n', 'v'] []
    ⟨by decide, by decide⟩ (words_ok_nil _)
  have h5 := parser_parse_words getenv ['u', 'n', 's', 'e', 't', 'e', 'n', 'v'] []
    ⟨by decide, by decide⟩ (words_ok_nil _)
  rw [classify_code_setenv] at h1 h3 h4
  rw [classify_code_unsetenv] at h2 h5
  rw [words_text_nil] at h4 h5
  exact ⟨by simpa using h1, by simpa using h2, by simpa [messages] using h3,
    by simpa [messages] using h4, by simpa [messages] using h5⟩

/-- An instance: the inputs of the test driver
`setenv foo 'bar and barfoo' this is ignored up to here` and
`unsetenv foo and this is ignored up to here`, and `setenv foo`. -/
theorem C12_environment_witness :
    parser_parse no_env "setenv foo 'bar and barfoo' this is ignored up to here".toList =
        some ⟨[.ENV ⟨"foo".toList, some "bar and barfoo".toList⟩], PARSER_OK, "Ok.", 0, 0⟩ ∧
      parser_parse no_env "unsetenv foo this is ignored up to here".toList =
        some ⟨[.ENV ⟨"foo".toList, none⟩], PARSER_OK, "Ok.", 0, 0⟩ ∧
      (∃ l k, parser_parse no_env "setenv foo".toList =
        some ⟨[], PARSER_MISSING_ARGUMENT, "Missing argument for builtin command.", l, k⟩) :=
  have h := C12_environment no_env [.plain "foo".toList] [.quoted "bar and barfoo".toList]
    [[.plain "this".toList], [.plain "is".toList], [.plain "ignored".toList],
      [.plain "up".toList], [.plain "to".toList], [.plain "here".toList]] (by
      intro w hw
      simp only [List.mem_cons, List.mem_singleton, List.not_mem_nil, or_false] at hw
      rcases hw with rfl | rfl | rfl | rfl | rfl | rfl | rfl | rfl <;>
        exact ⟨by simp, by simp only [word_ok, Seg.ok]; decide, by decide⟩)
  ⟨h.1, h.2.1, h.2.2.1⟩

/-- C13, as stated, fails: `long_word` is a plain word (2047 letters `x`),
but `cd long_word` does not parse to a change of directory; it fails with
`PARSER_OVERFLOW`. -/
theorem C13_counterexample :
    plain_word long_word ∧
      ∃ l k, parser_parse no_env (['c', 'd', ' '] ++ long_word) =
        some ⟨[], PARSER_OVERFLOW, "Overflow of internal buffer.", l, k⟩ := by
  refine ⟨long_word_is_plain, ?_⟩
  have h := parser_parse_words_long no_env ['c', 'd'] [] [] ⟨by decide, by decide⟩
    (words_ok_nil _)
  simpa [words_text, join_with] using h

/-- C13, amended: `cd` followed by k >= 0 plain words of at most 2046
characters parses to a single `CD` command whose path is absent when k = 0
and is the first word when k >= 1; the further words are discarded without
error, and the path is taken as it is written also when it is the name of a
builtin. -/
theorem C13_change_directory (getenv : List Char → Option (List Char))
    (ws : List (List Char)) (hws : ∀ w ∈ ws, plain_word w ∧ w.length ≤ 2046) :
    parser_parse getenv (join_with [' '] (['c', 'd'] :: ws)) =
      some ⟨[.CD ⟨ws.head?⟩], PARSER_OK, "Ok.", 0, 0⟩ := by
  have h := parser_parse_plain_words getenv ['c', 'd'] ws ⟨by decide, by decide⟩ hws
  rw [classify_code_cd] at h
  exact h

/-- An instance: `cd` alone has no path, `cd exit` has the path `exit`, and
`cd foo next arguments are ignored` has the path `foo`. -/
theorem C13_change_directory_witness :
    parser_parse no_env "cd".toList = some ⟨[.CD ⟨none⟩], PARSER_OK, "Ok.", 0, 0⟩ ∧
      parser_parse no_env "cd exit".toList =
        some ⟨[.CD ⟨some "exit".toList⟩], PARSER_OK, "Ok.", 0, 0⟩ ∧
      parser_parse no_env "cd foo next arguments are ignored".toList =
        some ⟨[.CD ⟨some "foo".toList⟩], PARSER_OK, "Ok.", 0, 0⟩ :=
  ⟨C13_change_directory no_env [] (by decide),
    C13_change_directory no_env ["exit".toList] (by decide),
    C13_change_directory no_env
      ["foo".toList, "next".toList, "arguments".toList, "are".toList, "ignored".toList]
      (by decide)⟩

/-- C14, as stated, fails: `long_word` (2047 letters `x`) and `b` are plain
words that are not builtin names, but the sequence `long_word; b` does not
parse to two commands; it fails with `PARSER_OVERFLOW`. -/
theorem C14_counterexample :
    plain_word long_word ∧ long_word ∉ builtin_names ∧ plain_word ['b'] ∧
      ['b'] ∉ builtin_names ∧
      parser_parse no_env (long_word ++ [';', ' ', 'b']) =
        some ⟨[], PARSER_OVERFLOW, "Overflow of internal buffer.", 0, 0⟩ :=
  ⟨long_word_is_plain, long_word_not_builtin, by decide, by decide,
    parser_parse_long_word no_env [';', ' ', 'b']⟩

/-- C14, amended: for every list of simple external commands `c1..cn`
(n >= 1), each a non-empty list of plain words of at most 2046 characters
whose first word is not a builtin name, each of `c1..c(n-1)` followed by one
terminator `;`, newline or `&`, and `cn` followed by one such terminator or
by none, the parse succeeds with exactly the `n` commands in input order,
command `i` being a `PROG` command with exactly the words of `ci` as
arguments, no redirection, and the background flag set if and only if its
terminator is `&`. Spaces and tabs may stand before a command, before a
terminator and at the end of the input. -/
theorem C14_command_sequence (getenv : List Char → Option (List Char)) (cs : List Simple)
    (lead : List Char) (last : List (List Char)) (trail : List Char)
    (hcs : ∀ c ∈ cs, c.ok) (hlead : blanks lead) (hne : last ≠ [])
    (hhead : ∀ a ∈ last.head?, a ∉ builtin_names)
    (hws : ∀ w ∈ last, plain_word w ∧ w.length ≤ 2046) (ht : blanks trail) :
    parser_parse getenv (seq_text cs ++ (lead ++ join_with [' '] last ++ trail)) =
        some ⟨cs.map Simple.cmd ++ [.PROG [simple false last]], PARSER_OK, "Ok.", 0, 0⟩ ∧
      parser_parse getenv (seq_text cs ++ trail) =
        some ⟨cs.map Simple.cmd, PARSER_OK, "Ok.", 0, 0⟩ :=
  ⟨parser_parse_simples_last getenv cs hcs lead last trail hlead hne hhead hws ht,
    parser_parse_simples getenv cs hcs trail ht⟩

/-- An instance: `a & b` is two commands, the first in the background, and
`cat; ls foo` followed by a newline is two commands in the foreground. -/
theorem C14_command_sequence_witness :
    parser_parse no_env "a & b".toList =
        some ⟨[.PROG [⟨none, none, true, ["a".toList]⟩],
          .PROG [⟨none, none, false, ["b".toList]⟩]], PARSER_OK, "Ok.", 0, 0⟩ ∧
      parser_parse no_env "cat; ls foo\n".toList =
        some ⟨[.PROG [⟨none, none, false, ["cat".toList]⟩],
          .PROG [⟨none, none, false, ["ls".toList, "foo".toList]⟩]], PARSER_OK, "Ok.", 0, 0⟩ :=
  ⟨(C14_command_sequence no_env [⟨[], ["a".toList], [' '], '&'⟩] [' '] ["b".toList] []
      (by decide) (by decide) (by decide) (by decide) (by decide) (by decide)).1,
    (C14_command_sequence no_env
      [⟨[], ["cat".toList], [], ';'⟩, ⟨[' '], ["ls".toList, "foo".toList], [], '\n'⟩]
      [] ["x".toList] [] (by decide) (by decide) (by decide) (by decide) (by decide)
      (by decide)).2⟩

/-- C15, as stated, fails: `exit` and `ls >out` are valid commands, but
followed by `|` and the end of the input they do not fail with
`PARSER_MISSING_COMMAND`: `exit |` fails with `PARSER_ILLEGAL_COMBINATION`
and `ls >out |` with `PARSER_ILLEGAL_REDIRECTION`. -/
theorem C15_counterexample :
    parser_parse no_env "exit".toList = some ⟨[.EXIT], PARSER_OK, "Ok.", 0, 0⟩ ∧
      parser_parse no_env "exit |".toList =
        some ⟨[], PARSER_ILLEGAL_COMBINATION,
          "Illegal combination of internal and external commands.", 0, 6⟩ ∧
      parser_parse no_env "ls >out".toList =
        some ⟨[.PROG [⟨none, some "out".toList, false, ["ls".toList]⟩]],
          PARSER_OK, "Ok.", 0, 0⟩ ∧
      parser_parse no_env "ls >out |".toList =
        some ⟨[], PARSER_ILLEGAL_REDIRECTION,
          "Illegal input/output redirection in pipe.", 0, 9⟩ := by
  decide

/-- C15, amended: `parse_cmd` raises `PARSER_MISSING_COMMAND` whenever
`parse_prog` returns a stage with no argument, so that no stage of a
returned `PROG` or `PIPE` command has `argc = 0`. In particular, after a
beginning of the input that raises no error (complete commands with their
terminators, then stages of external commands without output redirection,
each followed by `|`), the parse fails with `PARSER_MISSING_COMMAND` when
what follows, after optional spaces and tabs, is `;`, a newline, `|` or `&`
(so for an input that begins with one of them, for a valid command followed
by two consecutive separators, and after a pipe symbol); when a pipe symbol
is followed by the end of the input; and when what follows is a stage made
of redirections only. -/
theorem C15_missing_command (getenv : List Char → Option (List Char)) (c : Context)
    (hc : c.ok getenv) :
    (∀ s s1 kind prog prog1, parse_prog getenv s prog = .ok (s1, prog1) → prog1.argv = [] →
        parse_cmd getenv s kind prog = .raise PARSER_MISSING_COMMAND s1.line s1.col) ∧
      (∀ input out, parser_parse getenv input = some out →
        ∀ cmd ∈ out.list, ∀ p ∈ cmd.stages, p.argv ≠ []) ∧
      (∀ g ch rest, blanks g → ch ∈ [';', '\n', '|', '&'] →
        ∃ l k, parser_parse getenv (c.text ++ (g ++ ch :: rest)) =
          some ⟨[], PARSER_MISSING_COMMAND, "Missing command.", l, k⟩) ∧
      (∀ g, blanks g → c.chain ≠ [] →
        ∃ l k, parser_parse getenv (c.text ++ g) =
          some ⟨[], PARSER_MISSING_COMMAND, "Missing command.", l, k⟩) ∧
      (∀ st tail T tail1, stage_ok getenv st → (∀ j ∈ st, j.is_redir = true) →
        stage_end getenv tail T tail1 →
        ∃ l k, parser_parse getenv (c.text ++ (render_stage st ++ tail)) =
          some ⟨[], PARSER_MISSING_COMMAND, "Missing command.", l, k⟩) := by
  refine ⟨fun s s1 kind prog prog1 hp h => parse_cmd_no_argument getenv s s1 kind prog prog1 hp h,
    fun input out h => stages_argv_ne_nil getenv input out h, ?_, ?_, ?_⟩
  · intro g ch rest hg hch
    have h := context_raise getenv c (g ++ ch :: rest) PARSER_MISSING_COMMAND hc
      (punct_pipe_fails getenv g ch rest hg hch)
      (fun _ => punct_scan_ne_end getenv g ch rest hg (by
        simp only [List.mem_cons, List.mem_singleton, List.not_mem_nil, or_false] at hch ⊢
        tauto))
    simpa [messages] using h
  · intro g hg hne
    have h := context_raise getenv c g PARSER_MISSING_COMMAND hc
      (blank_pipe_fails getenv g hg) (fun h0 => absurd h0 hne)
    simpa [messages] using h
  · intro st tail T tail1 hst hr ht
    obtain ⟨h1, h2⟩ := redir_pipe_fails getenv st tail T tail1 hst hr ht
    have h := context_raise getenv c _ PARSER_MISSING_COMMAND hc h1 (fun _ => h2)
    simpa [messages] using h

/-- An instance: `cat; ; ls foo` (two consecutive separators), `ls |` (a
pipe symbol at the end of the input) and `cat; >file` (a stage made of a
redirection only) fail with `PARSER_MISSING_COMMAND`. -/
theorem C15_missing_command_witness :
    (∃ l k, parser_parse no_env "cat; ; ls foo".toList =
        some ⟨[], PARSER_MISSING_COMMAND, "Missing command.", l, k⟩) ∧
      (∃ l k, parser_parse no_env "ls |".toList =
        some ⟨[], PARSER_MISSING_COMMAND, "Missing command.", l, k⟩) ∧
      (∃ l k, parser_parse no_env "cat; >file".toList =
        some ⟨[], PARSER_MISSING_COMMAND, "Missing command.", l, k⟩) :=
  ⟨(C15_missing_command no_env (simple_context [⟨[], ["cat".toList], [], ';'⟩] [])
      (simple_context_ok no_env _ _ (by decide) (by decide))).2.2.1
      [' '] ';' " ls foo".toList (by decide) (by decide),
    (C15_missing_command no_env (simple_context [] [⟨[], ["ls".toList], [' '], ';'⟩])
      (simple_context_ok no_env _ _ (by decide) (by decide))).2.2.2.1 [] (by decide) (by decide),
    (C15_missing_command no_env (simple_context [⟨[], ["cat".toList], [], ';'⟩] [])
      (simple_context_ok no_env _ _ (by decide) (by decide))).2.2.2.2
      (stage_items [Part.output [' '] [] "file".toList]) [] END []
      (stage_items_ok no_env _ (by decide) (by decide)) (by decide)
      (stage_end_blanks no_env [] (by decide))⟩

/-- C16: an input that ends inside a quotation (a single quote is opened
and not closed before the end of the input) or right after a backslash that
is outside quotations and comments and is not escaped itself never parses:
`parser_parse` returns the NULL list with an error, and it reports
`PARSER_UNEXPECTED_EOF` only for such an input. Whatever precedes the open
construct, as long as it raises no error (complete commands with their
terminators, stages followed by pipe symbols, the items of the current stage
and the beginning of the current word, all within the buffer), the error is
`PARSER_UNEXPECTED_EOF`. -/
theorem C16_unexpected_end (getenv : List Char → Option (List Char)) :
    (∀ input, lex_end input = .unclosed →
      ∃ out, parser_parse getenv input = some out ∧ out.list = [] ∧
        out.parser_status ≠ PARSER_OK) ∧
      (∀ input out, parser_parse getenv input = some out →
        out.parser_status = PARSER_UNEXPECTED_EOF → lex_end input = .unclosed) ∧
      (∀ (c : Context) (st : List Item) (ld : Lead) (w : List Seg) (q : List Char),
        c.ok getenv → items_ok getenv st → ld.ok → (st = [] ∨ ld.sep) → word_ok w →
        (∀ ch ∈ q, ch ≠ NUL ∧ ch ≠ '\'') →
        (expand_word getenv w).length + q.length ≤ 2046 →
        ∃ l k, parser_parse getenv
            (c.text ++ (render_stage st ++ (ld.text ++ (render_word w ++ '\'' :: q)))) =
          some ⟨[], PARSER_UNEXPECTED_EOF, "Unexpected end of input stream.", l, k⟩) ∧
      (∀ (c : Context) (st : List Item) (ld : Lead) (w : List Seg),
        c.ok getenv → items_ok getenv st → ld.ok → (st = [] ∨ ld.sep) → word_ok w →
        (expand_word getenv w).length ≤ 2046 →
        ∃ l k, parser_parse getenv
            (c.text ++ (render_stage st ++ (ld.text ++ (render_word w ++ ['\\'])))) =
          some ⟨[], PARSER_UNEXPECTED_EOF, "Unexpected end of input stream.", l, k⟩) := by
  refine ⟨fun input h => parser_parse_open getenv input _ h (by decide),
    fun input out h hs => (parser_parse_lex getenv input out h).2.1 hs, ?_, ?_⟩
  · intro c st ld w q hc hst hld hs hw hq hlen
    have h := context_word_raise getenv c st ld w ('\'' :: q) PARSER_UNEXPECTED_EOF
      (2046 - q.length) hc hst hld hs hw (follows_quote w q) (by omega) (by omega)
      (open_quote_fails getenv q _ hq (by omega))
    simpa [messages] using h
  · intro c st ld w hc hst hld hs hw hlen
    have h := context_word_raise getenv c st ld w ['\\'] PARSER_UNEXPECTED_EOF 2046 hc hst hld
      hs hw (follows_escape w []) hlen (Nat.le_refl _) (open_escape_fails getenv)
    simpa [messages] using h

/-- An instance: `echo 'abc` ends inside a quotation and `ls | cat foo\`
ends after a backslash; both fail with `PARSER_UNEXPECTED_EOF`. -/
theorem C16_unexpected_end_witness :
    (∃ out, parser_parse no_env "echo 'abc".toList = some out ∧ out.list = [] ∧
        out.parser_status ≠ PARSER_OK) ∧
      (∃ l k, parser_parse no_env "echo 'abc".toList =
        some ⟨[], PARSER_UNEXPECTED_EOF, "Unexpected end of input stream.", l, k⟩) ∧
      (∃ l k, parser_parse no_env "ls | cat foo\\".toList =
        some ⟨[], PARSER_UNEXPECTED_EOF, "Unexpected end of input stream.", l, k⟩) :=
  ⟨(C16_unexpected_end no_env).1 "echo 'abc".toList (by decide),
    (C16_unexpected_end no_env).2.2.1 (simple_context [] [])
      (stage_items [Part.word [] "echo".toList]) (.arg [' ']) [] "abc".toList
      (simple_context_ok no_env _ _ (by decide) (by decide))
      (stage_items_ok no_env _ (by decide) (by decide)).2 (by decide) (by decide) trivial
      (by decide) (by decide),
    (C16_unexpected_end no_env).2.2.2 (simple_context [] [⟨[], ["ls".toList], [' '], ';'⟩])
      (stage_items [Part.word [' '] "cat".toList]) (.arg [' ']) [.plain "foo".toList]
      (simple_context_ok no_env _ _ (by decide) (by decide))
      (stage_items_ok no_env _ (by decide) (by decide)).2 (by decide) (by decide)
      ⟨⟨by decide, by decide⟩, trivial⟩ (by decide)⟩

/-- C17 on the code: `echo 'abc` fails with `PARSER_UNEXPECTED_EOF` at line
0, column 9, the end of the input. For `echo 'a`, a newline and `b`, whose
open quotation spans a newline, the position reported is line 1, column 2,
while the input has one character after its newline: in a quotation `read`
sets `col` to 0 at a newline and the increment of the loop then makes it 1
for the first character of the line. After a newline outside quotations the
first character of a line has column 0: `a`, a newline and `'b` is reported
at line 1, column 2, its end. -/
theorem C17_open_quote_position :
    parser_parse no_env "echo 'abc".toList =
        some ⟨[], PARSER_UNEXPECTED_EOF, "Unexpected end of input stream.", 0, 9⟩ ∧
      parser_parse no_env "echo 'a\nb".toList =
        some ⟨[], PARSER_UNEXPECTED_EOF, "Unexpected end of input stream.", 1, 2⟩ ∧
      parser_parse no_env "a\n'b".toList =
        some ⟨[], PARSER_UNEXPECTED_EOF, "Unexpected end of input stream.", 1, 2⟩ := by
  decide

/-- C18, as stated, fails: in `ls <#` followed by a comment of 2047
letters `x` the token `<` is followed, after the comment, by the end of the
input, but `parser_parse` fails with `PARSER_OVERFLOW`, not with
`PARSER_MISSING_FILE`: the characters of a comment go to the token buffer.
And in `; ls <` the token `<` is followed by the end of the input, but the
empty command before `;` is an earlier error, `PARSER_MISSING_COMMAND`. -/
theorem C18_counterexample :
    (∃ l k, parser_parse no_env ("ls <#".toList ++ long_word) =
        some ⟨[], PARSER_OVERFLOW, "Overflow of internal buffer.", l, k⟩) ∧
      parser_parse no_env "; ls <".toList =
        some ⟨[], PARSER_MISSING_COMMAND, "Missing command.", 0, 1⟩ := by
  refine ⟨?_, by decide⟩
  have hf : stage_fails no_env (Lead.text (.redir [' '] '<' []) ++ '#' :: long_word)
      PARSER_OVERFLOW :=
    lead_stage_fails no_env (.redir [' '] '<' []) ('#' :: long_word) PARSER_OVERFLOW
      (by decide) (fun g hg l k tok => ⟨0, 0, by
        have h := scan_comment_overflow no_env g long_word [] l k tok hg
          (fun c hc => by
            have : c = 'x' := by
              unfold long_word at hc
              exact List.eq_of_mem_replicate hc
            subst this
            decide)
          (by rw [long_word_length])
        simpa using h⟩)
  obtain ⟨l, k, h⟩ := context_stage_raise no_env (simple_context [] [])
    (stage_items [Part.word [] "ls".toList]) _ PARSER_OVERFLOW
    (simple_context_ok no_env _ _ (by decide) (by decide))
    (stage_items_ok no_env _ (by decide) (by decide)).2
    (Or.inr (lead_ends_word (.redir [' '] '<' []) _ (by decide) trivial)) hf
  refine ⟨l, k, ?_⟩
  simpa [Lead.text, simple_context, Context.text, entries_text, render_chain, stage_items,
    Part.item, render_stage, Item.render, render_word, Seg.render, messages] using h

/-- C18, amended: `parse_redirection` raises `PARSER_MISSING_FILE` whenever
the token after `<` or `>` is not an identifier. In particular, after a
beginning of the input that raises no error (complete commands with their
terminators, stages followed by pipe symbols, and the items of the current
stage, all within the buffer), a `<` or `>` that is followed, after spaces
and tabs and possibly a comment of fewer than 2047 characters, by the end of
the input, `;`, a newline, `&`, `|`, `<` or `>` (only the end of the input
or a newline can follow a comment) fails with `PARSER_MISSING_FILE`. -/
theorem C18_missing_file (getenv : List Char → Option (List Char)) :
    (∀ s s1 prog, scan getenv s = .ok s1 → s1.lookahead.kind ≠ IDE →
      parse_redirection getenv s prog = .raise PARSER_MISSING_FILE s1.line s1.col) ∧
      (∀ (c : Context) (st : List Item) (g : List Char) (op : Char) (gp : Gap),
        c.ok getenv → items_ok getenv st → blanks g → op ∈ ['<', '>'] → gp.ok →
        ∃ l k, parser_parse getenv (c.text ++ (render_stage st ++ (g ++ op :: gp.text))) =
          some ⟨[], PARSER_MISSING_FILE, "Missing file for input or output redirection.",
            l, k⟩) ∧
      (∀ (c : Context) (st : List Item) (g : List Char) (op : Char) (gp : Gap) (ch : Char)
          (rest : List Char),
        c.ok getenv → items_ok getenv st → blanks g → op ∈ ['<', '>'] → gp.ok →
        ch ∈ [';', '\n', '&', '|', '<', '>'] → (gp.comment ≠ none → ch = '\n') →
        ∃ l k, parser_parse getenv
            (c.text ++ (render_stage st ++ (g ++ op :: (gp.text ++ ch :: rest)))) =
          some ⟨[], PARSER_MISSING_FILE, "Missing file for input or output redirection.",
            l, k⟩) :=
  ⟨fun s s1 prog hs hk => parse_redirection_no_word getenv s s1 prog hs hk,
    fun c st g op gp hc hst hg hop hgp =>
      context_redir_raise getenv c st g op _ hc hst hg hop (gap_no_word_end getenv gp hgp),
    fun c st g op gp ch rest hc hst hg hop hgp hch hcm =>
      context_redir_raise getenv c st g op _ hc hst hg hop
        (gap_no_word_char getenv gp ch rest hgp hch hcm)⟩

/-- An instance: `missing file >& cd ..`, `missing file <; exit` and
`ls > # no file` fail with `PARSER_MISSING_FILE`. -/
theorem C18_missing_file_witness :
    (∃ l k, parser_parse no_env "missing file >& cd ..".toList =
        some ⟨[], PARSER_MISSING_FILE, "Missing file for input or output redirection.",
          l, k⟩) ∧
      (∃ l k, parser_parse no_env "missing file <; exit".toList =
        some ⟨[], PARSER_MISSING_FILE, "Missing file for input or output redirection.",
          l, k⟩) ∧
      (∃ l k, parser_parse no_env "ls > # no file".toList =
        some ⟨[], PARSER_MISSING_FILE, "Missing file for input or output redirection.",
          l, k⟩) :=
  ⟨(C18_missing_file no_env).2.2 (simple_context [] [])
      (stage_items [Part.word [] "missing".toList, Part.word [' '] "file".toList]) [' '] '>'
      ⟨[], none⟩ '&' " cd ..".toList
      (simple_context_ok no_env _ _ (by decide) (by decide))
      (stage_items_ok no_env _ (by decide) (by decide)).2 (by decide) (by decide) (by decide)
      (by decide) (by decide),
    (C18_missing_file no_env).2.2 (simple_context [] [])
      (stage_items [Part.word [] "missing".toList, Part.word [' '] "file".toList]) [' '] '<'
      ⟨[], none⟩ ';' " exit".toList
      (simple_context_ok no_env _ _ (by decide) (by decide))
      (stage_items_ok no_env _ (by decide) (by decide)).2 (by decide) (by decide) (by decide)
      (by decide) (by decide),
    (C18_missing_file no_env).2.1 (simple_context [] [])
      (stage_items [Part.word [] "ls".toList]) [' '] '>' ⟨[' '], some " no file".toList⟩
      (simple_context_ok no_env _ _ (by decide) (by decide))
      (stage_items_ok no_env _ (by decide) (by decide)).2 (by decide) (by decide) (by decide)⟩

/-- C19, as stated, fails: the input `; ${here <foobar` contains `${`
followed by the name characters `here` and then a space, outside quotations,
escapes and comments, but `parser_parse` does not fail with
`PARSER_BAD_SUBSTITUTION`: the empty command before `;` is an earlier error,
`PARSER_MISSING_COMMAND` at line 0, column 1. -/
theorem C19_counterexample :
    parser_parse no_env "; $\x7bhere <foobar".toList =
      some ⟨[], PARSER_MISSING_COMMAND, "Missing command.", 0, 1⟩ := by
  decide

/-- C19, amended: an input in which, outside quotations, escapes and
comments, a `${` is followed by variable-name characters and then by a
character other than `}` or by the end of the input never parses, and
`PARSER_BAD_SUBSTITUTION` is reported only for such an input: when every
`${` has its closing `}` no `PARSER_BAD_SUBSTITUTION` is raised, even for the
empty name `${}`. After a beginning of the input that raises no error
(complete commands with their terminators, stages followed by pipe symbols,
the items of the current stage and the beginning of the current word, all
within the buffer), `${` followed by at most 2046 name characters and then
a delimiter other than `}` or the end of the input fails with
`PARSER_BAD_SUBSTITUTION`. -/
theorem C19_bad_substitution (getenv : List Char → Option (List Char)) :
    (∀ input, lex_end input = .unbraced →
      ∃ out, parser_parse getenv input = some out ∧ out.list = [] ∧
        out.parser_status ≠ PARSER_OK) ∧
      (∀ input out, parser_parse getenv input = some out → lex_end input ≠ .unbraced →
        out.parser_status ≠ PARSER_BAD_SUBSTITUTION) ∧
      (∃ out, parser_parse getenv "echo $\x7b\x7d".toList = some out ∧
        out.parser_status ≠ PARSER_BAD_SUBSTITUTION) ∧
      (∀ (c : Context) (st : List Item) (ld : Lead) (w : List Seg) (name X : List Char),
        c.ok getenv → items_ok getenv st → ld.ok → (st = [] ∨ ld.sep) → word_ok w →
        (expand_word getenv w).length ≤ 2046 →
        (∀ ch ∈ name, name_char ch) → name.length ≤ 2046 →
        (cur X = NUL ∨ (cur X ∈ VAR_STOP ∧ cur X ≠ '}')) →
        ∃ l k, parser_parse getenv
            (c.text ++ (render_stage st ++
              (ld.text ++ (render_word w ++ '$' :: '{' :: (name ++ X))))) =
          some ⟨[], PARSER_BAD_SUBSTITUTION, "Bad variable substitution.", l, k⟩) := by
  refine ⟨fun input h => parser_parse_open getenv input _ h (by decide),
    fun input out h hv hs => hv ((parser_parse_lex getenv input out h).2.2 hs), ?_, ?_⟩
  · obtain ⟨out, h⟩ := parser_parse_total getenv "echo $\x7b\x7d".toList
    refine ⟨out, h, fun hs => ?_⟩
    have := (parser_parse_lex getenv _ out h).2.2 hs
    revert this
    decide
  · intro c st ld w name X hc hst hld hs hw hlen hn hnl hX
    have h := context_word_raise getenv c st ld w ('$' :: '{' :: (name ++ X))
      PARSER_BAD_SUBSTITUTION 2046 hc hst hld hs hw (follows_dollar w _) hlen (Nat.le_refl _)
      (open_brace_fails getenv name X hn hnl hX)
    simpa [messages] using h

/-- An instance: `${here <foobar` and `cat; echo a${b` fail with
`PARSER_BAD_SUBSTITUTION`. -/
theorem C19_bad_substitution_witness :
    (∃ out, parser_parse no_env "$\x7bhere <foobar".toList = some out ∧ out.list = [] ∧
        out.parser_status ≠ PARSER_OK) ∧
      (∃ l k, parser_parse no_env "$\x7bhere <foobar".toList =
        some ⟨[], PARSER_BAD_SUBSTITUTION, "Bad variable substitution.", l, k⟩) ∧
      (∃ l k, parser_parse no_env "cat; echo a$\x7bb".toList =
        some ⟨[], PARSER_BAD_SUBSTITUTION, "Bad variable substitution.", l, k⟩) :=
  ⟨(C19_bad_substitution no_env).1 "$\x7bhere <foobar".toList (by decide),
    (C19_bad_substitution no_env).2.2.2 (simple_context [] []) [] (.arg []) []
      "here".toList " <foobar".toList
      (simple_context_ok no_env _ _ (by decide) (by decide))
      ⟨by simp, by simp⟩ (by decide) (Or.inl rfl) trivial (by decide) (by decide) (by decide)
      (by decide),
    (C19_bad_substitution no_env).2.2.2 (simple_context [⟨[], ["cat".toList], [], ';'⟩] [])
      (stage_items [Part.word [' '] "echo".toList]) (.arg [' ']) [.plain "a".toList]
      "b".toList []
      (simple_context_ok no_env _ _ (by decide) (by decide))
      (stage_items_ok no_env _ (by decide) (by decide)).2 (by decide) (by decide)
      ⟨⟨by decide, by decide⟩, trivial⟩ (by decide) (by decide) (by decide) (by decide)⟩

/-- C20, as stated, fails. A comment of 2047 letters `x` makes
`parser_parse` fail with `PARSER_OVERFLOW` although the input holds no word
and no variable name. With the value `long_word` of 2047 characters for
`v`, the word `$v` of `echo $v` stands for 2047 characters and is accepted.
And `;` followed by a word of 2047 characters fails with
`PARSER_MISSING_COMMAND`, an earlier error. -/
theorem C20_counterexample :
    (∀ c ∈ long_word, comment_char c) ∧
      parser_parse no_env ('#' :: long_word) =
        some ⟨[], PARSER_OVERFLOW, "Overflow of internal buffer.", 0, 0⟩ ∧
      long_env ['v'] = some long_word ∧ long_word.length = 2047 ∧
      parser_parse long_env "echo $v".toList =
        some ⟨[.PROG [⟨none, none, false, ["echo".toList, long_word]⟩]], PARSER_OK, "Ok.", 0, 0⟩ ∧
      ∃ l k, parser_parse no_env (';' :: ' ' :: long_word) =
        some ⟨[], PARSER_MISSING_COMMAND, "Missing command.", l, k⟩ := by
  have hcm : ∀ c ∈ long_word, comment_char c := by
    intro c hc
    unfold long_word at hc
    rw [List.eq_of_mem_replicate hc]
    decide
  refine ⟨hcm, ?_, rfl, long_word_length, parser_parse_var_full, ?_⟩
  · have h := scan_comment_overflow no_env [] long_word [] 0 0 ⟨UNKNOWN, []⟩ blanks_nil hcm
      (by rw [long_word_length])
    simpa [messages] using parser_parse_first_raise no_env _ PARSER_OVERFLOW 0 0 h
  · have h := context_raise no_env (simple_context [] []) ([] ++ ';' :: (' ' :: long_word))
      PARSER_MISSING_COMMAND (simple_context_ok no_env _ _ (by decide) (by decide))
      (punct_pipe_fails no_env [] ';' _ blanks_nil (by simp))
      (fun _ => punct_scan_ne_end no_env [] ';' _ blanks_nil (by simp))
    simpa [simple_context, Context.text, entries_text, render_chain, messages] using h

/-- C20, amended: the token buffer and the variable-name buffer have one
capacity. A word that stands for at most 2046 characters, with names of at
most 2046 characters, is accepted unchanged, and a pipeline made of such
words never fails with `PARSER_OVERFLOW`. After a beginning of the input
that raises no error, the parse fails with `PARSER_OVERFLOW` when the text
a word stands for (literal text, quotations, escaped characters and
substituted values) reaches 2048 characters, or reaches 2047 characters
and the word does not end with a substitution; when a variable name reaches
2047 characters; and when a comment reaches 2047 characters. -/
theorem C20_overflow (getenv : List Char → Option (List Char)) :
    (∀ (bs : List Char) (w : List Seg) (rest : List Char) (l k : Nat) (tok : token),
      blanks bs → w ≠ [] → word_ok w → ends_word rest →
      (expand_word getenv w).length ≤ 2046 →
      ∃ l1 k1, scan getenv ⟨bs ++ (render_word w ++ rest), l, k, tok⟩ =
        .ok ⟨rest, l1, k1, ⟨IDE, expand_word getenv w⟩⟩) ∧
      (∀ (st : List Item) (sts : List (List Char × List Item)) (amp : Option (List Char))
          (trail : List Char),
        stage_ok getenv st → (∀ r ∈ sts, blanks r.1 ∧ stage_ok getenv r.2) →
        (∀ g ∈ amp, blanks g) → blanks trail →
        ∃ out, parser_parse getenv (render_pipe st sts ++ render_end amp trail) = some out ∧
          out.parser_status ≠ PARSER_OVERFLOW) ∧
      (∀ (c : Context) (st : List Item) (ld : Lead) (w : List Seg) (X : List Char),
        c.ok getenv → items_ok getenv st → ld.ok → (st = [] ∨ ld.sep) → word_ok w →
        follows w X → word_overflows getenv w →
        ∃ l k, parser_parse getenv
            (c.text ++ (render_stage st ++ (ld.text ++ (render_word w ++ X)))) =
          some ⟨[], PARSER_OVERFLOW, "Overflow of internal buffer.", l, k⟩) ∧
      (∀ (c : Context) (st : List Item) (ld : Lead) (w : List Seg) (name X : List Char),
        c.ok getenv → items_ok getenv st → ld.ok → (st = [] ∨ ld.sep) → word_ok w →
        (expand_word getenv w).length ≤ 2046 → (∀ ch ∈ name, name_char ch) →
        2047 ≤ name.length →
        (∃ l k, parser_parse getenv
            (c.text ++ (render_stage st ++ (ld.text ++ (render_word w ++ '$' :: (name ++ X))))) =
          some ⟨[], PARSER_OVERFLOW, "Overflow of internal buffer.", l, k⟩) ∧
        (∃ l k, parser_parse getenv
            (c.text ++ (render_stage st ++
              (ld.text ++ (render_word w ++ '$' :: '{' :: (name ++ X))))) =
          some ⟨[], PARSER_OVERFLOW, "Overflow of internal buffer.", l, k⟩)) ∧
      (∀ (c : Context) (st : List Item) (g cm rest : List Char),
        c.ok getenv → items_ok getenv st → blanks g → (∀ ch ∈ cm, comment_char ch) →
        2047 ≤ cm.length →
        ∃ l k, parser_parse getenv
            (c.text ++ (render_stage st ++ (g ++ '#' :: (cm ++ rest)))) =
          some ⟨[], PARSER_OVERFLOW, "Overflow of internal buffer.", l, k⟩) := by
  refine ⟨fun bs w rest l k tok hb hne hw hr hlen =>
      scan_word getenv bs w rest l k tok hb hne hw hr hlen,
    fun st sts amp trail hst hsts hamp htrail =>
      parser_parse_pipe_fits getenv st sts amp trail hst hsts hamp htrail,
    fun c st ld w X hc hst hld hs hw hf ho =>
      context_word_overflow getenv c st ld w X hc hst hld hs hw hf ho, ?_,
    fun c st g cm rest hc hst hg hcm hlen =>
      context_comment_overflow getenv c st g cm rest hc hst hg hcm hlen⟩
  intro c st ld w name X hc hst hld hs hw hlen hn hnl
  constructor
  · have h := context_word_raise getenv c st ld w ('$' :: (name ++ X)) PARSER_OVERFLOW 2046
      hc hst hld hs hw (follows_dollar w _) hlen (Nat.le_refl _)
      (long_name_fails getenv name X hn hnl)
    simpa [messages] using h
  · have h := context_word_raise getenv c st ld w ('$' :: '{' :: (name ++ X)) PARSER_OVERFLOW
      2046 hc hst hld hs hw (follows_dollar w _) hlen (Nat.le_refl _)
      (long_brace_name_fails getenv name X hn hnl)
    simpa [messages] using h

/-- An instance: the word `abc` is read unchanged, and `echo` followed by a
word of 2047 letters `x` fails with `PARSER_OVERFLOW`. -/
theorem C20_overflow_witness :
    (∃ l1 k1, scan no_env ⟨"  abc def".toList, 0, 0, ⟨UNKNOWN, []⟩⟩ =
        .ok ⟨" def".toList, l1, k1, ⟨IDE, "abc".toList⟩⟩) ∧
      (∃ l k, parser_parse no_env ("echo ".toList ++ long_word) =
        some ⟨[], PARSER_OVERFLOW, "Overflow of internal buffer.", l, k⟩) :=
  ⟨(C20_overflow no_env).1 "  ".toList [.plain "abc".toList] " def".toList 0 0 ⟨UNKNOWN, []⟩
      (by decide) (by simp) ⟨⟨by decide, by decide⟩, trivial⟩
      (ends_word_blank ' ' _ (Or.inl rfl)) (by decide),
    by
      have h := (C20_overflow no_env).2.2.1 (simple_context [] [])
        (stage_items [Part.word [] "echo".toList]) (.arg [' ']) [.plain long_word] []
        (simple_context_ok no_env _ _ (by decide) (by decide))
        (stage_items_ok no_env _ (by decide) (by decide)).2 (by decide) (by decide)
        ⟨⟨long_word_ne_nil, long_word_plain⟩, trivial⟩ (fun h => by simp [var_last] at h)
        (Or.inr ⟨by simp [expand_word, Seg.expand, long_word_length], rfl⟩)
      simpa [simple_context, Context.text, entries_text, render_chain, stage_items, Part.item,
        render_stage, Item.render, render_word, Seg.render, Lead.text] using h⟩
/-! ## C23: the position of an error -/

/-- C23, the claim fails: the input of one word of 3000 characters `x` fails
with `PARSER_OVERFLOW` and the reported position is line 0, column 0, not the
place of the cursor. -/
theorem C23_counterexample :
    parser_parse (fun _ => none) (List.replicate 3000 'x') =
      some ⟨[], PARSER_OVERFLOW, "Overflow of internal buffer.", 0, 0⟩ := by
  have e : List.replicate 3000 'x' = long_word ++ List.replicate 953 'x' :=
    List.replicate_add 2047 953 'x'
  rw [e]
  exact parser_parse_long_word _ _

/-- C23, amended: `raise_error` stores the position of the cursor for every
code from `PARSER_INVALID_STATE` on, that is for every error of the scanner
and the grammar other than `PARSER_OVERFLOW`; for `PARSER_OVERFLOW` (and
`PARSER_MALLOC`) the position is left at 0:0, so that whenever `parser_parse`
fails with `PARSER_OVERFLOW` the reported line and column are both 0. -/
theorem C23_error_position (getenv : List Char → Option (List Char)) :
    (∀ (code : parser_errors) (l k : Nat), code ≠ PARSER_OK → code ≠ PARSER_OVERFLOW →
      code ≠ PARSER_MALLOC → (raise_error code l k : Result Scanner) = .raise code l k) ∧
    (∀ (l k : Nat), (raise_error PARSER_OVERFLOW l k : Result Scanner) =
      .raise PARSER_OVERFLOW 0 0) ∧
    (∀ (l k : Nat), (raise_error PARSER_MALLOC l k : Result Scanner) =
      .raise PARSER_MALLOC 0 0) ∧
    ∀ (input : List Char) (out : Outcome), parser_parse getenv input = some out →
      out.parser_status = PARSER_OVERFLOW → out.error_line = 0 ∧ out.error_column = 0 := by
  refine ⟨fun code l k h1 h2 h3 => ?_, fun l k => ?_, fun l k => ?_, fun input out h => ?_⟩
  · cases code <;> first | exact absurd rfl h1 | exact absurd rfl h2 | exact absurd rfl h3 | rfl
  · rfl
  · rfl
  · exact (parser_parse_sound getenv input out h).2

/-- An instance: a word of 2048 characters `x` fails with `PARSER_OVERFLOW`
at the position 0:0. -/
theorem C23_error_position_witness :
    parser_parse (fun _ => none) (long_word ++ ['x']) =
        some ⟨[], PARSER_OVERFLOW, "Overflow of internal buffer.", 0, 0⟩ ∧
      (⟨[], PARSER_OVERFLOW, "Overflow of internal buffer.", 0, 0⟩ : Outcome).error_line = 0 ∧
      (⟨[], PARSER_OVERFLOW, "Overflow of internal buffer.", 0, 0⟩ : Outcome).error_column = 0 :=
  ⟨parser_parse_long_word _ _,
    (C23_error_position (fun _ => none)).2.2.2 (long_word ++ ['x']) _
      (parser_parse_long_word _ _) rfl⟩

/-! ## C26: no internal error -/

/-- C26: for every input and environment `parser_parse` returns and its
status is not `PARSER_INVALID_STATE`; every token that `scan` hands to the
grammar has a kind other than `UNKNOWN` and `REM`, and whenever the lookahead
is such a token `parse_prog` does not raise `PARSER_INVALID_STATE`, its
`get_ide` being called on identifiers only. -/
theorem C26_no_invalid_state (getenv : List Char → Option (List Char)) :
    (∀ input : List Char, ∃ out, parser_parse getenv input = some out ∧
      out.parser_status ≠ PARSER_INVALID_STATE) ∧
    (∀ s s1 : Scanner, scan getenv s = .ok s1 →
      s1.lookahead.kind ≠ UNKNOWN ∧ s1.lookahead.kind ≠ REM) ∧
    (∀ (s : Scanner) (code : parser_errors) (l k : Nat),
      scan getenv s = .raise code l k → code ≠ PARSER_INVALID_STATE) ∧
    (∀ (s : Scanner) (prog : prog_args) (code : parser_errors) (l k : Nat),
      s.lookahead.kind ≠ UNKNOWN → s.lookahead.kind ≠ REM →
      parse_prog getenv s prog = .raise code l k → code ≠ PARSER_INVALID_STATE) ∧
    (∀ s : Scanner, s.lookahead.kind = IDE → get_ide s = .ok s.lookahead.arg) := by
  refine ⟨fun input => ?_, fun s s1 h => ?_, fun s code l k h => ?_,
    fun s prog code l k h1 h2 h => ?_, fun s h => ?_⟩
  · obtain ⟨out, h⟩ := parser_parse_total getenv input
    exact ⟨out, h, (parser_parse_sound getenv input out h).1⟩
  · have h2 := scan_sound getenv s
    rw [h] at h2
    exact h2
  · have h2 := scan_sound getenv s
    rw [h] at h2
    exact h2.1
  · have h3 := parse_prog_loop_sound getenv (s.stream.length + 2) s prog ⟨h1, h2⟩
    unfold parse_prog at h
    rw [h] at h3
    exact h3.1
  · simp [get_ide, h]

/-- An instance: the scanner on the input `# c` followed by a newline skips
the comment and hands the separator to the grammar. -/
theorem C26_no_invalid_state_witness :
    scan (fun _ => none) ⟨['#', ' ', 'c', '\n'], 0, 0, ⟨UNKNOWN, []⟩⟩ =
        .ok ⟨[], 1, 0, ⟨SEP, []⟩⟩ ∧
      SEP ≠ UNKNOWN ∧ SEP ≠ REM :=
  ⟨by decide, (C26_no_invalid_state (fun _ => none)).2.1 ⟨['#', ' ', 'c', '\n'], 0, 0, ⟨UNKNOWN, []⟩⟩
    ⟨[], 1, 0, ⟨SEP, []⟩⟩ (by decide)⟩
/-! ## C24: releasing a parsed list -/

/-- C24, the code leaks: the input `ls` parses to one `PROG` command with a
single stage; `parser_free` on this list releases the command node only,
and the argument string `ls` and the argument vector, which the list owns,
are not released. On the empty (NULL) list `parser_free` releases nothing,
and on the two-stage pipeline `ls | wc` it releases every owned block once. -/
theorem C24_single_stage_leak :
    parser_parse (fun _ => none) ['l', 's'] =
        some ⟨[.PROG [⟨none, none, false, [['l', 's']]⟩]], PARSER_OK, "Ok.", 0, 0⟩ ∧
      parser_free 0 [.PROG [⟨none, none, false, [['l', 's']]⟩]] = [.node 0] ∧
      owned_blocks 0 [.PROG [⟨none, none, false, [['l', 's']]⟩]] =
        [.node 0, .arg 0 0 0, .argv 0 0] ∧
      parser_free 0 [] = [] ∧
      parser_parse (fun _ => none) ['l', 's', ' ', '|', ' ', 'w', 'c'] =
        some ⟨[.PIPE [⟨none, none, false, [['l', 's']]⟩, ⟨none, none, false, [['w', 'c']]⟩]],
          PARSER_OK, "Ok.", 0, 0⟩ ∧
      (parser_free 0
          [.PIPE [⟨none, none, false, [['l', 's']]⟩, ⟨none, none, false, [['w', 'c']]⟩]]).Perm
        (owned_blocks 0
          [.PIPE [⟨none, none, false, [['l', 's']]⟩, ⟨none, none, false, [['w', 'c']]⟩]]) := by
  refine ⟨by decide, by decide, by decide, rfl, by decide, by decide⟩

/-! ## C25: termination -/

/-- C25: `parser_parse` returns on every input and environment. Every call of
`scan` returns a token or raises an error within its fuel; the cursor moves
over characters other than NUL only, every pass of the loop of `read` that
goes on leaves the cursor on a character other than NUL (so the `stream++`
of the loop stays inside the text), and a token other than `END` consumes at
least one character. On the input `${` the scanner stops at the end of the
text with `PARSER_BAD_SUBSTITUTION`. The recursions of `parse_prog`,
`parse_pipe` and `parse_input` return within a number of calls bounded by the
number of tokens left in the text (plus two, resp. one), and that number is
at most the number of characters left. -/
theorem C25_termination (getenv : List Char → Option (List Char)) :
    (∀ input : List Char, ∃ out, parser_parse getenv input = some out) ∧
    (∀ s : Scanner, scan getenv s ≠ .fuel ∧ ∀ s1, scan getenv s = .ok s1 →
      reaches s.stream s1.stream ∧
        (s1.lookahead.kind ≠ END → s1.stream.length < s.stream.length)) ∧
    (∀ r : Reader, (step getenv r).within r.stream) ∧
    parser_parse getenv ['$', '{'] =
      some ⟨[], PARSER_BAD_SUBSTITUTION, "Bad variable substitution.", 0, 2⟩ ∧
    (∀ (s : Scanner) (prog : prog_args),
      parse_prog_loop getenv (tokens_left getenv s + 2) s prog ≠ .fuel) ∧
    (∀ (s : Scanner) (kind : cmd_kind) (prog : prog_args),
      parse_pipe_loop getenv (tokens_left getenv s + 2) s kind prog ≠ .fuel) ∧
    (∀ s : Scanner, parse_input_loop getenv (tokens_left getenv s + 1) s ≠ .fuel) ∧
    (∀ s : Scanner, tokens_left getenv s ≤ s.stream.length) := by
  refine ⟨parser_parse_total getenv, fun s => ⟨(scan_spec getenv s).1, fun s1 h =>
    ⟨scan_within getenv s s1 h, ((scan_spec getenv s).2 s1 h).2⟩⟩, step_within getenv, rfl,
    fun s prog => parse_prog_loop_bound getenv _ s prog (by omega) (fun _ => Nat.le_refl _),
    fun s kind prog => parse_pipe_loop_bound getenv _ s kind prog (by omega)
      (fun _ => Nat.le_refl _),
    fun s => parse_input_loop_bound getenv _ s (Nat.le_refl _),
    fun s => tokens_left_length getenv (s.stream.length + 1) s (by omega)⟩

/-- An instance: on the input `ls` the scanner returns the identifier `ls`
with the cursor at the end of the text, two characters further. -/
theorem C25_termination_witness :
    scan (fun _ => none) ⟨['l', 's'], 0, 0, ⟨UNKNOWN, []⟩⟩ =
        .ok ⟨[], 0, 2, ⟨IDE, ['l', 's']⟩⟩ ∧
      reaches ['l', 's'] [] ∧ (IDE ≠ END → ([] : List Char).length < ['l', 's'].length) :=
  ⟨by decide, ((C25_termination (fun _ => none)).2.1 ⟨['l', 's'], 0, 0, ⟨UNKNOWN, []⟩⟩).2
    ⟨[], 0, 2, ⟨IDE, ['l', 's']⟩⟩ (by decide)⟩
/-! ## C22: the order of words and redirections -/

/-- C22: within a stage, redirections and argument words may come in any
order. For a stage of well-formed items (words standing for at most 2046
characters) whose first argument is not a builtin name, alone in the input
and possibly followed by `&`, the parse gives one `PROG` command with the
arguments in the order of the words, the file of the input redirection and
the file of the output redirection, wherever the redirections are placed;
and two pipelines whose stages are, stage by stage, placements of the same
words and redirections parse to the same list with the same status. -/
theorem C22_any_order (getenv : List Char → Option (List Char)) (st st' : List Item)
    (sts sts' : List (List Char × List Item)) (amp : Option (List Char)) (trail : List Char)
    (hst : stage_ok getenv st) (hst' : stage_ok getenv st')
    (hsts : ∀ r ∈ sts, blanks r.1 ∧ stage_ok getenv r.2)
    (hsts' : ∀ r ∈ sts', blanks r.1 ∧ stage_ok getenv r.2)
    (hamp : ∀ g ∈ amp, blanks g) (htrail : blanks trail)
    (hsame : List.Forall₂ (same_stage getenv) (st :: sts.map Prod.snd)
      (st' :: sts'.map Prod.snd)) :
    (∀ a args, stage_args getenv st = a :: args → a ∉ builtin_names →
      parser_parse getenv (render_stage st ++ render_end amp trail) =
          some ⟨[.PROG [⟨stage_input getenv st, stage_output getenv st, amp.isSome,
            a :: args⟩]], PARSER_OK, "Ok.", 0, 0⟩ ∧
        parser_parse getenv (render_stage st' ++ render_end amp trail) =
          some ⟨[.PROG [⟨stage_input getenv st, stage_output getenv st, amp.isSome,
            a :: args⟩]], PARSER_OK, "Ok.", 0, 0⟩) ∧
      ∃ out out', parser_parse getenv (render_pipe st sts ++ render_end amp trail) = some out ∧
        parser_parse getenv (render_pipe st' sts' ++ render_end amp trail) = some out' ∧
        out.list = out'.list ∧ out.parser_status = out'.parser_status ∧
        out.parser_message = out'.parser_message := by
  refine ⟨fun a args harg ha => ⟨parser_parse_stage_fill getenv st amp trail a args hst hamp
    htrail harg ha, ?_⟩, parser_parse_pipe_same getenv st st' sts sts' amp trail hst hst' hsts
    hsts' hamp htrail hsame⟩
  have h1 : same_stage getenv st st' := by
    cases hsame with
    | cons h _ => exact h
  rw [h1.2.1, h1.2.2]
  exact parser_parse_stage_fill getenv st' amp trail a args hst' hamp htrail
    (by rw [← h1.1]; exact harg) ha

/-- An instance: `>file ls` and `ls >file` parse to the same command, and so
do `> out <in cat` and `cat <in >out`. -/
theorem C22_any_order_witness :
    (parser_parse no_env ['>', 'f', 'i', 'l', 'e', ' ', 'l', 's'] =
        some ⟨[.PROG [⟨none, some ['f', 'i', 'l', 'e'], false, [['l', 's']]⟩]],
          PARSER_OK, "Ok.", 0, 0⟩ ∧
      parser_parse no_env ['l', 's', ' ', '>', 'f', 'i', 'l', 'e'] =
        some ⟨[.PROG [⟨none, some ['f', 'i', 'l', 'e'], false, [['l', 's']]⟩]],
          PARSER_OK, "Ok.", 0, 0⟩) ∧
      (parser_parse no_env ['>', ' ', 'o', 'u', 't', ' ', '<', 'i', 'n', ' ', 'c', 'a', 't'] =
        some ⟨[.PROG [⟨some ['i', 'n'], some ['o', 'u', 't'], false, [['c', 'a', 't']]⟩]],
          PARSER_OK, "Ok.", 0, 0⟩ ∧
      parser_parse no_env ['c', 'a', 't', ' ', '<', 'i', 'n', ' ', '>', 'o', 'u', 't'] =
        some ⟨[.PROG [⟨some ['i', 'n'], some ['o', 'u', 't'], false, [['c', 'a', 't']]⟩]],
          PARSER_OK, "Ok.", 0, 0⟩) :=
  ⟨(C22_any_order no_env
      (stage_items [.output [] [] ['f', 'i', 'l', 'e'], .word [' '] ['l', 's']])
      (stage_items [.word [] ['l', 's'], .output [' '] [] ['f', 'i', 'l', 'e']]) [] [] none []
      (stage_items_ok no_env _ (by decide) (by decide))
      (stage_items_ok no_env _ (by decide) (by decide)) (by simp) (by simp) (by simp)
      blanks_nil (List.Forall₂.cons ⟨rfl, rfl, rfl⟩ List.Forall₂.nil)).1 ['l', 's'] [] rfl
      (by decide),
    (C22_any_order no_env
      (stage_items [.output [] [' '] ['o', 'u', 't'], .input [' '] [] ['i', 'n'],
        .word [' '] ['c', 'a', 't']])
      (stage_items [.word [] ['c', 'a', 't'], .input [' '] [] ['i', 'n'],
        .output [' '] [] ['o', 'u', 't']]) [] [] none []
      (stage_items_ok no_env _ (by decide) (by decide))
      (stage_items_ok no_env _ (by decide) (by decide)) (by simp) (by simp) (by simp)
      blanks_nil (List.Forall₂.cons ⟨rfl, rfl, rfl⟩ List.Forall₂.nil)).1 ['c', 'a', 't'] [] rfl
      (by decide)⟩
/-! ## C21: comments -/

/-- C21, as stated, fails: the characters of a comment go to the token
buffer. `ls` parses to one command, but `ls` followed by ` #` and a comment
text of 2047 letters `x` (no newline) fails with `PARSER_OVERFLOW`. And
`ls #` followed by 1024 letters `x` parses to the command `ls`, but followed
by ` #` and again 1024 letters `x` it fails with `PARSER_OVERFLOW`: the added
text lengthens the comment that the input ends in. -/
theorem C21_counterexample :
    parser_parse no_env ['l', 's'] =
        some ⟨[.PROG [⟨none, none, false, [['l', 's']]⟩]], PARSER_OK, "Ok.", 0, 0⟩ ∧
      (∀ c ∈ long_word, c ≠ '\n') ∧ (∀ c ∈ half_word, c ≠ '\n') ∧
      parser_parse no_env (['l', 's'] ++ [' ', '#'] ++ long_word) =
        some ⟨[], PARSER_OVERFLOW, "Overflow of internal buffer.", 0, 0⟩ ∧
      parser_parse no_env (['l', 's', ' ', '#'] ++ half_word) =
        some ⟨[.PROG [⟨none, none, false, [['l', 's']]⟩]], PARSER_OK, "Ok.", 0, 0⟩ ∧
      parser_parse no_env (['l', 's', ' ', '#'] ++ half_word ++ [' ', '#'] ++ half_word) =
        some ⟨[], PARSER_OVERFLOW, "Overflow of internal buffer.", 0, 0⟩ := by
  refine ⟨by decide, fun c hc => (long_word_comment c hc).1,
    fun c hc => (half_word_comment c hc).1, ?_, ?_, ?_⟩
  · have h := ls_comment_overflows no_env long_word long_word_comment
      (by rw [long_word_length])
    simpa using h
  · exact ls_comment_parses no_env half_word half_word_comment (by rw [half_word_length]; decide)
  · have h := ls_comment_overflows no_env (half_word ++ ([' ', '#'] ++ half_word))
      (by
        intro x hx
        simp only [List.mem_append, List.mem_cons, List.mem_singleton, List.not_mem_nil,
          or_false] at hx
        rcases hx with h | (rfl | rfl) | h
        · exact half_word_comment x h
        · decide
        · decide
        · exact half_word_comment x h)
      (by simp [half_word_length])
    simpa using h

/-- C21, amended: a comment that fits the token buffer is transparent. The
input is written as complete commands that parse (each a pipeline of
well-formed stages, then blanks, possibly a comment before a newline, and the
terminator `;`, newline or `&`), possibly a last command without terminator
(such a pipeline), and a last gap of blanks that may end in a comment; it
parses to the list of its commands. Written after it, blanks, `#` and a text
`c` without newline and NUL end in one comment: `c`, or the comment of the
last gap lengthened by them. When this comment has at most 2046 characters
the parse gives the same list with the same status as the input alone; when
it has 2047 characters or more the parse fails with `PARSER_OVERFLOW`. -/
theorem C21_comment (getenv : List Char → Option (List Char)) (ls : List Line)
    (st : List Item) (sts : List (List Char × List Item)) (fin : Gap) (g c : List Char)
    (cmd : cmds) (hls : ∀ e ∈ ls, e.ok getenv) (hst : stage_ok getenv st)
    (hsts : ∀ r ∈ sts, blanks r.1 ∧ stage_ok getenv r.2) (hfin : fin.ok) (hg : blanks g)
    (hc : ∀ x ∈ c, x ≠ '\n' ∧ x ≠ NUL)
    (hv : pipe_verdict .PROG (stage_progs getenv END (st :: sts.map Prod.snd)) = .ok cmd) :
    (parser_parse getenv (lines_text ls ++ fin.text) =
        some ⟨line_cmds getenv ls, PARSER_OK, "Ok.", 0, 0⟩ ∧
      ((joined fin g c).length ≤ 2046 →
        parser_parse getenv (lines_text ls ++ fin.text ++ (g ++ '#' :: c)) =
          some ⟨line_cmds getenv ls, PARSER_OK, "Ok.", 0, 0⟩) ∧
      (2047 ≤ (joined fin g c).length →
        parser_parse getenv (lines_text ls ++ fin.text ++ (g ++ '#' :: c)) =
          some ⟨[], PARSER_OVERFLOW, "Overflow of internal buffer.", 0, 0⟩)) ∧
    (parser_parse getenv (lines_text ls ++ (render_pipe st sts ++ fin.text)) =
        some ⟨line_cmds getenv ls ++ [cmd], PARSER_OK, "Ok.", 0, 0⟩ ∧
      ((joined fin g c).length ≤ 2046 →
        parser_parse getenv
            (lines_text ls ++ (render_pipe st sts ++ fin.text) ++ (g ++ '#' :: c)) =
          some ⟨line_cmds getenv ls ++ [cmd], PARSER_OK, "Ok.", 0, 0⟩) ∧
      (2047 ≤ (joined fin g c).length →
        parser_parse getenv
            (lines_text ls ++ (render_pipe st sts ++ fin.text) ++ (g ++ '#' :: c)) =
          some ⟨[], PARSER_OVERFLOW, "Overflow of internal buffer.", 0, 0⟩)) := by
  obtain ⟨b, hb, e, hj⟩ := gap_join fin g c hfin hg hc
  have e1 : lines_text ls ++ fin.text ++ (g ++ '#' :: c) =
      lines_text ls ++ (b ++ '#' :: joined fin g c) := by
    rw [List.append_assoc, e]
  have e2 : lines_text ls ++ (render_pipe st sts ++ fin.text) ++ (g ++ '#' :: c) =
      lines_text ls ++ (render_pipe st sts ++ (b ++ '#' :: joined fin g c)) := by
    rw [List.append_assoc, List.append_assoc, e]
  rw [e1, e2]
  refine ⟨⟨parser_parse_lines_quiet getenv ls hls fin.text (quiet_gap getenv fin hfin).2,
    fun hlen => parser_parse_lines_quiet getenv ls hls _
      (quiet_comment getenv b _ hb hj hlen).2,
    fun hlen => overflow_at_origin getenv _ (parser_parse_lines_raise getenv ls hls _ _
      (comment_input_fails getenv b _ hb hj hlen))⟩,
    parser_parse_lines_pipe_quiet getenv ls hls st sts fin.text cmd hst hsts
      (quiet_gap getenv fin hfin) hv,
    fun hlen => parser_parse_lines_pipe_quiet getenv ls hls st sts _ cmd hst hsts
      (quiet_comment getenv b _ hb hj hlen) hv,
    fun hlen => overflow_at_origin getenv _ (parser_parse_lines_pipe_raise getenv ls hls st sts
      _ _ END cmd hst hsts (ends_word_gap b _ hb (Or.inr (by simp [cur, IDE_STOP])))
      (comment_stage_fails getenv b _ hb hj hlen) hv)⟩

/-- An instance: `# this is a comment` parses to the empty list, `ls # c`
parses to the command `ls`, and so does `ls #c` followed by ` # d`. -/
theorem C21_comment_witness :
    parser_parse no_env
        ['#', ' ', 't', 'h', 'i', 's', ' ', 'i', 's', ' ', 'a', ' ', 'c', 'o', 'm', 'm', 'e',
          'n', 't'] = some ⟨[], PARSER_OK, "Ok.", 0, 0⟩ ∧
      parser_parse no_env ['l', 's', ' ', '#', ' ', 'c'] =
        some ⟨[.PROG [⟨none, none, false, [['l', 's']]⟩]], PARSER_OK, "Ok.", 0, 0⟩ ∧
      parser_parse no_env ['l', 's', ' ', '#', 'c', ' ', '#', ' ', 'd'] =
        some ⟨[.PROG [⟨none, none, false, [['l', 's']]⟩]], PARSER_OK, "Ok.", 0, 0⟩ :=
  ⟨(C21_comment no_env [] (stage_items [.word [] ['l', 's']]) [] ⟨[], none⟩ []
      [' ', 't', 'h', 'i', 's', ' ', 'i', 's', ' ', 'a', ' ', 'c', 'o', 'm', 'm', 'e', 'n', 't']
      (.PROG [⟨none, none, false, [['l', 's']]⟩]) (by simp)
      (stage_items_ok no_env _ (by decide) (by decide)) (by simp) (by decide) blanks_nil
      (by decide) rfl).1.2.1 (by decide),
    (C21_comment no_env [] (stage_items [.word [] ['l', 's']]) [] ⟨[], none⟩ [' '] [' ', 'c']
      (.PROG [⟨none, none, false, [['l', 's']]⟩]) (by simp)
      (stage_items_ok no_env _ (by decide) (by decide)) (by simp) (by decide) blanks_space
      (by decide) rfl).2.2.1 (by decide),
    (C21_comment no_env [] (stage_items [.word [] ['l', 's']]) [] ⟨[' '], some ['c']⟩ [' ']
      [' ', 'd'] (.PROG [⟨none, none, false, [['l', 's']]⟩]) (by simp)
      (stage_items_ok no_env _ (by decide) (by decide)) (by simp) (by decide) blanks_space
      (by decide) rfl).2.2.1 (by decide)⟩

/-! ## C27: a trailing separator -/

/-- C27, as stated, fails: `ls &` parses to one command in the background,
but `ls &;` and `ls &` followed by a newline fail with
`PARSER_MISSING_COMMAND`: the `&` has ended the command and the separator
stands for an empty command. The same holds after `;`: `ls;` parses and
`ls;;` fails. And `ls #` followed by a comment of 2046 letters `x` parses to
the command `ls`, but followed by `;` it fails with `PARSER_OVERFLOW`: the
`;` belongs to the comment, which no longer fits the token buffer. -/
theorem C27_counterexample :
    parser_parse no_env ['l', 's', ' ', '&'] =
        some ⟨[.PROG [⟨none, none, true, [['l', 's']]⟩]], PARSER_OK, "Ok.", 0, 0⟩ ∧
      parser_parse no_env ['l', 's', ' ', '&', ';'] =
        some ⟨[], PARSER_MISSING_COMMAND, "Missing command.", 0, 5⟩ ∧
      parser_parse no_env ['l', 's', ' ', '&', '\n'] =
        some ⟨[], PARSER_MISSING_COMMAND, "Missing command.", 1, 0⟩ ∧
      parser_parse no_env ['l', 's', ';'] =
        some ⟨[.PROG [⟨none, none, false, [['l', 's']]⟩]], PARSER_OK, "Ok.", 0, 0⟩ ∧
      parser_parse no_env ['l', 's', ';', ';'] =
        some ⟨[], PARSER_MISSING_COMMAND, "Missing command.", 0, 4⟩ ∧
      long_comment.length = 2046 ∧
      parser_parse no_env (['l', 's', ' ', '#'] ++ long_comment) =
        some ⟨[.PROG [⟨none, none, false, [['l', 's']]⟩]], PARSER_OK, "Ok.", 0, 0⟩ ∧
      parser_parse no_env (['l', 's', ' ', '#'] ++ long_comment ++ [';']) =
        some ⟨[], PARSER_OVERFLOW, "Overflow of internal buffer.", 0, 0⟩ := by
  refine ⟨by decide, by decide, by decide, by decide, by decide, long_comment_length,
    ls_comment_parses no_env long_comment long_comment_comment
      (by rw [long_comment_length]), ?_⟩
  have h := ls_comment_overflows no_env (long_comment ++ [';'])
    (by
      intro x hx
      simp only [List.mem_append, List.mem_singleton] at hx
      rcases hx with h | rfl
      · exact long_comment_comment x h
      · decide)
    (by simp [long_comment_length])
  simpa using h

/-- C27, amended: a separator after a last command that has no terminator
yet is harmless. The input is written as complete commands that parse (each
a pipeline of well-formed stages, then blanks, possibly a comment before a
newline, and the terminator `;`, newline or `&`), a last command without
terminator (such a pipeline) and a last gap of blanks that may end in a
comment; it parses to the list of its commands. Followed by a single `;` or
a single newline it parses to the same list when the last gap has no
comment, when the separator is a newline, and when the comment of the last
gap has at most 2045 characters (the `;` then belongs to the comment); with
a comment of 2046 characters and the separator `;` the parse fails with
`PARSER_OVERFLOW`. Without the last command, when the input ends with a
terminated command and blanks, it parses too, and followed by `;` or a
newline it fails with `PARSER_MISSING_COMMAND`. -/
theorem C27_trailing_separator (getenv : List Char → Option (List Char)) (ls : List Line)
    (st : List Item) (sts : List (List Char × List Item)) (fin : Gap) (sep : Char)
    (cmd : cmds) (hls : ∀ e ∈ ls, e.ok getenv) (hst : stage_ok getenv st)
    (hsts : ∀ r ∈ sts, blanks r.1 ∧ stage_ok getenv r.2) (hfin : fin.ok)
    (hsep : sep = ';' ∨ sep = '\n')
    (hv : pipe_verdict .PROG (stage_progs getenv END (st :: sts.map Prod.snd)) = .ok cmd) :
    (parser_parse getenv (lines_text ls ++ (render_pipe st sts ++ fin.text)) =
        some ⟨line_cmds getenv ls ++ [cmd], PARSER_OK, "Ok.", 0, 0⟩ ∧
      (fin.comment = none →
        parser_parse getenv (lines_text ls ++ (render_pipe st sts ++ fin.text) ++ [sep]) =
          some ⟨line_cmds getenv ls ++ [cmd], PARSER_OK, "Ok.", 0, 0⟩) ∧
      (∀ t, fin.comment = some t → sep = '\n' ∨ t.length ≤ 2045 →
        parser_parse getenv (lines_text ls ++ (render_pipe st sts ++ fin.text) ++ [sep]) =
          some ⟨line_cmds getenv ls ++ [cmd], PARSER_OK, "Ok.", 0, 0⟩) ∧
      (∀ t, fin.comment = some t → sep = ';' → t.length = 2046 →
        parser_parse getenv (lines_text ls ++ (render_pipe st sts ++ fin.text) ++ [sep]) =
          some ⟨[], PARSER_OVERFLOW, "Overflow of internal buffer.", 0, 0⟩)) ∧
    (parser_parse getenv (lines_text ls ++ fin.text) =
        some ⟨line_cmds getenv ls, PARSER_OK, "Ok.", 0, 0⟩ ∧
      (fin.comment = none →
        ∃ l k, parser_parse getenv (lines_text ls ++ fin.text ++ [sep]) =
          some ⟨[], PARSER_MISSING_COMMAND, "Missing command.", l, k⟩)) := by
  have e2 : lines_text ls ++ (render_pipe st sts ++ fin.text) ++ [sep] =
      lines_text ls ++ (render_pipe st sts ++ (fin.text ++ [sep])) := by
    simp only [List.append_assoc]
  have hsemi : comment_char ';' := by decide
  refine ⟨⟨parser_parse_lines_pipe_quiet getenv ls hls st sts fin.text cmd hst hsts
    (quiet_gap getenv fin hfin) hv, fun hn => ?_, fun t ht hcase => ?_,
    fun t ht hs hlen => ?_⟩,
    parser_parse_lines_quiet getenv ls hls fin.text (quiet_gap getenv fin hfin).2,
    fun hn => ?_⟩
  · rw [e2]
    exact parser_parse_lines_pipe_sep getenv ls hls st sts fin sep cmd hst hsts hfin hsep
      (fun h => absurd hn h) hv
  · rw [e2]
    obtain ⟨h1, h2⟩ := hfin.2 t (by simp [ht])
    by_cases hnl : sep = '\n'
    · exact parser_parse_lines_pipe_sep getenv ls hls st sts fin sep cmd hst hsts hfin hsep
        (fun _ => hnl) hv
    · have hs : sep = ';' := by
        rcases hsep with h | h
        · exact h
        · exact absurd h hnl
      have hlen : t.length ≤ 2045 := by
        rcases hcase with h | h
        · exact absurd h hnl
        · exact h
      have e : fin.text ++ [sep] = fin.blank ++ '#' :: (t ++ [';']) := by
        simp [Gap.text, ht, hs]
      rw [e]
      exact parser_parse_lines_pipe_quiet getenv ls hls st sts _ cmd hst hsts
        (quiet_comment getenv fin.blank (t ++ [';']) hfin.1
          (by
            intro x hx
            simp only [List.mem_append, List.mem_singleton] at hx
            rcases hx with h | rfl
            · exact h1 x h
            · exact hsemi)
          (by simp; omega)) hv
  · rw [e2]
    obtain ⟨h1, h2⟩ := hfin.2 t (by simp [ht])
    have e : fin.text ++ [sep] = fin.blank ++ '#' :: (t ++ [';']) := by
      simp [Gap.text, ht, hs]
    rw [e]
    exact overflow_at_origin getenv _ (parser_parse_lines_pipe_raise getenv ls hls st sts
      _ _ END cmd hst hsts (ends_word_gap fin.blank _ hfin.1 (Or.inr (by simp [cur, IDE_STOP])))
      (comment_stage_fails getenv fin.blank (t ++ [';']) hfin.1
        (by
          intro x hx
          simp only [List.mem_append, List.mem_singleton] at hx
          rcases hx with h | rfl
          · exact h1 x h
          · exact hsemi)
        (by simp; omega)) hv)
  · have e : lines_text ls ++ fin.text ++ [sep] = lines_text ls ++ (fin.blank ++ sep :: []) := by
      simp [Gap.text, hn]
    rw [e]
    have h := parser_parse_lines_raise getenv ls hls _ PARSER_MISSING_COMMAND
      (punct_input_fails getenv fin.blank sep [] hfin.1
        (by rcases hsep with rfl | rfl <;> simp))
    simpa [messages] using h

/-- An instance: `a & b` followed by `;` parses to the two commands of
`a & b`, and `ls &` followed by `;` fails with `PARSER_MISSING_COMMAND`. -/
theorem C27_trailing_separator_witness :
    (parser_parse no_env ['a', ' ', '&', ' ', 'b'] =
        some ⟨[.PROG [⟨none, none, true, [['a']]⟩], .PROG [⟨none, none, false, [['b']]⟩]],
          PARSER_OK, "Ok.", 0, 0⟩ ∧
      parser_parse no_env ['a', ' ', '&', ' ', 'b', ';'] =
        some ⟨[.PROG [⟨none, none, true, [['a']]⟩], .PROG [⟨none, none, false, [['b']]⟩]],
          PARSER_OK, "Ok.", 0, 0⟩) ∧
      ∃ l k, parser_parse no_env ['a', ' ', '&', ';'] =
        some ⟨[], PARSER_MISSING_COMMAND, "Missing command.", l, k⟩ :=
  have h := C27_trailing_separator no_env
    [⟨stage_items [.word [] ['a']], [], ⟨[' '], none⟩, '&'⟩]
    (stage_items [.word [' '] ['b']]) [] ⟨[], none⟩ ';' (.PROG [⟨none, none, false, [['b']]⟩])
    (fun e he => by
      simp only [List.mem_singleton] at he
      subst he
      exact ⟨stage_items_ok no_env _ (by decide) (by decide), by simp, by decide, by decide,
        fun h => absurd rfl h, _, rfl⟩)
    (stage_items_ok no_env _ (by decide) (by decide)) (by simp) (by decide) (Or.inl rfl) rfl
  ⟨⟨h.1.1, h.1.2.1 rfl⟩, h.2.2 rfl⟩

end Shell
